import Mathlib

/-!
The lexer, the parser and the syntax tree of typescript-ast-go: a shallow embedding of the Go packages `token`, `ast` and `parser`.

* Go `[]byte` and `string` values are lists of byte values (`List Nat`, each
  element below 256 in a real input).
* A Go `panic` is the `Except.error` result; the panics raised by the parser are
  `Err.unexpectedToken` and `Err.expectedKind`, a Go run-time index or slice
  failure is `Err.indexOutOfRange`.
* Go loops and recursion are recursive functions on a `fuel` argument;
  `Err.fuel` is the answer of a function whose budget ran out.
-/

set_option autoImplicit false
set_option linter.dupNamespace false

/-! ## Package token -/

namespace token

/-- The Go type `Kind` is `int`; the kinds are the constants below (`iota`). -/
abbrev Kind := Int

@[simp, reducible] def Illegal : Kind := 0
@[simp, reducible] def EOF : Kind := 1
@[simp, reducible] def Comment : Kind := 2
@[simp, reducible] def LineComment : Kind := 3
@[simp, reducible] def Ident : Kind := 4
@[simp, reducible] def Number : Kind := 5
@[simp, reducible] def String : Kind := 6
@[simp, reducible] def Or : Kind := 7
@[simp, reducible] def Assign : Kind := 8
@[simp, reducible] def Minus : Kind := 9
@[simp, reducible] def LParen : Kind := 10
@[simp, reducible] def RParen : Kind := 11
@[simp, reducible] def LBrack : Kind := 12
@[simp, reducible] def RBrack : Kind := 13
@[simp, reducible] def LBrace : Kind := 14
@[simp, reducible] def RBrace : Kind := 15
@[simp, reducible] def LAngle : Kind := 16
@[simp, reducible] def RAngle : Kind := 17
@[simp, reducible] def Comma : Kind := 18
@[simp, reducible] def Dot : Kind := 19
@[simp, reducible] def Colon : Kind := 20
@[simp, reducible] def Semicolon : Kind := 21
@[simp, reducible] def Question : Kind := 22

/-- A lexical token: `Token{Kind, Text}`; the zero value is `{Illegal, ""}`. -/
structure Token where
  Kind : Kind := 0
  Text : List Nat := []
deriving DecidableEq, Repr, Inhabited

end token

/-! ## Package ast -/

namespace ast

/-- The syntax tree. A value of one of the Go interfaces `Node`, `Expr`, `Type`,
`Signature`, `Stmt`, or a pointer to one of the node structs, is a `Node`; the
constructors are the node structs, with the fields of the struct in the order of
the source, and `nil` is the nil interface value (an absent optional child).
The Go field name `Type` is written `Type_`. -/
inductive Node where
  | nil
  -- expression.go
  | NumericLiteral (Text : List Nat)
  | StringLiteral (Text : List Nat)
  | ArrayLiteralExpression (Elements : List Node)
  | Identifier (Text : List Nat)
  | QualifiedName (Left Right : Node)
  | EnumMember (Name Initializer : Node) (LeadingComment : List Nat)
  | TypeParameter (Name : Node)
  | HeritageClause (Types : List Node)
  | ExpressionWithTypeArguments (Expression : Node)
  | Parameter (Name Type_ : Node)
  | VariableDeclarationList (Declarations : List Node)
  | VariableDeclaration (Name Type_ Initializer : Node)
  | PrefixUnaryExpression (Operator : token.Kind) (Operand : Node)
  -- type.go
  | LiteralType (Literal : Node)
  | TypeLiteral (Members : List Node)
  | ArrayType (ElementType : Node)
  | TypeReference (TypeName : Node)
  | UnionType (Types : List Node)
  | TupleType (Elements : List Node)
  | ParenthesizedType (Type_ : Node)
  -- signature.go
  | PropertySignature (Name : Node) (QuestionToken : Bool) (Type_ : Node)
      (LeadingComment TrailingComment : List Nat)
  | IndexSignature (Parameters : List Node) (Type_ : Node) (LeadingComment : List Nat)
  -- statement.go
  | SourceFile (Statements : List Node)
  | ModuleBlock (Statements : List Node)
  | VariableStatement (DeclarationList : Node) (LeadingComment : List Nat)
  | TypeAliasDeclaration (Name Type_ : Node) (LeadingComment : List Nat)
  | EnumDeclaration (Name : Node) (Members : List Node) (LeadingComment : List Nat)
  | InterfaceDeclaration (Name : Node) (TypeParameters HeritageClauses Members : List Node)
      (LeadingComment : List Nat)
  | ModuleDeclaration (Name Body : Node) (LeadingComment : List Nat)
deriving Repr, Inhabited

mutual

/-- Structural equality of two trees, as a Boolean. -/
def Node.beq : Node → Node → Bool
  | .nil, b => match b with
    | .nil => true
    | _ => false
  | .NumericLiteral x0, b => match b with
    | .NumericLiteral y0 => decide (x0 = y0)
    | _ => false
  | .StringLiteral x0, b => match b with
    | .StringLiteral y0 => decide (x0 = y0)
    | _ => false
  | .ArrayLiteralExpression x0, b => match b with
    | .ArrayLiteralExpression y0 => Node.beqList x0 y0
    | _ => false
  | .Identifier x0, b => match b with
    | .Identifier y0 => decide (x0 = y0)
    | _ => false
  | .QualifiedName x0 x1, b => match b with
    | .QualifiedName y0 y1 => Node.beq x0 y0 && Node.beq x1 y1
    | _ => false
  | .EnumMember x0 x1 x2, b => match b with
    | .EnumMember y0 y1 y2 => Node.beq x0 y0 && Node.beq x1 y1 && decide (x2 = y2)
    | _ => false
  | .TypeParameter x0, b => match b with
    | .TypeParameter y0 => Node.beq x0 y0
    | _ => false
  | .HeritageClause x0, b => match b with
    | .HeritageClause y0 => Node.beqList x0 y0
    | _ => false
  | .ExpressionWithTypeArguments x0, b => match b with
    | .ExpressionWithTypeArguments y0 => Node.beq x0 y0
    | _ => false
  | .Parameter x0 x1, b => match b with
    | .Parameter y0 y1 => Node.beq x0 y0 && Node.beq x1 y1
    | _ => false
  | .VariableDeclarationList x0, b => match b with
    | .VariableDeclarationList y0 => Node.beqList x0 y0
    | _ => false
  | .VariableDeclaration x0 x1 x2, b => match b with
    | .VariableDeclaration y0 y1 y2 => Node.beq x0 y0 && Node.beq x1 y1 && Node.beq x2 y2
    | _ => false
  | .PrefixUnaryExpression x0 x1, b => match b with
    | .PrefixUnaryExpression y0 y1 => decide (x0 = y0) && Node.beq x1 y1
    | _ => false
  | .LiteralType x0, b => match b with
    | .LiteralType y0 => Node.beq x0 y0
    | _ => false
  | .TypeLiteral x0, b => match b with
    | .TypeLiteral y0 => Node.beqList x0 y0
    | _ => false
  | .ArrayType x0, b => match b with
    | .ArrayType y0 => Node.beq x0 y0
    | _ => false
  | .TypeReference x0, b => match b with
    | .TypeReference y0 => Node.beq x0 y0
    | _ => false
  | .UnionType x0, b => match b with
    | .UnionType y0 => Node.beqList x0 y0
    | _ => false
  | .TupleType x0, b => match b with
    | .TupleType y0 => Node.beqList x0 y0
    | _ => false
  | .ParenthesizedType x0, b => match b with
    | .ParenthesizedType y0 => Node.beq x0 y0
    | _ => false
  | .PropertySignature x0 x1 x2 x3 x4, b => match b with
    | .PropertySignature y0 y1 y2 y3 y4 => Node.beq x0 y0 && decide (x1 = y1) && Node.beq x2 y2 && decide (x3 = y3) && decide (x4 = y4)
    | _ => false
  | .IndexSignature x0 x1 x2, b => match b with
    | .IndexSignature y0 y1 y2 => Node.beqList x0 y0 && Node.beq x1 y1 && decide (x2 = y2)
    | _ => false
  | .SourceFile x0, b => match b with
    | .SourceFile y0 => Node.beqList x0 y0
    | _ => false
  | .ModuleBlock x0, b => match b with
    | .ModuleBlock y0 => Node.beqList x0 y0
    | _ => false
  | .VariableStatement x0 x1, b => match b with
    | .VariableStatement y0 y1 => Node.beq x0 y0 && decide (x1 = y1)
    | _ => false
  | .TypeAliasDeclaration x0 x1 x2, b => match b with
    | .TypeAliasDeclaration y0 y1 y2 => Node.beq x0 y0 && Node.beq x1 y1 && decide (x2 = y2)
    | _ => false
  | .EnumDeclaration x0 x1 x2, b => match b with
    | .EnumDeclaration y0 y1 y2 => Node.beq x0 y0 && Node.beqList x1 y1 && decide (x2 = y2)
    | _ => false
  | .InterfaceDeclaration x0 x1 x2 x3 x4, b => match b with
    | .InterfaceDeclaration y0 y1 y2 y3 y4 => Node.beq x0 y0 && Node.beqList x1 y1 && Node.beqList x2 y2 && Node.beqList x3 y3 && decide (x4 = y4)
    | _ => false
  | .ModuleDeclaration x0 x1 x2, b => match b with
    | .ModuleDeclaration y0 y1 y2 => Node.beq x0 y0 && Node.beq x1 y1 && decide (x2 = y2)
    | _ => false

/-- Structural equality of two lists of trees, as a Boolean. -/
def Node.beqList : List Node → List Node → Bool
  | [], bs => match bs with
    | [] => true
    | _ :: _ => false
  | a :: as, bs => match bs with
    | [] => false
    | b :: bs => Node.beq a b && Node.beqList as bs

end

/-- Boolean equality of trees is equality. -/
theorem Node.beq_iff (a : Node) : ∀ b, Node.beq a b = true ↔ a = b := by
  refine Node.rec (motive_1 := fun a => ∀ b, Node.beq a b = true ↔ a = b)
    (motive_2 := fun as => ∀ bs, Node.beqList as bs = true ↔ as = bs)
    ?_ ?_ ?_ ?_ ?_ ?_ ?_ ?_ ?_ ?_ ?_ ?_ ?_ ?_ ?_ ?_ ?_ ?_ ?_ ?_ ?_ ?_ ?_ ?_ ?_ ?_ ?_ ?_ ?_ ?_ ?_ ?_ a
  all_goals (intros; beta_reduce; intro b; cases b <;> simp_all [Node.beq, Node.beqList, and_assoc])

instance : DecidableEq Node := fun a b =>
  if h : Node.beq a b = true then isTrue ((Node.beq_iff a b).1 h)
  else isFalse (fun e => h ((Node.beq_iff a b).2 e))

/-- The direct children of a node: the nodes held in its fields, in field order. -/
def Node.children : Node → List Node
  | .nil => []
  | .NumericLiteral _ => []
  | .StringLiteral _ => []
  | .ArrayLiteralExpression es => es
  | .Identifier _ => []
  | .QualifiedName l r => [l, r]
  | .EnumMember n i _ => [n, i]
  | .TypeParameter n => [n]
  | .HeritageClause ts => ts
  | .ExpressionWithTypeArguments e => [e]
  | .Parameter n t => [n, t]
  | .VariableDeclarationList ds => ds
  | .VariableDeclaration n t i => [n, t, i]
  | .PrefixUnaryExpression _ o => [o]
  | .LiteralType l => [l]
  | .TypeLiteral ms => ms
  | .ArrayType e => [e]
  | .TypeReference n => [n]
  | .UnionType ts => ts
  | .TupleType es => es
  | .ParenthesizedType t => [t]
  | .PropertySignature n _ t _ _ => [n, t]
  | .IndexSignature ps t _ => ps ++ [t]
  | .SourceFile ss => ss
  | .ModuleBlock ss => ss
  | .VariableStatement d _ => [d]
  | .TypeAliasDeclaration n t _ => [n, t]
  | .EnumDeclaration n ms _ => n :: ms
  | .InterfaceDeclaration n tps hcs ms _ => n :: (tps ++ hcs ++ ms)
  | .ModuleDeclaration n b _ => [n, b]

/-- A node `n` occurs in the tree rooted at `root`. -/
inductive Node.Within : Node → Node → Prop where
  | root (n : Node) : Node.Within n n
  | child (n c root : Node) : Node.Within n c → c ∈ root.children → Node.Within n root

/-- The `LeadingComment` field of a node (empty for a struct without the field). -/
def Node.LeadingComment : Node → List Nat
  | .EnumMember _ _ c => c
  | .PropertySignature _ _ _ c _ => c
  | .IndexSignature _ _ c => c
  | .VariableStatement _ c => c
  | .TypeAliasDeclaration _ _ c => c
  | .EnumDeclaration _ _ c => c
  | .InterfaceDeclaration _ _ _ _ c => c
  | .ModuleDeclaration _ _ c => c
  | _ => []

/-- The node is a `*UnionType`. -/
def Node.isUnionType : Node → Bool
  | .UnionType _ => true
  | _ => false

end ast

/-! ## Package ast: the walker -/

namespace ast

/-- The panic of `Walk`: `unknown node type`. -/
inductive WalkErr where
  | unknownNodeType
deriving DecidableEq, Repr

mutual

/-- `Walk`. The visitors are the values of `V`, the memory that their methods can
write is a value of `σ`, and `Visit v s node` is the call `v.Visit(node)` made in
the memory `s`: the visitor it returns (`none` is the `nil` visitor) and the new
memory. A `nil` node (a `nil` interface value) is `Node.nil`; the parser leaves no
field of pointer type `nil`. The result is the list of the arguments of the calls of
`Visit`, in the order of the calls, and the final memory. -/
def Walk {V σ : Type} (Visit : V → σ → Node → Option V × σ) :
    V → Node → σ → Except WalkErr (List Node × σ)
  | v, node, s =>
    match Visit v s node with
    | (none, s) => .ok ([node], s)
    | (some w, s) => do
      let (calls, s) ←
        (match node with
         | .NumericLiteral _ => pure ([], s)
         | .StringLiteral _ => pure ([], s)
         | .Identifier _ => pure ([], s)
         | .QualifiedName l r => do
           let (c1, s) ← Walk Visit w l s
           let (c2, s) ← Walk Visit w r s
           pure (c1 ++ c2, s)
         | .ArrayLiteralExpression es => WalkEach Visit w es s
         | .EnumMember n i _ => do
           let (c1, s) ← Walk Visit w n s
           let (c2, s) ← Walk Visit w i s
           pure (c1 ++ c2, s)
         | .TypeParameter n => Walk Visit w n s
         | .HeritageClause ts => WalkEach Visit w ts s
         | .ExpressionWithTypeArguments e => Walk Visit w e s
         | .PropertySignature n _ t _ _ => do
           let (c1, s) ← Walk Visit w n s
           let (c2, s) ← Walk Visit w t s
           pure (c1 ++ c2, s)
         | .IndexSignature ps t _ => do
           let (c1, s) ← WalkEach Visit w ps s
           let (c2, s) ← Walk Visit w t s
           pure (c1 ++ c2, s)
         | .Parameter n t => do
           let (c1, s) ← Walk Visit w n s
           let (c2, s) ← Walk Visit w t s
           pure (c1 ++ c2, s)
         | .VariableDeclarationList ds => WalkEach Visit w ds s
         | .VariableDeclaration n t i => do
           let (c1, s) ← Walk Visit w n s
           let (c2, s) ← Walk Visit w t s
           let (c3, s) ← Walk Visit w i s
           pure (c1 ++ c2 ++ c3, s)
         | .PrefixUnaryExpression _ o => Walk Visit w o s
         | .LiteralType l => Walk Visit w l s
         | .TypeLiteral ms => WalkEach Visit w ms s
         | .ArrayType e => Walk Visit w e s
         | .TypeReference n => Walk Visit w n s
         | .UnionType ts => WalkEach Visit w ts s
         | .TupleType es => WalkEach Visit w es s
         | .ParenthesizedType t => Walk Visit w t s
         | .SourceFile ss => WalkEach Visit w ss s
         | .ModuleBlock ss => WalkEach Visit w ss s
         | .VariableStatement d _ => Walk Visit w d s
         | .TypeAliasDeclaration n t _ => do
           let (c1, s) ← Walk Visit w n s
           let (c2, s) ← Walk Visit w t s
           pure (c1 ++ c2, s)
         | .EnumDeclaration n ms _ => do
           let (c1, s) ← Walk Visit w n s
           let (c2, s) ← WalkEach Visit w ms s
           pure (c1 ++ c2, s)
         | .InterfaceDeclaration n _ _ ms _ => do
           let (c1, s) ← Walk Visit w n s
           let (c2, s) ← WalkEach Visit w ms s
           pure (c1 ++ c2, s)
         | .ModuleDeclaration n b _ => do
           let (c1, s) ← Walk Visit w n s
           let (c2, s) ← Walk Visit w b s
           pure (c1 ++ c2, s)
         | .nil => .error .unknownNodeType)
      let (_, s) := Visit w s .nil
      pure (node :: calls ++ [.nil], s)

/-- A loop `for _, e := range es { Walk(w, e) }` of `Walk`. -/
def WalkEach {V σ : Type} (Visit : V → σ → Node → Option V × σ) :
    V → List Node → σ → Except WalkErr (List Node × σ)
  | _, [], s => .ok ([], s)
  | w, e :: es, s => do
    let (c1, s) ← Walk Visit w e s
    let (c2, s) ← WalkEach Visit w es s
    pure (c1 ++ c2, s)

end

/-- `inspector.Visit`: the visitor made of the callback `f` returns itself when
`f(node)` is true and the `nil` visitor otherwise. The callback is a function
that can write the memory `σ`. -/
def inspector.Visit {σ : Type} (f : σ → Node → Bool × σ) : Unit → σ → Node → Option Unit × σ
  | _, s, node =>
    let (b, s) := f s node
    (if b then some () else none, s)

/-- `Inspect`. -/
def Inspect {σ : Type} (node : Node) (f : σ → Node → Bool × σ) (s : σ) :
    Except WalkErr (List Node × σ) :=
  Walk (inspector.Visit f) () node s

end ast

/-! ## Package parser: the lexer -/

namespace parser

open ast (Node)

/-- What a Go `panic` of the parser or of the run time carries. -/
inductive Err where
  /-- The parser: `panic(fmt.Sprintf("unexpected token %s", p.tok))`. -/
  | unexpectedToken (tok : token.Token)
  /-- The parser: `panic(fmt.Sprintf("expected kind %s, got %s", kind, p.tok))`. -/
  | expectedKind (kind : token.Kind) (tok : token.Token)
  /-- The Go run time: index or slice bounds out of range. -/
  | indexOutOfRange
  /-- The budget of the model ran out (no Go counterpart). -/
  | fuel
deriving DecidableEq, Repr, Inhabited

/-- Equality of results is decidable. -/
instance instDecidableEqExcept {ε α : Type} [DecidableEq ε] [DecidableEq α] :
    DecidableEq (Except ε α)
  | .ok a, .ok b => if h : a = b then isTrue (by rw [h]) else isFalse (by intro e; cases e; exact h rfl)
  | .error a, .error b =>
    if h : a = b then isTrue (by rw [h]) else isFalse (by intro e; cases e; exact h rfl)
  | .ok _, .error _ => isFalse (by intro e; cases e)
  | .error _, .ok _ => isFalse (by intro e; cases e)

/-- The bytes of an ASCII string literal. -/
def str (s : String) : List Nat := s.toList.map Char.toNat

/-- Go `s[i]`. -/
def idx (s : List Nat) (i : Nat) : Except Err Nat :=
  match s[i]? with
  | some b => .ok b
  | none => .error .indexOutOfRange

/-- Go `s[lo:hi]`. -/
def slice (s : List Nat) (lo hi : Nat) : Except Err (List Nat) :=
  if lo ≤ hi ∧ hi ≤ s.length then .ok ((s.drop lo).take (hi - lo)) else .error .indexOutOfRange

/-- Go `bytes.Index(s, sep)`: the index of the first instance of `sep` in `s`;
`none` is the result `-1`. -/
def bytesIndex : List Nat → List Nat → Option Nat
  | [], sep => if sep = [] then some 0 else none
  | b :: s, sep =>
    if sep.isPrefixOf (b :: s) then some 0 else (bytesIndex s sep).map (· + 1)

/-- Go `bytes.IndexByte(s, c)`; `none` is the result `-1`. -/
def indexByte : List Nat → Nat → Option Nat
  | [], _ => none
  | b :: s, c => if b = c then some 0 else (indexByte s c).map (· + 1)

/-- Go `bytes.IndexFunc(s, f)` for a predicate `f` that holds of every rune
outside ASCII (the two predicates of the lexer do): the index of the first byte
satisfying `f`; `none` is the result `-1`. -/
def indexFunc (f : Nat → Bool) : List Nat → Option Nat
  | [] => none
  | b :: s => if f b then some 0 else (indexFunc f s).map (· + 1)

/-- The ASCII white space of Go `bytes.TrimSpace`: tab, newline, vertical tab,
form feed, carriage return, space. -/
def asciiSpace (b : Nat) : Bool :=
  b = 9 || b = 10 || b = 11 || b = 12 || b = 13 || b = 32

/-- The UTF-8 encodings of the Unicode white space outside ASCII (Go
`unicode.IsSpace`): U+0085, U+00A0, U+1680, U+2000 to U+200A, U+2028, U+2029,
U+202F, U+205F, U+3000. -/
def unicodeSpaces : List (List Nat) :=
  [[0xC2, 0x85], [0xC2, 0xA0], [0xE1, 0x9A, 0x80],
   [0xE2, 0x80, 0x80], [0xE2, 0x80, 0x81], [0xE2, 0x80, 0x82], [0xE2, 0x80, 0x83],
   [0xE2, 0x80, 0x84], [0xE2, 0x80, 0x85], [0xE2, 0x80, 0x86], [0xE2, 0x80, 0x87],
   [0xE2, 0x80, 0x88], [0xE2, 0x80, 0x89], [0xE2, 0x80, 0x8A],
   [0xE2, 0x80, 0xA8], [0xE2, 0x80, 0xA9], [0xE2, 0x80, 0xAF], [0xE2, 0x81, 0x9F],
   [0xE3, 0x80, 0x80]]

/-- Remove one white-space rune from the front of `s`, if `s` starts with one. -/
def stripSpace (spaces : List (List Nat)) (s : List Nat) : Option (List Nat) :=
  match s with
  | [] => none
  | b :: rest =>
    if asciiSpace b then some rest
    else (spaces.find? (fun w => w.isPrefixOf s)).map (fun w => s.drop w.length)

/-- Remove white-space runes from the front of `s` as long as there is one. -/
def trimLeft (spaces : List (List Nat)) : Nat → List Nat → List Nat
  | 0, s => s
  | fuel + 1, s =>
    match stripSpace spaces s with
    | some rest => trimLeft spaces fuel rest
    | none => s

/-- Go `bytes.TrimSpace(s)`: `s` without its leading and trailing white space, as
defined by Unicode. The trailing runes are found from the end, as
`utf8.DecodeLastRune` does. -/
def trimSpace (s : List Nat) : List Nat :=
  let l := trimLeft unicodeSpaces s.length s
  (trimLeft (unicodeSpaces.map List.reverse) l.length l.reverse).reverse

/-- The Go struct `lexer`. -/
structure lexer where
  Source : List Nat
  offset : Nat := 0
  isInsideBlock : Bool := false
  willBeTrailingComment : Bool := false
  nextToken : token.Token := {}
deriving DecidableEq, Repr, Inhabited

namespace lexer

/-- `lexer.char`. -/
def char (x : lexer) (kind : token.Kind) : token.Token × lexer :=
  ({ Kind := kind }, { x with offset := x.offset + 1 })

/-- The loop `for x.offset+1 < len(x.Source) && x.Source[x.offset] == c { x.offset++ }`
of `nextLineComment` (`c` a space) and of `nextBlockComment` (`c` a star). -/
def skipRun (c : Nat) : Nat → lexer → Except Err lexer
  | 0, x => .ok x
  | fuel + 1, x =>
    if x.offset + 1 < x.Source.length then do
      let b ← idx x.Source x.offset
      if b = c then skipRun c fuel { x with offset := x.offset + 1 } else pure x
    else pure x

/-- The loop `for x.offset < len(x.Source) && x.Source[x.offset] != '\n' { x.offset++ }`
of `nextLineComment`. -/
def skipLine : Nat → lexer → Except Err lexer
  | 0, x => .ok x
  | fuel + 1, x =>
    if x.offset < x.Source.length then do
      let b ← idx x.Source x.offset
      if b ≠ 10 then skipLine fuel { x with offset := x.offset + 1 } else pure x
    else pure x

/-- The kind of a comment token: `LineComment` when `willBeTrailingComment`. -/
def commentKind (x : lexer) : token.Kind :=
  if x.willBeTrailingComment then token.LineComment else token.Comment

/-- `lexer.nextLineComment`. -/
def nextLineComment (x : lexer) : Except Err (token.Token × lexer) := do
  let x := { x with offset := x.offset + 2 }
  let x ← skipRun 32 (x.Source.length - x.offset) x
  let commentStart := x.offset
  let x ← skipLine (x.Source.length - x.offset) x
  let text ← slice x.Source commentStart x.offset
  pure ({ Kind := x.commentKind, Text := text }, x)

/-- The loop `for innerEndIndex > 0 && x.Source[innerEndIndex-1] == '*' { innerEndIndex-- }`
of `nextBlockComment`. -/
def backStars (source : List Nat) : Nat → Nat → Except Err Nat
  | 0, innerEndIndex => .ok innerEndIndex
  | fuel + 1, innerEndIndex =>
    if innerEndIndex > 0 then do
      let b ← idx source (innerEndIndex - 1)
      if b = 42 then backStars source fuel (innerEndIndex - 1) else pure innerEndIndex
    else pure innerEndIndex

/-- The loop `for x.offset < innerEndIndex { ... }` of `nextBlockComment`, which
collects the lines of the comment; the result is `comment`. -/
def reflow (source : List Nat) (innerEndIndex : Nat) :
    Nat → Nat → List Nat → Except Err (List Nat)
  | 0, _, comment => .ok comment
  | fuel + 1, offset, comment =>
    if offset < innerEndIndex then do
      let line ← slice source offset innerEndIndex
      match bytesIndex line [10] with
      | none => pure (comment ++ line)
      | some lineEnd =>
        let head ← slice source offset (offset + lineEnd)
        let comment := comment ++ head ++ [10]
        let offset := offset + lineEnd + 1
        let rest ← slice source offset innerEndIndex
        match indexFunc (fun r => r ≠ 32 && r ≠ 9 && r ≠ 42) rest with
        | none => pure comment
        | some i => reflow source innerEndIndex fuel (offset + i) comment
    else pure comment

/-- `lexer.nextBlockComment`. -/
def nextBlockComment (x : lexer) : Except Err (token.Token × lexer) := do
  let x := { x with offset := x.offset + 2 }
  let x ← skipRun 42 (x.Source.length - x.offset) x
  let tail ← slice x.Source x.offset x.Source.length
  match bytesIndex tail [42, 47] with
  | none => pure ({ Kind := token.Illegal }, x)
  | some i =>
    let innerEndIndex := i + x.offset
    let endIndex := innerEndIndex + 2
    let innerEndIndex ← backStars x.Source innerEndIndex innerEndIndex
    let comment ← reflow x.Source innerEndIndex (innerEndIndex - x.offset) x.offset []
    let x := { x with offset := endIndex }
    pure ({ Kind := x.commentKind, Text := trimSpace comment }, x)

/-- `lexer.nextComment`. -/
def nextComment (x : lexer) : Except Err (token.Token × lexer) :=
  if x.offset + 1 ≥ x.Source.length then pure ({ Kind := token.Illegal }, x)
  else do
    let b ← idx x.Source (x.offset + 1)
    if b = 47 then nextLineComment x
    else if b = 42 then nextBlockComment x
    else pure ({ Kind := token.Illegal }, x)

/-- `lexer.nextString`. -/
def nextString (x : lexer) : Except Err (token.Token × lexer) := do
  let x := { x with offset := x.offset + 1 }
  let start := x.offset
  let tail ← slice x.Source x.offset x.Source.length
  match indexByte tail 39 with
  | none => pure ({ Kind := token.Illegal }, x)
  | some e =>
    let x := { x with offset := x.offset + (e + 1) }
    let text ← slice x.Source start (x.offset - 1)
    pure ({ Kind := token.String, Text := text }, x)

/-- The loop of `nextNumber`. -/
def skipDigits : Nat → lexer → Except Err lexer
  | 0, x => .ok x
  | fuel + 1, x =>
    if x.offset < x.Source.length then do
      let b ← idx x.Source x.offset
      if b ≥ 48 ∧ b ≤ 57 then skipDigits fuel { x with offset := x.offset + 1 } else pure x
    else pure x

/-- `lexer.nextNumber`. -/
def nextNumber (x : lexer) : Except Err (token.Token × lexer) := do
  let start := x.offset
  let x ← skipDigits (x.Source.length - x.offset) x
  let text ← slice x.Source start x.offset
  pure ({ Kind := token.Number, Text := text }, x)

/-- The rune predicate of `nextIdent`: true of a rune that ends the identifier. -/
def identEnd (r : Nat) : Bool :=
  !((r ≥ 97 && r ≤ 122) || (r ≥ 65 && r ≤ 90) || (r ≥ 48 && r ≤ 57) || r = 95)

/-- `lexer.nextIdent`. -/
def nextIdent (x : lexer) : Except Err (token.Token × lexer) := do
  let start := x.offset
  let tail ← slice x.Source x.offset x.Source.length
  let x :=
    match indexFunc identEnd tail with
    | none => { x with offset := x.Source.length }
    | some e => { x with offset := x.offset + e }
  let value ← slice x.Source start x.offset
  pure ({ Kind := token.Ident, Text := value }, x)

/-- The loop of `lexer.next`; it is run with a budget of the bytes left plus
one, which it cannot use up. -/
def nextLoop : Nat → lexer → Except Err (token.Token × lexer)
  | 0, _ => .error .fuel
  | fuel + 1, x =>
    if x.offset < x.Source.length then do
      let c ← idx x.Source x.offset
      if c = 32 ∨ c = 9 ∨ c = 13 then
        nextLoop fuel { x with offset := x.offset + 1 }
      else if c = 10 then
        nextLoop fuel { x with offset := x.offset + 1, willBeTrailingComment := false }
      else if c = 47 then
        nextComment x
      else
        let x := { x with willBeTrailingComment := true }
        if c = 124 then pure (x.char token.Or)
        else if c = 61 then pure (x.char token.Assign)
        else if c = 45 then pure (x.char token.Minus)
        else if c = 40 then pure (x.char token.LParen)
        else if c = 41 then pure (x.char token.RParen)
        else if c = 91 then pure (x.char token.LBrack)
        else if c = 93 then pure (x.char token.RBrack)
        else if c = 123 then pure ({ x with isInsideBlock := true }.char token.LBrace)
        else if c = 125 then pure ({ x with isInsideBlock := false }.char token.RBrace)
        else if c = 60 then pure (x.char token.LAngle)
        else if c = 62 then pure (x.char token.RAngle)
        else if c = 44 then pure (x.char token.Comma)
        else if c = 46 then pure (x.char token.Dot)
        else if c = 58 then pure (x.char token.Colon)
        else if c = 59 then pure (x.char token.Semicolon)
        else if c = 63 then pure (x.char token.Question)
        else if c = 39 then nextString x
        else if c ≥ 48 ∧ c ≤ 57 then nextNumber x
        else if (c ≥ 97 ∧ c ≤ 122) ∨ (c ≥ 65 ∧ c ≤ 90) then nextIdent x
        else pure ({ Kind := token.Illegal }, x)
    else pure ({ Kind := token.EOF }, x)

/-- `lexer.next`. -/
def next (x : lexer) : Except Err (token.Token × lexer) :=
  nextLoop (x.Source.length - x.offset + 1) x

/-- `lexer.Peek`. -/
def Peek (x : lexer) : Except Err (token.Token × lexer) :=
  if x.nextToken.Kind = 0 then do
    let (t, x) ← x.next
    pure (t, { x with nextToken := t })
  else pure (x.nextToken, x)

/-- `lexer.Pop`. -/
def Pop (x : lexer) : Except Err (token.Token × lexer) :=
  if x.nextToken.Kind = 0 then x.next
  else pure (x.nextToken, { x with nextToken := {} })

end lexer

/-! ## Package parser: the parser -/

/-- The Go struct `parser`. -/
structure parser where
  lex : lexer
  tok : token.Token := {}
  lastComment : List Nat := []
  lastLineComment : List Nat := []
deriving DecidableEq, Repr, Inhabited

namespace parser

/-- `parser.expect`. -/
def expect (p : parser) (kind : token.Kind) : Except Err Unit :=
  if p.tok.Kind ≠ kind then .error (.expectedKind kind p.tok) else .ok ()

/-- `parser.advance`: one round of the loop for each token popped. -/
def advance : Nat → parser → Except Err parser
  | 0, _ => .error .fuel
  | fuel + 1, p => do
    let (tok, lex) ← p.lex.Pop
    let p := { p with lex := lex, tok := tok }
    if tok.Kind = token.Comment then advance fuel { p with lastComment := tok.Text }
    else if tok.Kind = token.LineComment then advance fuel { p with lastLineComment := tok.Text }
    else pure p

/-- `parser.eat`. -/
def eat (fuel : Nat) (p : parser) (kind : token.Kind) : Except Err (token.Token × parser) := do
  p.expect kind
  let tok := p.tok
  let p ← advance fuel p
  pure (tok, p)

/-- `parser.consumeComment`. -/
def consumeComment (p : parser) : List Nat × parser :=
  (p.lastComment, { p with lastComment := [] })

/-- `parser.consumeLineComment`. -/
def consumeLineComment (p : parser) : List Nat × parser :=
  (p.lastLineComment, { p with lastLineComment := [] })

/-- `parser.parseIdentifier`. -/
def parseIdentifier (fuel : Nat) (p : parser) : Except Err (Node × parser) := do
  let (tok, p) ← eat fuel p token.Ident
  pure (.Identifier tok.Text, p)

/-- `parser.parseTypeReference`. -/
def parseTypeReference (fuel : Nat) (p : parser) : Except Err (Node × parser) := do
  let (first, p) ← parseIdentifier fuel p
  if p.tok.Kind ≠ token.Dot then pure (.TypeReference first, p)
  else do
    let p ← advance fuel p
    let (right, p) ← parseIdentifier fuel p
    pure (.TypeReference (.QualifiedName first right), p)

/-- `parser.parseTypeParameter`. -/
def parseTypeParameter (fuel : Nat) (p : parser) : Except Err (Node × parser) := do
  let (name, p) ← parseIdentifier fuel p
  pure (.TypeParameter name, p)

/-- The loop of `parser.parseTypeParameters`. -/
def parseTypeParametersLoop : Nat → List Node → parser → Except Err (List Node × parser)
  | 0, _, _ => .error .fuel
  | fuel + 1, typeParameters, p => do
    let (tp, p) ← parseTypeParameter fuel p
    let typeParameters := typeParameters ++ [tp]
    if p.tok.Kind ≠ token.Comma then pure (typeParameters, p)
    else do
      let p ← advance fuel p
      parseTypeParametersLoop fuel typeParameters p

/-- `parser.parseTypeParameters`. -/
def parseTypeParameters (fuel : Nat) (p : parser) : Except Err (List Node × parser) := do
  let (_, p) ← eat fuel p token.LAngle
  let (typeParameters, p) ← parseTypeParametersLoop fuel [] p
  let (_, p) ← eat fuel p token.RAngle
  pure (typeParameters, p)

/-- `parser.parseExpressionWithTypeArguments`. -/
def parseExpressionWithTypeArguments (fuel : Nat) (p : parser) : Except Err (Node × parser) := do
  let (e, p) ← parseIdentifier fuel p
  pure (.ExpressionWithTypeArguments e, p)

/-- `parser.parseHeritageClause`. -/
def parseHeritageClause (fuel : Nat) (p : parser) : Except Err (Node × parser) := do
  let (t, p) ← parseExpressionWithTypeArguments fuel p
  pure (.HeritageClause [t], p)

/-- The loop of `parser.parseHeritageClauses`. -/
def parseHeritageClausesLoop : Nat → List Node → parser → Except Err (List Node × parser)
  | 0, _, _ => .error .fuel
  | fuel + 1, heritageClauses, p => do
    let (hc, p) ← parseHeritageClause fuel p
    let heritageClauses := heritageClauses ++ [hc]
    if p.tok.Kind ≠ token.Comma then pure (heritageClauses, p)
    else do
      let p ← advance fuel p
      parseHeritageClausesLoop fuel heritageClauses p

/-- `parser.parseHeritageClauses`. -/
def parseHeritageClauses (fuel : Nat) (p : parser) : Except Err (List Node × parser) := do
  let (_, p) ← eat fuel p token.Ident
  parseHeritageClausesLoop fuel [] p

mutual

/-- `parser.parseType`. -/
def parseType : Nat → parser → Except Err (Node × parser)
  | 0, _ => .error .fuel
  | fuel + 1, p => parseTypeCheckUnion fuel p

/-- `parser.parseTypeCheckUnion`. -/
def parseTypeCheckUnion : Nat → parser → Except Err (Node × parser)
  | 0, _ => .error .fuel
  | fuel + 1, p => do
    let (typ, p) ← parseTypeCheckArray fuel p
    if p.tok.Kind ≠ token.Or then pure (typ, p)
    else parseTypeCheckUnionLoop fuel [typ] p

/-- The loop of `parser.parseTypeCheckUnion`. -/
def parseTypeCheckUnionLoop : Nat → List Node → parser → Except Err (Node × parser)
  | 0, _, _ => .error .fuel
  | fuel + 1, types, p => do
    let (_, p) ← eat fuel p token.Or
    let (typ, p) ← parseTypeCheckArray fuel p
    let types := types ++ [typ]
    if p.tok.Kind ≠ token.Or then pure (.UnionType types, p)
    else parseTypeCheckUnionLoop fuel types p

/-- `parser.parseTypeCheckArray`. -/
def parseTypeCheckArray : Nat → parser → Except Err (Node × parser)
  | 0, _ => .error .fuel
  | fuel + 1, p => do
    let (typ, p) ← parseTypeInner fuel p
    if p.tok.Kind ≠ token.LBrack then pure (typ, p)
    else do
      let (_, p) ← eat fuel p token.LBrack
      let (_, p) ← eat fuel p token.RBrack
      pure (.ArrayType typ, p)

/-- `parser.parseTypeInner`. -/
def parseTypeInner : Nat → parser → Except Err (Node × parser)
  | 0, _ => .error .fuel
  | fuel + 1, p =>
    if p.tok.Kind = token.Ident then parseTypeReference fuel p
    else if p.tok.Kind = token.LBrace then parseTypeLiteral fuel p
    else if p.tok.Kind = token.LParen then parseParenthesizedType fuel p
    else if p.tok.Kind = token.LBrack then parseTupleType fuel p
    else if p.tok.Kind = token.String then do
      let (tok, p) ← eat fuel p token.String
      pure (.LiteralType (.StringLiteral tok.Text), p)
    else if p.tok.Kind = token.Number then do
      let (tok, p) ← eat fuel p token.Number
      pure (.LiteralType (.NumericLiteral tok.Text), p)
    else .error (.unexpectedToken p.tok)

/-- `parser.parseTupleType`. -/
def parseTupleType : Nat → parser → Except Err (Node × parser)
  | 0, _ => .error .fuel
  | fuel + 1, p => do
    let (_, p) ← eat fuel p token.LBrack
    parseTupleTypeLoop fuel [] p

/-- The loop of `parser.parseTupleType`. -/
def parseTupleTypeLoop : Nat → List Node → parser → Except Err (Node × parser)
  | 0, _, _ => .error .fuel
  | fuel + 1, els, p => do
    let (el, p) ← parseType fuel p
    let els := els ++ [el]
    if p.tok.Kind ≠ token.Comma then do
      let (_, p) ← eat fuel p token.RBrack
      pure (.TupleType els, p)
    else do
      let p ← advance fuel p
      parseTupleTypeLoop fuel els p

/-- `parser.parseParenthesizedType`. -/
def parseParenthesizedType : Nat → parser → Except Err (Node × parser)
  | 0, _ => .error .fuel
  | fuel + 1, p => do
    let (_, p) ← eat fuel p token.LParen
    let (typ, p) ← parseType fuel p
    let (_, p) ← eat fuel p token.RParen
    pure (.ParenthesizedType typ, p)

/-- `parser.parseTypeLiteral`. -/
def parseTypeLiteral : Nat → parser → Except Err (Node × parser)
  | 0, _ => .error .fuel
  | fuel + 1, p => do
    let (_, p) ← eat fuel p token.LBrace
    parseTypeLiteralLoop fuel [] p

/-- The loop of `parser.parseTypeLiteral`. -/
def parseTypeLiteralLoop : Nat → List Node → parser → Except Err (Node × parser)
  | 0, _, _ => .error .fuel
  | fuel + 1, members, p =>
    if p.tok.Kind = token.RBrace then do
      let (_, p) ← eat fuel p token.RBrace
      pure (.TypeLiteral members, p)
    else do
      let (m, p) ← parseSignature fuel p
      parseTypeLiteralLoop fuel (members ++ [m]) p

/-- `parser.parseSignature`. -/
def parseSignature : Nat → parser → Except Err (Node × parser)
  | 0, _ => .error .fuel
  | fuel + 1, p =>
    if p.tok.Kind = token.Ident then parsePropertySignature fuel p
    else if p.tok.Kind = token.LBrack then parseIndexSignature fuel p
    else .error (.unexpectedToken p.tok)

/-- `parser.parsePropertySignature`. -/
def parsePropertySignature : Nat → parser → Except Err (Node × parser)
  | 0, _ => .error .fuel
  | fuel + 1, p => do
    let (leadingComment, p) := p.consumeComment
    let p ← (if p.tok.Kind = token.Ident ∧ p.tok.Text = str "readonly" then advance fuel p
             else pure p)
    let (name, p) ← parseIdentifier fuel p
    let (questionToken, p) ← (if p.tok.Kind = token.Question then
                                (do let p ← advance fuel p; pure (true, p))
                              else pure (false, p))
    let (_, p) ← eat fuel p token.Colon
    let (typ, p) ← parseType fuel p
    let p ← (if p.tok.Kind = token.Semicolon then advance fuel p else pure p)
    let (trailingComment, p) := p.consumeLineComment
    pure (.PropertySignature name questionToken typ leadingComment trailingComment, p)

/-- `parser.parseIndexSignature`. -/
def parseIndexSignature : Nat → parser → Except Err (Node × parser)
  | 0, _ => .error .fuel
  | fuel + 1, p => do
    let (leadingComment, p) := p.consumeComment
    let (_, p) ← eat fuel p token.LBrack
    let (parameters, p) ← parseIndexSignatureLoop fuel [] p
    let (_, p) := p.consumeLineComment
    let (_, p) ← eat fuel p token.RBrack
    let (_, p) ← eat fuel p token.Colon
    let (typ, p) ← parseType fuel p
    let p ← (if p.tok.Kind = token.Semicolon then advance fuel p else pure p)
    pure (.IndexSignature parameters typ leadingComment, p)

/-- The loop `for p.tok.Kind != token.RBrack` of `parser.parseIndexSignature`. -/
def parseIndexSignatureLoop : Nat → List Node → parser → Except Err (List Node × parser)
  | 0, _, _ => .error .fuel
  | fuel + 1, parameters, p =>
    if p.tok.Kind ≠ token.RBrack then do
      let (param, p) ← parseParameter fuel p
      parseIndexSignatureLoop fuel (parameters ++ [param]) p
    else pure (parameters, p)

/-- `parser.parseParameter`. -/
def parseParameter : Nat → parser → Except Err (Node × parser)
  | 0, _ => .error .fuel
  | fuel + 1, p => do
    let (name, p) ← parseIdentifier fuel p
    let (_, p) ← eat fuel p token.Colon
    let (typ, p) ← parseType fuel p
    pure (.Parameter name typ, p)

end

mutual

/-- `parser.parseInitializer`. -/
def parseInitializer : Nat → parser → Except Err (Node × parser)
  | 0, _ => .error .fuel
  | fuel + 1, p =>
    if p.tok.Kind = token.Number then do
      let (tok, p) ← eat fuel p token.Number
      pure (.NumericLiteral tok.Text, p)
    else if p.tok.Kind = token.String then do
      let (tok, p) ← eat fuel p token.String
      pure (.StringLiteral tok.Text, p)
    else if p.tok.Kind = token.Minus then do
      let p ← advance fuel p
      let (operand, p) ← parseInitializer fuel p
      pure (.PrefixUnaryExpression token.Minus operand, p)
    else if p.tok.Kind = token.Ident then do
      let (name, p) ← parseIdentifier fuel p
      pure (.TypeReference name, p)
    else if p.tok.Kind = token.LBrack then parseArrayLiteralExpression fuel p
    else .error (.unexpectedToken p.tok)

/-- `parser.parseArrayLiteralExpression`. -/
def parseArrayLiteralExpression : Nat → parser → Except Err (Node × parser)
  | 0, _ => .error .fuel
  | fuel + 1, p => do
    let (_, p) ← eat fuel p token.LBrack
    let (elements, p) ← parseArrayLiteralExpressionLoop fuel [] p
    let (_, p) ← eat fuel p token.RBrack
    pure (.ArrayLiteralExpression elements, p)

/-- The loop `for p.tok.Kind != token.RBrack` of `parser.parseArrayLiteralExpression`. -/
def parseArrayLiteralExpressionLoop : Nat → List Node → parser → Except Err (List Node × parser)
  | 0, _, _ => .error .fuel
  | fuel + 1, elements, p =>
    if p.tok.Kind ≠ token.RBrack then do
      let (e, p) ← parseInitializer fuel p
      let p ← (if p.tok.Kind = token.Comma then advance fuel p else pure p)
      parseArrayLiteralExpressionLoop fuel (elements ++ [e]) p
    else pure (elements, p)

end

/-- `parser.parseVariableDeclaration`. -/
def parseVariableDeclaration (fuel : Nat) (p : parser) : Except Err (Node × parser) := do
  let (name, p) ← parseIdentifier fuel p
  let (typ, p) ← (if p.tok.Kind = token.Colon then
                    (do let p ← advance fuel p; parseType fuel p)
                  else pure (Node.nil, p))
  let (initializer, p) ← (if p.tok.Kind = token.Assign then
                            (do let p ← advance fuel p; parseInitializer fuel p)
                          else pure (Node.nil, p))
  pure (.VariableDeclaration name typ initializer, p)

/-- The loop of `parser.parseVariableDeclarationList`. -/
def parseVariableDeclarationListLoop : Nat → List Node → parser → Except Err (Node × parser)
  | 0, _, _ => .error .fuel
  | fuel + 1, declarations, p => do
    let (d, p) ← parseVariableDeclaration fuel p
    let declarations := declarations ++ [d]
    if p.tok.Kind ≠ token.Comma then do
      let (_, p) ← eat fuel p token.Semicolon
      pure (.VariableDeclarationList declarations, p)
    else do
      let p ← advance fuel p
      parseVariableDeclarationListLoop fuel declarations p

/-- `parser.parseVariableDeclarationList`. -/
def parseVariableDeclarationList (fuel : Nat) (p : parser) : Except Err (Node × parser) :=
  parseVariableDeclarationListLoop fuel [] p

/-- `parser.parseVariableStatement`. -/
def parseVariableStatement (fuel : Nat) (p : parser) : Except Err (Node × parser) := do
  let (_, p) ← eat fuel p token.Ident
  let (leadingComment, p) := p.consumeComment
  let (declarationList, p) ← parseVariableDeclarationList fuel p
  pure (.VariableStatement declarationList leadingComment, p)

/-- `parser.parseTypeAliasDeclaration`. -/
def parseTypeAliasDeclaration (fuel : Nat) (p : parser) : Except Err (Node × parser) := do
  let (_, p) ← eat fuel p token.Ident
  let (leadingComment, p) := p.consumeComment
  let (name, p) ← parseIdentifier fuel p
  let (_, p) ← eat fuel p token.Assign
  let (typ, p) ← parseType fuel p
  pure (.TypeAliasDeclaration name typ leadingComment, p)

/-- `parser.parseEnumMember`: the name is parsed before the comment is taken. -/
def parseEnumMember (fuel : Nat) (p : parser) : Except Err (Node × parser) := do
  let (name, p) ← parseIdentifier fuel p
  let (leadingComment, p) := p.consumeComment
  if p.tok.Kind ≠ token.Assign then pure (.EnumMember name .nil leadingComment, p)
  else do
    let p ← advance fuel p
    let (initializer, p) ← parseInitializer fuel p
    pure (.EnumMember name initializer leadingComment, p)

/-- The loop of `parser.parseEnumDeclaration`. -/
def parseEnumDeclarationLoop : Nat → List Node → parser → Except Err (List Node × parser)
  | 0, _, _ => .error .fuel
  | fuel + 1, members, p =>
    if p.tok.Kind = token.RBrace then pure (members, p)
    else do
      let (m, p) ← parseEnumMember fuel p
      let members := members ++ [m]
      if p.tok.Kind = token.Comma then do
        let p ← advance fuel p
        parseEnumDeclarationLoop fuel members p
      else if p.tok.Kind = token.RBrace then parseEnumDeclarationLoop fuel members p
      else .error (.unexpectedToken p.tok)

/-- `parser.parseEnumDeclaration`. -/
def parseEnumDeclaration (fuel : Nat) (p : parser) : Except Err (Node × parser) := do
  let (_, p) ← eat fuel p token.Ident
  let (leadingComment, p) := p.consumeComment
  let (name, p) ← parseIdentifier fuel p
  let (_, p) ← eat fuel p token.LBrace
  let (members, p) ← parseEnumDeclarationLoop fuel [] p
  let (_, p) ← eat fuel p token.RBrace
  pure (.EnumDeclaration name members leadingComment, p)

/-- The member loop of `parser.parseInterfaceDeclaration`. -/
def parseInterfaceDeclarationLoop : Nat → List Node → parser → Except Err (List Node × parser)
  | 0, _, _ => .error .fuel
  | fuel + 1, members, p =>
    if p.tok.Kind = token.RBrace then pure (members, p)
    else do
      let (m, p) ← parseSignature fuel p
      parseInterfaceDeclarationLoop fuel (members ++ [m]) p

/-- `parser.parseInterfaceDeclaration`. -/
def parseInterfaceDeclaration (fuel : Nat) (p : parser) : Except Err (Node × parser) := do
  let (_, p) ← eat fuel p token.Ident
  let (leadingComment, p) := p.consumeComment
  let (name, p) ← parseIdentifier fuel p
  let (typeParameters, p) ← (if p.tok.Kind = token.LAngle then parseTypeParameters fuel p
                              else pure ([], p))
  let (heritageClauses, p) ← (if p.tok.Kind = token.Ident ∧ p.tok.Text = str "extends" then
                                 parseHeritageClauses fuel p
                               else pure ([], p))
  let (_, p) ← eat fuel p token.LBrace
  let (members, p) ← parseInterfaceDeclarationLoop fuel [] p
  let (_, p) ← eat fuel p token.RBrace
  pure (.InterfaceDeclaration name typeParameters heritageClauses members leadingComment, p)

mutual

/-- `parser.parseStatement`. -/
def parseStatement : Nat → parser → Except Err (Node × parser)
  | 0, _ => .error .fuel
  | fuel + 1, p => do
    p.expect token.Ident
    parseStatementLoop fuel p

/-- The loop of `parser.parseStatement`: the `switch` on the text of the token. -/
def parseStatementLoop : Nat → parser → Except Err (Node × parser)
  | 0, _ => .error .fuel
  | fuel + 1, p =>
    if p.tok.Text = str "export" then do
      let p ← advance fuel p
      parseStatementLoop fuel p
    else if p.tok.Text = str "const" then parseVariableStatement fuel p
    else if p.tok.Text = str "type" then parseTypeAliasDeclaration fuel p
    else if p.tok.Text = str "enum" then parseEnumDeclaration fuel p
    else if p.tok.Text = str "interface" then parseInterfaceDeclaration fuel p
    else if p.tok.Text = str "namespace" then parseModuleDeclaration fuel p
    else .error (.unexpectedToken p.tok)

/-- `parser.parseModuleDeclaration`. -/
def parseModuleDeclaration : Nat → parser → Except Err (Node × parser)
  | 0, _ => .error .fuel
  | fuel + 1, p => do
    let (_, p) ← eat fuel p token.Ident
    let (leadingComment, p) := p.consumeComment
    let (name, p) ← parseIdentifier fuel p
    let (_, p) ← eat fuel p token.LBrace
    let (statements, p) ← parseModuleDeclarationLoop fuel [] p
    pure (.ModuleDeclaration name (.ModuleBlock statements) leadingComment, p)

/-- The loop of `parser.parseModuleDeclaration`. -/
def parseModuleDeclarationLoop : Nat → List Node → parser → Except Err (List Node × parser)
  | 0, _, _ => .error .fuel
  | fuel + 1, statements, p =>
    if p.tok.Kind = token.RBrace then do
      let (_, p) ← eat fuel p token.RBrace
      pure (statements, p)
    else do
      let (s, p) ← parseStatement fuel p
      parseModuleDeclarationLoop fuel (statements ++ [s]) p

end

/-- The loop of `parser.parseSourceFile`. -/
def parseSourceFileLoop : Nat → List Node → parser → Except Err (Node × parser)
  | 0, _, _ => .error .fuel
  | fuel + 1, statements, p => do
    let p ← advance fuel p
    if p.tok.Kind = token.EOF then pure (.SourceFile statements, p)
    else do
      let (s, p) ← parseStatement fuel p
      parseSourceFileLoop fuel (statements ++ [s]) p

/-- `parser.parseSourceFile`. -/
def parseSourceFile (fuel : Nat) (p : parser) : Except Err (Node × parser) :=
  parseSourceFileLoop fuel [] p

end parser

/-- The budget for a source: more than the depth any run of the parser reaches. -/
def budget (source : List Nat) : Nat := 16 * source.length + 64

/-- `Parse`: the tree of the source, or the panic. -/
def Parse (source : List Nat) : Except Err Node :=
  match parser.parseSourceFile (budget source) { lex := { Source := source } } with
  | .ok (sourceFile, _) => .ok sourceFile
  | .error e => .error e

end parser

/-! ## Package token: the names of the kinds -/

/-- The Go array `tokens`: the name of each kind, at the index of the kind. -/
def token.tokens : List (List Nat) :=
  [parser.str "Illegal", parser.str "EOF", parser.str "Comment", parser.str "LineComment",
   parser.str "Ident", parser.str "Number", parser.str "String",
   parser.str "|", parser.str "=", parser.str "-",
   parser.str "(", parser.str ")", parser.str "[", parser.str "]", parser.str "\x7b",
   parser.str "\x7d", parser.str "<", parser.str ">", parser.str ",", parser.str ".",
   parser.str ":", parser.str ";", parser.str "?"]

/-- The decimal digits of `n`, the least significant first (the loop of Go
`strconv.FormatInt`, which takes the digits off from the right). -/
def token.digitsRev : Nat → Nat → List Nat
  | 0, _ => []
  | fuel + 1, n => if n < 10 then [48 + n] else (48 + n % 10) :: token.digitsRev fuel (n / 10)

/-- Go `strconv.Itoa(i)`: `i` in decimal, with a minus sign when `i` is negative. -/
def token.itoa (i : Int) : List Nat :=
  if i < 0 then 45 :: (token.digitsRev (i.natAbs + 1) i.natAbs).reverse
  else (token.digitsRev (i.toNat + 1) i.toNat).reverse

/-- `Kind.String`. -/
def token.Kind.String (k : token.Kind) : List Nat :=
  if 0 ≤ k ∧ k < (token.tokens.length : Int) then token.tokens.getD k.toNat []
  else parser.str "token(" ++ token.itoa k ++ parser.str ")"

/-! ## Vocabulary of the statements -/

namespace parser

/-- The token returned by the `k`-th call of `Pop` (counting from 0) on a lexer. -/
def lexer.tokenAt : Nat → lexer → Except Err token.Token
  | 0, x => do
    let (t, _) ← x.Pop
    pure t
  | k + 1, x => do
    let (_, x) ← x.Pop
    lexer.tokenAt k x

/-- The tokens returned by the first `n` calls of `Pop` on the source, up to the
first `EOF` (a failing call ends the list). -/
def tokens : Nat → lexer → List token.Token
  | 0, _ => []
  | n + 1, x =>
    match x.Pop with
    | .ok (t, x) => if t.Kind = token.EOF then [t] else t :: tokens n x
    | .error _ => []

end parser

namespace parser

/-- The bytes of the source that the lexer has not read yet. -/
def lexer.rem (x : lexer) : List Nat := x.Source.drop x.offset

/-- A byte that can start an identifier: an ASCII letter. -/
def identStart (b : Nat) : Bool := (b ≥ 97 && b ≤ 122) || (b ≥ 65 && b ≤ 90)

/-- An identifier: an ASCII letter followed by ASCII letters, digits and underscores. -/
def isIdent : List Nat → Bool
  | [] => false
  | b :: bs => identStart b && bs.all (fun c => !lexer.identEnd c)

/-- The byte, if any, cannot continue an identifier. -/
def endsIdent : List Nat → Bool
  | [] => true
  | b :: _ => lexer.identEnd b

/-- The kind of the token that consists of the one byte `c`. -/
def punctKind (c : Nat) : Option token.Kind :=
  match c with
  | 124 => some token.Or
  | 61 => some token.Assign
  | 45 => some token.Minus
  | 40 => some token.LParen
  | 41 => some token.RParen
  | 91 => some token.LBrack
  | 93 => some token.RBrack
  | 123 => some token.LBrace
  | 125 => some token.RBrace
  | 60 => some token.LAngle
  | 62 => some token.RAngle
  | 44 => some token.Comma
  | 46 => some token.Dot
  | 58 => some token.Colon
  | 59 => some token.Semicolon
  | 63 => some token.Question
  | _ => none

/-- From the bytes `rem`, `Pop` returns the token `t`, which is not a comment, and
leaves the bytes `rem'`. -/
def NextTok (rem : List Nat) (t : token.Token) (rem' : List Nat) : Prop :=
  (t.Kind ≠ token.Comment ∧ t.Kind ≠ token.LineComment) ∧
  ∀ x : lexer, x.nextToken = {} → x.rem = rem →
    ∃ x', x.Pop = .ok (t, x') ∧ x'.rem = rem' ∧ x'.nextToken = {}

/-- The parser holds the token `tok`, its lexer has the bytes `rem` left, and both
comment registers are empty. -/
def At (p : parser) (tok : token.Token) (rem : List Nat) : Prop :=
  p.tok = tok ∧ p.lex.rem = rem ∧ p.lex.nextToken = {} ∧ p.lastComment = [] ∧
    p.lastLineComment = []

end parser

namespace parser

/-- The items of a list, each with `sep` written before it. -/
def sepEach (sep : List Nat) : List (List Nat) → List Nat
  | [] => []
  | v :: vs => sep ++ v ++ sepEach sep vs

/-- The type reference to an identifier. -/
def typeRef (w : List Nat) : ast.Node := .TypeReference (.Identifier w)

end parser

namespace parser

/-- The heritage clause that holds the one type `w`. -/
def heritageOf (w : List Nat) : ast.Node :=
  .HeritageClause [.ExpressionWithTypeArguments (.Identifier w)]

end parser

namespace parser

/-- What is asked of one node: its `LeadingComment` is empty or satisfies `C`, a
union has at least two members none of which is a union, and a heritage clause
holds exactly one type. -/
def NodeOk (C : List Nat → Prop) (n : ast.Node) : Prop :=
  (n.LeadingComment = [] ∨ C n.LeadingComment) ∧
  (∀ ts, n = .UnionType ts → 2 ≤ ts.length ∧ ∀ t ∈ ts, t.isUnionType = false) ∧
  (∀ ts, n = .HeritageClause ts → ts.length = 1)

/-- Every node of the tree is `NodeOk`. -/
def TreeOk (C : List Nat → Prop) (root : ast.Node) : Prop :=
  ∀ n, ast.Node.Within n root → NodeOk C n

/-- The invariant of the parser state: the lexer satisfies `L` and the register
`lastComment` is empty or satisfies `C`. -/
def StateOk (C : List Nat → Prop) (L : lexer → Prop) (p : parser) : Prop :=
  L p.lex ∧ (p.lastComment = [] ∨ C p.lastComment)

/-- `L` is kept by `Pop`, and the text of a leading comment that `Pop` returns
satisfies `C`. -/
def PopOk (C : List Nat → Prop) (L : lexer → Prop) : Prop :=
  ∀ x t x', L x → x.Pop = .ok (t, x') → L x' ∧ (t.Kind = token.Comment → C t.Text)

end parser

namespace parser

/-- The function keeps the invariant of the state and returns a tree that is
`TreeOk`. -/
def KeepsN (C : List Nat → Prop) (L : lexer → Prop)
    (f : parser → Except Err (ast.Node × parser)) : Prop :=
  ∀ p r p', StateOk C L p → f p = .ok (r, p') → StateOk C L p' ∧ TreeOk C r

/-- As `KeepsN`, and the tree returned is not a union. -/
def KeepsNU (C : List Nat → Prop) (L : lexer → Prop)
    (f : parser → Except Err (ast.Node × parser)) : Prop :=
  ∀ p r p', StateOk C L p → f p = .ok (r, p') →
    StateOk C L p' ∧ TreeOk C r ∧ r.isUnionType = false

/-- The function keeps the invariant of the state and returns trees that are
`TreeOk`. -/
def KeepsL (C : List Nat → Prop) (L : lexer → Prop)
    (f : parser → Except Err (List ast.Node × parser)) : Prop :=
  ∀ p r p', StateOk C L p → f p = .ok (r, p') → StateOk C L p' ∧ ∀ e ∈ r, TreeOk C e

end parser

namespace parser

/-- Every token that `x` returns, `y` returns at the same call. -/
def LexSim (x y : lexer) : Prop :=
  ∀ k t, lexer.tokenAt k x = .ok t → lexer.tokenAt k y = .ok t

/-- Two parser states that hold the same token and the same registers, the
lexer of the second following the lexer of the first. -/
def Sim (p q : parser) : Prop :=
  p.tok = q.tok ∧ p.lastComment = q.lastComment ∧ p.lastLineComment = q.lastLineComment ∧
    LexSim p.lex q.lex

/-- A run of `f` that succeeds with budget `n` succeeds with the same result from
every state that simulates the first, with every budget `m ≥ n`. -/
def SimAt {α : Type} (f : Nat → parser → Except Err (α × parser)) (n : Nat) : Prop :=
  ∀ m p q r p', n ≤ m → Sim p q → f n p = .ok (r, p') →
    ∃ q', f m q = .ok (r, q') ∧ Sim p' q'

/-- The lexer returns no comment token, at any call. -/
def CommentFree (x : lexer) : Prop :=
  ∀ k t, lexer.tokenAt k x = .ok t → t.Kind ≠ token.Comment ∧ t.Kind ≠ token.LineComment

/-- The node with its `LeadingComment` replaced by `c` (a declaration; any other
node is returned unchanged). -/
def withLeadingComment (c : List Nat) : ast.Node → ast.Node
  | .VariableStatement d _ => .VariableStatement d c
  | .TypeAliasDeclaration n t _ => .TypeAliasDeclaration n t c
  | .EnumDeclaration n ms _ => .EnumDeclaration n ms c
  | .InterfaceDeclaration n tps hcs ms _ => .InterfaceDeclaration n tps hcs ms c
  | .ModuleDeclaration n b _ => .ModuleDeclaration n b c
  | n => n

end parser

namespace parser

/-- As `Sim`, but when `b` is true the register `lastComment` is empty in the first
state and holds `c` in the second, and the lexer of the first state is
`CommentFree`. -/
def SimU (c : List Nat) (b : Bool) (p q : parser) : Prop :=
  p.tok = q.tok ∧ p.lastLineComment = q.lastLineComment ∧ LexSim p.lex q.lex ∧
    (if b then p.lastComment = [] ∧ q.lastComment = c ∧ CommentFree p.lex
     else p.lastComment = q.lastComment)

/-- The declaration returned by the second run: with the leading comment `c` when
`b` is true. -/
def fixComment (c : List Nat) (b : Bool) (r : ast.Node) : ast.Node :=
  if b then withLeadingComment c r else r

/-- As `SimAt`, from states related by `SimU`. -/
def SimUAt (f : Nat → parser → Except Err (ast.Node × parser)) (n : Nat) : Prop :=
  ∀ c b m p q r p', n ≤ m → SimU c b p q → f n p = .ok (r, p') →
    ∃ q', f m q = .ok (fixComment c b r, q') ∧ Sim p' q'

end parser

namespace parser

/-- The lexer `x` on the source `pre ++ x.Source`, at the same place of `x.Source`. -/
def lexer.shift (pre : List Nat) (x : lexer) : lexer :=
  { x with Source := pre ++ x.Source, offset := pre.length + x.offset }

/-- The result of a lexer function, shifted. -/
def shiftR (pre : List Nat) (r : Except Err (token.Token × lexer)) :
    Except Err (token.Token × lexer) :=
  match r with
  | .ok (t, x) => .ok (t, x.shift pre)
  | .error e => .error e

/-- The result of a lexer loop, shifted. -/
def shiftX (pre : List Nat) (r : Except Err lexer) : Except Err lexer :=
  match r with
  | .ok x => .ok (x.shift pre)
  | .error e => .error e

end parser

namespace ast

/-- What `fmt.Printf("%T", node)` prints. -/
def Node.goType : Node → String
  | .nil => "<nil>"
  | .NumericLiteral _ => "*ast.NumericLiteral"
  | .StringLiteral _ => "*ast.StringLiteral"
  | .ArrayLiteralExpression _ => "*ast.ArrayLiteralExpression"
  | .Identifier _ => "*ast.Identifier"
  | .QualifiedName _ _ => "*ast.QualifiedName"
  | .EnumMember _ _ _ => "*ast.EnumMember"
  | .TypeParameter _ => "*ast.TypeParameter"
  | .HeritageClause _ => "*ast.HeritageClause"
  | .ExpressionWithTypeArguments _ => "*ast.ExpressionWithTypeArguments"
  | .Parameter _ _ => "*ast.Parameter"
  | .VariableDeclarationList _ => "*ast.VariableDeclarationList"
  | .VariableDeclaration _ _ _ => "*ast.VariableDeclaration"
  | .PrefixUnaryExpression _ _ => "*ast.PrefixUnaryExpression"
  | .LiteralType _ => "*ast.LiteralType"
  | .TypeLiteral _ => "*ast.TypeLiteral"
  | .ArrayType _ => "*ast.ArrayType"
  | .TypeReference _ => "*ast.TypeReference"
  | .UnionType _ => "*ast.UnionType"
  | .TupleType _ => "*ast.TupleType"
  | .ParenthesizedType _ => "*ast.ParenthesizedType"
  | .PropertySignature _ _ _ _ _ => "*ast.PropertySignature"
  | .IndexSignature _ _ _ => "*ast.IndexSignature"
  | .SourceFile _ => "*ast.SourceFile"
  | .ModuleBlock _ => "*ast.ModuleBlock"
  | .VariableStatement _ _ => "*ast.VariableStatement"
  | .TypeAliasDeclaration _ _ _ => "*ast.TypeAliasDeclaration"
  | .EnumDeclaration _ _ _ => "*ast.EnumDeclaration"
  | .InterfaceDeclaration _ _ _ _ _ => "*ast.InterfaceDeclaration"
  | .ModuleDeclaration _ _ _ => "*ast.ModuleDeclaration"

mutual

/-- The depth-first pre-order of a tree: the node, then the pre-orders of its
children, the siblings in field order: the name first, then the members, elements
or parameters in the order of the list, then the type, then the initializer (for a
`QualifiedName`, left then right; for a module, name then body). The children of an
interface are its name and its members. -/
def Node.preorder : Node → List Node
  | .nil => [.nil]
  | .NumericLiteral t => [.NumericLiteral t]
  | .StringLiteral t => [.StringLiteral t]
  | .Identifier t => [.Identifier t]
  | .QualifiedName l r => .QualifiedName l r :: (l.preorder ++ r.preorder)
  | .ArrayLiteralExpression es => .ArrayLiteralExpression es :: Node.preorderEach es
  | .EnumMember n i c => .EnumMember n i c :: (n.preorder ++ i.preorder)
  | .TypeParameter n => .TypeParameter n :: n.preorder
  | .HeritageClause ts => .HeritageClause ts :: Node.preorderEach ts
  | .ExpressionWithTypeArguments e => .ExpressionWithTypeArguments e :: e.preorder
  | .PropertySignature n q t c d => .PropertySignature n q t c d :: (n.preorder ++ t.preorder)
  | .IndexSignature ps t c => .IndexSignature ps t c :: (Node.preorderEach ps ++ t.preorder)
  | .Parameter n t => .Parameter n t :: (n.preorder ++ t.preorder)
  | .VariableDeclarationList ds => .VariableDeclarationList ds :: Node.preorderEach ds
  | .VariableDeclaration n t i =>
    .VariableDeclaration n t i :: (n.preorder ++ t.preorder ++ i.preorder)
  | .PrefixUnaryExpression k o => .PrefixUnaryExpression k o :: o.preorder
  | .LiteralType l => .LiteralType l :: l.preorder
  | .TypeLiteral ms => .TypeLiteral ms :: Node.preorderEach ms
  | .ArrayType e => .ArrayType e :: e.preorder
  | .TypeReference n => .TypeReference n :: n.preorder
  | .UnionType ts => .UnionType ts :: Node.preorderEach ts
  | .TupleType es => .TupleType es :: Node.preorderEach es
  | .ParenthesizedType t => .ParenthesizedType t :: t.preorder
  | .SourceFile ss => .SourceFile ss :: Node.preorderEach ss
  | .ModuleBlock ss => .ModuleBlock ss :: Node.preorderEach ss
  | .VariableStatement d c => .VariableStatement d c :: d.preorder
  | .TypeAliasDeclaration n t c => .TypeAliasDeclaration n t c :: (n.preorder ++ t.preorder)
  | .EnumDeclaration n ms c => .EnumDeclaration n ms c :: (n.preorder ++ Node.preorderEach ms)
  | .InterfaceDeclaration n tps hcs ms c =>
    .InterfaceDeclaration n tps hcs ms c :: (n.preorder ++ Node.preorderEach ms)
  | .ModuleDeclaration n b c => .ModuleDeclaration n b c :: (n.preorder ++ b.preorder)

/-- The pre-orders of the nodes of a list, one after the other. -/
def Node.preorderEach : List Node → List Node
  | [] => []
  | e :: es => e.preorder ++ Node.preorderEach es

end

end ast

namespace parser

/-- The tree has no absent (`nil`) child: no `Node.nil` occurs in it. -/
def NoNil (n : ast.Node) : Prop := ∀ m, ast.Node.Within m n → m ≠ .nil

end parser

namespace parser

/-- As `NextTok`, and `willBeTrailingComment` is set after the call. -/
def NextTokF (rem : List Nat) (t : token.Token) (rem' : List Nat) : Prop :=
  (t.Kind ≠ token.Comment ∧ t.Kind ≠ token.LineComment) ∧
  ∀ x : lexer, x.nextToken = {} → x.rem = rem →
    ∃ x', x.Pop = .ok (t, x') ∧ x'.rem = rem' ∧ x'.nextToken = {} ∧
      x'.willBeTrailingComment = true

/-- The text of a line comment: it has no newline and does not start with a space. -/
def lineText (c : List Nat) : Bool := !c.contains 10 && c.head? != some 32

/-- The bytes `cm`, followed by a newline, are a comment that the lexer returns,
after code on the same line (`willBeTrailingComment` is set), as one `LineComment`
token with the text `c`. -/
def TrailingCommentSrc (cm c : List Nat) : Prop :=
  ∀ (x : lexer) (r : List Nat), x.nextToken = {} → x.willBeTrailingComment = true →
    x.rem = cm ++ 10 :: r →
    ∃ x', x.Pop = .ok ({ Kind := token.LineComment, Text := c }, x') ∧ x'.rem = 10 :: r ∧
      x'.nextToken = {}

end parser

namespace parser

/-- The lines of a byte string: the pieces between its newline bytes. -/
def splitLines : List Nat → List (List Nat)
  | [] => [[]]
  | b :: bs =>
    if b = 10 then [] :: splitLines bs
    else
      match splitLines bs with
      | l :: ls => (b :: l) :: ls
      | [] => [[b]]

/-- A line without its leading run of `*`, space and tab. -/
def stripLead (l : List Nat) : List Nat := l.dropWhile (fun b => b == 42 || b == 32 || b == 9)

/-- A byte string without its leading run of `*`. -/
def dropStars (s : List Nat) : List Nat := s.dropWhile (fun b => b == 42)

/-- A byte string without its trailing run of `*`. -/
def dropStarsEnd (s : List Nat) : List Nat := (s.reverse.dropWhile (fun b => b == 42)).reverse

/-- The lines of a byte string rejoined with newlines, every line after the first
without its leading run of `*`, space and tab. -/
def reflowLines (s : List Nat) : List Nat :=
  match splitLines s with
  | [] => []
  | first :: rest => List.intercalate [10] (first :: rest.map stripLead)

/-- The reference reflow of the body of a block comment (the bytes between `/*` and
the first following `*/`): the run of `*` after `/*` and the run of `*` before `*/`
are dropped, every line after the first is stripped of its leading run of `*`,
space and tab, and the white space at both ends is trimmed. -/
def refReflow (body : List Nat) : List Nat :=
  trimSpace (reflowLines (dropStarsEnd (dropStars body)))

end parser

namespace parser
open ast (Node)

/-- The source of an enum member with a string initializer: `N = 's'`. -/
def enumMemberSrc (m : List Nat × List Nat) : List Nat :=
  m.1 ++ str " = \x27" ++ m.2 ++ str "\x27"

/-- The enum member named `N` whose initializer is the string literal `s`. -/
def enumMemberOf (m : List Nat × List Nat) : ast.Node :=
  .EnumMember (.Identifier m.1) (.StringLiteral m.2) []

/-- The type parameter named `w`. -/
def typeParameterOf (w : List Nat) : ast.Node := .TypeParameter (.Identifier w)

/-- What a call of `Pop` guarantees: no token is held back, the source is the same,
the offset does not decrease; a token other than `EOF` and `Illegal` advances the
offset, which stays within the source; the text of an `Ident` token is an
identifier; an `EOF` or `Illegal` token has no text. -/
def PopPost (x : lexer) (t : token.Token) (x' : lexer) : Prop :=
  x'.nextToken = {} ∧ x'.Source = x.Source ∧ x.offset ≤ x'.offset ∧
  (t.Kind ≠ token.EOF → t.Kind ≠ token.Illegal →
    x.offset < x'.offset ∧ x'.offset ≤ x.Source.length) ∧
  (t.Kind = token.Ident → isIdent t.Text = true) ∧
  (t.Kind = token.EOF ∨ t.Kind = token.Illegal → t.Text = [])

/-- What is left for the parser to read: the bytes after the offset of the lexer,
and one more when the token held is a token other than `EOF` and `Illegal`. -/
def parser.measure (p : parser) : Nat :=
  (p.lex.Source.length - p.lex.offset) +
    (if p.tok.Kind = token.EOF ∨ p.tok.Kind = token.Illegal then 0 else 1)

/-- The invariant of the parser state: the lexer holds no token back, the text of
an `Ident` token held is an identifier, and an `EOF` or `Illegal` token held has no
text. -/
def Inv (p : parser) : Prop :=
  p.lex.nextToken = {} ∧ (p.tok.Kind = token.Ident → isIdent p.tok.Text = true) ∧
    (p.tok.Kind = token.EOF ∨ p.tok.Kind = token.Illegal → p.tok.Text = [])

/-- The text of every `Identifier` node of the tree is an identifier. -/
def IdentsOk (r : ast.Node) : Prop :=
  ∀ t, ast.Node.Within (.Identifier t) r → isIdent t = true

/-- The run `a` does not run out of budget, the run `b` (the same function with a
larger budget) has the same outcome, and a result satisfies `Q`. -/
def Agree {α : Type} (a b : Except Err α) (Q : α → Prop) : Prop :=
  b = a ∧ a ≠ .error .fuel ∧ ∀ x, a = .ok x → Q x

/-- What a parsing function started in the state `p` guarantees of its result: the
state returned keeps the invariant, its measure is lower than the measure of `p` by
`k` at least, and the value returned satisfies `Q`. -/
def Post {α : Type} (p : parser) (k : Nat) (Q : α → Prop) (r : α × parser) : Prop :=
  Inv r.2 ∧ r.2.measure + k ≤ p.measure ∧ Q r.1

/-- With the budget `n`, `16` for each unit of the measure of the state plus `c`,
the function does not run out of budget, every larger budget gives the same
outcome, and a result keeps the invariant, lowers the measure by `k` at least and
satisfies `Q`. -/
def RunsAt {α : Type} (f : Nat → parser → Except Err (α × parser)) (c k : Nat)
    (Q : α → Prop) (n : Nat) : Prop :=
  ∀ p, Inv p → 16 * p.measure + c ≤ n → ∀ m, n ≤ m → Agree (f n p) (f m p) (Post p k Q)

end parser

namespace parser

/-- A call of one of the two methods of the lexer that return a token. -/
inductive lexer.Call where
  | Peek
  | Pop
deriving DecidableEq, Repr

/-- The call `c` on the lexer `x`. -/
def lexer.call (c : lexer.Call) (x : lexer) : Except Err (token.Token × lexer) :=
  match c with
  | .Peek => x.Peek
  | .Pop => x.Pop

/-- The lexer after the calls `cs`, made one after the other. -/
def lexer.calls : List lexer.Call → lexer → Except Err lexer
  | [], x => .ok x
  | c :: cs, x => do
    let (_, x) ← lexer.call c x
    lexer.calls cs x

/-- The tokens that the calls `cs`, made one after the other, return. -/
def lexer.trace : List lexer.Call → lexer → Except Err (List token.Token)
  | [], _ => .ok []
  | c :: cs, x => do
    let (t, x) ← lexer.call c x
    let ts ← lexer.trace cs x
    pure (t :: ts)

/-- The budget `n` is enough for the loop `f`: every larger budget gives the
result of `n`. -/
def Settled {α : Type} (f : Nat → α) (n : Nat) : Prop := ∀ m, n ≤ m → f m = f n

/-- An initializer expression, as `parseInitializer` reads it: a number literal, a
string literal, a name, a negated expression, an array literal. -/
inductive Initializer where
  | number (text : List Nat)
  | string (text : List Nat)
  | name (text : List Nat)
  | minus (operand : Initializer)
  | array (elements : List Initializer)

mutual

/-- The source of an initializer expression: the digits of a number, a string
between quotes, the name, `-` before the operand, and the elements of an array
between brackets, separated by a comma and a space. -/
def Initializer.src : Initializer → List Nat
  | .number t => t
  | .string t => 39 :: (t ++ [39])
  | .name t => t
  | .minus e => 45 :: e.src
  | .array [] => [91, 93]
  | .array (e :: es) => 91 :: (e.src ++ (Initializer.srcTail es ++ [93]))

/-- The source of the elements of an array after the first: a comma and a space
before each. -/
def Initializer.srcTail : List Initializer → List Nat
  | [] => []
  | e :: es => 44 :: 32 :: (e.src ++ Initializer.srcTail es)

end

mutual

/-- The node of an initializer expression. -/
def Initializer.node : Initializer → ast.Node
  | .number t => .NumericLiteral t
  | .string t => .StringLiteral t
  | .name t => .TypeReference (.Identifier t)
  | .minus e => .PrefixUnaryExpression token.Minus e.node
  | .array es => .ArrayLiteralExpression (Initializer.nodes es)

/-- The nodes of the elements of an array. -/
def Initializer.nodes : List Initializer → List ast.Node
  | [] => []
  | e :: es => e.node :: Initializer.nodes es

end

mutual

/-- The expression is well formed: a number is a non-empty run of digits, a string
has no quote in it, a name is an identifier. -/
def Initializer.wf : Initializer → Bool
  | .number t => t ≠ [] && t.all (fun b => 48 ≤ b && b ≤ 57)
  | .string t => !t.contains 39
  | .name t => isIdent t
  | .minus e => e.wf
  | .array es => Initializer.wfAll es

/-- Every expression of the list is well formed. -/
def Initializer.wfAll : List Initializer → Bool
  | [] => true
  | e :: es => e.wf && Initializer.wfAll es

end

/-- The first token of an initializer expression. -/
def Initializer.first : Initializer → token.Token
  | .number t => { Kind := token.Number, Text := t }
  | .string t => { Kind := token.String, Text := t }
  | .name t => { Kind := token.Ident, Text := t }
  | .minus _ => { Kind := token.Minus }
  | .array _ => { Kind := token.LBrack }

/-- The source of an initializer expression after its first token. -/
def Initializer.rest : Initializer → List Nat
  | .number _ => []
  | .string _ => []
  | .name _ => []
  | .minus e => e.src
  | .array [] => [93]
  | .array (e :: es) => e.src ++ (Initializer.srcTail es ++ [93])

/-- The state `q` after an element of an array that the elements `es` follow: it
holds the comma before `es`, or the closing bracket when `es` is empty; `rest` are
the bytes after the closing bracket. -/
def Initializer.AtSep (q : parser) (es : List Initializer) (rest : List Nat) : Prop :=
  match es with
  | [] => At q { Kind := token.RBrack } rest
  | e :: es' => At q { Kind := token.Comma }
      (32 :: (e.src ++ (Initializer.srcTail es' ++ 93 :: rest)))

/-- The expression `e` is parsed by `parseInitializer`: from a state that holds the
first token of `e`, with the rest of `e` and the bytes `rest` left to the lexer
(`rest` does not continue a name or a number), a budget of twice the length of `e`
plus one is enough for `parseInitializer` to return the node of `e`, in the state
that holds the first token of `rest`. -/
def Initializer.Runs (e : Initializer) : Prop :=
  ∀ (n : Nat) (p : parser) (rest : List Nat) (t : token.Token) (r : List Nat),
    2 * e.src.length + 1 ≤ n → endsIdent rest = true → NextTok rest t r →
    At p e.first (e.rest ++ rest) →
    ∃ p', parser.parseInitializer n p = .ok (e.node, p') ∧ At p' t r

end parser

namespace parser

/-- The lexer returns the tokens `ts`, one call of `Pop` after the other; the value
is the lexer after the last call (`none` when a call fails or returns another
token). -/
def lexer.reads : List token.Token → lexer → Option lexer
  | [], x => some x
  | t :: ts, x =>
    match x.Pop with
    | .ok (t', x') => if t' = t then lexer.reads ts x' else none
    | .error _ => none

/-- A comment token, of either kind. -/
def isComment (t : token.Token) : Bool :=
  t.Kind == token.Comment || t.Kind == token.LineComment

/-- The text of the last `LineComment` token among the comments that end the list
of tokens `ts`, if there is one. -/
def lastLine (ts : List token.Token) : Option (List Nat) :=
  ((ts.reverse.takeWhile isComment).find? (fun t => t.Kind == token.LineComment)).map
    (fun t => t.Text)

/-- The parser goes from the state `p` to the state `p'` past the tokens `M`: the
token held in `p` followed by the tokens that the lexer of `p` returns up to the
lexer of `p'` are the tokens of `M` followed by the token held in `p'`, which is not
a comment, and no token of `M` is `EOF` or `Illegal`. -/
def Reads (p p' : parser) (M : List token.Token) : Prop :=
  p'.lex.nextToken = {} ∧ isComment p'.tok = false ∧
  ∃ L, p.tok :: L = M ++ [p'.tok] ∧ lexer.reads L p.lex = some p'.lex ∧
    ∀ t ∈ M, t.Kind ≠ token.EOF ∧ t.Kind ≠ token.Illegal

/-- The parser goes from `p` to `p'` past some tokens. -/
def Passes (p p' : parser) : Prop := ∃ M, Reads p p' M

/-- The parser goes from `p` to `p'` past at least one token, and the register
`lastLineComment` of `p'` holds the last `LineComment` among the comments passed
just before the token held in `p'`, when there is one. -/
def Ends (p p' : parser) : Prop :=
  ∃ M, Reads p p' M ∧ M ≠ [] ∧ ∀ c, lastLine M = some c → p'.lastLineComment = c

/-- Every successful run of `f`, from a state whose lexer holds no token back and
whose token is not a comment, is a run that `Ends`. -/
def EndsAt {α : Type} (f : parser → Except Err (α × parser)) : Prop :=
  ∀ p r p', p.lex.nextToken = {} → isComment p.tok = false → f p = .ok (r, p') → Ends p p'

/-- As `EndsAt`, for `Passes`. -/
def PassesAt {α : Type} (f : parser → Except Err (α × parser)) : Prop :=
  ∀ p r p', p.lex.nextToken = {} → isComment p.tok = false → f p = .ok (r, p') → Passes p p'

/-- A property signature written on a line of its own, with a comment after it:
`name: T; cm` or `name: T cm`, then a newline. `c` is the text of the comment. -/
structure Member where
  name : List Nat
  T : List Nat
  semi : Bool
  cm : List Nat
  c : List Nat

/-- The source of the member. -/
def Member.src (m : Member) : List Nat :=
  m.name ++ (str ": " ++ (m.T ++ ((if m.semi then str ";" else []) ++
    (str " " ++ (m.cm ++ str "\n")))))

/-- The sources of the members, one after the other. -/
def Member.srcs : List Member → List Nat
  | [] => []
  | m :: ms => m.src ++ Member.srcs ms

/-- The property signature of the member: its type is the reference to `T`, and
its `TrailingComment` is `c`. -/
def Member.node (m : Member) : ast.Node :=
  .PropertySignature (.Identifier m.name) false (typeRef m.T) [] m.c

/-- The name and the type are identifiers, the name is not `readonly`, and `cm` is
a comment that the lexer returns, after code on the same line, with the text `c`. -/
def Member.wf (m : Member) : Prop :=
  isIdent m.name = true ∧ m.name ≠ str "readonly" ∧ isIdent m.T = true ∧
    TrailingCommentSrc m.cm m.c

end parser

/-! ## Lemmas -/

namespace parser

theorem bind_ok {ε α β : Type} (x : Except ε α) (f : α → Except ε β) (b : β) :
    (x >>= f) = .ok b ↔ ∃ a, x = .ok a ∧ f a = .ok b := by
  cases x <;> simp [bind, Except.bind]

theorem rem_cons {x : lexer} {b : Nat} {r : List Nat} (h : x.rem = b :: r) :
    x.offset < x.Source.length ∧ idx x.Source x.offset = .ok b ∧
      lexer.rem { x with offset := x.offset + 1 } = r := by
  unfold lexer.rem at h
  have hlt : x.offset < x.Source.length := by
    by_contra hc
    rw [List.drop_eq_nil_of_le (by omega)] at h
    cases h
  rw [List.drop_eq_getElem_cons hlt] at h
  injection h with h1 h2
  refine ⟨hlt, ?_, ?_⟩
  · simp [idx, List.getElem?_eq_getElem hlt, h1]
  · simpa [lexer.rem] using h2

theorem rem_nil {x : lexer} (h : x.rem = []) : ¬ x.offset < x.Source.length := by
  unfold lexer.rem at h
  have := List.drop_eq_nil_iff.1 h
  omega

theorem rem_length (x : lexer) : x.rem.length = x.Source.length - x.offset := by
  simp [lexer.rem]

end parser

namespace parser

theorem slice_rem {x : lexer} (h : x.offset ≤ x.Source.length) :
    slice x.Source x.offset x.Source.length = .ok x.rem := by
  simp [slice, h, lexer.rem]

theorem slice_take {x : lexer} (j : Nat) (h : j ≤ x.rem.length)
    (h0 : x.offset ≤ x.Source.length) :
    slice x.Source x.offset (x.offset + j) = .ok (x.rem.take j) := by
  have hl := rem_length x
  have : x.offset + j ≤ x.Source.length := by omega
  simp [slice, this, lexer.rem]

theorem indexFunc_ident (w r : List Nat) (hw : w.all (fun c => !lexer.identEnd c) = true)
    (hr : endsIdent r = true) :
    indexFunc lexer.identEnd (w ++ r) = if r = [] then none else some w.length := by
  induction w with
  | nil =>
    cases r with
    | nil => simp [indexFunc]
    | cons b r => simp [endsIdent] at hr; simp [indexFunc, hr]
  | cons c w ih =>
    simp only [List.all_cons, Bool.and_eq_true, Bool.not_eq_true'] at hw
    have e : (c :: w) ++ r = c :: (w ++ r) := rfl
    rw [e]
    simp only [indexFunc, hw.1, Bool.false_eq_true, if_false]
    rw [ih (by simpa using hw.2)]
    by_cases h : r = [] <;> simp [h]

theorem identStart_not_end {b : Nat} (h : identStart b = true) : lexer.identEnd b = false := by
  simp [identStart, lexer.identEnd] at *
  omega

theorem nextIdent_spec {x : lexer} (w r : List Nat) (hw : isIdent w = true)
    (hr : endsIdent r = true) (h : x.rem = w ++ r) :
    x.nextIdent = .ok ({ Kind := token.Ident, Text := w },
      { x with offset := x.offset + w.length }) ∧
    lexer.rem { x with offset := x.offset + w.length } = r := by
  have hl := rem_length x
  rw [h] at hl
  simp only [List.length_append] at hl
  cases w with
  | nil => simp [isIdent] at hw
  | cons c w =>
    simp only [isIdent, Bool.and_eq_true] at hw
    have hall : (c :: w).all (fun c => !lexer.identEnd c) = true := by
      simp only [List.all_cons, Bool.and_eq_true]
      exact ⟨by simp [identStart_not_end hw.1], hw.2⟩
    have hlt : x.offset < x.Source.length := (rem_cons (by simpa using h)).1
    have hrem2 : lexer.rem { x with offset := x.offset + (c :: w).length } = r := by
      simp only [lexer.rem] at h ⊢
      rw [← List.drop_drop, h]
      simp
    refine ⟨?_, hrem2⟩
    simp only [lexer.nextIdent, bind, Except.bind, slice_rem (le_of_lt hlt), h,
      indexFunc_ident (c :: w) r hall hr]
    by_cases hre : r = []
    · subst hre
      simp only [List.length_cons, List.length_nil, add_zero] at hl
      have e : x.Source.length = x.offset + (w.length + 1) := by omega
      simp only [if_true, e]
      have := slice_take (x := x) (w.length + 1) (by rw [h]; simp) (le_of_lt hlt)
      rw [this, h]
      simp [pure, Except.pure]
    · simp only [hre, if_false]
      have := slice_take (x := x) ((c :: w).length) (by rw [h]; simp) (le_of_lt hlt)
      rw [this, h]
      simp [pure, Except.pure]

end parser

namespace parser

theorem nextLoop_space {x : lexer} {r : List Nat} (n : Nat) (h : x.rem = 32 :: r) :
    lexer.nextLoop (n + 1) x = lexer.nextLoop n { x with offset := x.offset + 1 } := by
  obtain ⟨hlt, hidx, _⟩ := rem_cons h
  rw [lexer.nextLoop, if_pos hlt]
  simp [hidx, bind, Except.bind]

theorem nextLoop_newline {x : lexer} {r : List Nat} (n : Nat) (h : x.rem = 10 :: r) :
    lexer.nextLoop (n + 1) x
      = lexer.nextLoop n { x with offset := x.offset + 1, willBeTrailingComment := false } := by
  obtain ⟨hlt, hidx, _⟩ := rem_cons h
  rw [lexer.nextLoop, if_pos hlt]
  simp [hidx, bind, Except.bind]

theorem nextLoop_eof {x : lexer} (n : Nat) (h : x.rem = []) :
    lexer.nextLoop (n + 1) x = .ok ({ Kind := token.EOF }, x) := by
  rw [lexer.nextLoop, if_neg (rem_nil h)]
  rfl

theorem nextLoop_punct {x : lexer} {c : Nat} {k : token.Kind} {r : List Nat} (n : Nat)
    (h : x.rem = c :: r) (hk : punctKind c = some k) :
    ∃ x', lexer.nextLoop (n + 1) x = .ok ({ Kind := k }, x') ∧ x'.rem = r ∧
      x'.nextToken = x.nextToken := by
  obtain ⟨hlt, hidx, hrem⟩ := rem_cons h
  simp only [lexer.rem] at hrem
  rw [lexer.nextLoop, if_pos hlt]
  simp only [hidx, bind, Except.bind]
  unfold punctKind at hk
  split at hk <;> cases hk <;>
    simp [pure, Except.pure, lexer.char, lexer.rem, hrem]

theorem nextLoop_ident {x : lexer} {w r : List Nat} (n : Nat)
    (hw : isIdent w = true) (hr : endsIdent r = true) (h : x.rem = w ++ r) :
    ∃ x', lexer.nextLoop (n + 1) x = .ok ({ Kind := token.Ident, Text := w }, x') ∧
      x'.rem = r ∧ x'.nextToken = x.nextToken := by
  cases w with
  | nil => simp [isIdent] at hw
  | cons c w =>
    have hc : identStart c = true := by
      simp only [isIdent, Bool.and_eq_true] at hw
      exact hw.1
    obtain ⟨hlt, hidx, _⟩ := rem_cons (x := x) (b := c) (r := w ++ r) (by simpa using h)
    have hsp := nextIdent_spec (x := { x with willBeTrailingComment := true }) (c :: w) r hw hr
      (by simpa [lexer.rem] using h)
    refine ⟨_, ?_, hsp.2, rfl⟩
    rw [← hsp.1]
    simp only [identStart, Bool.or_eq_true, Bool.and_eq_true, decide_eq_true_eq] at hc
    have h1 : ¬ (c = 32 ∨ c = 9 ∨ c = 13) := by omega
    rw [lexer.nextLoop, if_pos hlt]
    simp only [hidx, bind, Except.bind]
    have e1 : ((c ≥ 97 ∧ c ≤ 122) ∨ (c ≥ 65 ∧ c ≤ 90)) := hc
    have e2 : ¬ (c ≥ 48 ∧ c ≤ 57) := by omega
    rw [if_neg h1]
    repeat (rw [if_neg (by omega)])
    rw [if_pos e1]

theorem next_space {x : lexer} {r : List Nat} (h : x.rem = 32 :: r) :
    x.next = lexer.next { x with offset := x.offset + 1 } := by
  obtain ⟨hlt, _, _⟩ := rem_cons h
  have e : x.Source.length - x.offset + 1 = (x.Source.length - (x.offset + 1) + 1) + 1 := by omega
  simp only [lexer.next]
  rw [e, nextLoop_space _ h]

theorem punctKind_ne {c : Nat} {k : token.Kind} (hk : punctKind c = some k) :
    k ≠ token.Comment ∧ k ≠ token.LineComment := by
  unfold punctKind at hk
  split at hk <;> cases hk <;> simp

theorem nextTok_space {rem rem' : List Nat} {t : token.Token} (h : NextTok rem t rem') :
    NextTok (32 :: rem) t rem' := by
  refine ⟨h.1, ?_⟩
  intro x hx hr
  obtain ⟨_, _, hrem⟩ := rem_cons hr
  obtain ⟨x', h1, h2, h3⟩ := h.2 { x with offset := x.offset + 1 } hx hrem
  refine ⟨x', ?_, h2, h3⟩
  rw [← h1]
  have e : x.nextToken.Kind = 0 := by rw [hx]
  simp only [lexer.Pop, e, if_true]
  rw [next_space hr]

theorem nextTok_punct {c : Nat} {k : token.Kind} (r : List Nat) (hk : punctKind c = some k) :
    NextTok (c :: r) { Kind := k } r := by
  refine ⟨punctKind_ne hk, ?_⟩
  intro x hx hr
  obtain ⟨x', h1, h2, h3⟩ := nextLoop_punct (x.Source.length - x.offset) hr hk
  exact ⟨x', by simp [lexer.Pop, hx, lexer.next, h1], h2, by rw [h3, hx]⟩

theorem nextTok_ident {w : List Nat} (r : List Nat) (hw : isIdent w = true)
    (hr : endsIdent r = true) : NextTok (w ++ r) { Kind := token.Ident, Text := w } r := by
  refine ⟨by simp, ?_⟩
  intro x hx hrem
  obtain ⟨x', h1, h2, h3⟩ := nextLoop_ident (x.Source.length - x.offset) hw hr hrem
  exact ⟨x', by simp [lexer.Pop, hx, lexer.next, h1], h2, by rw [h3, hx]⟩

theorem nextTok_eof : NextTok [] { Kind := token.EOF } [] := by
  refine ⟨by simp, ?_⟩
  intro x hx hrem
  exact ⟨x, by simp [lexer.Pop, hx, lexer.next, nextLoop_eof _ hrem], hrem, hx⟩

theorem advance_step {p : parser} {t₀ t : token.Token} {rem r : List Nat} (n : Nat)
    (hp : At p t₀ rem) (hn : NextTok rem t r) :
    ∃ p', parser.advance (n + 1) p = .ok p' ∧ At p' t r := by
  obtain ⟨_, h2, h3, h4, h5⟩ := hp
  obtain ⟨x', hx1, hx2, hx3⟩ := hn.2 p.lex h3 h2
  refine ⟨{ p with lex := x', tok := t }, ?_, rfl, hx2, hx3, h4, h5⟩
  rw [parser.advance]
  simp [hx1, bind, Except.bind, hn.1.1, hn.1.2, pure, Except.pure]

theorem eat_step {p : parser} {t₀ t : token.Token} {rem r : List Nat} (n : Nat) (k : token.Kind)
    (hp : At p t₀ rem) (hk : t₀.Kind = k) (hn : NextTok rem t r) :
    ∃ p', parser.eat (n + 1) p k = .ok (t₀, p') ∧ At p' t r := by
  obtain ⟨p', h1, h2⟩ := advance_step n hp hn
  refine ⟨p', ?_, h2⟩
  simp [parser.eat, parser.expect, hp.1, hk, h1, bind, Except.bind, pure, Except.pure]

theorem parseIdentifier_step {p : parser} {t : token.Token} {w rem r : List Nat} (n : Nat)
    (hp : At p { Kind := token.Ident, Text := w } rem) (hn : NextTok rem t r) :
    ∃ p', parser.parseIdentifier (n + 1) p = .ok (.Identifier w, p') ∧ At p' t r := by
  obtain ⟨p', h1, h2⟩ := eat_step n token.Ident hp rfl hn
  exact ⟨p', by simp [parser.parseIdentifier, h1, bind, Except.bind, pure, Except.pure], h2⟩

end parser

namespace parser
open ast (Node)

theorem parseTypeReference_step {p : parser} {t : token.Token} {w rem r : List Nat} (n : Nat)
    (hp : At p { Kind := token.Ident, Text := w } rem) (hn : NextTok rem t r)
    (hd : t.Kind ≠ token.Dot) :
    ∃ p', parser.parseTypeReference (n + 1) p = .ok (.TypeReference (.Identifier w), p') ∧
      At p' t r := by
  obtain ⟨p', h1, h2⟩ := parseIdentifier_step n hp hn
  refine ⟨p', ?_, h2⟩
  simp [parser.parseTypeReference, h1, bind, Except.bind, pure, Except.pure, h2.1, hd]

theorem parseTypeInner_step {p : parser} {t : token.Token} {w rem r : List Nat} (n : Nat)
    (hp : At p { Kind := token.Ident, Text := w } rem) (hn : NextTok rem t r)
    (hd : t.Kind ≠ token.Dot) :
    ∃ p', parser.parseTypeInner (n + 2) p = .ok (.TypeReference (.Identifier w), p') ∧
      At p' t r := by
  obtain ⟨p', h1, h2⟩ := parseTypeReference_step n hp hn hd
  refine ⟨p', ?_, h2⟩
  rw [parser.parseTypeInner]
  simp [hp.1, h1]

theorem parseTypeCheckArray_step {p : parser} {t : token.Token} {w rem r : List Nat} (n : Nat)
    (hp : At p { Kind := token.Ident, Text := w } rem) (hn : NextTok rem t r)
    (hd : t.Kind ≠ token.Dot) (hb : t.Kind ≠ token.LBrack) :
    ∃ p', parser.parseTypeCheckArray (n + 3) p = .ok (.TypeReference (.Identifier w), p') ∧
      At p' t r := by
  obtain ⟨p', h1, h2⟩ := parseTypeInner_step n hp hn hd
  refine ⟨p', ?_, h2⟩
  rw [parser.parseTypeCheckArray]
  simp [h1, bind, Except.bind, pure, Except.pure, h2.1, hb]

end parser

namespace parser
open ast (Node)

theorem intercalate_cons (sep a : List Nat) (l : List (List Nat)) :
    List.intercalate sep (a :: l) = a ++ sepEach sep l := by
  induction l generalizing a with
  | nil => simp [List.intercalate, sepEach]
  | cons b l ih =>
    have := ih b
    simp only [List.intercalate, List.intersperse, List.flatten, sepEach] at this ⊢
    rw [this]
    simp

theorem endsIdent_sepEach (Ts : List (List Nat)) (tail : List Nat) (ht : endsIdent tail = true) :
    endsIdent (sepEach [32, 124, 32] Ts ++ tail) = true := by
  cases Ts with
  | nil => simpa [sepEach] using ht
  | cons V Vs => simp [sepEach, endsIdent, lexer.identEnd]

theorem unionLoop_step (t : token.Token) (tail r : List Nat) (hn : NextTok tail t r)
    (ht : endsIdent tail = true) (hd : t.Kind ≠ token.Dot) (hb : t.Kind ≠ token.LBrack)
    (ho : t.Kind ≠ token.Or) :
    ∀ (Ts : List (List Nat)) (U : List Nat) (acc : List Node) (p : parser) (n : Nat),
      isIdent U = true → (∀ V ∈ Ts, isIdent V = true) → Ts.length + 3 ≤ n →
      At p { Kind := token.Or } (32 :: U ++ (sepEach [32, 124, 32] Ts ++ tail)) →
      ∃ p', parser.parseTypeCheckUnionLoop (n + 1) acc p
          = .ok (.UnionType (acc ++ (U :: Ts).map typeRef), p') ∧ At p' t r := by
  intro Ts
  induction Ts with
  | nil =>
    intro U acc p n hU _ hf hp
    obtain ⟨m, rfl⟩ : ∃ m, n = m + 3 := ⟨n - 3, by simp at hf; omega⟩
    simp only [sepEach, List.nil_append] at hp
    obtain ⟨p1, h1, hp1⟩ := eat_step (m + 2) token.Or hp rfl
      (nextTok_space (nextTok_ident tail hU ht))
    obtain ⟨p2, h2, hp2⟩ := parseTypeCheckArray_step m hp1 hn hd hb
    refine ⟨p2, ?_, hp2⟩
    rw [parser.parseTypeCheckUnionLoop]
    simp [h1, h2, bind, Except.bind, pure, Except.pure, hp2.1, ho, typeRef]
  | cons V Vs ih =>
    intro U acc p n hU hTs hf hp
    obtain ⟨m, rfl⟩ : ∃ m, n = m + 4 := ⟨n - 4, by simp at hf; omega⟩
    have hV : isIdent V = true := hTs V (by simp)
    have hVs : ∀ W ∈ Vs, isIdent W = true := fun W hW => hTs W (by simp [hW])
    obtain ⟨p1, h1, hp1⟩ := eat_step (m + 3) token.Or hp rfl
      (nextTok_space (nextTok_ident _ hU (endsIdent_sepEach (V :: Vs) tail ht)))
    have hnx : NextTok (sepEach [32, 124, 32] (V :: Vs) ++ tail) { Kind := token.Or }
        (32 :: V ++ (sepEach [32, 124, 32] Vs ++ tail)) := by
      have := nextTok_space (nextTok_punct (c := 124) (k := token.Or)
        (32 :: V ++ (sepEach [32, 124, 32] Vs ++ tail)) rfl)
      simpa [sepEach] using this
    obtain ⟨p2, h2, hp2⟩ := parseTypeCheckArray_step (m + 1) hp1 hnx (by simp) (by simp)
    obtain ⟨p3, h3, hp3⟩ := ih V (acc ++ [typeRef U]) p2 (m + 3) hV hVs
      (by simp at hf ⊢; omega) hp2
    refine ⟨p3, ?_, hp3⟩
    rw [parser.parseTypeCheckUnionLoop]
    simp [h1, h2, bind, Except.bind, pure, Except.pure, hp2.1, typeRef] at h3 ⊢
    rw [h3]

end parser

namespace parser
open ast (Node)

theorem parseType_ident_step {p : parser} {t : token.Token} {tail r : List Nat}
    (T : List Nat) (Ts : List (List Nat)) (n : Nat)
    (hn : NextTok tail t r) (ht : endsIdent tail = true) (hd : t.Kind ≠ token.Dot)
    (hb : t.Kind ≠ token.LBrack) (ho : t.Kind ≠ token.Or)
    (_hT : isIdent T = true) (hTs : ∀ V ∈ Ts, isIdent V = true) (hf : Ts.length + 3 ≤ n)
    (hp : At p { Kind := token.Ident, Text := T } (sepEach [32, 124, 32] Ts ++ tail)) :
    ∃ p', parser.parseType (n + 3) p
        = .ok (if Ts = [] then typeRef T else .UnionType ((T :: Ts).map typeRef), p') ∧
      At p' t r := by
  cases Ts with
  | nil =>
    simp only [sepEach, List.nil_append] at hp
    obtain ⟨m, rfl⟩ : ∃ m, n = m + 3 := ⟨n - 3, by simp at hf; omega⟩
    obtain ⟨p1, h1, hp1⟩ := parseTypeCheckArray_step (m + 1) hp hn hd hb
    refine ⟨p1, ?_, hp1⟩
    rw [parser.parseType, parser.parseTypeCheckUnion]
    simp [h1, bind, Except.bind, pure, Except.pure, hp1.1, ho, typeRef]
  | cons V Vs =>
    obtain ⟨m, rfl⟩ : ∃ m, n = m + 4 := ⟨n - 4, by simp at hf; omega⟩
    have hV : isIdent V = true := hTs V (by simp)
    have hVs : ∀ W ∈ Vs, isIdent W = true := fun W hW => hTs W (by simp [hW])
    have hnx : NextTok (sepEach [32, 124, 32] (V :: Vs) ++ tail) { Kind := token.Or }
        (32 :: V ++ (sepEach [32, 124, 32] Vs ++ tail)) := by
      have := nextTok_space (nextTok_punct (c := 124) (k := token.Or)
        (32 :: V ++ (sepEach [32, 124, 32] Vs ++ tail)) rfl)
      simpa [sepEach] using this
    obtain ⟨p1, h1, hp1⟩ := parseTypeCheckArray_step (m + 2) hp hnx (by simp) (by simp)
    obtain ⟨p2, h2, hp2⟩ := unionLoop_step t tail r hn ht hd hb ho Vs V [typeRef T] p1 (m + 4)
      hV hVs (by simp at hf ⊢; omega) hp1
    refine ⟨p2, ?_, hp2⟩
    rw [parser.parseType, parser.parseTypeCheckUnion]
    simp [h1, bind, Except.bind, pure, Except.pure, hp1.1, typeRef] at h2 ⊢
    rw [h2]

theorem length_sepEach (Ts : List (List Nat)) :
    Ts.length ≤ (sepEach [32, 124, 32] Ts).length := by
  induction Ts with
  | nil => simp [sepEach]
  | cons V Vs ih => simp [sepEach]; omega

theorem at_consumeComment {p : parser} {t : token.Token} {rem : List Nat} (hp : At p t rem) :
    p.consumeComment = ([], p) := by
  obtain ⟨_, _, _, h4, _⟩ := hp
  cases p
  simp_all [parser.consumeComment]

theorem at_init (src : List Nat) : At { lex := { Source := src } } {} src := by
  simp [At, lexer.rem]

theorem union_run (X T : List Nat) (Ts : List (List Nat))
    (hX : isIdent X = true) (hT : isIdent T = true) (hTs : ∀ V ∈ Ts, isIdent V = true) :
    Parse (str "type " ++ X ++ str " = " ++ List.intercalate (str " | ") (T :: Ts) ++ str ";")
      = .ok (.SourceFile [.TypeAliasDeclaration (.Identifier X)
          (if Ts = [] then typeRef T else .UnionType ((T :: Ts).map typeRef)) []]) := by
  have e1 : str "type " = [116, 121, 112, 101, 32] := by decide
  have e2 : str " = " = [32, 61, 32] := by decide
  have e3 : str " | " = [32, 124, 32] := by decide
  have e4 : str ";" = [59] := by decide
  have e5 : str "type" = [116, 121, 112, 101] := by decide
  have hsrc : str "type " ++ X ++ str " = " ++ List.intercalate (str " | ") (T :: Ts) ++ str ";"
      = str "type" ++ (32 :: X ++ (32 :: 61 :: 32 :: T ++ (sepEach [32, 124, 32] Ts ++ [59]))) := by
    rw [intercalate_cons, e1, e2, e3, e4, e5]
    simp
  rw [hsrc]
  generalize hs : str "type" ++ (32 :: X ++ (32 :: 61 :: 32 :: T ++
    (sepEach [32, 124, 32] Ts ++ [59]))) = src
  have hlen : Ts.length ≤ src.length := by
    rw [← hs]
    have := length_sepEach Ts
    simp only [List.length_append, List.length_cons]
    omega
  obtain ⟨m, hm, hmT⟩ : ∃ m, budget src = m + 12 ∧ Ts.length + 3 ≤ m + 6 :=
    ⟨budget src - 12, by simp only [budget]; omega, by simp only [budget]; omega⟩
  -- the tokens, one after the other
  have n1 : NextTok src { Kind := token.Ident, Text := str "type" }
      (32 :: X ++ (32 :: 61 :: 32 :: T ++ (sepEach [32, 124, 32] Ts ++ [59]))) := by
    rw [← hs]
    exact nextTok_ident _ (by decide) (by simp [endsIdent, lexer.identEnd])
  have n2 : NextTok (32 :: X ++ (32 :: 61 :: 32 :: T ++ (sepEach [32, 124, 32] Ts ++ [59])))
      { Kind := token.Ident, Text := X }
      (32 :: 61 :: 32 :: T ++ (sepEach [32, 124, 32] Ts ++ [59])) :=
    nextTok_space (nextTok_ident _ hX (by simp [endsIdent, lexer.identEnd]))
  have n3 : NextTok (32 :: 61 :: 32 :: T ++ (sepEach [32, 124, 32] Ts ++ [59]))
      { Kind := token.Assign } (32 :: T ++ (sepEach [32, 124, 32] Ts ++ [59])) :=
    nextTok_space (nextTok_punct (c := 61) _ rfl)
  have n4 : NextTok (32 :: T ++ (sepEach [32, 124, 32] Ts ++ [59]))
      { Kind := token.Ident, Text := T } (sepEach [32, 124, 32] Ts ++ [59]) :=
    nextTok_space (nextTok_ident _ hT (endsIdent_sepEach Ts [59] (by decide)))
  have n5 : NextTok [59] { Kind := token.Semicolon } [] := nextTok_punct (c := 59) [] rfl
  -- the run of the parser
  obtain ⟨p1, h1, hp1⟩ := advance_step (m + 10) (at_init src) n1
  obtain ⟨p2, h2, hp2⟩ := eat_step (m + 8) token.Ident hp1 rfl n2
  obtain ⟨p3, h3, hp3⟩ := parseIdentifier_step (m + 8) hp2 n3
  obtain ⟨p4, h4, hp4⟩ := eat_step (m + 8) token.Assign hp3 rfl n4
  obtain ⟨p5, h5, hp5⟩ := parseType_ident_step T Ts (m + 6) n5 (by decide) (by simp) (by simp)
    (by simp) hT hTs hmT hp4
  obtain ⟨p6, h6, hp6⟩ := advance_step (m + 9) hp5 nextTok_eof
  have hne : str "type" ≠ str "export" ∧ str "type" ≠ str "const" := by decide
  have hstmt : parser.parseStatement (m + 11) p1
      = .ok (.TypeAliasDeclaration (.Identifier X)
          (if Ts = [] then typeRef T else .UnionType ((T :: Ts).map typeRef)) [], p5) := by
    rw [parser.parseStatement, parser.parseStatementLoop]
    simp only [parser.expect, hp1.1, bind, Except.bind, hne.1, hne.2, if_false, if_true,
      parser.parseTypeAliasDeclaration, h2, at_consumeComment hp2, h3, h4, h5, pure, Except.pure,
      ne_eq, not_true_eq_false]
  simp only [Parse, hm, parser.parseSourceFile]
  rw [parser.parseSourceFileLoop]
  simp only [h1, bind, Except.bind, hp1.1, hstmt]
  rw [parser.parseSourceFileLoop]
  simp [h6, bind, Except.bind, hp6.1, pure, Except.pure]

end parser

namespace parser
open ast (Node)

theorem endsIdent_sepEach_comma (Ts : List (List Nat)) (tail : List Nat)
    (ht : endsIdent tail = true) : endsIdent (sepEach [44, 32] Ts ++ tail) = true := by
  cases Ts with
  | nil => simpa [sepEach] using ht
  | cons V Vs => simp [sepEach, endsIdent, lexer.identEnd]

theorem length_sepEach_comma (Ts : List (List Nat)) :
    Ts.length ≤ (sepEach [44, 32] Ts).length := by
  induction Ts with
  | nil => simp [sepEach]
  | cons V Vs ih => simp [sepEach]; omega

theorem heritageLoop_step (t : token.Token) (tail r : List Nat) (hn : NextTok tail t r)
    (ht : endsIdent tail = true) (hc : t.Kind ≠ token.Comma) :
    ∀ (Ts : List (List Nat)) (U : List Nat) (acc : List Node) (p : parser) (n : Nat),
      isIdent U = true → (∀ V ∈ Ts, isIdent V = true) → Ts.length + 1 ≤ n →
      At p { Kind := token.Ident, Text := U } (sepEach [44, 32] Ts ++ tail) →
      ∃ p', parser.parseHeritageClausesLoop (n + 1) acc p
          = .ok (acc ++ (U :: Ts).map heritageOf, p') ∧ At p' t r := by
  intro Ts
  induction Ts with
  | nil =>
    intro U acc p n _ _ hf hp
    obtain ⟨m, rfl⟩ : ∃ m, n = m + 1 := ⟨n - 1, by simp at hf; omega⟩
    simp only [sepEach, List.nil_append] at hp
    obtain ⟨p1, h1, hp1⟩ := parseIdentifier_step m hp hn
    refine ⟨p1, ?_, hp1⟩
    rw [parser.parseHeritageClausesLoop]
    simp [parser.parseHeritageClause, parser.parseExpressionWithTypeArguments, h1, bind,
      Except.bind, pure, Except.pure, hp1.1, hc, heritageOf]
  | cons V Vs ih =>
    intro U acc p n _ hTs hf hp
    obtain ⟨m, rfl⟩ : ∃ m, n = m + 2 := ⟨n - 2, by simp at hf; omega⟩
    have hV : isIdent V = true := hTs V (by simp)
    have hVs : ∀ W ∈ Vs, isIdent W = true := fun W hW => hTs W (by simp [hW])
    have hnx : NextTok (sepEach [44, 32] (V :: Vs) ++ tail) { Kind := token.Comma }
        (32 :: V ++ (sepEach [44, 32] Vs ++ tail)) := by
      have := nextTok_punct (c := 44) (k := token.Comma)
        (32 :: V ++ (sepEach [44, 32] Vs ++ tail)) rfl
      simpa [sepEach] using this
    obtain ⟨p1, h1, hp1⟩ := parseIdentifier_step (m + 1) hp hnx
    obtain ⟨p2, h2, hp2⟩ := advance_step (m + 1) hp1
      (nextTok_space (nextTok_ident _ hV (endsIdent_sepEach_comma Vs tail ht)))
    obtain ⟨p3, h3, hp3⟩ := ih V (acc ++ [heritageOf U]) p2 (m + 1) hV hVs
      (by simp at hf ⊢; omega) hp2
    refine ⟨p3, ?_, hp3⟩
    rw [parser.parseHeritageClausesLoop]
    simp [parser.parseHeritageClause, parser.parseExpressionWithTypeArguments, h1, h2, bind,
      Except.bind, pure, Except.pure, hp1.1, heritageOf] at h3 ⊢
    rw [h3]

theorem heritage_run (A B : List Nat) (Bs : List (List Nat))
    (hA : isIdent A = true) (hB : isIdent B = true) (hBs : ∀ V ∈ Bs, isIdent V = true) :
    Parse (str "interface " ++ A ++ str " extends " ++ List.intercalate (str ", ") (B :: Bs)
        ++ str " \x7b\x7d")
      = .ok (.SourceFile [.InterfaceDeclaration (.Identifier A) []
          ((B :: Bs).map fun W => .HeritageClause [.ExpressionWithTypeArguments (.Identifier W)])
          [] []]) := by
  have e1 : str "interface " = str "interface" ++ [32] := by decide
  have e2 : str " extends " = 32 :: (str "extends" ++ [32]) := by decide
  have e3 : str ", " = [44, 32] := by decide
  have e4 : str " \x7b\x7d" = [32, 123, 125] := by decide
  have hsrc : str "interface " ++ A ++ str " extends " ++ List.intercalate (str ", ") (B :: Bs)
        ++ str " \x7b\x7d"
      = str "interface" ++ (32 :: A ++ (32 :: str "extends" ++ (32 :: B ++
          (sepEach [44, 32] Bs ++ [32, 123, 125])))) := by
    rw [intercalate_cons, e1, e2, e3, e4]
    simp
  rw [hsrc]
  generalize hs : str "interface" ++ (32 :: A ++ (32 :: str "extends" ++ (32 :: B ++
          (sepEach [44, 32] Bs ++ [32, 123, 125])))) = src
  have hlen : Bs.length ≤ src.length := by
    rw [← hs]
    have := length_sepEach_comma Bs
    simp only [List.length_append, List.length_cons]
    omega
  obtain ⟨m, hm, hmT⟩ : ∃ m, budget src = m + 12 ∧ Bs.length + 1 ≤ m + 7 :=
    ⟨budget src - 12, by simp only [budget]; omega, by simp only [budget]; omega⟩
  have n1 : NextTok src { Kind := token.Ident, Text := str "interface" }
      (32 :: A ++ (32 :: str "extends" ++ (32 :: B ++ (sepEach [44, 32] Bs ++ [32, 123, 125])))) := by
    rw [← hs]
    exact nextTok_ident _ (by decide) (by simp [endsIdent, lexer.identEnd])
  have n2 : NextTok
      (32 :: A ++ (32 :: str "extends" ++ (32 :: B ++ (sepEach [44, 32] Bs ++ [32, 123, 125]))))
      { Kind := token.Ident, Text := A }
      (32 :: str "extends" ++ (32 :: B ++ (sepEach [44, 32] Bs ++ [32, 123, 125]))) :=
    nextTok_space (nextTok_ident _ hA (by simp [endsIdent, lexer.identEnd]))
  have n3 : NextTok (32 :: str "extends" ++ (32 :: B ++ (sepEach [44, 32] Bs ++ [32, 123, 125])))
      { Kind := token.Ident, Text := str "extends" }
      (32 :: B ++ (sepEach [44, 32] Bs ++ [32, 123, 125])) :=
    nextTok_space (nextTok_ident _ (by decide) (by simp [endsIdent, lexer.identEnd]))
  have n4 : NextTok (32 :: B ++ (sepEach [44, 32] Bs ++ [32, 123, 125]))
      { Kind := token.Ident, Text := B } (sepEach [44, 32] Bs ++ [32, 123, 125]) :=
    nextTok_space (nextTok_ident _ hB (endsIdent_sepEach_comma Bs _ (by decide)))
  have n5 : NextTok [32, 123, 125] { Kind := token.LBrace } [125] :=
    nextTok_space (nextTok_punct (c := 123) _ rfl)
  have n6 : NextTok [125] { Kind := token.RBrace } [] := nextTok_punct (c := 125) _ rfl
  obtain ⟨p1, h1, hp1⟩ := advance_step (m + 10) (at_init src) n1
  obtain ⟨p2, h2, hp2⟩ := eat_step (m + 8) token.Ident hp1 rfl n2
  obtain ⟨p3, h3, hp3⟩ := parseIdentifier_step (m + 8) hp2 n3
  obtain ⟨p4, h4, hp4⟩ := eat_step (m + 8) token.Ident hp3 rfl n4
  obtain ⟨p5, h5, hp5⟩ := heritageLoop_step _ _ _ n5 (by decide) (by simp) Bs B [] p4 (m + 8)
    hB hBs (by omega) hp4
  obtain ⟨p6, h6, hp6⟩ := eat_step (m + 8) token.LBrace hp5 rfl n6
  obtain ⟨p7, h7, hp7⟩ := eat_step (m + 8) token.RBrace hp6 rfl nextTok_eof
  obtain ⟨p8, h8, hp8⟩ := advance_step (m + 9) hp7 nextTok_eof
  have hne : str "interface" ≠ str "export" ∧ str "interface" ≠ str "const" ∧
      str "interface" ≠ str "type" ∧ str "interface" ≠ str "enum" := by decide
  have hloop : parser.parseInterfaceDeclarationLoop (m + 9) [] p6 = .ok ([], p6) := by
    rw [parser.parseInterfaceDeclarationLoop]
    simp [hp6.1, pure, Except.pure]
  have hstmt : parser.parseStatement (m + 11) p1
      = .ok (.InterfaceDeclaration (.Identifier A) []
          ((B :: Bs).map fun W => .HeritageClause [.ExpressionWithTypeArguments (.Identifier W)])
          [] [], p7) := by
    rw [parser.parseStatement, parser.parseStatementLoop]
    simp only [parser.expect, hp1.1, bind, Except.bind, hne.1, hne.2.1, hne.2.2.1, hne.2.2.2,
      if_false, if_true, parser.parseInterfaceDeclaration, h2, at_consumeComment hp2, h3, h4, h5,
      pure, Except.pure, ne_eq, not_true_eq_false, hp3.1, parser.parseHeritageClauses,
      hloop, h6, h7, List.nil_append, and_self, token.Ident, token.LAngle,
      show ¬ ((4 : token.Kind) = 16) by decide]
    simp [heritageOf]
  simp only [Parse, hm, parser.parseSourceFile]
  rw [parser.parseSourceFileLoop]
  simp only [h1, bind, Except.bind, hp1.1, hstmt]
  rw [parser.parseSourceFileLoop]
  simp [h8, bind, Except.bind, hp8.1, pure, Except.pure]

end parser

namespace parser
open ast (Node)

theorem within_inv {n r : Node} (h : Node.Within n r) :
    n = r ∨ ∃ c ∈ r.children, Node.Within n c := by
  cases h with
  | root => exact Or.inl rfl
  | child c _ h1 h2 => exact Or.inr ⟨c, h2, h1⟩

theorem treeOk_mk {C : List Nat → Prop} {r : Node} (h1 : NodeOk C r)
    (h2 : ∀ c ∈ r.children, TreeOk C c) : TreeOk C r := by
  intro n hn
  rcases within_inv hn with rfl | ⟨c, hc, hw⟩
  · exact h1
  · exact h2 c hc n hw

theorem treeOk_iff {C : List Nat → Prop} (r : Node) :
    TreeOk C r ↔ NodeOk C r ∧ ∀ c ∈ r.children, TreeOk C c := by
  constructor
  · intro h
    exact ⟨h r (.root r), fun c hc n hn => h n (.child n c r hn hc)⟩
  · intro h
    exact treeOk_mk h.1 h.2

@[simp] theorem treeOk_nil {C : List Nat → Prop}  :
    TreeOk C (.nil ) ↔ True := by
  rw [treeOk_iff]
  simp [NodeOk, Node.children, Node.LeadingComment, or_imp, forall_and]

@[simp] theorem treeOk_NumericLiteral {C : List Nat → Prop} (x0 : List Nat) :
    TreeOk C (.NumericLiteral x0) ↔ True := by
  rw [treeOk_iff]
  simp [NodeOk, Node.children, Node.LeadingComment, or_imp, forall_and]

@[simp] theorem treeOk_StringLiteral {C : List Nat → Prop} (x0 : List Nat) :
    TreeOk C (.StringLiteral x0) ↔ True := by
  rw [treeOk_iff]
  simp [NodeOk, Node.children, Node.LeadingComment, or_imp, forall_and]

@[simp] theorem treeOk_ArrayLiteralExpression {C : List Nat → Prop} (x0 : List Node) :
    TreeOk C (.ArrayLiteralExpression x0) ↔ (∀ e ∈ x0, TreeOk C e) := by
  rw [treeOk_iff]
  simp [NodeOk, Node.children, Node.LeadingComment, or_imp, forall_and]

@[simp] theorem treeOk_Identifier {C : List Nat → Prop} (x0 : List Nat) :
    TreeOk C (.Identifier x0) ↔ True := by
  rw [treeOk_iff]
  simp [NodeOk, Node.children, Node.LeadingComment, or_imp, forall_and]

@[simp] theorem treeOk_QualifiedName {C : List Nat → Prop} (x0 : Node) (x1 : Node) :
    TreeOk C (.QualifiedName x0 x1) ↔ TreeOk C x0 ∧ TreeOk C x1 := by
  rw [treeOk_iff]
  simp [NodeOk, Node.children, Node.LeadingComment, or_imp, forall_and]

@[simp] theorem treeOk_EnumMember {C : List Nat → Prop} (x0 : Node) (x1 : Node) (x2 : List Nat) :
    TreeOk C (.EnumMember x0 x1 x2) ↔ (x2 = [] ∨ C x2) ∧ TreeOk C x0 ∧ TreeOk C x1 := by
  rw [treeOk_iff]
  simp [NodeOk, Node.children, Node.LeadingComment, or_imp, forall_and]

@[simp] theorem treeOk_TypeParameter {C : List Nat → Prop} (x0 : Node) :
    TreeOk C (.TypeParameter x0) ↔ TreeOk C x0 := by
  rw [treeOk_iff]
  simp [NodeOk, Node.children, Node.LeadingComment, or_imp, forall_and]

@[simp] theorem treeOk_ExpressionWithTypeArguments {C : List Nat → Prop} (x0 : Node) :
    TreeOk C (.ExpressionWithTypeArguments x0) ↔ TreeOk C x0 := by
  rw [treeOk_iff]
  simp [NodeOk, Node.children, Node.LeadingComment, or_imp, forall_and]

@[simp] theorem treeOk_Parameter {C : List Nat → Prop} (x0 : Node) (x1 : Node) :
    TreeOk C (.Parameter x0 x1) ↔ TreeOk C x0 ∧ TreeOk C x1 := by
  rw [treeOk_iff]
  simp [NodeOk, Node.children, Node.LeadingComment, or_imp, forall_and]

@[simp] theorem treeOk_VariableDeclarationList {C : List Nat → Prop} (x0 : List Node) :
    TreeOk C (.VariableDeclarationList x0) ↔ (∀ e ∈ x0, TreeOk C e) := by
  rw [treeOk_iff]
  simp [NodeOk, Node.children, Node.LeadingComment, or_imp, forall_and]

@[simp] theorem treeOk_VariableDeclaration {C : List Nat → Prop} (x0 : Node) (x1 : Node) (x2 : Node) :
    TreeOk C (.VariableDeclaration x0 x1 x2) ↔ TreeOk C x0 ∧ TreeOk C x1 ∧ TreeOk C x2 := by
  rw [treeOk_iff]
  simp [NodeOk, Node.children, Node.LeadingComment, or_imp, forall_and]

@[simp] theorem treeOk_PrefixUnaryExpression {C : List Nat → Prop} (x0 : token.Kind) (x1 : Node) :
    TreeOk C (.PrefixUnaryExpression x0 x1) ↔ TreeOk C x1 := by
  rw [treeOk_iff]
  simp [NodeOk, Node.children, Node.LeadingComment, or_imp, forall_and]

@[simp] theorem treeOk_LiteralType {C : List Nat → Prop} (x0 : Node) :
    TreeOk C (.LiteralType x0) ↔ TreeOk C x0 := by
  rw [treeOk_iff]
  simp [NodeOk, Node.children, Node.LeadingComment, or_imp, forall_and]

@[simp] theorem treeOk_TypeLiteral {C : List Nat → Prop} (x0 : List Node) :
    TreeOk C (.TypeLiteral x0) ↔ (∀ e ∈ x0, TreeOk C e) := by
  rw [treeOk_iff]
  simp [NodeOk, Node.children, Node.LeadingComment, or_imp, forall_and]

@[simp] theorem treeOk_ArrayType {C : List Nat → Prop} (x0 : Node) :
    TreeOk C (.ArrayType x0) ↔ TreeOk C x0 := by
  rw [treeOk_iff]
  simp [NodeOk, Node.children, Node.LeadingComment, or_imp, forall_and]

@[simp] theorem treeOk_TypeReference {C : List Nat → Prop} (x0 : Node) :
    TreeOk C (.TypeReference x0) ↔ TreeOk C x0 := by
  rw [treeOk_iff]
  simp [NodeOk, Node.children, Node.LeadingComment, or_imp, forall_and]

@[simp] theorem treeOk_TupleType {C : List Nat → Prop} (x0 : List Node) :
    TreeOk C (.TupleType x0) ↔ (∀ e ∈ x0, TreeOk C e) := by
  rw [treeOk_iff]
  simp [NodeOk, Node.children, Node.LeadingComment, or_imp, forall_and]

@[simp] theorem treeOk_ParenthesizedType {C : List Nat → Prop} (x0 : Node) :
    TreeOk C (.ParenthesizedType x0) ↔ TreeOk C x0 := by
  rw [treeOk_iff]
  simp [NodeOk, Node.children, Node.LeadingComment, or_imp, forall_and]

@[simp] theorem treeOk_PropertySignature {C : List Nat → Prop} (x0 : Node) (x1 : Bool) (x2 : Node) (x3 : List Nat) (x4 : List Nat) :
    TreeOk C (.PropertySignature x0 x1 x2 x3 x4) ↔ (x3 = [] ∨ C x3) ∧ TreeOk C x0 ∧ TreeOk C x2 := by
  rw [treeOk_iff]
  simp [NodeOk, Node.children, Node.LeadingComment, or_imp, forall_and]

@[simp] theorem treeOk_IndexSignature {C : List Nat → Prop} (x0 : List Node) (x1 : Node) (x2 : List Nat) :
    TreeOk C (.IndexSignature x0 x1 x2) ↔ (x2 = [] ∨ C x2) ∧ (∀ e ∈ x0, TreeOk C e) ∧ TreeOk C x1 := by
  rw [treeOk_iff]
  simp [NodeOk, Node.children, Node.LeadingComment, or_imp, forall_and]

@[simp] theorem treeOk_SourceFile {C : List Nat → Prop} (x0 : List Node) :
    TreeOk C (.SourceFile x0) ↔ (∀ e ∈ x0, TreeOk C e) := by
  rw [treeOk_iff]
  simp [NodeOk, Node.children, Node.LeadingComment, or_imp, forall_and]

@[simp] theorem treeOk_ModuleBlock {C : List Nat → Prop} (x0 : List Node) :
    TreeOk C (.ModuleBlock x0) ↔ (∀ e ∈ x0, TreeOk C e) := by
  rw [treeOk_iff]
  simp [NodeOk, Node.children, Node.LeadingComment, or_imp, forall_and]

@[simp] theorem treeOk_VariableStatement {C : List Nat → Prop} (x0 : Node) (x1 : List Nat) :
    TreeOk C (.VariableStatement x0 x1) ↔ (x1 = [] ∨ C x1) ∧ TreeOk C x0 := by
  rw [treeOk_iff]
  simp [NodeOk, Node.children, Node.LeadingComment, or_imp, forall_and]

@[simp] theorem treeOk_TypeAliasDeclaration {C : List Nat → Prop} (x0 : Node) (x1 : Node) (x2 : List Nat) :
    TreeOk C (.TypeAliasDeclaration x0 x1 x2) ↔ (x2 = [] ∨ C x2) ∧ TreeOk C x0 ∧ TreeOk C x1 := by
  rw [treeOk_iff]
  simp [NodeOk, Node.children, Node.LeadingComment, or_imp, forall_and]

@[simp] theorem treeOk_EnumDeclaration {C : List Nat → Prop} (x0 : Node) (x1 : List Node) (x2 : List Nat) :
    TreeOk C (.EnumDeclaration x0 x1 x2) ↔ (x2 = [] ∨ C x2) ∧ TreeOk C x0 ∧ (∀ e ∈ x1, TreeOk C e) := by
  rw [treeOk_iff]
  simp [NodeOk, Node.children, Node.LeadingComment, or_imp, forall_and]

@[simp] theorem treeOk_InterfaceDeclaration {C : List Nat → Prop} (x0 : Node) (x1 : List Node) (x2 : List Node) (x3 : List Node) (x4 : List Nat) :
    TreeOk C (.InterfaceDeclaration x0 x1 x2 x3 x4) ↔ (x4 = [] ∨ C x4) ∧ TreeOk C x0 ∧ (∀ e ∈ x1, TreeOk C e) ∧ (∀ e ∈ x2, TreeOk C e) ∧ (∀ e ∈ x3, TreeOk C e) := by
  rw [treeOk_iff]
  simp [NodeOk, Node.children, Node.LeadingComment, or_imp, forall_and]

@[simp] theorem treeOk_ModuleDeclaration {C : List Nat → Prop} (x0 : Node) (x1 : Node) (x2 : List Nat) :
    TreeOk C (.ModuleDeclaration x0 x1 x2) ↔ (x2 = [] ∨ C x2) ∧ TreeOk C x0 ∧ TreeOk C x1 := by
  rw [treeOk_iff]
  simp [NodeOk, Node.children, Node.LeadingComment, or_imp, forall_and]

@[simp] theorem treeOk_UnionType {C : List Nat → Prop} (ts : List Node) :
    TreeOk C (.UnionType ts) ↔
      (2 ≤ ts.length ∧ ∀ t ∈ ts, t.isUnionType = false) ∧ ∀ e ∈ ts, TreeOk C e := by
  rw [treeOk_iff]
  simp [NodeOk, Node.children, Node.LeadingComment]

@[simp] theorem treeOk_HeritageClause {C : List Nat → Prop} (ts : List Node) :
    TreeOk C (.HeritageClause ts) ↔ ts.length = 1 ∧ ∀ e ∈ ts, TreeOk C e := by
  rw [treeOk_iff]
  simp [NodeOk, Node.children, Node.LeadingComment]

theorem ok_consumeComment {C : List Nat → Prop} {L : lexer → Prop} (p : parser)
    (hp : StateOk C L p) :
    StateOk C L p.consumeComment.2 ∧
      (p.consumeComment.1 = [] ∨ C p.consumeComment.1) :=
  ⟨⟨hp.1, Or.inl rfl⟩, hp.2⟩

theorem ok_consumeLineComment {C : List Nat → Prop} {L : lexer → Prop} (p : parser)
    (hp : StateOk C L p) : StateOk C L p.consumeLineComment.2 := hp

theorem mem_snoc {α : Type} {P : α → Prop} {acc : List α} {a : α} (h : ∀ e ∈ acc, P e)
    (ha : P a) : ∀ e ∈ acc ++ [a], P e := by
  intro e he
  rcases List.mem_append.1 he with h1 | h1
  · exact h e h1
  · rw [List.mem_singleton.1 h1]
    exact ha

section
variable {C : List Nat → Prop} {L : lexer → Prop} (hL : PopOk C L)
include hL

theorem ok_advance : ∀ (n : Nat) (p p' : parser), StateOk C L p →
    parser.advance n p = .ok p' → StateOk C L p' := by
  intro n
  induction n with
  | zero => intro p p' _ h; simp [parser.advance] at h
  | succ n ih =>
    intro p p' hp h
    rw [parser.advance] at h
    simp only [bind_ok] at h
    obtain ⟨⟨t, x⟩, h1, h⟩ := h
    obtain ⟨hx, hc⟩ := hL _ _ _ hp.1 h1
    dsimp only at h
    split at h
    · rename_i hk
      refine ih _ p' ?_ h
      exact ⟨hx, Or.inr (hc hk)⟩
    · split at h
      · refine ih _ p' ?_ h
        exact ⟨hx, hp.2⟩
      · simp only [pure, Except.pure, Except.ok.injEq] at h
        subst h
        exact ⟨hx, hp.2⟩

theorem ok_eat (n : Nat) (p p' : parser) (k : token.Kind) (t : token.Token)
    (hp : StateOk C L p) (h : parser.eat n p k = .ok (t, p')) : StateOk C L p' := by
  simp only [parser.eat, bind_ok] at h
  obtain ⟨_, _, q, h1, h⟩ := h
  simp only [pure, Except.pure, Except.ok.injEq, Prod.mk.injEq] at h
  obtain ⟨_, rfl⟩ := h
  exact ok_advance hL _ _ _ hp h1

theorem ok_optAdvance (n : Nat) (c : Prop) [Decidable c] (p q : parser) (hp : StateOk C L p)
    (h : (if c then parser.advance n p else pure p) = .ok q) : StateOk C L q := by
  split at h
  · exact ok_advance hL _ _ _ hp h
  · cases h
    exact hp

theorem ok_parseIdentifier (n : Nat) : KeepsNU C L (parser.parseIdentifier n) := by
  intro p r p' hp h
  simp only [parser.parseIdentifier, bind_ok, Prod.exists] at h
  obtain ⟨t, q, h1, h⟩ := h
  cases h
  exact ⟨ok_eat hL _ _ _ _ _ hp h1, by simp, rfl⟩

theorem ok_parseTypeReference (n : Nat) : KeepsNU C L (parser.parseTypeReference n) := by
  intro p r p' hp h
  simp only [parser.parseTypeReference, bind_ok, Prod.exists] at h
  obtain ⟨a, q, h1, h⟩ := h
  obtain ⟨hq, ha, _⟩ := ok_parseIdentifier hL n _ _ _ hp h1
  split at h
  · cases h
    exact ⟨hq, by simp [ha], rfl⟩
  · simp only [bind_ok, Prod.exists] at h
    obtain ⟨q2, h2, b, q3, h3, h⟩ := h
    cases h
    obtain ⟨hq3, hb, _⟩ := ok_parseIdentifier hL n _ _ _ (ok_advance hL _ _ _ hq h2) h3
    exact ⟨hq3, by simp [ha, hb], rfl⟩

theorem ok_types : ∀ n : Nat,
    KeepsN C L (parser.parseType n) ∧
    KeepsN C L (parser.parseTypeCheckUnion n) ∧
    (∀ acc, acc ≠ [] → (∀ e ∈ acc, TreeOk C e ∧ e.isUnionType = false) →
      KeepsN C L (parser.parseTypeCheckUnionLoop n acc)) ∧
    KeepsNU C L (parser.parseTypeCheckArray n) ∧
    KeepsNU C L (parser.parseTypeInner n) ∧
    KeepsNU C L (parser.parseTupleType n) ∧
    (∀ acc, (∀ e ∈ acc, TreeOk C e) → KeepsNU C L (parser.parseTupleTypeLoop n acc)) ∧
    KeepsNU C L (parser.parseParenthesizedType n) ∧
    KeepsNU C L (parser.parseTypeLiteral n) ∧
    (∀ acc, (∀ e ∈ acc, TreeOk C e) → KeepsNU C L (parser.parseTypeLiteralLoop n acc)) ∧
    KeepsN C L (parser.parseSignature n) ∧
    KeepsN C L (parser.parsePropertySignature n) ∧
    KeepsN C L (parser.parseIndexSignature n) ∧
    (∀ acc, (∀ e ∈ acc, TreeOk C e) → KeepsL C L (parser.parseIndexSignatureLoop n acc)) ∧
    KeepsN C L (parser.parseParameter n) := by
  intro n
  induction n with
  | zero =>
    refine ⟨?_, ?_, ?_, ?_, ?_, ?_, ?_, ?_, ?_, ?_, ?_, ?_, ?_, ?_, ?_⟩
    · intro p r p' _ h; rw [parser.parseType] at h; cases h
    · intro p r p' _ h; rw [parser.parseTypeCheckUnion] at h; cases h
    · intro acc _ _ p r p' _ h; rw [parser.parseTypeCheckUnionLoop] at h; cases h
    · intro p r p' _ h; rw [parser.parseTypeCheckArray] at h; cases h
    · intro p r p' _ h; rw [parser.parseTypeInner] at h; cases h
    · intro p r p' _ h; rw [parser.parseTupleType] at h; cases h
    · intro acc _ p r p' _ h; rw [parser.parseTupleTypeLoop] at h; cases h
    · intro p r p' _ h; rw [parser.parseParenthesizedType] at h; cases h
    · intro p r p' _ h; rw [parser.parseTypeLiteral] at h; cases h
    · intro acc _ p r p' _ h; rw [parser.parseTypeLiteralLoop] at h; cases h
    · intro p r p' _ h; rw [parser.parseSignature] at h; cases h
    · intro p r p' _ h; rw [parser.parsePropertySignature] at h; cases h
    · intro p r p' _ h; rw [parser.parseIndexSignature] at h; cases h
    · intro acc _ p r p' _ h; rw [parser.parseIndexSignatureLoop] at h; cases h
    · intro p r p' _ h; rw [parser.parseParameter] at h; cases h
  | succ n ih =>
    obtain ⟨iType, iUnion, iUnionLoop, iArray, iInner, iTuple, iTupleLoop, iParen, iLit, iLitLoop,
      iSig, iProp, iIndex, iIndexLoop, iParam⟩ := ih
    refine ⟨?_, ?_, ?_, ?_, ?_, ?_, ?_, ?_, ?_, ?_, ?_, ?_, ?_, ?_, ?_⟩
    · -- parseType
      intro p r p' hp h
      rw [parser.parseType] at h
      exact iUnion p r p' hp h
    · -- parseTypeCheckUnion
      intro p r p' hp h
      rw [parser.parseTypeCheckUnion] at h
      simp only [bind_ok, Prod.exists] at h
      obtain ⟨a, q, h1, h⟩ := h
      obtain ⟨hq, ha, hu⟩ := iArray _ _ _ hp h1
      split at h
      · cases h
        exact ⟨hq, ha⟩
      · exact iUnionLoop [a] (by simp) (by simp [ha, hu]) _ _ _ hq h
    · -- parseTypeCheckUnionLoop
      intro acc hne hacc p r p' hp h
      rw [parser.parseTypeCheckUnionLoop] at h
      simp only [bind_ok, Prod.exists] at h
      obtain ⟨t, q, h1, a, q2, h2, h⟩ := h
      obtain ⟨hq2, ha, hu⟩ := iArray _ _ _ (ok_eat hL _ _ _ _ _ hp h1) h2
      have hacc2 : ∀ e ∈ acc ++ [a], TreeOk C e ∧ e.isUnionType = false :=
        mem_snoc hacc ⟨ha, hu⟩
      split at h
      · cases h
        refine ⟨hq2, ?_⟩
        have hlen : 2 ≤ (acc ++ [a]).length := by
          cases acc with
          | nil => exact absurd rfl hne
          | cons b bs => simp
        simp only [treeOk_UnionType]
        exact ⟨⟨hlen, fun t ht => (hacc2 t ht).2⟩, fun t ht => (hacc2 t ht).1⟩
      · exact iUnionLoop _ (by simp) hacc2 _ _ _ hq2 h
    · -- parseTypeCheckArray
      intro p r p' hp h
      rw [parser.parseTypeCheckArray] at h
      simp only [bind_ok, Prod.exists] at h
      obtain ⟨a, q, h1, h⟩ := h
      obtain ⟨hq, ha, hu⟩ := iInner _ _ _ hp h1
      split at h
      · cases h
        exact ⟨hq, ha, hu⟩
      · simp only [bind_ok, Prod.exists] at h
        obtain ⟨t1, q1, h2, t2, q2, h3, h⟩ := h
        cases h
        exact ⟨ok_eat hL _ _ _ _ _ (ok_eat hL _ _ _ _ _ hq h2) h3, by simp [ha], rfl⟩
    · -- parseTypeInner
      intro p r p' hp h
      rw [parser.parseTypeInner] at h
      split at h
      · exact ok_parseTypeReference hL _ _ _ _ hp h
      split at h
      · exact iLit _ _ _ hp h
      split at h
      · exact iParen _ _ _ hp h
      split at h
      · exact iTuple _ _ _ hp h
      split at h
      · simp only [bind_ok, Prod.exists] at h
        obtain ⟨t, q, h1, h⟩ := h
        cases h
        exact ⟨ok_eat hL _ _ _ _ _ hp h1, by simp, rfl⟩
      split at h
      · simp only [bind_ok, Prod.exists] at h
        obtain ⟨t, q, h1, h⟩ := h
        cases h
        exact ⟨ok_eat hL _ _ _ _ _ hp h1, by simp, rfl⟩
      · cases h
    · -- parseTupleType
      intro p r p' hp h
      rw [parser.parseTupleType] at h
      simp only [bind_ok, Prod.exists] at h
      obtain ⟨t, q, h1, h⟩ := h
      exact iTupleLoop [] (by simp) _ _ _ (ok_eat hL _ _ _ _ _ hp h1) h
    · -- parseTupleTypeLoop
      intro acc hacc p r p' hp h
      rw [parser.parseTupleTypeLoop] at h
      simp only [bind_ok, Prod.exists] at h
      obtain ⟨a, q, h1, h⟩ := h
      obtain ⟨hq, ha⟩ := iType _ _ _ hp h1
      have hacc2 : ∀ e ∈ acc ++ [a], TreeOk C e := mem_snoc hacc ha
      split at h
      · simp only [bind_ok, Prod.exists] at h
        obtain ⟨t, q2, h2, h⟩ := h
        cases h
        exact ⟨ok_eat hL _ _ _ _ _ hq h2, by simpa using hacc2, rfl⟩
      · simp only [bind_ok] at h
        obtain ⟨q2, h2, h⟩ := h
        exact iTupleLoop _ hacc2 _ _ _ (ok_advance hL _ _ _ hq h2) h
    · -- parseParenthesizedType
      intro p r p' hp h
      rw [parser.parseParenthesizedType] at h
      simp only [bind_ok, Prod.exists] at h
      obtain ⟨t, q, h1, a, q2, h2, t3, q3, h3, h⟩ := h
      cases h
      obtain ⟨hq2, ha⟩ := iType _ _ _ (ok_eat hL _ _ _ _ _ hp h1) h2
      exact ⟨ok_eat hL _ _ _ _ _ hq2 h3, by simp [ha], rfl⟩
    · -- parseTypeLiteral
      intro p r p' hp h
      rw [parser.parseTypeLiteral] at h
      simp only [bind_ok, Prod.exists] at h
      obtain ⟨t, q, h1, h⟩ := h
      exact iLitLoop [] (by simp) _ _ _ (ok_eat hL _ _ _ _ _ hp h1) h
    · -- parseTypeLiteralLoop
      intro acc hacc p r p' hp h
      rw [parser.parseTypeLiteralLoop] at h
      split at h
      · simp only [bind_ok, Prod.exists] at h
        obtain ⟨t, q, h1, h⟩ := h
        cases h
        exact ⟨ok_eat hL _ _ _ _ _ hp h1, by simpa using hacc, rfl⟩
      · simp only [bind_ok, Prod.exists] at h
        obtain ⟨a, q, h1, h⟩ := h
        obtain ⟨hq, ha⟩ := iSig _ _ _ hp h1
        exact iLitLoop _ (mem_snoc hacc ha) _ _ _ hq h
    · -- parseSignature
      intro p r p' hp h
      rw [parser.parseSignature] at h
      split at h
      · exact iProp _ _ _ hp h
      split at h
      · exact iIndex _ _ _ hp h
      · cases h
    · -- parsePropertySignature
      intro p r p' hp h
      rw [parser.parsePropertySignature] at h
      simp only [bind_ok, Prod.exists] at h
      obtain ⟨q1, h1, name, q2, h2, qt, q3, h3, t4, q4, h4, typ, q5, h5, q6, h6, h⟩ := h
      cases h
      obtain ⟨hc1, hc2⟩ := ok_consumeComment (C := C) (L := L) p hp
      have hq1 := ok_optAdvance hL _ _ _ _ hc1 h1
      obtain ⟨hq2, hname, _⟩ := ok_parseIdentifier hL _ _ _ _ hq1 h2
      have hq3 : StateOk C L q3 := by
        split at h3
        · simp only [bind_ok] at h3
          obtain ⟨q, h31, h32⟩ := h3
          cases h32
          exact ok_advance hL _ _ _ hq2 h31
        · cases h3
          exact hq2
      obtain ⟨hq5, htyp⟩ := iType _ _ _ (ok_eat hL _ _ _ _ _ hq3 h4) h5
      have hq6 := ok_optAdvance hL _ _ _ _ hq5 h6
      exact ⟨ok_consumeLineComment _ hq6, by simp [hname, htyp, hc2]⟩
    · -- parseIndexSignature
      intro p r p' hp h
      rw [parser.parseIndexSignature] at h
      simp only [bind_ok, Prod.exists] at h
      obtain ⟨t1, q1, h1, ps, q2, h2, t3, q3, h3, t4, q4, h4, typ, q5, h5, q6, h6, h⟩ := h
      cases h
      obtain ⟨hc1, hc2⟩ := ok_consumeComment (C := C) (L := L) p hp
      obtain ⟨hq2, hps⟩ := iIndexLoop [] (by simp) _ _ _ (ok_eat hL _ _ _ _ _ hc1 h1) h2
      have hq3 := ok_eat hL _ _ _ _ _ (ok_consumeLineComment _ hq2) h3
      obtain ⟨hq5, htyp⟩ := iType _ _ _ (ok_eat hL _ _ _ _ _ hq3 h4) h5
      exact ⟨ok_optAdvance hL _ _ _ _ hq5 h6, by simp [htyp, hc2]; exact hps⟩
    · -- parseIndexSignatureLoop
      intro acc hacc p r p' hp h
      rw [parser.parseIndexSignatureLoop] at h
      split at h
      · simp only [bind_ok, Prod.exists] at h
        obtain ⟨a, q, h1, h⟩ := h
        obtain ⟨hq, ha⟩ := iParam _ _ _ hp h1
        exact iIndexLoop _ (mem_snoc hacc ha) _ _ _ hq h
      · cases h
        exact ⟨hp, hacc⟩
    · -- parseParameter
      intro p r p' hp h
      rw [parser.parseParameter] at h
      simp only [bind_ok, Prod.exists] at h
      obtain ⟨name, q1, h1, t2, q2, h2, typ, q3, h3, h⟩ := h
      cases h
      obtain ⟨hq1, hname, _⟩ := ok_parseIdentifier hL _ _ _ _ hp h1
      obtain ⟨hq3, htyp⟩ := iType _ _ _ (ok_eat hL _ _ _ _ _ hq1 h2) h3
      exact ⟨hq3, by simp [hname, htyp]⟩

end

end parser

namespace parser
open ast (Node)

section
variable {C : List Nat → Prop} {L : lexer → Prop} (hL : PopOk C L)
include hL

theorem ok_parseTypeParametersLoop : ∀ (n : Nat) (acc : List Node), (∀ e ∈ acc, TreeOk C e) →
    KeepsL C L (parser.parseTypeParametersLoop n acc) := by
  intro n
  induction n with
  | zero => intro acc _ p r p' _ h; rw [parser.parseTypeParametersLoop] at h; cases h
  | succ n ih =>
    intro acc hacc p r p' hp h
    rw [parser.parseTypeParametersLoop] at h
    simp only [parser.parseTypeParameter, bind_ok, Prod.exists] at h
    obtain ⟨a, q, ⟨name, q1, h1, h1'⟩, h⟩ := h
    cases h1'
    obtain ⟨hq, hname, _⟩ := ok_parseIdentifier hL _ _ _ _ hp h1
    have hacc2 : ∀ e ∈ acc ++ [Node.TypeParameter name], TreeOk C e :=
      mem_snoc hacc (by simp [hname])
    split at h
    · cases h
      exact ⟨hq, hacc2⟩
    · simp only [bind_ok] at h
      obtain ⟨q2, h2, h⟩ := h
      exact ih _ hacc2 _ _ _ (ok_advance hL _ _ _ hq h2) h

theorem ok_parseTypeParameters (n : Nat) : KeepsL C L (parser.parseTypeParameters n) := by
  intro p r p' hp h
  simp only [parser.parseTypeParameters, bind_ok, Prod.exists] at h
  obtain ⟨t, q, h1, a, q2, h2, t3, q3, h3, h⟩ := h
  cases h
  obtain ⟨hq2, ha⟩ := ok_parseTypeParametersLoop hL _ [] (by simp) _ _ _
    (ok_eat hL _ _ _ _ _ hp h1) h2
  exact ⟨ok_eat hL _ _ _ _ _ hq2 h3, ha⟩

theorem ok_parseHeritageClausesLoop : ∀ (n : Nat) (acc : List Node), (∀ e ∈ acc, TreeOk C e) →
    KeepsL C L (parser.parseHeritageClausesLoop n acc) := by
  intro n
  induction n with
  | zero => intro acc _ p r p' _ h; rw [parser.parseHeritageClausesLoop] at h; cases h
  | succ n ih =>
    intro acc hacc p r p' hp h
    rw [parser.parseHeritageClausesLoop] at h
    simp only [parser.parseHeritageClause, parser.parseExpressionWithTypeArguments, bind_ok,
      Prod.exists] at h
    obtain ⟨a, q, ⟨b, q0, ⟨name, q1, h1, h1'⟩, h1''⟩, h⟩ := h
    cases h1'
    cases h1''
    obtain ⟨hq, hname, _⟩ := ok_parseIdentifier hL _ _ _ _ hp h1
    have hacc2 : ∀ e ∈ acc ++ [Node.HeritageClause [Node.ExpressionWithTypeArguments name]],
        TreeOk C e := mem_snoc hacc (by simp [hname])
    split at h
    · cases h
      exact ⟨hq, hacc2⟩
    · simp only [bind_ok] at h
      obtain ⟨q2, h2, h⟩ := h
      exact ih _ hacc2 _ _ _ (ok_advance hL _ _ _ hq h2) h

theorem ok_parseHeritageClauses (n : Nat) : KeepsL C L (parser.parseHeritageClauses n) := by
  intro p r p' hp h
  simp only [parser.parseHeritageClauses, bind_ok, Prod.exists] at h
  obtain ⟨t, q, h1, h⟩ := h
  exact ok_parseHeritageClausesLoop hL _ [] (by simp) _ _ _ (ok_eat hL _ _ _ _ _ hp h1) h

theorem ok_inits : ∀ n : Nat,
    KeepsN C L (parser.parseInitializer n) ∧
    KeepsN C L (parser.parseArrayLiteralExpression n) ∧
    (∀ acc, (∀ e ∈ acc, TreeOk C e) →
      KeepsL C L (parser.parseArrayLiteralExpressionLoop n acc)) := by
  intro n
  induction n with
  | zero =>
    refine ⟨?_, ?_, ?_⟩
    · intro p r p' _ h; rw [parser.parseInitializer] at h; cases h
    · intro p r p' _ h; rw [parser.parseArrayLiteralExpression] at h; cases h
    · intro acc _ p r p' _ h; rw [parser.parseArrayLiteralExpressionLoop] at h; cases h
  | succ n ih =>
    obtain ⟨iInit, iArr, iLoop⟩ := ih
    refine ⟨?_, ?_, ?_⟩
    · intro p r p' hp h
      rw [parser.parseInitializer] at h
      split at h
      · simp only [bind_ok, Prod.exists] at h
        obtain ⟨t, q, h1, h⟩ := h
        cases h
        exact ⟨ok_eat hL _ _ _ _ _ hp h1, by simp⟩
      split at h
      · simp only [bind_ok, Prod.exists] at h
        obtain ⟨t, q, h1, h⟩ := h
        cases h
        exact ⟨ok_eat hL _ _ _ _ _ hp h1, by simp⟩
      split at h
      · simp only [bind_ok, Prod.exists] at h
        obtain ⟨q, h1, a, q2, h2, h⟩ := h
        cases h
        obtain ⟨hq2, ha⟩ := iInit _ _ _ (ok_advance hL _ _ _ hp h1) h2
        exact ⟨hq2, by simp [ha]⟩
      split at h
      · simp only [bind_ok, Prod.exists] at h
        obtain ⟨a, q, h1, h⟩ := h
        cases h
        obtain ⟨hq, ha, _⟩ := ok_parseIdentifier hL _ _ _ _ hp h1
        exact ⟨hq, by simp [ha]⟩
      split at h
      · exact iArr _ _ _ hp h
      · cases h
    · intro p r p' hp h
      rw [parser.parseArrayLiteralExpression] at h
      simp only [bind_ok, Prod.exists] at h
      obtain ⟨t, q, h1, es, q2, h2, t3, q3, h3, h⟩ := h
      cases h
      obtain ⟨hq2, hes⟩ := iLoop [] (by simp) _ _ _ (ok_eat hL _ _ _ _ _ hp h1) h2
      exact ⟨ok_eat hL _ _ _ _ _ hq2 h3, by simpa using hes⟩
    · intro acc hacc p r p' hp h
      rw [parser.parseArrayLiteralExpressionLoop] at h
      split at h
      · simp only [bind_ok, Prod.exists] at h
        obtain ⟨a, q, h1, q2, h2, h⟩ := h
        obtain ⟨hq, ha⟩ := iInit _ _ _ hp h1
        exact iLoop _ (mem_snoc hacc ha) _ _ _ (ok_optAdvance hL _ _ _ _ hq h2) h
      · cases h
        exact ⟨hp, hacc⟩

theorem ok_parseVariableDeclaration (n : Nat) :
    KeepsN C L (parser.parseVariableDeclaration n) := by
  intro p r p' hp h
  simp only [parser.parseVariableDeclaration, bind_ok, Prod.exists] at h
  obtain ⟨name, q1, h1, typ, q2, h2, ini, q3, h3, h⟩ := h
  obtain ⟨hq1, hname, _⟩ := ok_parseIdentifier hL _ _ _ _ hp h1
  have h2' : StateOk C L q2 ∧ TreeOk C typ := by
    split at h2
    · simp only [bind_ok] at h2
      obtain ⟨q, h21, h22⟩ := h2
      exact (ok_types hL n).1 _ _ _ (ok_advance hL _ _ _ hq1 h21) h22
    · cases h2
      exact ⟨hq1, by simp⟩
  have h3' : StateOk C L q3 ∧ TreeOk C ini := by
    split at h3
    · simp only [bind_ok] at h3
      obtain ⟨q, h31, h32⟩ := h3
      exact (ok_inits hL n).1 _ _ _ (ok_advance hL _ _ _ h2'.1 h31) h32
    · cases h3
      exact ⟨h2'.1, by simp⟩
  cases h
  exact ⟨h3'.1, by simp [hname, h2'.2, h3'.2]⟩

theorem ok_parseVariableDeclarationListLoop : ∀ (n : Nat) (acc : List Node),
    (∀ e ∈ acc, TreeOk C e) → KeepsN C L (parser.parseVariableDeclarationListLoop n acc) := by
  intro n
  induction n with
  | zero => intro acc _ p r p' _ h; rw [parser.parseVariableDeclarationListLoop] at h; cases h
  | succ n ih =>
    intro acc hacc p r p' hp h
    rw [parser.parseVariableDeclarationListLoop] at h
    simp only [bind_ok, Prod.exists] at h
    obtain ⟨d, q, h1, h⟩ := h
    obtain ⟨hq, hd⟩ := ok_parseVariableDeclaration hL _ _ _ _ hp h1
    have hacc2 : ∀ e ∈ acc ++ [d], TreeOk C e := mem_snoc hacc hd
    split at h
    · simp only [bind_ok, Prod.exists] at h
      obtain ⟨t, q2, h2, h⟩ := h
      cases h
      exact ⟨ok_eat hL _ _ _ _ _ hq h2, by simpa using hacc2⟩
    · simp only [bind_ok] at h
      obtain ⟨q2, h2, h⟩ := h
      exact ih _ hacc2 _ _ _ (ok_advance hL _ _ _ hq h2) h

theorem ok_parseVariableStatement (n : Nat) : KeepsN C L (parser.parseVariableStatement n) := by
  intro p r p' hp h
  simp only [parser.parseVariableStatement, parser.parseVariableDeclarationList, bind_ok,
    Prod.exists] at h
  obtain ⟨t, q, h1, d, q2, h2, h⟩ := h
  cases h
  obtain ⟨hc1, hc2⟩ := ok_consumeComment (C := C) (L := L) q (ok_eat hL _ _ _ _ _ hp h1)
  obtain ⟨hq2, hd⟩ := ok_parseVariableDeclarationListLoop hL _ [] (by simp) _ _ _ hc1 h2
  exact ⟨hq2, by simp [hd, hc2]⟩

theorem ok_parseTypeAliasDeclaration (n : Nat) :
    KeepsN C L (parser.parseTypeAliasDeclaration n) := by
  intro p r p' hp h
  simp only [parser.parseTypeAliasDeclaration, bind_ok, Prod.exists] at h
  obtain ⟨t, q, h1, name, q2, h2, t3, q3, h3, typ, q4, h4, h⟩ := h
  cases h
  obtain ⟨hc1, hc2⟩ := ok_consumeComment (C := C) (L := L) q (ok_eat hL _ _ _ _ _ hp h1)
  obtain ⟨hq2, hname, _⟩ := ok_parseIdentifier hL _ _ _ _ hc1 h2
  obtain ⟨hq4, htyp⟩ := (ok_types hL n).1 _ _ _ (ok_eat hL _ _ _ _ _ hq2 h3) h4
  exact ⟨hq4, by simp [hname, htyp, hc2]⟩

theorem ok_parseEnumMember (n : Nat) : KeepsN C L (parser.parseEnumMember n) := by
  intro p r p' hp h
  simp only [parser.parseEnumMember, bind_ok, Prod.exists] at h
  obtain ⟨name, q, h1, h⟩ := h
  obtain ⟨hq, hname, _⟩ := ok_parseIdentifier hL _ _ _ _ hp h1
  obtain ⟨hc1, hc2⟩ := ok_consumeComment (C := C) (L := L) q hq
  split at h
  · cases h
    exact ⟨hc1, by simp [hname, hc2]⟩
  · simp only [bind_ok, Prod.exists] at h
    obtain ⟨q2, h2, ini, q3, h3, h⟩ := h
    cases h
    obtain ⟨hq3, hini⟩ := (ok_inits hL n).1 _ _ _ (ok_advance hL _ _ _ hc1 h2) h3
    exact ⟨hq3, by simp [hname, hini, hc2]⟩

theorem ok_parseEnumDeclarationLoop : ∀ (n : Nat) (acc : List Node),
    (∀ e ∈ acc, TreeOk C e) → KeepsL C L (parser.parseEnumDeclarationLoop n acc) := by
  intro n
  induction n with
  | zero => intro acc _ p r p' _ h; rw [parser.parseEnumDeclarationLoop] at h; cases h
  | succ n ih =>
    intro acc hacc p r p' hp h
    rw [parser.parseEnumDeclarationLoop] at h
    split at h
    · cases h
      exact ⟨hp, hacc⟩
    · simp only [bind_ok, Prod.exists] at h
      obtain ⟨m, q, h1, h⟩ := h
      obtain ⟨hq, hm⟩ := ok_parseEnumMember hL _ _ _ _ hp h1
      have hacc2 : ∀ e ∈ acc ++ [m], TreeOk C e := mem_snoc hacc hm
      split at h
      · simp only [bind_ok] at h
        obtain ⟨q2, h2, h⟩ := h
        exact ih _ hacc2 _ _ _ (ok_advance hL _ _ _ hq h2) h
      · split at h
        · exact ih _ hacc2 _ _ _ hq h
        · cases h

theorem ok_parseEnumDeclaration (n : Nat) : KeepsN C L (parser.parseEnumDeclaration n) := by
  intro p r p' hp h
  simp only [parser.parseEnumDeclaration, bind_ok, Prod.exists] at h
  obtain ⟨t, q, h1, name, q2, h2, t3, q3, h3, ms, q4, h4, t5, q5, h5, h⟩ := h
  cases h
  obtain ⟨hc1, hc2⟩ := ok_consumeComment (C := C) (L := L) q (ok_eat hL _ _ _ _ _ hp h1)
  obtain ⟨hq2, hname, _⟩ := ok_parseIdentifier hL _ _ _ _ hc1 h2
  obtain ⟨hq4, hms⟩ := ok_parseEnumDeclarationLoop hL _ [] (by simp) _ _ _
    (ok_eat hL _ _ _ _ _ hq2 h3) h4
  exact ⟨ok_eat hL _ _ _ _ _ hq4 h5, by simp [hname, hc2]; exact hms⟩

theorem ok_parseInterfaceDeclarationLoop : ∀ (n : Nat) (acc : List Node),
    (∀ e ∈ acc, TreeOk C e) → KeepsL C L (parser.parseInterfaceDeclarationLoop n acc) := by
  intro n
  induction n with
  | zero => intro acc _ p r p' _ h; rw [parser.parseInterfaceDeclarationLoop] at h; cases h
  | succ n ih =>
    intro acc hacc p r p' hp h
    rw [parser.parseInterfaceDeclarationLoop] at h
    split at h
    · cases h
      exact ⟨hp, hacc⟩
    · simp only [bind_ok, Prod.exists] at h
      obtain ⟨m, q, h1, h⟩ := h
      obtain ⟨hq, hm⟩ := (ok_types hL n).2.2.2.2.2.2.2.2.2.2.1 _ _ _ hp h1
      exact ih _ (mem_snoc hacc hm) _ _ _ hq h

theorem ok_parseInterfaceDeclaration (n : Nat) :
    KeepsN C L (parser.parseInterfaceDeclaration n) := by
  intro p r p' hp h
  simp only [parser.parseInterfaceDeclaration, bind_ok, Prod.exists] at h
  obtain ⟨t, q, h1, name, q2, h2, tps, q3, h3, hcs, q4, h4, t5, q5, h5, ms, q6, h6, t7, q7, h7,
    h⟩ := h
  cases h
  obtain ⟨hc1, hc2⟩ := ok_consumeComment (C := C) (L := L) q (ok_eat hL _ _ _ _ _ hp h1)
  obtain ⟨hq2, hname, _⟩ := ok_parseIdentifier hL _ _ _ _ hc1 h2
  have h3' : StateOk C L q3 ∧ ∀ e ∈ tps, TreeOk C e := by
    split at h3
    · exact ok_parseTypeParameters hL _ _ _ _ hq2 h3
    · cases h3
      exact ⟨hq2, by simp⟩
  have h4' : StateOk C L q4 ∧ ∀ e ∈ hcs, TreeOk C e := by
    split at h4
    · exact ok_parseHeritageClauses hL _ _ _ _ h3'.1 h4
    · cases h4
      exact ⟨h3'.1, by simp⟩
  obtain ⟨hq6, hms⟩ := ok_parseInterfaceDeclarationLoop hL _ [] (by simp) _ _ _
    (ok_eat hL _ _ _ _ _ h4'.1 h5) h6
  exact ⟨ok_eat hL _ _ _ _ _ hq6 h7, by simp [hname, hc2]; exact ⟨h3'.2, h4'.2, hms⟩⟩

theorem ok_stmts : ∀ n : Nat,
    KeepsN C L (parser.parseStatement n) ∧
    KeepsN C L (parser.parseStatementLoop n) ∧
    KeepsN C L (parser.parseModuleDeclaration n) ∧
    (∀ acc, (∀ e ∈ acc, TreeOk C e) → KeepsL C L (parser.parseModuleDeclarationLoop n acc)) := by
  intro n
  induction n with
  | zero =>
    refine ⟨?_, ?_, ?_, ?_⟩
    · intro p r p' _ h; rw [parser.parseStatement] at h; cases h
    · intro p r p' _ h; rw [parser.parseStatementLoop] at h; cases h
    · intro p r p' _ h; rw [parser.parseModuleDeclaration] at h; cases h
    · intro acc _ p r p' _ h; rw [parser.parseModuleDeclarationLoop] at h; cases h
  | succ n ih =>
    obtain ⟨iStmt, iLoop, iMod, iModLoop⟩ := ih
    refine ⟨?_, ?_, ?_, ?_⟩
    · intro p r p' hp h
      rw [parser.parseStatement] at h
      simp only [bind_ok] at h
      obtain ⟨_, _, h⟩ := h
      exact iLoop _ _ _ hp h
    · intro p r p' hp h
      rw [parser.parseStatementLoop] at h
      split at h
      · simp only [bind_ok] at h
        obtain ⟨q, h1, h⟩ := h
        exact iLoop _ _ _ (ok_advance hL _ _ _ hp h1) h
      split at h
      · exact ok_parseVariableStatement hL _ _ _ _ hp h
      split at h
      · exact ok_parseTypeAliasDeclaration hL _ _ _ _ hp h
      split at h
      · exact ok_parseEnumDeclaration hL _ _ _ _ hp h
      split at h
      · exact ok_parseInterfaceDeclaration hL _ _ _ _ hp h
      split at h
      · exact iMod _ _ _ hp h
      · cases h
    · intro p r p' hp h
      rw [parser.parseModuleDeclaration] at h
      simp only [bind_ok, Prod.exists] at h
      obtain ⟨t, q, h1, name, q2, h2, t3, q3, h3, ss, q4, h4, h⟩ := h
      cases h
      obtain ⟨hc1, hc2⟩ := ok_consumeComment (C := C) (L := L) q (ok_eat hL _ _ _ _ _ hp h1)
      obtain ⟨hq2, hname, _⟩ := ok_parseIdentifier hL _ _ _ _ hc1 h2
      obtain ⟨hq4, hss⟩ := iModLoop [] (by simp) _ _ _ (ok_eat hL _ _ _ _ _ hq2 h3) h4
      exact ⟨hq4, by simp [hname, hc2]; exact hss⟩
    · intro acc hacc p r p' hp h
      rw [parser.parseModuleDeclarationLoop] at h
      split at h
      · simp only [bind_ok, Prod.exists] at h
        obtain ⟨t, q, h1, h⟩ := h
        cases h
        exact ⟨ok_eat hL _ _ _ _ _ hp h1, hacc⟩
      · simp only [bind_ok, Prod.exists] at h
        obtain ⟨s, q, h1, h⟩ := h
        obtain ⟨hq, hs⟩ := iStmt _ _ _ hp h1
        exact iModLoop _ (mem_snoc hacc hs) _ _ _ hq h

theorem ok_parseSourceFileLoop : ∀ (n : Nat) (acc : List Node), (∀ e ∈ acc, TreeOk C e) →
    KeepsN C L (parser.parseSourceFileLoop n acc) := by
  intro n
  induction n with
  | zero => intro acc _ p r p' _ h; rw [parser.parseSourceFileLoop] at h; cases h
  | succ n ih =>
    intro acc hacc p r p' hp h
    rw [parser.parseSourceFileLoop] at h
    simp only [bind_ok] at h
    obtain ⟨q, h1, h⟩ := h
    have hq := ok_advance hL _ _ _ hp h1
    split at h
    · cases h
      exact ⟨hq, by simpa using hacc⟩
    · simp only [bind_ok, Prod.exists] at h
      obtain ⟨s, q2, h2, h⟩ := h
      obtain ⟨hq2, hs⟩ := (ok_stmts hL n).1 _ _ _ hq h2
      exact ih _ (mem_snoc hacc hs) _ _ _ hq2 h

theorem ok_Parse (src : List Nat) (tree : Node)
    (h0 : StateOk C L { lex := { Source := src } }) (h : Parse src = .ok tree) :
    TreeOk C tree := by
  simp only [Parse, parser.parseSourceFile] at h
  split at h
  · rename_i r q hr
    cases h
    exact (ok_parseSourceFileLoop hL _ [] (by simp) _ _ _ h0 hr).2
  · cases h

end

end parser

namespace parser
open ast (Node)

theorem tokenAt_zero {x : lexer} {t : token.Token} (h : lexer.tokenAt 0 x = .ok t) :
    ∃ x', x.Pop = .ok (t, x') := by
  simp only [lexer.tokenAt, bind_ok, Prod.exists] at h
  obtain ⟨a, x', h1, h2⟩ := h
  cases h2
  exact ⟨x', h1⟩

theorem tokenAt_succ {x x' : lexer} {t : token.Token} (k : Nat) (h : x.Pop = .ok (t, x')) :
    lexer.tokenAt (k + 1) x = lexer.tokenAt k x' := by
  simp [lexer.tokenAt, h, bind, Except.bind]

theorem tokenAt_zero_of {x x' : lexer} {t : token.Token} (h : x.Pop = .ok (t, x')) :
    lexer.tokenAt 0 x = .ok t := by
  simp [lexer.tokenAt, h, bind, Except.bind, pure, Except.pure]

theorem lexSim_pop {x y x' : lexer} {t : token.Token} (hs : LexSim x y)
    (h : x.Pop = .ok (t, x')) : ∃ y', y.Pop = .ok (t, y') ∧ LexSim x' y' := by
  obtain ⟨y', hy⟩ := tokenAt_zero (hs 0 t (tokenAt_zero_of h))
  refine ⟨y', hy, ?_⟩
  intro k s hk
  rw [← tokenAt_succ k hy]
  apply hs
  rw [tokenAt_succ k h]
  exact hk

theorem lexSim_refl (x : lexer) : LexSim x x := fun _ _ h => h

theorem sim_refl (p : parser) : Sim p p := ⟨rfl, rfl, rfl, lexSim_refl _⟩

theorem sim_advance : ∀ (n m : Nat) (p q p' : parser), n ≤ m →
    p.lastComment = q.lastComment → p.lastLineComment = q.lastLineComment →
    LexSim p.lex q.lex → parser.advance n p = .ok p' →
    ∃ q', parser.advance m q = .ok q' ∧ Sim p' q' := by
  intro n
  induction n with
  | zero => intro m p q p' _ _ _ _ h; simp [parser.advance] at h
  | succ n ih =>
    intro m p q p' hnm hc hl hs h
    obtain ⟨m, rfl⟩ : ∃ m', m = m' + 1 := ⟨m - 1, by omega⟩
    rw [parser.advance] at h ⊢
    simp only [bind_ok, Prod.exists] at h
    obtain ⟨t, x, h1, h⟩ := h
    obtain ⟨y, hy, hxy⟩ := lexSim_pop hs h1
    simp only [hy, bind, Except.bind]
    split at h
    · rename_i hk
      rw [if_pos hk]
      refine ih m _ _ p' (by omega) ?_ ?_ ?_ h
      · rfl
      · exact hl
      · exact hxy
    · rename_i hk
      rw [if_neg hk]
      split at h
      · rename_i hk2
        rw [if_pos hk2]
        refine ih m _ _ p' (by omega) ?_ ?_ ?_ h
        · exact hc
        · rfl
        · exact hxy
      · rename_i hk2
        rw [if_neg hk2]
        cases h
        exact ⟨_, rfl, rfl, hc, hl, hxy⟩

theorem sim_eat (k : token.Kind) (n : Nat) : SimAt (fun n p => parser.eat n p k) n := by
  intro m p q r p' hnm hs h
  simp only [parser.eat, bind_ok, Prod.exists] at h
  obtain ⟨_, he, q1, h1, h⟩ := h
  cases h
  obtain ⟨q', hq, hs'⟩ := sim_advance n m p q p' hnm hs.2.1 hs.2.2.1 hs.2.2.2 h1
  refine ⟨q', ?_, hs'⟩
  simp only [parser.eat, parser.expect, ← hs.1] at he ⊢
  split at he
  · cases he
  · rename_i hk
    simp [hk, hq, bind, Except.bind, pure, Except.pure]

theorem sim_parseIdentifier (n : Nat) : SimAt parser.parseIdentifier n := by
  intro m p q r p' hnm hs h
  simp only [parser.parseIdentifier, bind_ok, Prod.exists] at h
  obtain ⟨t, q1, h1, h⟩ := h
  cases h
  obtain ⟨q', hq, hs'⟩ := sim_eat _ n m p q _ _ hnm hs h1
  exact ⟨q', by simp [parser.parseIdentifier, hq, bind, Except.bind, pure, Except.pure], hs'⟩

end parser

namespace parser
open ast (Node)

theorem sim_consumeComment {p q : parser} (hs : Sim p q) :
    p.consumeComment.1 = q.consumeComment.1 ∧ Sim p.consumeComment.2 q.consumeComment.2 :=
  ⟨hs.2.1, hs.1, rfl, hs.2.2.1, hs.2.2.2⟩

theorem sim_consumeLineComment {p q : parser} (hs : Sim p q) :
    p.consumeLineComment.1 = q.consumeLineComment.1 ∧
      Sim p.consumeLineComment.2 q.consumeLineComment.2 :=
  ⟨hs.2.2.1, hs.1, hs.2.1, rfl, hs.2.2.2⟩

theorem sim_optAdvance (c : Prop) [Decidable c] (n m : Nat) (p q p' : parser) (hnm : n ≤ m)
    (hs : Sim p q) (h : (if c then parser.advance n p else pure p) = .ok p') :
    ∃ q', (if c then parser.advance m q else pure q) = .ok q' ∧ Sim p' q' := by
  split at h
  · rename_i hc
    rw [if_pos hc]
    exact sim_advance n m p q p' hnm hs.2.1 hs.2.2.1 hs.2.2.2 h
  · rename_i hc
    rw [if_neg hc]
    cases h
    exact ⟨q, rfl, hs⟩

theorem sim_parseTypeReference (n : Nat) : SimAt parser.parseTypeReference n := by
  intro m p q r p' hnm hs h
  simp only [parser.parseTypeReference, bind_ok, Prod.exists] at h
  obtain ⟨a, p1, h1, h⟩ := h
  obtain ⟨q1, hq1, hs1⟩ := sim_parseIdentifier n m p q _ _ hnm hs h1
  split at h
  · rename_i hk
    cases h
    rw [hs1.1] at hk
    exact ⟨q1, by simp [parser.parseTypeReference, hq1, bind, Except.bind, pure, Except.pure, hk],
      hs1⟩
  · rename_i hk
    simp only [bind_ok, Prod.exists] at h
    obtain ⟨p2, h2, b, p3, h3, h⟩ := h
    cases h
    rw [hs1.1] at hk
    obtain ⟨q2, hq2, hs2⟩ := sim_advance n m p1 q1 p2 hnm hs1.2.1 hs1.2.2.1 hs1.2.2.2 h2
    obtain ⟨q3, hq3, hs3⟩ := sim_parseIdentifier n m p2 q2 _ _ hnm hs2 h3
    exact ⟨q3, by simp [parser.parseTypeReference, hq1, hq2, hq3, bind, Except.bind, pure,
      Except.pure, hk], hs3⟩

theorem sim_types : ∀ n : Nat,
    SimAt parser.parseType n ∧
    SimAt parser.parseTypeCheckUnion n ∧
    (∀ acc, SimAt (fun n p => parser.parseTypeCheckUnionLoop n acc p) n) ∧
    SimAt parser.parseTypeCheckArray n ∧
    SimAt parser.parseTypeInner n ∧
    SimAt parser.parseTupleType n ∧
    (∀ acc, SimAt (fun n p => parser.parseTupleTypeLoop n acc p) n) ∧
    SimAt parser.parseParenthesizedType n ∧
    SimAt parser.parseTypeLiteral n ∧
    (∀ acc, SimAt (fun n p => parser.parseTypeLiteralLoop n acc p) n) ∧
    SimAt parser.parseSignature n ∧
    SimAt parser.parsePropertySignature n ∧
    SimAt parser.parseIndexSignature n ∧
    (∀ acc, SimAt (fun n p => parser.parseIndexSignatureLoop n acc p) n) ∧
    SimAt parser.parseParameter n := by
  intro n
  induction n with
  | zero =>
    refine ⟨?_, ?_, ?_, ?_, ?_, ?_, ?_, ?_, ?_, ?_, ?_, ?_, ?_, ?_, ?_⟩
    · intro m p q r p' _ _ h; rw [parser.parseType] at h; cases h
    · intro m p q r p' _ _ h; rw [parser.parseTypeCheckUnion] at h; cases h
    · intro acc m p q r p' _ _ h; simp only [parser.parseTypeCheckUnionLoop] at h; cases h
    · intro m p q r p' _ _ h; rw [parser.parseTypeCheckArray] at h; cases h
    · intro m p q r p' _ _ h; rw [parser.parseTypeInner] at h; cases h
    · intro m p q r p' _ _ h; rw [parser.parseTupleType] at h; cases h
    · intro acc m p q r p' _ _ h; simp only [parser.parseTupleTypeLoop] at h; cases h
    · intro m p q r p' _ _ h; rw [parser.parseParenthesizedType] at h; cases h
    · intro m p q r p' _ _ h; rw [parser.parseTypeLiteral] at h; cases h
    · intro acc m p q r p' _ _ h; simp only [parser.parseTypeLiteralLoop] at h; cases h
    · intro m p q r p' _ _ h; rw [parser.parseSignature] at h; cases h
    · intro m p q r p' _ _ h; rw [parser.parsePropertySignature] at h; cases h
    · intro m p q r p' _ _ h; rw [parser.parseIndexSignature] at h; cases h
    · intro acc m p q r p' _ _ h; simp only [parser.parseIndexSignatureLoop] at h; cases h
    · intro m p q r p' _ _ h; rw [parser.parseParameter] at h; cases h
  | succ n ih =>
    obtain ⟨iType, iUnion, iUnionLoop, iArray, iInner, iTuple, iTupleLoop, iParen, iLit, iLitLoop,
      iSig, iProp, iIndex, iIndexLoop, iParam⟩ := ih
    refine ⟨?_, ?_, ?_, ?_, ?_, ?_, ?_, ?_, ?_, ?_, ?_, ?_, ?_, ?_, ?_⟩
    · -- parseType
      intro m p q r p' hnm hs h
      obtain ⟨m, rfl⟩ : ∃ m', m = m' + 1 := ⟨m - 1, by omega⟩
      rw [parser.parseType] at h ⊢
      exact iUnion m p q r p' (by omega) hs h
    · -- parseTypeCheckUnion
      intro m p q r p' hnm hs h
      obtain ⟨m, rfl⟩ : ∃ m', m = m' + 1 := ⟨m - 1, by omega⟩
      have hnm' : n ≤ m := by omega
      rw [parser.parseTypeCheckUnion] at h ⊢
      simp only [bind_ok, Prod.exists] at h
      obtain ⟨a, p1, h1, h⟩ := h
      obtain ⟨q1, hq1, hs1⟩ := iArray m p q _ _ hnm' hs h1
      simp only [hq1, bind, Except.bind, ← hs1.1]
      split at h
      · rename_i hk
        cases h
        exact ⟨q1, by simp [hk, pure, Except.pure], hs1⟩
      · rename_i hk
        rw [if_neg hk]
        exact iUnionLoop [a] m p1 q1 _ _ hnm' hs1 h
    · -- parseTypeCheckUnionLoop
      intro acc m p q r p' hnm hs h
      obtain ⟨m, rfl⟩ : ∃ m', m = m' + 1 := ⟨m - 1, by omega⟩
      have hnm' : n ≤ m := by omega
      try simp only [] at h ⊢
      rw [parser.parseTypeCheckUnionLoop] at h ⊢
      simp only [bind_ok, Prod.exists] at h
      obtain ⟨t, p1, h1, a, p2, h2, h⟩ := h
      obtain ⟨q1, hq1, hs1⟩ := sim_eat _ n m p q _ _ hnm' hs h1
      obtain ⟨q2, hq2, hs2⟩ := iArray m p1 q1 _ _ hnm' hs1 h2
      try simp only [] at hq1
      simp only [hq1, hq2, bind, Except.bind, ← hs2.1]
      split at h
      · rename_i hk
        cases h
        exact ⟨q2, by simp [hk, pure, Except.pure], hs2⟩
      · rename_i hk
        rw [if_neg hk]
        exact iUnionLoop _ m p2 q2 _ _ hnm' hs2 h
    · -- parseTypeCheckArray
      intro m p q r p' hnm hs h
      obtain ⟨m, rfl⟩ : ∃ m', m = m' + 1 := ⟨m - 1, by omega⟩
      have hnm' : n ≤ m := by omega
      rw [parser.parseTypeCheckArray] at h ⊢
      simp only [bind_ok, Prod.exists] at h
      obtain ⟨a, p1, h1, h⟩ := h
      obtain ⟨q1, hq1, hs1⟩ := iInner m p q _ _ hnm' hs h1
      simp only [hq1, bind, Except.bind, ← hs1.1]
      split at h
      · rename_i hk
        cases h
        exact ⟨q1, by simp [hk, pure, Except.pure], hs1⟩
      · rename_i hk
        rw [if_neg hk]
        simp only [bind_ok, Prod.exists] at h
        obtain ⟨t1, p2, h2, t2, p3, h3, h⟩ := h
        cases h
        obtain ⟨q2, hq2, hs2⟩ := sim_eat _ n m p1 q1 _ _ hnm' hs1 h2
        obtain ⟨q3, hq3, hs3⟩ := sim_eat _ n m p2 q2 _ _ hnm' hs2 h3
        try simp only [] at hq2 hq3
        exact ⟨q3, by simp [hq2, hq3, pure, Except.pure], hs3⟩
    · -- parseTypeInner
      intro m p q r p' hnm hs h
      obtain ⟨m, rfl⟩ : ∃ m', m = m' + 1 := ⟨m - 1, by omega⟩
      have hnm' : n ≤ m := by omega
      rw [parser.parseTypeInner] at h ⊢
      simp only [← hs.1]
      split at h
      · rename_i hk
        rw [if_pos hk]
        exact sim_parseTypeReference n m p q r p' hnm' hs h
      rename_i hk1
      rw [if_neg hk1]
      split at h
      · rename_i hk
        rw [if_pos hk]
        exact iLit m p q r p' hnm' hs h
      rename_i hk2
      rw [if_neg hk2]
      split at h
      · rename_i hk
        rw [if_pos hk]
        exact iParen m p q r p' hnm' hs h
      rename_i hk3
      rw [if_neg hk3]
      split at h
      · rename_i hk
        rw [if_pos hk]
        exact iTuple m p q r p' hnm' hs h
      rename_i hk4
      rw [if_neg hk4]
      split at h
      · rename_i hk
        rw [if_pos hk]
        simp only [bind_ok, Prod.exists] at h
        obtain ⟨t, p1, h1, h⟩ := h
        cases h
        obtain ⟨q1, hq1, hs1⟩ := sim_eat _ n m p q _ _ hnm' hs h1
        try simp only [] at hq1
        exact ⟨q1, by simp [hq1, bind, Except.bind, pure, Except.pure], hs1⟩
      rename_i hk5
      rw [if_neg hk5]
      split at h
      · rename_i hk
        rw [if_pos hk]
        simp only [bind_ok, Prod.exists] at h
        obtain ⟨t, p1, h1, h⟩ := h
        cases h
        obtain ⟨q1, hq1, hs1⟩ := sim_eat _ n m p q _ _ hnm' hs h1
        try simp only [] at hq1
        exact ⟨q1, by simp [hq1, bind, Except.bind, pure, Except.pure], hs1⟩
      · cases h
    · -- parseTupleType
      intro m p q r p' hnm hs h
      obtain ⟨m, rfl⟩ : ∃ m', m = m' + 1 := ⟨m - 1, by omega⟩
      have hnm' : n ≤ m := by omega
      rw [parser.parseTupleType] at h ⊢
      simp only [bind_ok, Prod.exists] at h
      obtain ⟨t, p1, h1, h⟩ := h
      obtain ⟨q1, hq1, hs1⟩ := sim_eat _ n m p q _ _ hnm' hs h1
      try simp only [] at hq1
      simp only [hq1, bind, Except.bind]
      exact iTupleLoop [] m p1 q1 _ _ hnm' hs1 h
    · -- parseTupleTypeLoop
      intro acc m p q r p' hnm hs h
      obtain ⟨m, rfl⟩ : ∃ m', m = m' + 1 := ⟨m - 1, by omega⟩
      have hnm' : n ≤ m := by omega
      try simp only [] at h ⊢
      rw [parser.parseTupleTypeLoop] at h ⊢
      simp only [bind_ok, Prod.exists] at h
      obtain ⟨a, p1, h1, h⟩ := h
      obtain ⟨q1, hq1, hs1⟩ := iType m p q _ _ hnm' hs h1
      simp only [hq1, bind, Except.bind, ← hs1.1]
      split at h
      · rename_i hk
        rw [if_pos hk]
        simp only [bind_ok, Prod.exists] at h
        obtain ⟨t, p2, h2, h⟩ := h
        cases h
        obtain ⟨q2, hq2, hs2⟩ := sim_eat _ n m p1 q1 _ _ hnm' hs1 h2
        try simp only [] at hq2
        exact ⟨q2, by simp [hq2, pure, Except.pure], hs2⟩
      · rename_i hk
        rw [if_neg hk]
        simp only [bind_ok] at h
        obtain ⟨p2, h2, h⟩ := h
        obtain ⟨q2, hq2, hs2⟩ := sim_advance n m p1 q1 p2 hnm' hs1.2.1 hs1.2.2.1 hs1.2.2.2 h2
        simp only [hq2]
        exact iTupleLoop _ m p2 q2 _ _ hnm' hs2 h
    · -- parseParenthesizedType
      intro m p q r p' hnm hs h
      obtain ⟨m, rfl⟩ : ∃ m', m = m' + 1 := ⟨m - 1, by omega⟩
      have hnm' : n ≤ m := by omega
      rw [parser.parseParenthesizedType] at h ⊢
      simp only [bind_ok, Prod.exists] at h
      obtain ⟨t, p1, h1, a, p2, h2, t3, p3, h3, h⟩ := h
      cases h
      obtain ⟨q1, hq1, hs1⟩ := sim_eat _ n m p q _ _ hnm' hs h1
      obtain ⟨q2, hq2, hs2⟩ := iType m p1 q1 _ _ hnm' hs1 h2
      obtain ⟨q3, hq3, hs3⟩ := sim_eat _ n m p2 q2 _ _ hnm' hs2 h3
      try simp only [] at hq1 hq3
      exact ⟨q3, by simp [hq1, hq2, hq3, bind, Except.bind, pure, Except.pure], hs3⟩
    · -- parseTypeLiteral
      intro m p q r p' hnm hs h
      obtain ⟨m, rfl⟩ : ∃ m', m = m' + 1 := ⟨m - 1, by omega⟩
      have hnm' : n ≤ m := by omega
      rw [parser.parseTypeLiteral] at h ⊢
      simp only [bind_ok, Prod.exists] at h
      obtain ⟨t, p1, h1, h⟩ := h
      obtain ⟨q1, hq1, hs1⟩ := sim_eat _ n m p q _ _ hnm' hs h1
      try simp only [] at hq1
      simp only [hq1, bind, Except.bind]
      exact iLitLoop [] m p1 q1 _ _ hnm' hs1 h
    · -- parseTypeLiteralLoop
      intro acc m p q r p' hnm hs h
      obtain ⟨m, rfl⟩ : ∃ m', m = m' + 1 := ⟨m - 1, by omega⟩
      have hnm' : n ≤ m := by omega
      try simp only [] at h ⊢
      rw [parser.parseTypeLiteralLoop] at h ⊢
      simp only [← hs.1]
      split at h
      · rename_i hk
        rw [if_pos hk]
        simp only [bind_ok, Prod.exists] at h
        obtain ⟨t, p1, h1, h⟩ := h
        cases h
        obtain ⟨q1, hq1, hs1⟩ := sim_eat _ n m p q _ _ hnm' hs h1
        try simp only [] at hq1
        exact ⟨q1, by simp [hq1, bind, Except.bind, pure, Except.pure], hs1⟩
      · rename_i hk
        rw [if_neg hk]
        simp only [bind_ok, Prod.exists] at h
        obtain ⟨a, p1, h1, h⟩ := h
        obtain ⟨q1, hq1, hs1⟩ := iSig m p q _ _ hnm' hs h1
        simp only [hq1, bind, Except.bind]
        exact iLitLoop _ m p1 q1 _ _ hnm' hs1 h
    · -- parseSignature
      intro m p q r p' hnm hs h
      obtain ⟨m, rfl⟩ : ∃ m', m = m' + 1 := ⟨m - 1, by omega⟩
      have hnm' : n ≤ m := by omega
      rw [parser.parseSignature] at h ⊢
      simp only [← hs.1]
      split at h
      · rename_i hk
        rw [if_pos hk]
        exact iProp m p q r p' hnm' hs h
      rename_i hk1
      rw [if_neg hk1]
      split at h
      · rename_i hk
        rw [if_pos hk]
        exact iIndex m p q r p' hnm' hs h
      · cases h
    · -- parsePropertySignature
      intro m p q r p' hnm hs h
      obtain ⟨m, rfl⟩ : ∃ m', m = m' + 1 := ⟨m - 1, by omega⟩
      have hnm' : n ≤ m := by omega
      rw [parser.parsePropertySignature] at h ⊢
      simp only [bind_ok, Prod.exists] at h
      obtain ⟨p1, h1, name, p2, h2, qt, p3, h3, t4, p4, h4, typ, p5, h5, p6, h6, h⟩ := h
      obtain ⟨hc1, hc2⟩ := sim_consumeComment hs
      have hc2t := hc2.1
      simp only [parser.consumeComment] at hc2t
      simp only [parser.consumeComment] at h1
      obtain ⟨q1, hq1, hs1⟩ := sim_optAdvance _ n m _ _ p1 hnm' hc2 h1
      obtain ⟨q2, hq2, hs2⟩ := sim_parseIdentifier n m p1 q1 _ _ hnm' hs1 h2
      have h3' : ∃ q3, (if p2.tok.Kind = token.Question then
            (do let p ← parser.advance m q2; pure (true, p))
          else pure (false, q2)) = .ok (qt, q3) ∧ Sim p3 q3 := by
        split at h3
        · rename_i hk
          rw [if_pos hk]
          simp only [bind_ok] at h3
          obtain ⟨p3', h31, h32⟩ := h3
          cases h32
          obtain ⟨q3, hq3, hs3⟩ := sim_advance n m p2 q2 _ hnm' hs2.2.1 hs2.2.2.1 hs2.2.2.2 h31
          exact ⟨q3, by simp [hq3, bind, Except.bind, pure, Except.pure], hs3⟩
        · rename_i hk
          rw [if_neg hk]
          cases h3
          exact ⟨q2, rfl, hs2⟩
      obtain ⟨q3, hq3, hs3⟩ := h3'
      obtain ⟨q4, hq4, hs4⟩ := sim_eat _ n m p3 q3 _ _ hnm' hs3 h4
      obtain ⟨q5, hq5, hs5⟩ := iType m p4 q4 _ _ hnm' hs4 h5
      obtain ⟨q6, hq6, hs6⟩ := sim_optAdvance _ n m _ _ p6 hnm' hs5 h6
      obtain ⟨hl1, hl2⟩ := sim_consumeLineComment hs6
      cases h
      try simp only [] at hq4
      refine ⟨q6.consumeLineComment.2, ?_, hl2⟩
      simp only [parser.consumeComment, ← hs.1, ← hs.2.1]
      simp only [parser.consumeComment, ← hs.1] at hq1
      simp only [bind, Except.bind, pure, Except.pure] at hq1 hq3 hq6 ⊢
      simp only [hq1, hq2, ← hs2.1, hq3, hq4, hq5, ← hs5.1, hq6, hl1]
    · -- parseIndexSignature
      intro m p q r p' hnm hs h
      obtain ⟨m, rfl⟩ : ∃ m', m = m' + 1 := ⟨m - 1, by omega⟩
      have hnm' : n ≤ m := by omega
      rw [parser.parseIndexSignature] at h ⊢
      simp only [bind_ok, Prod.exists] at h
      obtain ⟨t1, p1, h1, ps, p2, h2, t3, p3, h3, t4, p4, h4, typ, p5, h5, p6, h6, h⟩ := h
      obtain ⟨hc1, hc2⟩ := sim_consumeComment hs
      obtain ⟨q1, hq1, hs1⟩ := sim_eat _ n m _ _ _ _ hnm' hc2 h1
      obtain ⟨q2, hq2, hs2⟩ := iIndexLoop [] m p1 q1 _ _ hnm' hs1 h2
      obtain ⟨_, hl2⟩ := sim_consumeLineComment hs2
      obtain ⟨q3, hq3, hs3⟩ := sim_eat _ n m _ _ _ _ hnm' hl2 h3
      obtain ⟨q4, hq4, hs4⟩ := sim_eat _ n m p3 q3 _ _ hnm' hs3 h4
      obtain ⟨q5, hq5, hs5⟩ := iType m p4 q4 _ _ hnm' hs4 h5
      obtain ⟨q6, hq6, hs6⟩ := sim_optAdvance _ n m _ _ p6 hnm' hs5 h6
      cases h
      try simp only [] at hq1 hq2 hq3 hq4
      refine ⟨q6, ?_, hs6⟩
      simp only [bind, Except.bind, pure, Except.pure] at hq6 ⊢
      simp only [hq1, hq2, hq3, hq4, hq5, ← hs5.1, hq6, hc1]
    · -- parseIndexSignatureLoop
      intro acc m p q r p' hnm hs h
      obtain ⟨m, rfl⟩ : ∃ m', m = m' + 1 := ⟨m - 1, by omega⟩
      have hnm' : n ≤ m := by omega
      try simp only [] at h ⊢
      rw [parser.parseIndexSignatureLoop] at h ⊢
      simp only [← hs.1]
      split at h
      · rename_i hk
        rw [if_pos hk]
        simp only [bind_ok, Prod.exists] at h
        obtain ⟨a, p1, h1, h⟩ := h
        obtain ⟨q1, hq1, hs1⟩ := iParam m p q _ _ hnm' hs h1
        simp only [hq1, bind, Except.bind]
        exact iIndexLoop _ m p1 q1 _ _ hnm' hs1 h
      · rename_i hk
        rw [if_neg hk]
        cases h
        exact ⟨q, rfl, hs⟩
    · -- parseParameter
      intro m p q r p' hnm hs h
      obtain ⟨m, rfl⟩ : ∃ m', m = m' + 1 := ⟨m - 1, by omega⟩
      have hnm' : n ≤ m := by omega
      rw [parser.parseParameter] at h ⊢
      simp only [bind_ok, Prod.exists] at h
      obtain ⟨name, p1, h1, t2, p2, h2, typ, p3, h3, h⟩ := h
      cases h
      obtain ⟨q1, hq1, hs1⟩ := sim_parseIdentifier n m p q _ _ hnm' hs h1
      obtain ⟨q2, hq2, hs2⟩ := sim_eat _ n m p1 q1 _ _ hnm' hs1 h2
      obtain ⟨q3, hq3, hs3⟩ := iType m p2 q2 _ _ hnm' hs2 h3
      try simp only [] at hq2
      exact ⟨q3, by simp [hq1, hq2, hq3, bind, Except.bind, pure, Except.pure], hs3⟩

end parser

namespace parser
open ast (Node)

theorem sim_parseTypeParametersLoop : ∀ (n : Nat) (acc : List Node),
    SimAt (fun n p => parser.parseTypeParametersLoop n acc p) n := by
  intro n
  induction n with
  | zero => intro acc m p q r p' _ _ h; simp only [parser.parseTypeParametersLoop] at h; cases h
  | succ n ih =>
    intro acc m p q r p' hnm hs h
    obtain ⟨m, rfl⟩ : ∃ m', m = m' + 1 := ⟨m - 1, by omega⟩
    have hnm' : n ≤ m := by omega
    try simp only [] at h ⊢
    rw [parser.parseTypeParametersLoop] at h ⊢
    simp only [parser.parseTypeParameter, bind_ok, Prod.exists] at h
    obtain ⟨a, p1, ⟨name, p0, h1, h1'⟩, h⟩ := h
    cases h1'
    obtain ⟨q1, hq1, hs1⟩ := sim_parseIdentifier n m p q _ _ hnm' hs h1
    simp only [parser.parseTypeParameter, bind, Except.bind, pure, Except.pure] at h ⊢
    simp only [hq1, ← hs1.1]
    split at h
    · rename_i hk
      rw [if_pos hk]
      cases h
      exact ⟨q1, rfl, hs1⟩
    · rename_i hk
      rw [if_neg hk]
      split at h
      · cases h
      · rename_i p2 h2
        obtain ⟨q2, hq2, hs2⟩ := sim_advance n m _ q1 p2 hnm' hs1.2.1 hs1.2.2.1 hs1.2.2.2 h2
        simp only [hq2]
        exact ih _ m p2 q2 _ _ hnm' hs2 h

theorem sim_parseTypeParameters (n : Nat) : SimAt parser.parseTypeParameters n := by
  intro m p q r p' hnm hs h
  simp only [parser.parseTypeParameters, bind_ok, Prod.exists] at h
  obtain ⟨t, p1, h1, a, p2, h2, t3, p3, h3, h⟩ := h
  cases h
  obtain ⟨q1, hq1, hs1⟩ := sim_eat _ n m p q _ _ hnm hs h1
  obtain ⟨q2, hq2, hs2⟩ := sim_parseTypeParametersLoop n [] m p1 q1 _ _ hnm hs1 h2
  obtain ⟨q3, hq3, hs3⟩ := sim_eat _ n m p2 q2 _ _ hnm hs2 h3
  try simp only [] at hq1 hq2 hq3
  exact ⟨q3, by simp [parser.parseTypeParameters, hq1, hq2, hq3, bind, Except.bind, pure,
    Except.pure], hs3⟩

theorem sim_parseHeritageClausesLoop : ∀ (n : Nat) (acc : List Node),
    SimAt (fun n p => parser.parseHeritageClausesLoop n acc p) n := by
  intro n
  induction n with
  | zero => intro acc m p q r p' _ _ h; simp only [parser.parseHeritageClausesLoop] at h; cases h
  | succ n ih =>
    intro acc m p q r p' hnm hs h
    obtain ⟨m, rfl⟩ : ∃ m', m = m' + 1 := ⟨m - 1, by omega⟩
    have hnm' : n ≤ m := by omega
    try simp only [] at h ⊢
    rw [parser.parseHeritageClausesLoop] at h ⊢
    simp only [parser.parseHeritageClause, parser.parseExpressionWithTypeArguments, bind_ok,
      Prod.exists] at h
    obtain ⟨a, p1, ⟨b, p0, ⟨name, p00, h1, h1'⟩, h1''⟩, h⟩ := h
    cases h1'
    cases h1''
    obtain ⟨q1, hq1, hs1⟩ := sim_parseIdentifier n m p q _ _ hnm' hs h1
    simp only [parser.parseHeritageClause, parser.parseExpressionWithTypeArguments, bind,
      Except.bind, pure, Except.pure] at h ⊢
    simp only [hq1, ← hs1.1]
    split at h
    · rename_i hk
      rw [if_pos hk]
      cases h
      exact ⟨q1, rfl, hs1⟩
    · rename_i hk
      rw [if_neg hk]
      split at h
      · cases h
      · rename_i p2 h2
        obtain ⟨q2, hq2, hs2⟩ := sim_advance n m _ q1 p2 hnm' hs1.2.1 hs1.2.2.1 hs1.2.2.2 h2
        simp only [hq2]
        exact ih _ m p2 q2 _ _ hnm' hs2 h

theorem sim_parseHeritageClauses (n : Nat) : SimAt parser.parseHeritageClauses n := by
  intro m p q r p' hnm hs h
  simp only [parser.parseHeritageClauses, bind_ok, Prod.exists] at h
  obtain ⟨t, p1, h1, h⟩ := h
  obtain ⟨q1, hq1, hs1⟩ := sim_eat _ n m p q _ _ hnm hs h1
  obtain ⟨q2, hq2, hs2⟩ := sim_parseHeritageClausesLoop n [] m p1 q1 _ _ hnm hs1 h
  try simp only [] at hq1 hq2
  exact ⟨q2, by simp [parser.parseHeritageClauses, hq1, hq2, bind, Except.bind], hs2⟩

theorem sim_inits : ∀ n : Nat,
    SimAt parser.parseInitializer n ∧
    SimAt parser.parseArrayLiteralExpression n ∧
    (∀ acc, SimAt (fun n p => parser.parseArrayLiteralExpressionLoop n acc p) n) := by
  intro n
  induction n with
  | zero =>
    refine ⟨?_, ?_, ?_⟩
    · intro m p q r p' _ _ h; rw [parser.parseInitializer] at h; cases h
    · intro m p q r p' _ _ h; rw [parser.parseArrayLiteralExpression] at h; cases h
    · intro acc m p q r p' _ _ h; simp only [parser.parseArrayLiteralExpressionLoop] at h; cases h
  | succ n ih =>
    obtain ⟨iInit, iArr, iLoop⟩ := ih
    refine ⟨?_, ?_, ?_⟩
    · intro m p q r p' hnm hs h
      obtain ⟨m, rfl⟩ : ∃ m', m = m' + 1 := ⟨m - 1, by omega⟩
      have hnm' : n ≤ m := by omega
      rw [parser.parseInitializer] at h ⊢
      simp only [← hs.1]
      split at h
      · rename_i hk
        rw [if_pos hk]
        simp only [bind_ok, Prod.exists] at h
        obtain ⟨t, p1, h1, h⟩ := h
        cases h
        obtain ⟨q1, hq1, hs1⟩ := sim_eat _ n m p q _ _ hnm' hs h1
        try simp only [] at hq1
        exact ⟨q1, by simp [hq1, bind, Except.bind, pure, Except.pure], hs1⟩
      rename_i hk1
      rw [if_neg hk1]
      split at h
      · rename_i hk
        rw [if_pos hk]
        simp only [bind_ok, Prod.exists] at h
        obtain ⟨t, p1, h1, h⟩ := h
        cases h
        obtain ⟨q1, hq1, hs1⟩ := sim_eat _ n m p q _ _ hnm' hs h1
        try simp only [] at hq1
        exact ⟨q1, by simp [hq1, bind, Except.bind, pure, Except.pure], hs1⟩
      rename_i hk2
      rw [if_neg hk2]
      split at h
      · rename_i hk
        rw [if_pos hk]
        simp only [bind_ok, Prod.exists] at h
        obtain ⟨p1, h1, a, p2, h2, h⟩ := h
        cases h
        obtain ⟨q1, hq1, hs1⟩ := sim_advance n m p q p1 hnm' hs.2.1 hs.2.2.1 hs.2.2.2 h1
        obtain ⟨q2, hq2, hs2⟩ := iInit m p1 q1 _ _ hnm' hs1 h2
        exact ⟨q2, by simp [hq1, hq2, bind, Except.bind, pure, Except.pure], hs2⟩
      rename_i hk3
      rw [if_neg hk3]
      split at h
      · rename_i hk
        rw [if_pos hk]
        simp only [bind_ok, Prod.exists] at h
        obtain ⟨a, p1, h1, h⟩ := h
        cases h
        obtain ⟨q1, hq1, hs1⟩ := sim_parseIdentifier n m p q _ _ hnm' hs h1
        exact ⟨q1, by simp [hq1, bind, Except.bind, pure, Except.pure], hs1⟩
      rename_i hk4
      rw [if_neg hk4]
      split at h
      · rename_i hk
        rw [if_pos hk]
        exact iArr m p q r p' hnm' hs h
      · cases h
    · intro m p q r p' hnm hs h
      obtain ⟨m, rfl⟩ : ∃ m', m = m' + 1 := ⟨m - 1, by omega⟩
      have hnm' : n ≤ m := by omega
      rw [parser.parseArrayLiteralExpression] at h ⊢
      simp only [bind_ok, Prod.exists] at h
      obtain ⟨t, p1, h1, es, p2, h2, t3, p3, h3, h⟩ := h
      cases h
      obtain ⟨q1, hq1, hs1⟩ := sim_eat _ n m p q _ _ hnm' hs h1
      obtain ⟨q2, hq2, hs2⟩ := iLoop [] m p1 q1 _ _ hnm' hs1 h2
      obtain ⟨q3, hq3, hs3⟩ := sim_eat _ n m p2 q2 _ _ hnm' hs2 h3
      try simp only [] at hq1 hq2 hq3
      exact ⟨q3, by simp [hq1, hq2, hq3, bind, Except.bind, pure, Except.pure], hs3⟩
    · intro acc m p q r p' hnm hs h
      obtain ⟨m, rfl⟩ : ∃ m', m = m' + 1 := ⟨m - 1, by omega⟩
      have hnm' : n ≤ m := by omega
      try simp only [] at h ⊢
      rw [parser.parseArrayLiteralExpressionLoop] at h ⊢
      simp only [← hs.1]
      split at h
      · rename_i hk
        rw [if_pos hk]
        simp only [bind_ok, Prod.exists] at h
        obtain ⟨a, p1, h1, p2, h2, h⟩ := h
        obtain ⟨q1, hq1, hs1⟩ := iInit m p q _ _ hnm' hs h1
        obtain ⟨q2, hq2, hs2⟩ := sim_optAdvance _ n m _ _ p2 hnm' hs1 h2
        simp only [bind, Except.bind, pure, Except.pure] at hq2 ⊢
        simp only [hq1, ← hs1.1, hq2]
        exact iLoop _ m p2 q2 _ _ hnm' hs2 h
      · rename_i hk
        rw [if_neg hk]
        cases h
        exact ⟨q, rfl, hs⟩

theorem sim_parseVariableDeclaration (n : Nat) : SimAt parser.parseVariableDeclaration n := by
  intro m p q r p' hnm hs h
  simp only [parser.parseVariableDeclaration, bind_ok, Prod.exists] at h
  obtain ⟨name, p1, h1, typ, p2, h2, ini, p3, h3, h⟩ := h
  cases h
  obtain ⟨q1, hq1, hs1⟩ := sim_parseIdentifier n m p q _ _ hnm hs h1
  have h2' : ∃ q2, (if p1.tok.Kind = token.Colon then
        (do let p ← parser.advance m q1; parser.parseType m p)
      else pure (Node.nil, q1)) = .ok (typ, q2) ∧ Sim p2 q2 := by
    split at h2
    · rename_i hk
      rw [if_pos hk]
      simp only [bind_ok] at h2
      obtain ⟨p2', h21, h22⟩ := h2
      obtain ⟨q2', hq21, hs21⟩ := sim_advance n m p1 q1 _ hnm hs1.2.1 hs1.2.2.1 hs1.2.2.2 h21
      obtain ⟨q2, hq22, hs22⟩ := (sim_types n).1 m _ _ _ _ hnm hs21 h22
      exact ⟨q2, by simp [hq21, hq22, bind, Except.bind], hs22⟩
    · rename_i hk
      rw [if_neg hk]
      cases h2
      exact ⟨q1, rfl, hs1⟩
  obtain ⟨q2, hq2, hs2⟩ := h2'
  have h3' : ∃ q3, (if p2.tok.Kind = token.Assign then
        (do let p ← parser.advance m q2; parser.parseInitializer m p)
      else pure (Node.nil, q2)) = .ok (ini, q3) ∧ Sim p' q3 := by
    split at h3
    · rename_i hk
      rw [if_pos hk]
      simp only [bind_ok] at h3
      obtain ⟨p3', h31, h32⟩ := h3
      obtain ⟨q3', hq31, hs31⟩ := sim_advance n m p2 q2 _ hnm hs2.2.1 hs2.2.2.1 hs2.2.2.2 h31
      obtain ⟨q3, hq32, hs32⟩ := (sim_inits n).1 m _ _ _ _ hnm hs31 h32
      exact ⟨q3, by simp [hq31, hq32, bind, Except.bind], hs32⟩
    · rename_i hk
      rw [if_neg hk]
      cases h3
      exact ⟨q2, rfl, hs2⟩
  obtain ⟨q3, hq3, hs3⟩ := h3'
  refine ⟨q3, ?_, hs3⟩
  simp only [parser.parseVariableDeclaration, bind, Except.bind, pure, Except.pure] at hq2 hq3 ⊢
  simp only [hq1, ← hs1.1, hq2, ← hs2.1, hq3]

theorem sim_parseVariableDeclarationListLoop : ∀ (n : Nat) (acc : List Node),
    SimAt (fun n p => parser.parseVariableDeclarationListLoop n acc p) n := by
  intro n
  induction n with
  | zero =>
    intro acc m p q r p' _ _ h
    simp only [parser.parseVariableDeclarationListLoop] at h
    cases h
  | succ n ih =>
    intro acc m p q r p' hnm hs h
    obtain ⟨m, rfl⟩ : ∃ m', m = m' + 1 := ⟨m - 1, by omega⟩
    have hnm' : n ≤ m := by omega
    try simp only [] at h ⊢
    rw [parser.parseVariableDeclarationListLoop] at h ⊢
    simp only [bind_ok, Prod.exists] at h
    obtain ⟨d, p1, h1, h⟩ := h
    obtain ⟨q1, hq1, hs1⟩ := sim_parseVariableDeclaration n m p q _ _ hnm' hs h1
    simp only [hq1, bind, Except.bind, ← hs1.1]
    split at h
    · rename_i hk
      rw [if_pos hk]
      simp only [bind_ok, Prod.exists] at h
      obtain ⟨t, p2, h2, h⟩ := h
      cases h
      obtain ⟨q2, hq2, hs2⟩ := sim_eat _ n m p1 q1 _ _ hnm' hs1 h2
      try simp only [] at hq2
      exact ⟨q2, by simp [hq2, pure, Except.pure], hs2⟩
    · rename_i hk
      rw [if_neg hk]
      simp only [bind_ok] at h
      obtain ⟨p2, h2, h⟩ := h
      obtain ⟨q2, hq2, hs2⟩ := sim_advance n m p1 q1 p2 hnm' hs1.2.1 hs1.2.2.1 hs1.2.2.2 h2
      simp only [hq2]
      exact ih _ m p2 q2 _ _ hnm' hs2 h

theorem sim_parseEnumMember (n : Nat) : SimAt parser.parseEnumMember n := by
  intro m p q r p' hnm hs h
  simp only [parser.parseEnumMember, bind_ok, Prod.exists] at h
  obtain ⟨name, p1, h1, h⟩ := h
  obtain ⟨q1, hq1, hs1⟩ := sim_parseIdentifier n m p q _ _ hnm hs h1
  obtain ⟨hc1, hc2⟩ := sim_consumeComment hs1
  simp only [parser.parseEnumMember, hq1, bind, Except.bind]
  have e1 : q1.consumeComment.2.tok = p1.consumeComment.2.tok := hc2.1.symm
  simp only [e1, ← hc1]
  split at h
  · rename_i hk
    rw [if_pos hk]
    cases h
    exact ⟨_, rfl, hc2⟩
  · rename_i hk
    rw [if_neg hk]
    simp only [bind_ok, Prod.exists] at h
    obtain ⟨p2, h2, ini, p3, h3, h⟩ := h
    cases h
    obtain ⟨q2, hq2, hs2⟩ := sim_advance n m _ _ p2 hnm hc2.2.1 hc2.2.2.1 hc2.2.2.2 h2
    obtain ⟨q3, hq3, hs3⟩ := (sim_inits n).1 m _ _ _ _ hnm hs2 h3
    exact ⟨q3, by simp [hq2, hq3, pure, Except.pure], hs3⟩

theorem sim_parseEnumDeclarationLoop : ∀ (n : Nat) (acc : List Node),
    SimAt (fun n p => parser.parseEnumDeclarationLoop n acc p) n := by
  intro n
  induction n with
  | zero =>
    intro acc m p q r p' _ _ h
    simp only [parser.parseEnumDeclarationLoop] at h
    cases h
  | succ n ih =>
    intro acc m p q r p' hnm hs h
    obtain ⟨m, rfl⟩ : ∃ m', m = m' + 1 := ⟨m - 1, by omega⟩
    have hnm' : n ≤ m := by omega
    try simp only [] at h ⊢
    rw [parser.parseEnumDeclarationLoop] at h ⊢
    simp only [← hs.1]
    split at h
    · rename_i hk
      rw [if_pos hk]
      cases h
      exact ⟨q, rfl, hs⟩
    · rename_i hk
      rw [if_neg hk]
      simp only [bind_ok, Prod.exists] at h
      obtain ⟨mem, p1, h1, h⟩ := h
      obtain ⟨q1, hq1, hs1⟩ := sim_parseEnumMember n m p q _ _ hnm' hs h1
      simp only [hq1, bind, Except.bind, ← hs1.1]
      split at h
      · rename_i hk2
        rw [if_pos hk2]
        simp only [bind_ok] at h
        obtain ⟨p2, h2, h⟩ := h
        obtain ⟨q2, hq2, hs2⟩ := sim_advance n m p1 q1 p2 hnm' hs1.2.1 hs1.2.2.1 hs1.2.2.2 h2
        simp only [hq2]
        exact ih _ m p2 q2 _ _ hnm' hs2 h
      · rename_i hk2
        rw [if_neg hk2]
        split at h
        · rename_i hk3
          rw [if_pos hk3]
          exact ih _ m p1 q1 _ _ hnm' hs1 h
        · cases h

theorem sim_parseInterfaceDeclarationLoop : ∀ (n : Nat) (acc : List Node),
    SimAt (fun n p => parser.parseInterfaceDeclarationLoop n acc p) n := by
  intro n
  induction n with
  | zero =>
    intro acc m p q r p' _ _ h
    simp only [parser.parseInterfaceDeclarationLoop] at h
    cases h
  | succ n ih =>
    intro acc m p q r p' hnm hs h
    obtain ⟨m, rfl⟩ : ∃ m', m = m' + 1 := ⟨m - 1, by omega⟩
    have hnm' : n ≤ m := by omega
    try simp only [] at h ⊢
    rw [parser.parseInterfaceDeclarationLoop] at h ⊢
    simp only [← hs.1]
    split at h
    · rename_i hk
      rw [if_pos hk]
      cases h
      exact ⟨q, rfl, hs⟩
    · rename_i hk
      rw [if_neg hk]
      simp only [bind_ok, Prod.exists] at h
      obtain ⟨mem, p1, h1, h⟩ := h
      obtain ⟨q1, hq1, hs1⟩ := (sim_types n).2.2.2.2.2.2.2.2.2.2.1 m p q _ _ hnm' hs h1
      simp only [hq1, bind, Except.bind]
      exact ih _ m p1 q1 _ _ hnm' hs1 h

end parser

namespace parser
open ast (Node)

theorem commentFree_pop {x x' : lexer} {t : token.Token} (hf : CommentFree x)
    (h : x.Pop = .ok (t, x')) :
    (t.Kind ≠ token.Comment ∧ t.Kind ≠ token.LineComment) ∧ CommentFree x' := by
  refine ⟨hf 0 t (tokenAt_zero_of h), ?_⟩
  intro k s hk
  apply hf (k + 1)
  rw [tokenAt_succ k h]
  exact hk

theorem simU_of_sim {c : List Nat} {p q : parser} (h : Sim p q) : SimU c false p q :=
  ⟨h.1, h.2.2.1, h.2.2.2, h.2.1⟩

theorem simU_advance (c : List Nat) (b : Bool) (n m : Nat) (p q p' : parser) (hnm : n ≤ m)
    (hs : SimU c b p q) (h : parser.advance n p = .ok p') :
    ∃ q', parser.advance m q = .ok q' ∧ SimU c b p' q' := by
  cases b with
  | false =>
    obtain ⟨q', hq, hs'⟩ := sim_advance n m p q p' hnm hs.2.2.2 hs.2.1 hs.2.2.1 h
    exact ⟨q', hq, simU_of_sim hs'⟩
  | true =>
    obtain ⟨h1, h2, h3, h4, h5, h6⟩ := hs
    cases n with
    | zero => simp [parser.advance] at h
    | succ n =>
      obtain ⟨m, rfl⟩ : ∃ m', m = m' + 1 := ⟨m - 1, by omega⟩
      rw [parser.advance] at h ⊢
      simp only [bind_ok, Prod.exists] at h
      obtain ⟨t, x, hx, h⟩ := h
      obtain ⟨⟨hk1, hk2⟩, hf⟩ := commentFree_pop h6 hx
      obtain ⟨y, hy, hxy⟩ := lexSim_pop h3 hx
      rw [if_neg hk1, if_neg hk2] at h
      cases h
      simp only [hy, bind, Except.bind]
      rw [if_neg hk1, if_neg hk2]
      exact ⟨_, rfl, rfl, h2, hxy, h4, h5, hf⟩

theorem simU_eat (c : List Nat) (b : Bool) (k : token.Kind) (n m : Nat) (p q p' : parser)
    (t : token.Token) (hnm : n ≤ m) (hs : SimU c b p q) (h : parser.eat n p k = .ok (t, p')) :
    ∃ q', parser.eat m q k = .ok (t, q') ∧ SimU c b p' q' := by
  simp only [parser.eat, bind_ok, Prod.exists] at h
  obtain ⟨_, he, q1, h1, h⟩ := h
  cases h
  obtain ⟨q', hq, hs'⟩ := simU_advance c b n m p q p' hnm hs h1
  refine ⟨q', ?_, hs'⟩
  simp only [parser.eat, parser.expect, ← hs.1] at he ⊢
  split at he
  · cases he
  · rename_i hk
    simp [hk, hq, bind, Except.bind, pure, Except.pure]

theorem simU_consumeComment {c : List Nat} {b : Bool} {p q : parser} (hs : SimU c b p q) :
    Sim p.consumeComment.2 q.consumeComment.2 ∧
      (∀ (f : List Nat → Node), (∀ a a', withLeadingComment a (f a') = f a) →
        f q.consumeComment.1 = fixComment c b (f p.consumeComment.1)) := by
  refine ⟨⟨hs.1, rfl, hs.2.1, hs.2.2.1⟩, ?_⟩
  intro f hf
  cases b with
  | false =>
    have := hs.2.2.2
    simp only [Bool.false_eq_true, if_false] at this
    simp [parser.consumeComment, fixComment, this]
  | true =>
    have := hs.2.2.2
    simp only [if_true] at this
    simp [parser.consumeComment, fixComment, this.1, this.2.1, hf]

end parser

namespace parser
open ast (Node)

theorem simU_parseVariableStatement (n : Nat) : SimUAt parser.parseVariableStatement n := by
  intro c b m p q r p' hnm hs h
  simp only [parser.parseVariableStatement, parser.parseVariableDeclarationList, bind_ok,
    Prod.exists] at h
  obtain ⟨t, p1, h1, d, p2, h2, h⟩ := h
  cases h
  obtain ⟨q1, hq1, hs1⟩ := simU_eat c b _ n m p q _ _ hnm hs h1
  obtain ⟨hc1, hc2⟩ := simU_consumeComment hs1
  obtain ⟨q2, hq2, hs2⟩ := sim_parseVariableDeclarationListLoop n [] m _ _ _ _ hnm hc1 h2
  try simp only [] at hq2
  refine ⟨q2, ?_, hs2⟩
  simp only [parser.parseVariableStatement, parser.parseVariableDeclarationList, hq1, bind,
    Except.bind, hq2, pure, Except.pure]
  rw [hc2 (fun a => .VariableStatement d a) (by intros; rfl)]

theorem simU_parseTypeAliasDeclaration (n : Nat) :
    SimUAt parser.parseTypeAliasDeclaration n := by
  intro c b m p q r p' hnm hs h
  simp only [parser.parseTypeAliasDeclaration, bind_ok, Prod.exists] at h
  obtain ⟨t, p1, h1, name, p2, h2, t3, p3, h3, typ, p4, h4, h⟩ := h
  cases h
  obtain ⟨q1, hq1, hs1⟩ := simU_eat c b _ n m p q _ _ hnm hs h1
  obtain ⟨hc1, hc2⟩ := simU_consumeComment hs1
  obtain ⟨q2, hq2, hs2⟩ := sim_parseIdentifier n m _ _ _ _ hnm hc1 h2
  obtain ⟨q3, hq3, hs3⟩ := sim_eat _ n m _ _ _ _ hnm hs2 h3
  obtain ⟨q4, hq4, hs4⟩ := (sim_types n).1 m _ _ _ _ hnm hs3 h4
  try simp only [] at hq3
  refine ⟨q4, ?_, hs4⟩
  simp only [parser.parseTypeAliasDeclaration, hq1, bind, Except.bind, hq2, hq3, hq4, pure,
    Except.pure]
  rw [hc2 (fun a => .TypeAliasDeclaration name typ a) (by intros; rfl)]

theorem simU_parseEnumDeclaration (n : Nat) : SimUAt parser.parseEnumDeclaration n := by
  intro c b m p q r p' hnm hs h
  simp only [parser.parseEnumDeclaration, bind_ok, Prod.exists] at h
  obtain ⟨t, p1, h1, name, p2, h2, t3, p3, h3, ms, p4, h4, t5, p5, h5, h⟩ := h
  cases h
  obtain ⟨q1, hq1, hs1⟩ := simU_eat c b _ n m p q _ _ hnm hs h1
  obtain ⟨hc1, hc2⟩ := simU_consumeComment hs1
  obtain ⟨q2, hq2, hs2⟩ := sim_parseIdentifier n m _ _ _ _ hnm hc1 h2
  obtain ⟨q3, hq3, hs3⟩ := sim_eat _ n m _ _ _ _ hnm hs2 h3
  obtain ⟨q4, hq4, hs4⟩ := sim_parseEnumDeclarationLoop n [] m _ _ _ _ hnm hs3 h4
  obtain ⟨q5, hq5, hs5⟩ := sim_eat _ n m _ _ _ _ hnm hs4 h5
  try simp only [] at hq3 hq4 hq5
  refine ⟨q5, ?_, hs5⟩
  simp only [parser.parseEnumDeclaration, hq1, bind, Except.bind, hq2, hq3, hq4, hq5, pure,
    Except.pure]
  rw [hc2 (fun a => .EnumDeclaration name ms a) (by intros; rfl)]

theorem simU_parseInterfaceDeclaration (n : Nat) :
    SimUAt parser.parseInterfaceDeclaration n := by
  intro c b m p q r p' hnm hs h
  simp only [parser.parseInterfaceDeclaration, bind_ok, Prod.exists] at h
  obtain ⟨t, p1, h1, name, p2, h2, tps, p3, h3, hcs, p4, h4, t5, p5, h5, ms, p6, h6, t7, p7, h7,
    h⟩ := h
  cases h
  obtain ⟨q1, hq1, hs1⟩ := simU_eat c b _ n m p q _ _ hnm hs h1
  obtain ⟨hc1, hc2⟩ := simU_consumeComment hs1
  obtain ⟨q2, hq2, hs2⟩ := sim_parseIdentifier n m _ _ _ _ hnm hc1 h2
  have h3' : ∃ q3, (if p2.tok.Kind = token.LAngle then parser.parseTypeParameters m q2
      else pure ([], q2)) = .ok (tps, q3) ∧ Sim p3 q3 := by
    split at h3
    · rename_i hk
      rw [if_pos hk]
      exact sim_parseTypeParameters n m _ _ _ _ hnm hs2 h3
    · rename_i hk
      rw [if_neg hk]
      cases h3
      exact ⟨q2, rfl, hs2⟩
  obtain ⟨q3, hq3, hs3⟩ := h3'
  have h4' : ∃ q4, (if p3.tok.Kind = token.Ident ∧ p3.tok.Text = str "extends" then
      parser.parseHeritageClauses m q3 else pure ([], q3)) = .ok (hcs, q4) ∧ Sim p4 q4 := by
    split at h4
    · rename_i hk
      rw [if_pos hk]
      exact sim_parseHeritageClauses n m _ _ _ _ hnm hs3 h4
    · rename_i hk
      rw [if_neg hk]
      cases h4
      exact ⟨q3, rfl, hs3⟩
  obtain ⟨q4, hq4, hs4⟩ := h4'
  obtain ⟨q5, hq5, hs5⟩ := sim_eat _ n m _ _ _ _ hnm hs4 h5
  obtain ⟨q6, hq6, hs6⟩ := sim_parseInterfaceDeclarationLoop n [] m _ _ _ _ hnm hs5 h6
  obtain ⟨q7, hq7, hs7⟩ := sim_eat _ n m _ _ _ _ hnm hs6 h7
  try simp only [] at hq5 hq6 hq7
  refine ⟨q7, ?_, hs7⟩
  simp only [parser.parseInterfaceDeclaration, bind, Except.bind, pure, Except.pure] at hq3 hq4 ⊢
  simp only [hq1, hq2, ← hs2.1, hq3, ← hs3.1, hq4, hq5, hq6, hq7]
  rw [hc2 (fun a => .InterfaceDeclaration name tps hcs ms a) (by intros; rfl)]

theorem sim_stmts : ∀ n : Nat,
    SimUAt parser.parseStatement n ∧
    SimUAt parser.parseStatementLoop n ∧
    SimUAt parser.parseModuleDeclaration n ∧
    (∀ acc, SimAt (fun n p => parser.parseModuleDeclarationLoop n acc p) n) := by
  intro n
  induction n with
  | zero =>
    refine ⟨?_, ?_, ?_, ?_⟩
    · intro c b m p q r p' _ _ h; rw [parser.parseStatement] at h; cases h
    · intro c b m p q r p' _ _ h; rw [parser.parseStatementLoop] at h; cases h
    · intro c b m p q r p' _ _ h; rw [parser.parseModuleDeclaration] at h; cases h
    · intro acc m p q r p' _ _ h; simp only [parser.parseModuleDeclarationLoop] at h; cases h
  | succ n ih =>
    obtain ⟨iStmt, iLoop, iMod, iModLoop⟩ := ih
    refine ⟨?_, ?_, ?_, ?_⟩
    · intro c b m p q r p' hnm hs h
      obtain ⟨m, rfl⟩ : ∃ m', m = m' + 1 := ⟨m - 1, by omega⟩
      have hnm' : n ≤ m := by omega
      rw [parser.parseStatement] at h ⊢
      simp only [bind_ok] at h
      obtain ⟨_, he, h⟩ := h
      simp only [parser.expect, ← hs.1] at he ⊢
      split at he
      · cases he
      · rename_i hk
        rw [if_neg hk]
        simp only [bind, Except.bind]
        exact iLoop c b m p q r p' hnm' hs h
    · intro c b m p q r p' hnm hs h
      obtain ⟨m, rfl⟩ : ∃ m', m = m' + 1 := ⟨m - 1, by omega⟩
      have hnm' : n ≤ m := by omega
      rw [parser.parseStatementLoop] at h ⊢
      simp only [← hs.1]
      split at h
      · rename_i hk
        rw [if_pos hk]
        simp only [bind_ok] at h
        obtain ⟨p1, h1, h⟩ := h
        obtain ⟨q1, hq1, hs1⟩ := simU_advance c b n m p q p1 hnm' hs h1
        simp only [hq1, bind, Except.bind]
        exact iLoop c b m p1 q1 r p' hnm' hs1 h
      rename_i hk1
      rw [if_neg hk1]
      split at h
      · rename_i hk
        rw [if_pos hk]
        exact simU_parseVariableStatement n c b m p q r p' hnm' hs h
      rename_i hk2
      rw [if_neg hk2]
      split at h
      · rename_i hk
        rw [if_pos hk]
        exact simU_parseTypeAliasDeclaration n c b m p q r p' hnm' hs h
      rename_i hk3
      rw [if_neg hk3]
      split at h
      · rename_i hk
        rw [if_pos hk]
        exact simU_parseEnumDeclaration n c b m p q r p' hnm' hs h
      rename_i hk4
      rw [if_neg hk4]
      split at h
      · rename_i hk
        rw [if_pos hk]
        exact simU_parseInterfaceDeclaration n c b m p q r p' hnm' hs h
      rename_i hk5
      rw [if_neg hk5]
      split at h
      · rename_i hk
        rw [if_pos hk]
        exact iMod c b m p q r p' hnm' hs h
      · cases h
    · intro c b m p q r p' hnm hs h
      obtain ⟨m, rfl⟩ : ∃ m', m = m' + 1 := ⟨m - 1, by omega⟩
      have hnm' : n ≤ m := by omega
      rw [parser.parseModuleDeclaration] at h ⊢
      simp only [bind_ok, Prod.exists] at h
      obtain ⟨t, p1, h1, name, p2, h2, t3, p3, h3, ss, p4, h4, h⟩ := h
      cases h
      obtain ⟨q1, hq1, hs1⟩ := simU_eat c b _ n m p q _ _ hnm' hs h1
      obtain ⟨hc1, hc2⟩ := simU_consumeComment hs1
      obtain ⟨q2, hq2, hs2⟩ := sim_parseIdentifier n m _ _ _ _ hnm' hc1 h2
      obtain ⟨q3, hq3, hs3⟩ := sim_eat _ n m _ _ _ _ hnm' hs2 h3
      obtain ⟨q4, hq4, hs4⟩ := iModLoop [] m _ _ _ _ hnm' hs3 h4
      try simp only [] at hq3 hq4
      refine ⟨q4, ?_, hs4⟩
      simp only [hq1, bind, Except.bind, hq2, hq3, hq4, pure, Except.pure]
      rw [hc2 (fun a => .ModuleDeclaration name (.ModuleBlock ss) a) (by intros; rfl)]
    · intro acc m p q r p' hnm hs h
      obtain ⟨m, rfl⟩ : ∃ m', m = m' + 1 := ⟨m - 1, by omega⟩
      have hnm' : n ≤ m := by omega
      try simp only [] at h ⊢
      rw [parser.parseModuleDeclarationLoop] at h ⊢
      simp only [← hs.1]
      split at h
      · rename_i hk
        rw [if_pos hk]
        simp only [bind_ok, Prod.exists] at h
        obtain ⟨t, p1, h1, h⟩ := h
        cases h
        obtain ⟨q1, hq1, hs1⟩ := sim_eat _ n m p q _ _ hnm' hs h1
        try simp only [] at hq1
        exact ⟨q1, by simp [hq1, bind, Except.bind, pure, Except.pure], hs1⟩
      · rename_i hk
        rw [if_neg hk]
        simp only [bind_ok, Prod.exists] at h
        obtain ⟨s, p1, h1, h⟩ := h
        obtain ⟨q1, hq1, hs1⟩ := iStmt [] false m p q _ _ hnm' (simU_of_sim hs) h1
        simp only [fixComment, Bool.false_eq_true, if_false] at hq1
        simp only [hq1, bind, Except.bind]
        exact iModLoop _ m p1 q1 _ _ hnm' hs1 h

theorem sim_parseSourceFileLoop : ∀ (n : Nat) (acc : List Node),
    SimAt (fun n p => parser.parseSourceFileLoop n acc p) n := by
  intro n
  induction n with
  | zero =>
    intro acc m p q r p' _ _ h
    simp only [parser.parseSourceFileLoop] at h
    cases h
  | succ n ih =>
    intro acc m p q r p' hnm hs h
    obtain ⟨m, rfl⟩ : ∃ m', m = m' + 1 := ⟨m - 1, by omega⟩
    have hnm' : n ≤ m := by omega
    try simp only [] at h ⊢
    rw [parser.parseSourceFileLoop] at h ⊢
    simp only [bind_ok] at h
    obtain ⟨p1, h1, h⟩ := h
    obtain ⟨q1, hq1, hs1⟩ := sim_advance n m p q p1 hnm' hs.2.1 hs.2.2.1 hs.2.2.2 h1
    simp only [hq1, bind, Except.bind, ← hs1.1]
    split at h
    · rename_i hk
      rw [if_pos hk]
      cases h
      exact ⟨q1, rfl, hs1⟩
    · rename_i hk
      rw [if_neg hk]
      simp only [bind_ok, Prod.exists] at h
      obtain ⟨s, p2, h2, h⟩ := h
      obtain ⟨q2, hq2, hs2⟩ := (sim_stmts n).1 [] false m p1 q1 _ _ hnm' (simU_of_sim hs1) h2
      simp only [fixComment, Bool.false_eq_true, if_false] at hq2
      simp only [hq2]
      exact ih _ m p2 q2 _ _ hnm' hs2 h

end parser

namespace parser
open ast (Node)

theorem idx_shift (pre s : List Nat) (i : Nat) : idx (pre ++ s) (pre.length + i) = idx s i := by
  unfold idx
  rw [List.getElem?_append_right (by omega)]
  simp

theorem slice_shift (pre s : List Nat) (lo hi : Nat) :
    slice (pre ++ s) (pre.length + lo) (pre.length + hi) = slice s lo hi := by
  unfold slice
  have e : pre.length + hi - (pre.length + lo) = hi - lo := by omega
  simp [e]

theorem skipRun_shift (pre : List Nat) (c : Nat) : ∀ (n : Nat) (x : lexer),
    lexer.skipRun c n (x.shift pre) = shiftX pre (lexer.skipRun c n x) := by
  intro n
  induction n with
  | zero => intro x; rfl
  | succ n ih =>
    intro x
    rw [lexer.skipRun, lexer.skipRun]
    simp only [lexer.shift, List.length_append, idx_shift]
    by_cases h : x.offset + 1 < x.Source.length
    · have h' : pre.length + x.offset + 1 < pre.length + x.Source.length := by omega
      rw [if_pos h, if_pos h']
      cases hb : idx x.Source x.offset with
      | error e => rfl
      | ok b =>
        simp only [bind, Except.bind]
        by_cases hc : b = c
        · rw [if_pos hc, if_pos hc]
          exact ih { x with offset := x.offset + 1 }
        · rw [if_neg hc, if_neg hc]
          rfl
    · have h' : ¬ pre.length + x.offset + 1 < pre.length + x.Source.length := by omega
      rw [if_neg h, if_neg h']
      rfl

theorem skipLine_shift (pre : List Nat) : ∀ (n : Nat) (x : lexer),
    lexer.skipLine n (x.shift pre) = shiftX pre (lexer.skipLine n x) := by
  intro n
  induction n with
  | zero => intro x; rfl
  | succ n ih =>
    intro x
    rw [lexer.skipLine, lexer.skipLine]
    simp only [lexer.shift, List.length_append, idx_shift]
    by_cases h : x.offset < x.Source.length
    · have h' : pre.length + x.offset < pre.length + x.Source.length := by omega
      rw [if_pos h, if_pos h']
      cases hb : idx x.Source x.offset with
      | error e => rfl
      | ok b =>
        simp only [bind, Except.bind]
        by_cases hc : b ≠ 10
        · rw [if_pos hc, if_pos hc]
          exact ih { x with offset := x.offset + 1 }
        · rw [if_neg hc, if_neg hc]
          rfl
    · have h' : ¬ pre.length + x.offset < pre.length + x.Source.length := by omega
      rw [if_neg h, if_neg h']
      rfl

theorem skipDigits_shift (pre : List Nat) : ∀ (n : Nat) (x : lexer),
    lexer.skipDigits n (x.shift pre) = shiftX pre (lexer.skipDigits n x) := by
  intro n
  induction n with
  | zero => intro x; rfl
  | succ n ih =>
    intro x
    rw [lexer.skipDigits, lexer.skipDigits]
    simp only [lexer.shift, List.length_append, idx_shift]
    by_cases h : x.offset < x.Source.length
    · have h' : pre.length + x.offset < pre.length + x.Source.length := by omega
      rw [if_pos h, if_pos h']
      cases hb : idx x.Source x.offset with
      | error e => rfl
      | ok b =>
        simp only [bind, Except.bind]
        by_cases hc : b ≥ 48 ∧ b ≤ 57
        · rw [if_pos hc, if_pos hc]
          exact ih { x with offset := x.offset + 1 }
        · rw [if_neg hc, if_neg hc]
          rfl
    · have h' : ¬ pre.length + x.offset < pre.length + x.Source.length := by omega
      rw [if_neg h, if_neg h']
      rfl

theorem skipRun_source (c : Nat) : ∀ (n : Nat) (x x' : lexer),
    lexer.skipRun c n x = .ok x' → x'.Source = x.Source := by
  intro n
  induction n with
  | zero => intro x x' h; cases h; rfl
  | succ n ih =>
    intro x x' h
    rw [lexer.skipRun] at h
    split at h
    · simp only [bind_ok] at h
      obtain ⟨b, _, h⟩ := h
      split at h
      · have := ih _ _ h
        exact this
      · cases h; rfl
    · cases h; rfl

theorem skipLine_source : ∀ (n : Nat) (x x' : lexer),
    lexer.skipLine n x = .ok x' → x'.Source = x.Source := by
  intro n
  induction n with
  | zero => intro x x' h; cases h; rfl
  | succ n ih =>
    intro x x' h
    rw [lexer.skipLine] at h
    split at h
    · simp only [bind_ok] at h
      obtain ⟨b, _, h⟩ := h
      split at h
      · have := ih _ _ h
        exact this
      · cases h; rfl
    · cases h; rfl

theorem skipDigits_source : ∀ (n : Nat) (x x' : lexer),
    lexer.skipDigits n x = .ok x' → x'.Source = x.Source := by
  intro n
  induction n with
  | zero => intro x x' h; cases h; rfl
  | succ n ih =>
    intro x x' h
    rw [lexer.skipDigits] at h
    split at h
    · simp only [bind_ok] at h
      obtain ⟨b, _, h⟩ := h
      split at h
      · have := ih _ _ h
        exact this
      · cases h; rfl
    · cases h; rfl

theorem nextString_shift (pre : List Nat) (x : lexer) :
    lexer.nextString (x.shift pre) = shiftR pre (lexer.nextString x) := by
  unfold lexer.nextString
  simp only [lexer.shift, List.length_append]
  rw [show pre.length + x.offset + 1 = pre.length + (x.offset + 1) by omega, slice_shift]
  cases hs : slice x.Source (x.offset + 1) x.Source.length with
  | error e => rfl
  | ok tail =>
    simp only [bind, Except.bind]
    cases hi : indexByte tail 39 with
    | none => rfl
    | some e =>
      simp only []
      rw [show pre.length + (x.offset + 1) + (e + 1) - 1 = pre.length + (x.offset + 1 + (e + 1) - 1)
        by omega, slice_shift]
      cases slice x.Source (x.offset + 1) (x.offset + 1 + (e + 1) - 1) with
      | error e => rfl
      | ok text =>
        simp only [pure, Except.pure, shiftR, lexer.shift]
        congr 3
        omega

theorem nextNumber_shift (pre : List Nat) (x : lexer) :
    lexer.nextNumber (x.shift pre) = shiftR pre (lexer.nextNumber x) := by
  unfold lexer.nextNumber
  have e : (x.shift pre).Source.length - (x.shift pre).offset = x.Source.length - x.offset := by
    simp only [lexer.shift, List.length_append]; omega
  rw [e, skipDigits_shift]
  cases hs : lexer.skipDigits (x.Source.length - x.offset) x with
  | error e => rfl
  | ok x1 =>
    have hsrc := skipDigits_source _ _ _ hs
    simp only [bind, Except.bind, shiftX, lexer.shift, slice_shift]
    cases slice x1.Source x.offset x1.offset with
    | error e => rfl
    | ok text => rfl

theorem nextIdent_shift (pre : List Nat) (x : lexer) :
    lexer.nextIdent (x.shift pre) = shiftR pre (lexer.nextIdent x) := by
  unfold lexer.nextIdent
  simp only [lexer.shift, List.length_append, slice_shift]
  cases hs : slice x.Source x.offset x.Source.length with
  | error e => rfl
  | ok tail =>
    simp only [bind, Except.bind]
    cases hi : indexFunc lexer.identEnd tail with
    | none =>
      simp only [List.length_append, slice_shift]
      cases slice x.Source x.offset x.Source.length with
      | error e => rfl
      | ok text => rfl
    | some e =>
      simp only [Nat.add_assoc, slice_shift]
      cases slice x.Source x.offset (x.offset + e) with
      | error e => rfl
      | ok text => rfl

theorem nextLineComment_kind {x x' : lexer} {t : token.Token}
    (h : lexer.nextLineComment x = .ok (t, x')) :
    t.Kind = token.Comment ∨ t.Kind = token.LineComment := by
  unfold lexer.nextLineComment at h
  simp only [bind_ok] at h
  obtain ⟨x1, _, x2, _, text, _, h⟩ := h
  cases h
  simp only [lexer.commentKind]
  split <;> simp

theorem nextBlockComment_shift (pre : List Nat) {x x' : lexer} {t : token.Token}
    (h : lexer.nextBlockComment x = .ok (t, x'))
    (hk : t.Kind ≠ token.Comment ∧ t.Kind ≠ token.LineComment) :
    lexer.nextBlockComment (x.shift pre) = .ok (t, x'.shift pre) := by
  rw [lexer.nextBlockComment] at h ⊢
  simp only [bind_ok] at h
  obtain ⟨x1, h1, tail, h2, h⟩ := h
  have hsrc := skipRun_source _ _ _ _ h1
  have h1' := skipRun_shift pre 42 (x.Source.length - (x.offset + 2))
    { x with offset := x.offset + 2 }
  rw [h1] at h1'
  simp only [lexer.shift, shiftX] at h1'
  simp only [lexer.shift, List.length_append]
  rw [show pre.length + x.offset + 2 = pre.length + (x.offset + 2) by omega,
    show pre.length + x.Source.length - (pre.length + (x.offset + 2))
      = x.Source.length - (x.offset + 2) by omega, h1']
  simp only [bind, Except.bind, List.length_append, slice_shift, h2]
  cases hi : bytesIndex tail [42, 47] with
  | none =>
    rw [hi] at h
    cases h
    rfl
  | some i =>
    rw [hi] at h
    simp only [bind_ok] at h
    obtain ⟨_, _, _, _, h⟩ := h
    cases h
    exfalso
    simp only [lexer.commentKind] at hk
    split at hk <;> simp at hk

theorem nextComment_shift (pre : List Nat) {x x' : lexer} {t : token.Token}
    (h : lexer.nextComment x = .ok (t, x'))
    (hk : t.Kind ≠ token.Comment ∧ t.Kind ≠ token.LineComment) :
    lexer.nextComment (x.shift pre) = .ok (t, x'.shift pre) := by
  rw [lexer.nextComment] at h ⊢
  have e : (x.shift pre).offset + 1 = pre.length + (x.offset + 1) := by
    simp only [lexer.shift]; omega
  have e2 : (x.shift pre).Source = pre ++ x.Source := rfl
  rw [e, e2, idx_shift, List.length_append]
  by_cases hc : x.offset + 1 ≥ x.Source.length
  · rw [if_pos hc] at h
    rw [if_pos (by omega)]
    cases h
    rfl
  · rw [if_neg hc] at h
    rw [if_neg (by omega)]
    simp only [bind_ok] at h
    obtain ⟨b, hb, h⟩ := h
    simp only [hb, bind, Except.bind]
    split at h
    · rename_i h47
      exfalso
      rcases nextLineComment_kind h with h' | h'
      · exact hk.1 h'
      · exact hk.2 h'
    · rename_i h47
      rw [if_neg h47]
      split at h
      · rename_i h42
        rw [if_pos h42]
        exact nextBlockComment_shift pre h hk
      · rename_i h42
        rw [if_neg h42]
        cases h
        rfl

theorem of_shiftR {pre : List Nat} {r : Except Err (token.Token × lexer)} {t : token.Token}
    {x' : lexer} (h : r = .ok (t, x')) : shiftR pre r = .ok (t, x'.shift pre) := by
  subst h; rfl

theorem ok_bind {ε α β : Type} (a : α) (f : α → Except ε β) :
    ((Except.ok a : Except ε α) >>= f) = f a := rfl

theorem nextLoop_shift (pre : List Nat) : ∀ (n : Nat) (x x' : lexer) (t : token.Token),
    lexer.nextLoop n x = .ok (t, x') → (t.Kind ≠ token.Comment ∧ t.Kind ≠ token.LineComment) →
    lexer.nextLoop n (x.shift pre) = .ok (t, x'.shift pre) := by
  intro n
  induction n with
  | zero => intro x x' t h; rw [lexer.nextLoop] at h; cases h
  | succ n ih =>
    intro x x' t h hk
    rw [lexer.nextLoop] at h ⊢
    have e1 : (x.shift pre).offset = pre.length + x.offset := rfl
    have e2 : (x.shift pre).Source = pre ++ x.Source := rfl
    rw [e1, e2, idx_shift, List.length_append]
    by_cases hlt : x.offset < x.Source.length
    · rw [if_pos hlt] at h
      rw [if_pos (by omega)]
      simp only [bind_ok] at h
      obtain ⟨c, hc, h⟩ := h
      rw [hc, ok_bind]
      by_cases hws : c = 32 ∨ c = 9 ∨ c = 13
      · rw [if_pos hws] at h ⊢
        exact ih _ _ _ h hk
      rw [if_neg hws] at h ⊢
      by_cases hnl : c = 10
      · rw [if_pos hnl] at h ⊢
        exact ih _ _ _ h hk
      rw [if_neg hnl] at h ⊢
      by_cases hsl : c = 47
      · rw [if_pos hsl] at h ⊢
        exact nextComment_shift pre h hk
      rw [if_neg hsl] at h ⊢
      by_cases h124 : c = 124
      · rw [if_pos h124] at h ⊢
        cases h
        rfl
      rw [if_neg h124] at h ⊢
      by_cases h61 : c = 61
      · rw [if_pos h61] at h ⊢
        cases h
        rfl
      rw [if_neg h61] at h ⊢
      by_cases h45 : c = 45
      · rw [if_pos h45] at h ⊢
        cases h
        rfl
      rw [if_neg h45] at h ⊢
      by_cases h40 : c = 40
      · rw [if_pos h40] at h ⊢
        cases h
        rfl
      rw [if_neg h40] at h ⊢
      by_cases h41 : c = 41
      · rw [if_pos h41] at h ⊢
        cases h
        rfl
      rw [if_neg h41] at h ⊢
      by_cases h91 : c = 91
      · rw [if_pos h91] at h ⊢
        cases h
        rfl
      rw [if_neg h91] at h ⊢
      by_cases h93 : c = 93
      · rw [if_pos h93] at h ⊢
        cases h
        rfl
      rw [if_neg h93] at h ⊢
      by_cases h123 : c = 123
      · rw [if_pos h123] at h ⊢
        cases h
        rfl
      rw [if_neg h123] at h ⊢
      by_cases h125 : c = 125
      · rw [if_pos h125] at h ⊢
        cases h
        rfl
      rw [if_neg h125] at h ⊢
      by_cases h60 : c = 60
      · rw [if_pos h60] at h ⊢
        cases h
        rfl
      rw [if_neg h60] at h ⊢
      by_cases h62 : c = 62
      · rw [if_pos h62] at h ⊢
        cases h
        rfl
      rw [if_neg h62] at h ⊢
      by_cases h44 : c = 44
      · rw [if_pos h44] at h ⊢
        cases h
        rfl
      rw [if_neg h44] at h ⊢
      by_cases h46 : c = 46
      · rw [if_pos h46] at h ⊢
        cases h
        rfl
      rw [if_neg h46] at h ⊢
      by_cases h58 : c = 58
      · rw [if_pos h58] at h ⊢
        cases h
        rfl
      rw [if_neg h58] at h ⊢
      by_cases h59 : c = 59
      · rw [if_pos h59] at h ⊢
        cases h
        rfl
      rw [if_neg h59] at h ⊢
      by_cases h63 : c = 63
      · rw [if_pos h63] at h ⊢
        cases h
        rfl
      rw [if_neg h63] at h ⊢
      by_cases h39 : c = 39
      · rw [if_pos h39] at h ⊢
        exact (nextString_shift pre _).trans (of_shiftR h)
      rw [if_neg h39] at h ⊢
      by_cases hd : c ≥ 48 ∧ c ≤ 57
      · rw [if_pos hd] at h ⊢
        exact (nextNumber_shift pre _).trans (of_shiftR h)
      rw [if_neg hd] at h ⊢
      by_cases hi : (c ≥ 97 ∧ c ≤ 122) ∨ (c ≥ 65 ∧ c ≤ 90)
      · rw [if_pos hi] at h ⊢
        exact (nextIdent_shift pre _).trans (of_shiftR h)
      rw [if_neg hi] at h ⊢
      cases h
      rfl
    · rw [if_neg hlt] at h
      rw [if_neg (by omega)]
      cases h
      rfl

end parser

namespace parser
open ast (Node)

end parser

namespace parser
open ast (Node)

end parser

namespace parser
open ast (Node)

theorem pop_eof {x : lexer} (h0 : x.nextToken.Kind = 0) (h1 : ¬ x.offset < x.Source.length) :
    x.Pop = .ok ({ Kind := token.EOF }, x) := by
  unfold lexer.Pop lexer.next
  rw [if_pos h0, lexer.nextLoop, if_neg h1]
  rfl

theorem tokenAt_eof {x : lexer} (h0 : x.nextToken.Kind = 0) (h1 : ¬ x.offset < x.Source.length) :
    ∀ k, lexer.tokenAt k x = .ok { Kind := token.EOF } := by
  intro k
  induction k with
  | zero => exact tokenAt_zero_of (pop_eof h0 h1)
  | succ k ih => rw [tokenAt_succ k (pop_eof h0 h1)]; exact ih

end parser

namespace parser
open ast (Node)

theorem popOk_true : PopOk (fun _ => True) (fun _ => True) :=
  fun _ _ _ _ _ => ⟨trivial, fun _ => trivial⟩

theorem treeOk_Parse (src : List Nat) (tree : Node) (h : Parse src = .ok tree) :
    TreeOk (fun _ => True) tree :=
  ok_Parse popOk_true src tree ⟨trivial, Or.inl rfl⟩ h

theorem popOk_comment (x₀ : lexer) :
    PopOk (fun t => ∃ k, lexer.tokenAt k x₀ = .ok { Kind := token.Comment, Text := t })
      (fun x => ∀ k tok, lexer.tokenAt k x = .ok tok → ∃ k', lexer.tokenAt k' x₀ = .ok tok) := by
  intro x t x' hL hp
  refine ⟨?_, ?_⟩
  · intro k tok hk
    apply hL (k + 1)
    rw [tokenAt_succ k hp]
    exact hk
  · intro hk
    obtain ⟨k', hk'⟩ := hL 0 t (tokenAt_zero_of hp)
    refine ⟨k', ?_⟩
    rw [hk']
    cases t
    simp only [] at hk
    subst hk
    rfl

end parser

namespace parser
open ast (Node)

theorem inspect_false {σ : Type} (f : σ → Node → Bool × σ) (s : σ) (n : Node)
    (hf : (f s n).1 = false) : ast.Inspect n f s = .ok ([n], (f s n).2) := by
  unfold ast.Inspect
  rw [ast.Walk]
  simp [ast.inspector.Visit, hf]

theorem noNil_child {r c : Node} (h : NoNil r) (hc : c ∈ r.children) : NoNil c :=
  fun m hm => h m (.child m c r hm hc)

theorem noNil_iff (r : Node) : NoNil r ↔ r ≠ .nil ∧ ∀ c ∈ r.children, NoNil c := by
  constructor
  · intro h
    exact ⟨h r (.root r), fun c hc => noNil_child h hc⟩
  · intro h m hm
    rcases within_inv hm with rfl | ⟨c, hc, hw⟩
    · exact h.1
    · exact h.2 c hc m hw

theorem visit_true {σ : Type} (f : σ → Node → Bool × σ) (hf : ∀ s n, (f s n).1 = true)
    (v : Unit) (s : σ) (n : Node) : ast.inspector.Visit f v s n = (some (), (f s n).2) := by
  have h := hf s n
  unfold ast.inspector.Visit
  rcases hfs : f s n with ⟨b, s'⟩
  rw [hfs] at h
  simp only [] at h
  subst h
  simp [ast.inspector.Visit, hfs]

theorem walk_preorder {σ : Type} (f : σ → Node → Bool × σ) (hf : ∀ s n, (f s n).1 = true) :
    ∀ n : Node, NoNil n → ∀ s, ∃ calls s', ast.Walk (ast.inspector.Visit f) () n s = .ok (calls, s') ∧
      calls.filter (· ≠ .nil) = n.preorder := by
  intro n
  refine Node.rec
    (motive_1 := fun n => NoNil n → ∀ s, ∃ calls s',
      ast.Walk (ast.inspector.Visit f) () n s = .ok (calls, s') ∧
        calls.filter (· ≠ .nil) = n.preorder)
    (motive_2 := fun l => (∀ e ∈ l, NoNil e) → ∀ s, ∃ calls s',
      ast.WalkEach (ast.inspector.Visit f) () l s = .ok (calls, s') ∧
        calls.filter (· ≠ .nil) = Node.preorderEach l)
    ?_ ?_ ?_ ?_ ?_ ?_ ?_ ?_ ?_ ?_ ?_ ?_ ?_ ?_ ?_ ?_ ?_ ?_ ?_ ?_ ?_ ?_ ?_ ?_ ?_ ?_ ?_ ?_ ?_ ?_ ?_ ?_ n
  · intro hn
    exact absurd rfl (hn _ (.root _))
  · intro x0 hn s
    rw [ast.Walk]
    simp only [visit_true f hf, bind, Except.bind, pure, Except.pure]
    refine ⟨_, _, rfl, ?_⟩
    simp [Node.preorder]
  · intro x0 hn s
    rw [ast.Walk]
    simp only [visit_true f hf, bind, Except.bind, pure, Except.pure]
    refine ⟨_, _, rfl, ?_⟩
    simp [Node.preorder]
  · intro x0 ih0 hn s
    choose c0 t0 h0a h0b using ih0 (fun e he => noNil_child hn (by simp [Node.children, he]))
    rw [ast.Walk]
    simp only [visit_true f hf, h0a, bind, Except.bind, pure, Except.pure]
    refine ⟨_, _, rfl, ?_⟩
    simp only [ne_eq, decide_not] at h0b ⊢
    simp [List.filter_append, Node.preorder, h0b]
  · intro x0 hn s
    rw [ast.Walk]
    simp only [visit_true f hf, bind, Except.bind, pure, Except.pure]
    refine ⟨_, _, rfl, ?_⟩
    simp [Node.preorder]
  · intro x0 x1 ih0 ih1 hn s
    choose c0 t0 h0a h0b using ih0 (noNil_child hn (by simp [Node.children]))
    choose c1 t1 h1a h1b using ih1 (noNil_child hn (by simp [Node.children]))
    rw [ast.Walk]
    simp only [visit_true f hf, h0a, h1a, bind, Except.bind, pure, Except.pure]
    refine ⟨_, _, rfl, ?_⟩
    simp only [ne_eq, decide_not] at h0b h1b ⊢
    simp [List.filter_append, Node.preorder, h0b, h1b]
  · intro x0 x1 x2 ih0 ih1 hn s
    choose c0 t0 h0a h0b using ih0 (noNil_child hn (by simp [Node.children]))
    choose c1 t1 h1a h1b using ih1 (noNil_child hn (by simp [Node.children]))
    rw [ast.Walk]
    simp only [visit_true f hf, h0a, h1a, bind, Except.bind, pure, Except.pure]
    refine ⟨_, _, rfl, ?_⟩
    simp only [ne_eq, decide_not] at h0b h1b ⊢
    simp [List.filter_append, Node.preorder, h0b, h1b]
  · intro x0 ih0 hn s
    choose c0 t0 h0a h0b using ih0 (noNil_child hn (by simp [Node.children]))
    rw [ast.Walk]
    simp only [visit_true f hf, h0a, bind, Except.bind, pure, Except.pure]
    refine ⟨_, _, rfl, ?_⟩
    simp only [ne_eq, decide_not] at h0b ⊢
    simp [List.filter_append, Node.preorder, h0b]
  · intro x0 ih0 hn s
    choose c0 t0 h0a h0b using ih0 (fun e he => noNil_child hn (by simp [Node.children, he]))
    rw [ast.Walk]
    simp only [visit_true f hf, h0a, bind, Except.bind, pure, Except.pure]
    refine ⟨_, _, rfl, ?_⟩
    simp only [ne_eq, decide_not] at h0b ⊢
    simp [List.filter_append, Node.preorder, h0b]
  · intro x0 ih0 hn s
    choose c0 t0 h0a h0b using ih0 (noNil_child hn (by simp [Node.children]))
    rw [ast.Walk]
    simp only [visit_true f hf, h0a, bind, Except.bind, pure, Except.pure]
    refine ⟨_, _, rfl, ?_⟩
    simp only [ne_eq, decide_not] at h0b ⊢
    simp [List.filter_append, Node.preorder, h0b]
  · intro x0 x1 ih0 ih1 hn s
    choose c0 t0 h0a h0b using ih0 (noNil_child hn (by simp [Node.children]))
    choose c1 t1 h1a h1b using ih1 (noNil_child hn (by simp [Node.children]))
    rw [ast.Walk]
    simp only [visit_true f hf, h0a, h1a, bind, Except.bind, pure, Except.pure]
    refine ⟨_, _, rfl, ?_⟩
    simp only [ne_eq, decide_not] at h0b h1b ⊢
    simp [List.filter_append, Node.preorder, h0b, h1b]
  · intro x0 ih0 hn s
    choose c0 t0 h0a h0b using ih0 (fun e he => noNil_child hn (by simp [Node.children, he]))
    rw [ast.Walk]
    simp only [visit_true f hf, h0a, bind, Except.bind, pure, Except.pure]
    refine ⟨_, _, rfl, ?_⟩
    simp only [ne_eq, decide_not] at h0b ⊢
    simp [List.filter_append, Node.preorder, h0b]
  · intro x0 x1 x2 ih0 ih1 ih2 hn s
    choose c0 t0 h0a h0b using ih0 (noNil_child hn (by simp [Node.children]))
    choose c1 t1 h1a h1b using ih1 (noNil_child hn (by simp [Node.children]))
    choose c2 t2 h2a h2b using ih2 (noNil_child hn (by simp [Node.children]))
    rw [ast.Walk]
    simp only [visit_true f hf, h0a, h1a, h2a, bind, Except.bind, pure, Except.pure]
    refine ⟨_, _, rfl, ?_⟩
    simp only [ne_eq, decide_not] at h0b h1b h2b ⊢
    simp [List.filter_append, Node.preorder, h0b, h1b, h2b]
  · intro x0 x1 ih1 hn s
    choose c1 t1 h1a h1b using ih1 (noNil_child hn (by simp [Node.children]))
    rw [ast.Walk]
    simp only [visit_true f hf, h1a, bind, Except.bind, pure, Except.pure]
    refine ⟨_, _, rfl, ?_⟩
    simp only [ne_eq, decide_not] at h1b ⊢
    simp [List.filter_append, Node.preorder, h1b]
  · intro x0 ih0 hn s
    choose c0 t0 h0a h0b using ih0 (noNil_child hn (by simp [Node.children]))
    rw [ast.Walk]
    simp only [visit_true f hf, h0a, bind, Except.bind, pure, Except.pure]
    refine ⟨_, _, rfl, ?_⟩
    simp only [ne_eq, decide_not] at h0b ⊢
    simp [List.filter_append, Node.preorder, h0b]
  · intro x0 ih0 hn s
    choose c0 t0 h0a h0b using ih0 (fun e he => noNil_child hn (by simp [Node.children, he]))
    rw [ast.Walk]
    simp only [visit_true f hf, h0a, bind, Except.bind, pure, Except.pure]
    refine ⟨_, _, rfl, ?_⟩
    simp only [ne_eq, decide_not] at h0b ⊢
    simp [List.filter_append, Node.preorder, h0b]
  · intro x0 ih0 hn s
    choose c0 t0 h0a h0b using ih0 (noNil_child hn (by simp [Node.children]))
    rw [ast.Walk]
    simp only [visit_true f hf, h0a, bind, Except.bind, pure, Except.pure]
    refine ⟨_, _, rfl, ?_⟩
    simp only [ne_eq, decide_not] at h0b ⊢
    simp [List.filter_append, Node.preorder, h0b]
  · intro x0 ih0 hn s
    choose c0 t0 h0a h0b using ih0 (noNil_child hn (by simp [Node.children]))
    rw [ast.Walk]
    simp only [visit_true f hf, h0a, bind, Except.bind, pure, Except.pure]
    refine ⟨_, _, rfl, ?_⟩
    simp only [ne_eq, decide_not] at h0b ⊢
    simp [List.filter_append, Node.preorder, h0b]
  · intro x0 ih0 hn s
    choose c0 t0 h0a h0b using ih0 (fun e he => noNil_child hn (by simp [Node.children, he]))
    rw [ast.Walk]
    simp only [visit_true f hf, h0a, bind, Except.bind, pure, Except.pure]
    refine ⟨_, _, rfl, ?_⟩
    simp only [ne_eq, decide_not] at h0b ⊢
    simp [List.filter_append, Node.preorder, h0b]
  · intro x0 ih0 hn s
    choose c0 t0 h0a h0b using ih0 (fun e he => noNil_child hn (by simp [Node.children, he]))
    rw [ast.Walk]
    simp only [visit_true f hf, h0a, bind, Except.bind, pure, Except.pure]
    refine ⟨_, _, rfl, ?_⟩
    simp only [ne_eq, decide_not] at h0b ⊢
    simp [List.filter_append, Node.preorder, h0b]
  · intro x0 ih0 hn s
    choose c0 t0 h0a h0b using ih0 (noNil_child hn (by simp [Node.children]))
    rw [ast.Walk]
    simp only [visit_true f hf, h0a, bind, Except.bind, pure, Except.pure]
    refine ⟨_, _, rfl, ?_⟩
    simp only [ne_eq, decide_not] at h0b ⊢
    simp [List.filter_append, Node.preorder, h0b]
  · intro x0 x1 x2 x3 x4 ih0 ih2 hn s
    choose c0 t0 h0a h0b using ih0 (noNil_child hn (by simp [Node.children]))
    choose c2 t2 h2a h2b using ih2 (noNil_child hn (by simp [Node.children]))
    rw [ast.Walk]
    simp only [visit_true f hf, h0a, h2a, bind, Except.bind, pure, Except.pure]
    refine ⟨_, _, rfl, ?_⟩
    simp only [ne_eq, decide_not] at h0b h2b ⊢
    simp [List.filter_append, Node.preorder, h0b, h2b]
  · intro x0 x1 x2 ih0 ih1 hn s
    choose c0 t0 h0a h0b using ih0 (fun e he => noNil_child hn (by simp [Node.children, he]))
    choose c1 t1 h1a h1b using ih1 (noNil_child hn (by simp [Node.children]))
    rw [ast.Walk]
    simp only [visit_true f hf, h0a, h1a, bind, Except.bind, pure, Except.pure]
    refine ⟨_, _, rfl, ?_⟩
    simp only [ne_eq, decide_not] at h0b h1b ⊢
    simp [List.filter_append, Node.preorder, h0b, h1b]
  · intro x0 ih0 hn s
    choose c0 t0 h0a h0b using ih0 (fun e he => noNil_child hn (by simp [Node.children, he]))
    rw [ast.Walk]
    simp only [visit_true f hf, h0a, bind, Except.bind, pure, Except.pure]
    refine ⟨_, _, rfl, ?_⟩
    simp only [ne_eq, decide_not] at h0b ⊢
    simp [List.filter_append, Node.preorder, h0b]
  · intro x0 ih0 hn s
    choose c0 t0 h0a h0b using ih0 (fun e he => noNil_child hn (by simp [Node.children, he]))
    rw [ast.Walk]
    simp only [visit_true f hf, h0a, bind, Except.bind, pure, Except.pure]
    refine ⟨_, _, rfl, ?_⟩
    simp only [ne_eq, decide_not] at h0b ⊢
    simp [List.filter_append, Node.preorder, h0b]
  · intro x0 x1 ih0 hn s
    choose c0 t0 h0a h0b using ih0 (noNil_child hn (by simp [Node.children]))
    rw [ast.Walk]
    simp only [visit_true f hf, h0a, bind, Except.bind, pure, Except.pure]
    refine ⟨_, _, rfl, ?_⟩
    simp only [ne_eq, decide_not] at h0b ⊢
    simp [List.filter_append, Node.preorder, h0b]
  · intro x0 x1 x2 ih0 ih1 hn s
    choose c0 t0 h0a h0b using ih0 (noNil_child hn (by simp [Node.children]))
    choose c1 t1 h1a h1b using ih1 (noNil_child hn (by simp [Node.children]))
    rw [ast.Walk]
    simp only [visit_true f hf, h0a, h1a, bind, Except.bind, pure, Except.pure]
    refine ⟨_, _, rfl, ?_⟩
    simp only [ne_eq, decide_not] at h0b h1b ⊢
    simp [List.filter_append, Node.preorder, h0b, h1b]
  · intro x0 x1 x2 ih0 ih1 hn s
    choose c0 t0 h0a h0b using ih0 (noNil_child hn (by simp [Node.children]))
    choose c1 t1 h1a h1b using ih1 (fun e he => noNil_child hn (by simp [Node.children, he]))
    rw [ast.Walk]
    simp only [visit_true f hf, h0a, h1a, bind, Except.bind, pure, Except.pure]
    refine ⟨_, _, rfl, ?_⟩
    simp only [ne_eq, decide_not] at h0b h1b ⊢
    simp [List.filter_append, Node.preorder, h0b, h1b]
  · intro x0 x1 x2 x3 x4 ih0 ih1 ih2 ih3 hn s
    choose c0 t0 h0a h0b using ih0 (noNil_child hn (by simp [Node.children]))
    choose c3 t3 h3a h3b using ih3 (fun e he => noNil_child hn (by simp [Node.children, he]))
    rw [ast.Walk]
    simp only [visit_true f hf, h0a, h3a, bind, Except.bind, pure, Except.pure]
    refine ⟨_, _, rfl, ?_⟩
    simp only [ne_eq, decide_not] at h0b h3b ⊢
    simp [List.filter_append, Node.preorder, h0b, h3b]
  · intro x0 x1 x2 ih0 ih1 hn s
    choose c0 t0 h0a h0b using ih0 (noNil_child hn (by simp [Node.children]))
    choose c1 t1 h1a h1b using ih1 (noNil_child hn (by simp [Node.children]))
    rw [ast.Walk]
    simp only [visit_true f hf, h0a, h1a, bind, Except.bind, pure, Except.pure]
    refine ⟨_, _, rfl, ?_⟩
    simp only [ne_eq, decide_not] at h0b h1b ⊢
    simp [List.filter_append, Node.preorder, h0b, h1b]
  · intro _ s
    exact ⟨[], s, rfl, rfl⟩
  · intro e es ih1 ih2 hn s
    choose c1 t1 h1a h1b using ih1 (hn e (by simp))
    choose c2 t2 h2a h2b using ih2 (fun x hx => hn x (by simp [hx]))
    rw [ast.WalkEach]
    simp only [h1a, h2a, bind, Except.bind, pure, Except.pure]
    refine ⟨_, _, rfl, ?_⟩
    simp only [ne_eq, decide_not] at h1b h2b ⊢
    simp [List.filter_append, Node.preorderEach, h1b, h2b]
end parser

namespace parser
open ast (Node)

theorem indexByte_quote (s r : List Nat) (hs : 39 ∉ s) :
    indexByte (s ++ 39 :: r) 39 = some s.length := by
  induction s with
  | nil => simp [indexByte]
  | cons b s ih =>
    simp only [List.mem_cons, not_or] at hs
    have e : (b :: s) ++ 39 :: r = b :: (s ++ 39 :: r) := rfl
    rw [e, indexByte, if_neg (fun h => hs.1 h.symm), ih hs.2]
    simp

theorem nextString_spec {x : lexer} (s r : List Nat) (hs : 39 ∉ s)
    (h : x.rem = 39 :: (s ++ 39 :: r)) :
    x.nextString = .ok ({ Kind := token.String, Text := s },
      { x with offset := x.offset + 1 + (s.length + 1) }) ∧
    lexer.rem { x with offset := x.offset + 1 + (s.length + 1) } = r := by
  obtain ⟨hlt, _, h1⟩ := rem_cons h
  have hl := rem_length { x with offset := x.offset + 1 }
  rw [h1] at hl
  simp only [List.length_append, List.length_cons] at hl
  have hle : x.offset + 1 ≤ x.Source.length := by omega
  have hrem2 : lexer.rem { x with offset := x.offset + 1 + (s.length + 1) } = r := by
    simp only [lexer.rem] at h1 ⊢
    rw [← List.drop_drop, h1]
    simp
  refine ⟨?_, hrem2⟩
  have hs1 := slice_rem (x := { x with offset := x.offset + 1 }) hle
  have hs2 := slice_take (x := { x with offset := x.offset + 1 }) s.length
    (by rw [h1]; simp) hle
  rw [h1] at hs1 hs2
  simp only [] at hs1 hs2
  simp only [lexer.nextString, bind, Except.bind, hs1, indexByte_quote s r hs]
  have e : x.offset + 1 + (s.length + 1) - 1 = x.offset + 1 + s.length := by omega
  simp only [e, hs2]
  simp [pure, Except.pure]

theorem nextLoop_string {x : lexer} {s r : List Nat} (n : Nat) (hs : 39 ∉ s)
    (h : x.rem = 39 :: (s ++ 39 :: r)) :
    ∃ x', lexer.nextLoop (n + 1) x = .ok ({ Kind := token.String, Text := s }, x') ∧
      x'.rem = r ∧ x'.nextToken = x.nextToken := by
  obtain ⟨hlt, hidx, _⟩ := rem_cons h
  have hsp := nextString_spec (x := { x with willBeTrailingComment := true }) s r hs
    (by simpa [lexer.rem] using h)
  refine ⟨_, ?_, hsp.2, rfl⟩
  rw [← hsp.1]
  rw [lexer.nextLoop, if_pos hlt]
  simp only [hidx, bind, Except.bind]
  rw [if_neg (by omega)]
  repeat (rw [if_neg (by omega)])
  rw [if_pos trivial]

theorem nextTok_string {s : List Nat} (r : List Nat) (hs : 39 ∉ s) :
    NextTok (39 :: (s ++ 39 :: r)) { Kind := token.String, Text := s } r := by
  refine ⟨by simp, ?_⟩
  intro x hx hrem
  obtain ⟨x', h1, h2, h3⟩ := nextLoop_string (x.Source.length - x.offset) hs hrem
  exact ⟨x', by simp [lexer.Pop, hx, lexer.next, h1], h2, by rw [h3, hx]⟩

end parser

namespace parser
open ast (Node)

theorem string_initializer_run (s : List Nat) (hs : 39 ∉ s) :
    Parse (str "const x = \x27" ++ s ++ str "\x27;")
      = .ok (.SourceFile [.VariableStatement (.VariableDeclarationList
          [.VariableDeclaration (.Identifier (str "x")) .nil (.StringLiteral s)]) []]) := by
  have e1 : str "const x = \x27" = str "const" ++ [32, 120, 32, 61, 32, 39] := by decide
  have e2 : str "\x27;" = [39, 59] := by decide
  have e3 : str "x" = [120] := by decide
  have hsrc : str "const x = \x27" ++ s ++ str "\x27;"
      = str "const" ++ (32 :: ([120] ++ (32 :: 61 :: 32 :: 39 :: (s ++ 39 :: [59])))) := by
    rw [e1, e2]
    simp
  rw [hsrc, e3]
  generalize hg : str "const" ++ (32 :: ([120] ++ (32 :: 61 :: 32 :: 39 :: (s ++ 39 :: [59]))))
    = src
  obtain ⟨m, hm⟩ : ∃ m, budget src = m + 12 := ⟨budget src - 12, by simp only [budget]; omega⟩
  have n1 : NextTok src { Kind := token.Ident, Text := str "const" }
      (32 :: ([120] ++ (32 :: 61 :: 32 :: 39 :: (s ++ 39 :: [59])))) := by
    rw [← hg]
    exact nextTok_ident _ (by decide) (by simp [endsIdent, lexer.identEnd])
  have n2 : NextTok (32 :: ([120] ++ (32 :: 61 :: 32 :: 39 :: (s ++ 39 :: [59]))))
      { Kind := token.Ident, Text := [120] } (32 :: 61 :: 32 :: 39 :: (s ++ 39 :: [59])) :=
    nextTok_space (nextTok_ident _ (by decide) (by simp [endsIdent, lexer.identEnd]))
  have n3 : NextTok (32 :: 61 :: 32 :: 39 :: (s ++ 39 :: [59]))
      { Kind := token.Assign } (32 :: 39 :: (s ++ 39 :: [59])) :=
    nextTok_space (nextTok_punct (c := 61) _ rfl)
  have n4 : NextTok (32 :: 39 :: (s ++ 39 :: [59]))
      { Kind := token.String, Text := s } [59] :=
    nextTok_space (nextTok_string _ hs)
  have n5 : NextTok [59] { Kind := token.Semicolon } [] := nextTok_punct (c := 59) [] rfl
  obtain ⟨p1, h1, hp1⟩ := advance_step (m + 10) (at_init src) n1
  obtain ⟨p2, h2, hp2⟩ := eat_step (m + 8) token.Ident hp1 rfl n2
  obtain ⟨p3, h3, hp3⟩ := parseIdentifier_step (m + 7) hp2 n3
  obtain ⟨p4, h4, hp4⟩ := advance_step (m + 7) hp3 n4
  obtain ⟨p5, h5, hp5⟩ := eat_step (m + 6) token.String hp4 rfl n5
  obtain ⟨p6, h6, hp6⟩ := eat_step (m + 7) token.Semicolon hp5 rfl nextTok_eof
  obtain ⟨p7, h7, hp7⟩ := advance_step (m + 9) hp6 nextTok_eof
  have hne : str "const" ≠ str "export" := by decide
  have hini : parser.parseInitializer (m + 8) p4 = .ok (.StringLiteral s, p5) := by
    rw [parser.parseInitializer]
    simp [hp4.1, h5, bind, Except.bind, pure, Except.pure]
  have hdecl : parser.parseVariableDeclaration (m + 8) p2
      = .ok (.VariableDeclaration (.Identifier [120]) .nil (.StringLiteral s), p5) := by
    simp [parser.parseVariableDeclaration, h3, hp3.1, h4, hini, bind, Except.bind, pure,
      Except.pure]
  have hstmt : parser.parseStatement (m + 11) p1
      = .ok (.VariableStatement (.VariableDeclarationList
          [.VariableDeclaration (.Identifier [120]) .nil (.StringLiteral s)]) [], p6) := by
    rw [parser.parseStatement, parser.parseStatementLoop]
    simp only [parser.expect, hp1.1, bind, Except.bind, hne, if_false, if_true,
      parser.parseVariableStatement, parser.parseVariableDeclarationList, h2,
      at_consumeComment hp2, ne_eq, not_true_eq_false]
    rw [parser.parseVariableDeclarationListLoop]
    simp [hdecl, hp5.1, h6, bind, Except.bind, pure, Except.pure]
  simp only [Parse, hm, parser.parseSourceFile]
  rw [parser.parseSourceFileLoop]
  simp only [h1, bind, Except.bind, hp1.1, hstmt]
  rw [parser.parseSourceFileLoop]
  simp [h7, bind, Except.bind, hp7.1, pure, Except.pure]

theorem string_literalType_run (s : List Nat) (hs : 39 ∉ s) :
    Parse (str "type X = \x27" ++ s ++ str "\x27;")
      = .ok (.SourceFile [.TypeAliasDeclaration (.Identifier (str "X"))
          (.LiteralType (.StringLiteral s)) []]) := by
  have e1 : str "type X = \x27" = str "type" ++ [32, 88, 32, 61, 32, 39] := by decide
  have e2 : str "\x27;" = [39, 59] := by decide
  have e3 : str "X" = [88] := by decide
  have hsrc : str "type X = \x27" ++ s ++ str "\x27;"
      = str "type" ++ (32 :: ([88] ++ (32 :: 61 :: 32 :: 39 :: (s ++ 39 :: [59])))) := by
    rw [e1, e2]
    simp
  rw [hsrc, e3]
  generalize hg : str "type" ++ (32 :: ([88] ++ (32 :: 61 :: 32 :: 39 :: (s ++ 39 :: [59]))))
    = src
  obtain ⟨m, hm⟩ : ∃ m, budget src = m + 12 := ⟨budget src - 12, by simp only [budget]; omega⟩
  have n1 : NextTok src { Kind := token.Ident, Text := str "type" }
      (32 :: ([88] ++ (32 :: 61 :: 32 :: 39 :: (s ++ 39 :: [59])))) := by
    rw [← hg]
    exact nextTok_ident _ (by decide) (by simp [endsIdent, lexer.identEnd])
  have n2 : NextTok (32 :: ([88] ++ (32 :: 61 :: 32 :: 39 :: (s ++ 39 :: [59]))))
      { Kind := token.Ident, Text := [88] } (32 :: 61 :: 32 :: 39 :: (s ++ 39 :: [59])) :=
    nextTok_space (nextTok_ident _ (by decide) (by simp [endsIdent, lexer.identEnd]))
  have n3 : NextTok (32 :: 61 :: 32 :: 39 :: (s ++ 39 :: [59]))
      { Kind := token.Assign } (32 :: 39 :: (s ++ 39 :: [59])) :=
    nextTok_space (nextTok_punct (c := 61) _ rfl)
  have n4 : NextTok (32 :: 39 :: (s ++ 39 :: [59]))
      { Kind := token.String, Text := s } [59] :=
    nextTok_space (nextTok_string _ hs)
  obtain ⟨p1, h1, hp1⟩ := advance_step (m + 10) (at_init src) n1
  obtain ⟨p2, h2, hp2⟩ := eat_step (m + 8) token.Ident hp1 rfl n2
  obtain ⟨p3, h3, hp3⟩ := parseIdentifier_step (m + 8) hp2 n3
  obtain ⟨p4, h4, hp4⟩ := eat_step (m + 8) token.Assign hp3 rfl n4
  obtain ⟨p5, h5, hp5⟩ := eat_step (m + 4) token.String hp4 rfl
    (nextTok_punct (c := 59) [] rfl)
  obtain ⟨p6, h6, hp6⟩ := advance_step (m + 9) hp5 nextTok_eof
  have hne : str "type" ≠ str "export" ∧ str "type" ≠ str "const" := by decide
  have htyp : parser.parseType (m + 9) p4 = .ok (.LiteralType (.StringLiteral s), p5) := by
    rw [parser.parseType, parser.parseTypeCheckUnion, parser.parseTypeCheckArray,
      parser.parseTypeInner]
    simp [hp4.1, h5, hp5.1, bind, Except.bind, pure, Except.pure]
  have hstmt : parser.parseStatement (m + 11) p1
      = .ok (.TypeAliasDeclaration (.Identifier [88]) (.LiteralType (.StringLiteral s)) [],
          p5) := by
    rw [parser.parseStatement, parser.parseStatementLoop]
    simp only [parser.expect, hp1.1, bind, Except.bind, hne.1, hne.2, if_false, if_true,
      parser.parseTypeAliasDeclaration, h2, at_consumeComment hp2, h3, h4, htyp, pure,
      Except.pure, ne_eq, not_true_eq_false]
  simp only [Parse, hm, parser.parseSourceFile]
  rw [parser.parseSourceFileLoop]
  simp only [h1, bind, Except.bind, hp1.1, hstmt]
  rw [parser.parseSourceFileLoop]
  simp [h6, bind, Except.bind, hp6.1, pure, Except.pure]

end parser

namespace parser
open ast (Node)

theorem nextTokF_nextTok {rem rem' : List Nat} {t : token.Token} (h : NextTokF rem t rem') :
    NextTok rem t rem' := by
  refine ⟨h.1, ?_⟩
  intro x hx hr
  obtain ⟨x', h1, h2, h3, _⟩ := h.2 x hx hr
  exact ⟨x', h1, h2, h3⟩

theorem nextTokF_space {rem rem' : List Nat} {t : token.Token} (h : NextTokF rem t rem') :
    NextTokF (32 :: rem) t rem' := by
  refine ⟨h.1, ?_⟩
  intro x hx hr
  obtain ⟨_, _, hrem⟩ := rem_cons hr
  obtain ⟨x', h1, h2, h3⟩ := h.2 { x with offset := x.offset + 1 } hx hrem
  refine ⟨x', ?_, h2, h3⟩
  rw [← h1]
  have e : x.nextToken.Kind = 0 := by rw [hx]
  simp only [lexer.Pop, e, if_true]
  rw [next_space hr]

theorem next_newline {x : lexer} {r : List Nat} (h : x.rem = 10 :: r) :
    x.next = lexer.next { x with offset := x.offset + 1, willBeTrailingComment := false } := by
  obtain ⟨hlt, _, _⟩ := rem_cons h
  have e : x.Source.length - x.offset + 1 = (x.Source.length - (x.offset + 1) + 1) + 1 := by omega
  simp only [lexer.next]
  rw [e, nextLoop_newline _ h]

theorem nextTok_newline {rem rem' : List Nat} {t : token.Token} (h : NextTok rem t rem') :
    NextTok (10 :: rem) t rem' := by
  refine ⟨h.1, ?_⟩
  intro x hx hr
  obtain ⟨_, _, hrem⟩ := rem_cons hr
  obtain ⟨x', h1, h2, h3⟩ :=
    h.2 { x with offset := x.offset + 1, willBeTrailingComment := false } hx
      (by simpa [lexer.rem] using hrem)
  refine ⟨x', ?_, h2, h3⟩
  rw [← h1]
  have e : x.nextToken.Kind = 0 := by rw [hx]
  simp only [lexer.Pop, e, if_true]
  rw [next_newline hr]

theorem nextTokF_punct {c : Nat} {k : token.Kind} (r : List Nat) (hk : punctKind c = some k) :
    NextTokF (c :: r) { Kind := k } r := by
  refine ⟨punctKind_ne hk, ?_⟩
  intro x hx hr
  obtain ⟨hlt, hidx, hrem⟩ := rem_cons hr
  simp only [lexer.rem] at hrem
  have e : x.nextToken.Kind = 0 := by rw [hx]
  simp only [lexer.Pop, e, if_true, lexer.next]
  rw [lexer.nextLoop, if_pos hlt]
  simp only [hidx, bind, Except.bind]
  unfold punctKind at hk
  split at hk <;> cases hk <;>
    simp [pure, Except.pure, lexer.char, lexer.rem, hrem, hx]

theorem nextTokF_ident {w : List Nat} (r : List Nat) (hw : isIdent w = true)
    (hr : endsIdent r = true) : NextTokF (w ++ r) { Kind := token.Ident, Text := w } r := by
  refine ⟨by simp, ?_⟩
  intro x hx hrem
  have e : x.nextToken.Kind = 0 := by rw [hx]
  cases w with
  | nil => simp [isIdent] at hw
  | cons c w =>
    have hc : identStart c = true := by
      simp only [isIdent, Bool.and_eq_true] at hw
      exact hw.1
    obtain ⟨hlt, hidx, _⟩ := rem_cons (x := x) (b := c) (r := w ++ r) (by simpa using hrem)
    have hsp := nextIdent_spec (x := { x with willBeTrailingComment := true }) (c :: w) r hw hr
      (by simpa [lexer.rem] using hrem)
    refine ⟨_, ?_, hsp.2, hx, rfl⟩
    rw [← hsp.1]
    simp only [identStart, Bool.or_eq_true, Bool.and_eq_true, decide_eq_true_eq] at hc
    have h1 : ¬ (c = 32 ∨ c = 9 ∨ c = 13) := by omega
    simp only [lexer.Pop, e, if_true, lexer.next]
    rw [lexer.nextLoop, if_pos hlt]
    simp only [hidx, bind, Except.bind]
    have e1 : ((c ≥ 97 ∧ c ≤ 122) ∨ (c ≥ 65 ∧ c ≤ 90)) := hc
    rw [if_neg h1]
    repeat (rw [if_neg (by omega)])
    rw [if_pos e1]

end parser

namespace parser
open ast (Node)

theorem skipLine_spec : ∀ (c : List Nat) (n : Nat) (x : lexer) (r : List Nat), 10 ∉ c →
    x.rem = c ++ 10 :: r → c.length ≤ n →
    lexer.skipLine n x = .ok { x with offset := x.offset + c.length } := by
  intro c
  induction c with
  | nil =>
    intro n x r _ h _
    cases n with
    | zero => rfl
    | succ n =>
      obtain ⟨hlt, hidx, _⟩ := rem_cons (by simpa using h)
      rw [lexer.skipLine, if_pos hlt]
      simp [hidx, bind, Except.bind, pure, Except.pure]
  | cons b c ih =>
    intro n x r hc h hn
    simp only [List.mem_cons, not_or] at hc
    obtain ⟨n, rfl⟩ : ∃ n', n = n' + 1 := ⟨n - 1, by simp at hn; omega⟩
    obtain ⟨hlt, hidx, hrem⟩ := rem_cons (x := x) (b := b) (r := c ++ 10 :: r) (by simpa using h)
    rw [lexer.skipLine, if_pos hlt]
    simp only [hidx, bind, Except.bind]
    rw [if_pos (fun e => hc.1 e.symm), ih n _ r hc.2 hrem (by simpa using hn)]
    simp only [List.length_cons, Except.ok.injEq, lexer.mk.injEq, and_true, true_and]
    omega

theorem skipRun_one {x : lexer} {r : List Nat} (n : Nat) (h : x.rem = 32 :: r)
    (hr : r.head? ≠ some 32) (hne : r ≠ []) :
    lexer.skipRun 32 (n + 2) x = .ok { x with offset := x.offset + 1 } := by
  obtain ⟨hlt, hidx, hrem⟩ := rem_cons h
  have hl := rem_length { x with offset := x.offset + 1 }
  rw [hrem] at hl
  simp only [] at hl
  have hpos : 0 < r.length := List.length_pos.2 hne
  rw [lexer.skipRun, if_pos (by omega)]
  simp only [hidx, bind, Except.bind, if_true]
  rw [lexer.skipRun]
  cases r with
  | nil => exact absurd rfl hne
  | cons b r =>
    obtain ⟨_, hidx2, _⟩ := rem_cons hrem
    have hb : b ≠ 32 := by simpa using hr
    by_cases h2 : x.offset + 1 + 1 < x.Source.length
    · rw [if_pos h2]
      simp [hidx2, bind, Except.bind, hb, pure, Except.pure]
    · rw [if_neg h2]
      rfl

theorem nextLineComment_spec {x : lexer} (c r : List Nat) (hc : lineText c = true)
    (h : x.rem = 47 :: 47 :: 32 :: (c ++ 10 :: r)) :
    x.nextLineComment = .ok ({ Kind := x.commentKind, Text := c },
      { x with offset := x.offset + 3 + c.length }) ∧
    lexer.rem { x with offset := x.offset + 3 + c.length } = 10 :: r := by
  simp only [lineText, Bool.and_eq_true, Bool.not_eq_true', bne_iff_ne, ne_eq] at hc
  have hc1 : 10 ∉ c := by
    intro hm
    have := hc.1
    simp [List.contains_eq_any_beq, hm] at this
  obtain ⟨_, _, h1⟩ := rem_cons h
  obtain ⟨_, _, h2⟩ := rem_cons h1
  simp only [] at h2
  have hl := rem_length { x with offset := x.offset + 1 + 1 }
  rw [h2] at hl
  simp only [List.length_append, List.length_cons] at hl
  obtain ⟨_, _, h3⟩ := rem_cons h2
  simp only [] at h3
  have hrem4 : lexer.rem { x with offset := x.offset + 3 + c.length } = 10 :: r := by
    simp only [lexer.rem] at h3 ⊢
    have e : x.offset + 3 + c.length = x.offset + 1 + 1 + 1 + c.length := by omega
    rw [e, ← List.drop_drop, h3]
    simp
  refine ⟨?_, hrem4⟩
  have hk : ∃ k, x.Source.length - (x.offset + 2) = k + 2 :=
    ⟨x.Source.length - (x.offset + 2) - 2, by omega⟩
  obtain ⟨k, hk⟩ := hk
  have hrun := skipRun_one (x := { x with offset := x.offset + 1 + 1 }) k h2
    (by cases c <;> simp_all) (by simp)
  have hline := skipLine_spec c (x.Source.length - (x.offset + 1 + 1 + 1))
    { x with offset := x.offset + 1 + 1 + 1 } r hc1 h3 (by omega)
  have hsl := slice_take (x := { x with offset := x.offset + 1 + 1 + 1 }) c.length
    (by rw [h3]; simp) (by simp only []; omega)
  rw [h3] at hsl
  simp only [List.take_left'] at hsl
  simp only [lexer.nextLineComment, bind, Except.bind, hk, hrun, hline, hsl]
  simp [pure, Except.pure, lexer.commentKind]

end parser

namespace parser
open ast (Node)

theorem lineComment_src (c : List Nat) (hc : lineText c = true) :
    TrailingCommentSrc (47 :: 47 :: 32 :: c) c := by
  intro x r hx hw h
  have h' : x.rem = 47 :: 47 :: 32 :: (c ++ 10 :: r) := by simpa using h
  obtain ⟨hlt, hidx, h2⟩ := rem_cons h'
  obtain ⟨hlt2, hidx2, _⟩ := rem_cons h2
  simp only [] at hlt2 hidx2
  have hsp := nextLineComment_spec c r hc h'
  refine ⟨{ x with offset := x.offset + 3 + c.length }, ?_, hsp.2, hx⟩
  have e : x.nextToken.Kind = 0 := by rw [hx]
  simp only [lexer.Pop, e, if_true, lexer.next]
  rw [lexer.nextLoop, if_pos hlt]
  simp only [hidx, bind, Except.bind]
  rw [if_neg (by omega), if_neg (by omega), if_pos (by trivial)]
  rw [lexer.nextComment, if_neg (by omega)]
  simp only [hidx2, bind, Except.bind, if_true]
  rw [hsp.1]
  simp [lexer.commentKind, hw]

theorem advance_comment_step {p : parser} {t₀ t : token.Token} {cm c r r2 : List Nat} (n : Nat)
    (hp : At p t₀ (32 :: (cm ++ 10 :: r2)))
    (hw : p.lex.willBeTrailingComment = true) (hc : TrailingCommentSrc cm c)
    (hn : NextTok (10 :: r2) t r) :
    ∃ p', parser.advance (n + 2) p = .ok p' ∧ p'.consumeLineComment.1 = c ∧
      At p'.consumeLineComment.2 t r := by
  obtain ⟨_, h2, h3, h4, h5⟩ := hp
  obtain ⟨_, _, h2'⟩ := rem_cons h2
  obtain ⟨x1, hx1, hr1, hn1⟩ := hc { p.lex with offset := p.lex.offset + 1 } r2 h3 hw h2'
  have hpop : p.lex.Pop = .ok ({ Kind := token.LineComment, Text := c }, x1) := by
    rw [← hx1]
    have e : p.lex.nextToken.Kind = 0 := by rw [h3]
    simp only [lexer.Pop, e, if_true]
    rw [next_space h2]
  obtain ⟨x2, hx2, hr2, hn2⟩ := hn.2 x1 hn1 hr1
  refine ⟨{ p with lex := x2, tok := t, lastLineComment := c }, ?_, rfl, rfl, hr2, hn2, h4, rfl⟩
  rw [parser.advance]
  simp only [hpop, bind, Except.bind]
  rw [if_neg (by decide), if_pos (by trivial), parser.advance]
  simp only [hx2, bind, Except.bind]
  rw [if_neg hn.1.1, if_neg hn.1.2]
  rfl

theorem advance_stepF {p : parser} {t₀ t : token.Token} {rem r : List Nat} (n : Nat)
    (hp : At p t₀ rem) (hn : NextTokF rem t r) :
    ∃ p', parser.advance (n + 1) p = .ok p' ∧ At p' t r ∧
      p'.lex.willBeTrailingComment = true := by
  obtain ⟨_, h2, h3, h4, h5⟩ := hp
  obtain ⟨x', hx1, hx2, hx3, hx4⟩ := hn.2 p.lex h3 h2
  refine ⟨{ p with lex := x', tok := t }, ?_, ⟨rfl, hx2, hx3, h4, h5⟩, hx4⟩
  rw [parser.advance]
  simp [hx1, bind, Except.bind, hn.1.1, hn.1.2, pure, Except.pure]

theorem eat_of_advance {p p' : parser} (n : Nat) (k : token.Kind) (hk : p.tok.Kind = k)
    (h : parser.advance n p = .ok p') : parser.eat n p k = .ok (p.tok, p') := by
  simp [parser.eat, parser.expect, hk, h, bind, Except.bind, pure, Except.pure]

theorem parseIdentifier_of_advance {p p' : parser} {w : List Nat} (n : Nat)
    (ht : p.tok = { Kind := token.Ident, Text := w }) (h : parser.advance n p = .ok p') :
    parser.parseIdentifier n p = .ok (.Identifier w, p') := by
  simp [parser.parseIdentifier, eat_of_advance n token.Ident (by rw [ht]) h, ht, bind,
    Except.bind, pure, Except.pure]

theorem parseType_of_advance {p p' : parser} {w : List Nat} (n : Nat)
    (ht : p.tok = { Kind := token.Ident, Text := w }) (h : parser.advance n p = .ok p')
    (hd : p'.tok.Kind ≠ token.Dot) (hb : p'.tok.Kind ≠ token.LBrack)
    (ho : p'.tok.Kind ≠ token.Or) :
    parser.parseType (n + 4) p = .ok (typeRef w, p') := by
  have h1 := parseIdentifier_of_advance n ht h
  rw [parser.parseType, parser.parseTypeCheckUnion, parser.parseTypeCheckArray,
    parser.parseTypeInner]
  simp [ht, parser.parseTypeReference, h1, hd, hb, ho, bind, Except.bind, pure, Except.pure,
    typeRef]

end parser

namespace parser
open ast (Node)

theorem propertySignature_semi_run {p : parser} (name T cm c r : List Nat) (n : Nat)
    (hro : name ≠ str "readonly") (hT : isIdent T = true) (hc : TrailingCommentSrc cm c)
    (hp : At p { Kind := token.Ident, Text := name }
      (58 :: 32 :: (T ++ 59 :: 32 :: (cm ++ 10 :: 125 :: r)))) :
    ∃ p', parser.parsePropertySignature (n + 7) p
        = .ok (.PropertySignature (.Identifier name) false (typeRef T) [] c, p') ∧
      At p' { Kind := token.RBrace } r := by
  have n1 : NextTok (58 :: 32 :: (T ++ 59 :: 32 :: (cm ++ 10 :: 125 :: r)))
      { Kind := token.Colon } (32 :: (T ++ 59 :: 32 :: (cm ++ 10 :: 125 :: r))) :=
    nextTok_punct (c := 58) _ rfl
  have n2 : NextTok (32 :: (T ++ 59 :: 32 :: (cm ++ 10 :: 125 :: r)))
      { Kind := token.Ident, Text := T } (59 :: 32 :: (cm ++ 10 :: 125 :: r)) :=
    nextTok_space (nextTok_ident _ hT (by simp [endsIdent, lexer.identEnd]))
  have n3 : NextTokF (59 :: 32 :: (cm ++ 10 :: 125 :: r))
      { Kind := token.Semicolon } (32 :: (cm ++ 10 :: 125 :: r)) :=
    nextTokF_punct (c := 59) _ rfl
  have n4 : NextTok (10 :: 125 :: r) { Kind := token.RBrace } r :=
    nextTok_newline (nextTok_punct (c := 125) r rfl)
  obtain ⟨q1, h1, hq1⟩ := parseIdentifier_step (n + 5) hp n1
  obtain ⟨q2, h2, hq2⟩ := eat_step (n + 5) token.Colon hq1 rfl n2
  obtain ⟨q3, h3, hq3, hf3⟩ := advance_stepF (n + 1) hq2 n3
  have ht := parseType_of_advance (n + 2) hq2.1 h3 (by rw [hq3.1]; decide)
    (by rw [hq3.1]; decide) (by rw [hq3.1]; decide)
  obtain ⟨q4, h4, hc4, hq4⟩ := advance_comment_step (n + 4) hq3 hf3 hc n4
  refine ⟨q4.consumeLineComment.2, ?_, hq4⟩
  rw [parser.parsePropertySignature]
  have hro' : ¬ (p.tok.Kind = token.Ident ∧ p.tok.Text = str "readonly") := by
    rw [hp.1]
    exact fun h => hro h.2
  simp only [at_consumeComment hp, bind, Except.bind, pure, Except.pure]
  rw [if_neg hro']
  simp only [h1, hq1.1]
  rw [if_neg (by decide)]
  simp only [h2, ht, hq3.1]
  rw [if_pos (by trivial)]
  simp only [h4, hc4]

theorem propertySignature_plain_run {p : parser} (name T cm c r : List Nat) (n : Nat)
    (hro : name ≠ str "readonly") (hT : isIdent T = true) (hc : TrailingCommentSrc cm c)
    (hp : At p { Kind := token.Ident, Text := name }
      (58 :: 32 :: (T ++ 32 :: (cm ++ 10 :: 125 :: r)))) :
    ∃ p', parser.parsePropertySignature (n + 7) p
        = .ok (.PropertySignature (.Identifier name) false (typeRef T) [] c, p') ∧
      At p' { Kind := token.RBrace } r := by
  have n1 : NextTok (58 :: 32 :: (T ++ 32 :: (cm ++ 10 :: 125 :: r)))
      { Kind := token.Colon } (32 :: (T ++ 32 :: (cm ++ 10 :: 125 :: r))) :=
    nextTok_punct (c := 58) _ rfl
  have n2 : NextTokF (32 :: (T ++ 32 :: (cm ++ 10 :: 125 :: r)))
      { Kind := token.Ident, Text := T } (32 :: (cm ++ 10 :: 125 :: r)) :=
    nextTokF_space (nextTokF_ident _ hT (by simp [endsIdent, lexer.identEnd]))
  have n4 : NextTok (10 :: 125 :: r) { Kind := token.RBrace } r :=
    nextTok_newline (nextTok_punct (c := 125) r rfl)
  obtain ⟨q1, h1, hq1⟩ := parseIdentifier_step (n + 5) hp n1
  obtain ⟨q2, h2, hq2, hf2⟩ := advance_stepF (n + 5) hq1 n2
  have h2e := eat_of_advance (n + 6) token.Colon (by rw [hq1.1]) h2
  obtain ⟨q3, h3, hc3, hq3⟩ := advance_comment_step n hq2 hf2 hc n4
  have hk3 : q3.tok = { Kind := token.RBrace } := hq3.1
  have ht := parseType_of_advance (n + 2) hq2.1 h3 (by rw [hk3]; decide)
    (by rw [hk3]; decide) (by rw [hk3]; decide)
  refine ⟨q3.consumeLineComment.2, ?_, hq3⟩
  rw [parser.parsePropertySignature]
  have hro' : ¬ (p.tok.Kind = token.Ident ∧ p.tok.Text = str "readonly") := by
    rw [hp.1]
    exact fun h => hro h.2
  simp only [at_consumeComment hp, bind, Except.bind, pure, Except.pure]
  rw [if_neg hro']
  simp only [h1, hq1.1]
  rw [if_neg (by decide)]
  simp only [h2e, ht, hk3]
  rw [if_neg (by decide)]
  simp only [hc3]

end parser

namespace parser
open ast (Node)

theorem interface_member_run (name rest : List Nat) (sig : Node)
    (hname : isIdent name = true) (hrest : endsIdent rest = true)
    (hrun : ∀ (p : parser) (n : Nat), At p { Kind := token.Ident, Text := name } rest →
      ∃ p', parser.parsePropertySignature (n + 7) p = .ok (sig, p') ∧
        At p' { Kind := token.RBrace } []) :
    Parse (str "interface A \x7b\n" ++ (name ++ rest))
      = .ok (.SourceFile [.InterfaceDeclaration (.Identifier (str "A")) [] [] [sig] []]) := by
  have e1 : str "interface A \x7b\n" = str "interface" ++ [32, 65, 32, 123, 10] := by decide
  have e2 : str "A" = [65] := by decide
  have hsrc : str "interface A \x7b\n" ++ (name ++ rest)
      = str "interface" ++ (32 :: ([65] ++ (32 :: 123 :: 10 :: (name ++ rest)))) := by
    rw [e1]
    simp
  rw [hsrc, e2]
  generalize hg : str "interface" ++ (32 :: ([65] ++ (32 :: 123 :: 10 :: (name ++ rest)))) = src
  obtain ⟨m, hm⟩ : ∃ m, budget src = m + 12 := ⟨budget src - 12, by simp only [budget]; omega⟩
  have n1 : NextTok src { Kind := token.Ident, Text := str "interface" }
      (32 :: ([65] ++ (32 :: 123 :: 10 :: (name ++ rest)))) := by
    rw [← hg]
    exact nextTok_ident _ (by decide) (by simp [endsIdent, lexer.identEnd])
  have n2 : NextTok (32 :: ([65] ++ (32 :: 123 :: 10 :: (name ++ rest))))
      { Kind := token.Ident, Text := [65] } (32 :: 123 :: 10 :: (name ++ rest)) :=
    nextTok_space (nextTok_ident _ (by decide) (by simp [endsIdent, lexer.identEnd]))
  have n3 : NextTok (32 :: 123 :: 10 :: (name ++ rest)) { Kind := token.LBrace }
      (10 :: (name ++ rest)) :=
    nextTok_space (nextTok_punct (c := 123) _ rfl)
  have n4 : NextTok (10 :: (name ++ rest)) { Kind := token.Ident, Text := name } rest :=
    nextTok_newline (nextTok_ident _ hname hrest)
  obtain ⟨p1, h1, hp1⟩ := advance_step (m + 10) (at_init src) n1
  obtain ⟨p2, h2, hp2⟩ := eat_step (m + 8) token.Ident hp1 rfl n2
  obtain ⟨p3, h3, hp3⟩ := parseIdentifier_step (m + 8) hp2 n3
  obtain ⟨p4, h4, hp4⟩ := eat_step (m + 8) token.LBrace hp3 rfl n4
  obtain ⟨p5, h5, hp5⟩ := hrun p4 m hp4
  obtain ⟨p6, h6, hp6⟩ := eat_step (m + 8) token.RBrace hp5 rfl nextTok_eof
  obtain ⟨p7, h7, hp7⟩ := advance_step (m + 9) hp6 nextTok_eof
  have hne : str "interface" ≠ str "export" ∧ str "interface" ≠ str "const" ∧
      str "interface" ≠ str "type" ∧ str "interface" ≠ str "enum" := by decide
  have hsig : parser.parseSignature (m + 8) p4 = .ok (sig, p5) := by
    rw [parser.parseSignature]
    simp [hp4.1, h5]
  have hloop : parser.parseInterfaceDeclarationLoop (m + 9) [] p4 = .ok ([sig], p5) := by
    rw [parser.parseInterfaceDeclarationLoop]
    simp only [hp4.1, bind, Except.bind, hsig]
    rw [if_neg (by decide), parser.parseInterfaceDeclarationLoop]
    simp [hp5.1, pure, Except.pure]
  have hstmt : parser.parseStatement (m + 11) p1
      = .ok (.InterfaceDeclaration (.Identifier [65]) [] [] [sig] [], p6) := by
    rw [parser.parseStatement, parser.parseStatementLoop]
    simp only [parser.expect, hp1.1, bind, Except.bind, hne.1, hne.2.1, hne.2.2.1, hne.2.2.2,
      if_false, if_true, parser.parseInterfaceDeclaration, h2, at_consumeComment hp2, h3, h4,
      pure, Except.pure, ne_eq, not_true_eq_false, hp3.1,
      hloop, h6, List.nil_append, and_self, token.Ident, token.LAngle, token.LBrace,
      show ¬ ((14 : token.Kind) = 16) by decide, show ¬ ((14 : token.Kind) = 4) by decide,
      false_and]
  simp only [Parse, hm, parser.parseSourceFile]
  rw [parser.parseSourceFileLoop]
  simp only [h1, bind, Except.bind, hp1.1, hstmt]
  rw [parser.parseSourceFileLoop]
  simp [h7, bind, Except.bind, hp7.1, pure, Except.pure]

theorem typeLiteral_member_run (name rest : List Nat) (sig : Node)
    (hname : isIdent name = true) (hrest : endsIdent rest = true)
    (hrun : ∀ (p : parser) (n : Nat), At p { Kind := token.Ident, Text := name } rest →
      ∃ p', parser.parsePropertySignature (n + 7) p = .ok (sig, p') ∧
        At p' { Kind := token.RBrace } []) :
    Parse (str "type X = \x7b\n" ++ (name ++ rest))
      = .ok (.SourceFile [.TypeAliasDeclaration (.Identifier (str "X")) (.TypeLiteral [sig])
          []]) := by
  have e1 : str "type X = \x7b\n" = str "type" ++ [32, 88, 32, 61, 32, 123, 10] := by decide
  have e2 : str "X" = [88] := by decide
  have hsrc : str "type X = \x7b\n" ++ (name ++ rest)
      = str "type" ++ (32 :: ([88] ++ (32 :: 61 :: 32 :: 123 :: 10 :: (name ++ rest)))) := by
    rw [e1]
    simp
  rw [hsrc, e2]
  generalize hg : str "type" ++ (32 :: ([88] ++ (32 :: 61 :: 32 :: 123 :: 10 :: (name ++ rest))))
    = src
  obtain ⟨m, hm⟩ : ∃ m, budget src = m + 17 := ⟨budget src - 17, by simp only [budget]; omega⟩
  have n1 : NextTok src { Kind := token.Ident, Text := str "type" }
      (32 :: ([88] ++ (32 :: 61 :: 32 :: 123 :: 10 :: (name ++ rest)))) := by
    rw [← hg]
    exact nextTok_ident _ (by decide) (by simp [endsIdent, lexer.identEnd])
  have n2 : NextTok (32 :: ([88] ++ (32 :: 61 :: 32 :: 123 :: 10 :: (name ++ rest))))
      { Kind := token.Ident, Text := [88] } (32 :: 61 :: 32 :: 123 :: 10 :: (name ++ rest)) :=
    nextTok_space (nextTok_ident _ (by decide) (by simp [endsIdent, lexer.identEnd]))
  have n3 : NextTok (32 :: 61 :: 32 :: 123 :: 10 :: (name ++ rest)) { Kind := token.Assign }
      (32 :: 123 :: 10 :: (name ++ rest)) :=
    nextTok_space (nextTok_punct (c := 61) _ rfl)
  have n4 : NextTok (32 :: 123 :: 10 :: (name ++ rest)) { Kind := token.LBrace }
      (10 :: (name ++ rest)) :=
    nextTok_space (nextTok_punct (c := 123) _ rfl)
  have n5 : NextTok (10 :: (name ++ rest)) { Kind := token.Ident, Text := name } rest :=
    nextTok_newline (nextTok_ident _ hname hrest)
  obtain ⟨p1, h1, hp1⟩ := advance_step (m + 15) (at_init src) n1
  obtain ⟨p2, h2, hp2⟩ := eat_step (m + 13) token.Ident hp1 rfl n2
  obtain ⟨p3, h3, hp3⟩ := parseIdentifier_step (m + 13) hp2 n3
  obtain ⟨p4, h4, hp4⟩ := eat_step (m + 13) token.Assign hp3 rfl n4
  obtain ⟨p5, h5, hp5⟩ := eat_step (m + 8) token.LBrace hp4 rfl n5
  obtain ⟨p6, h6, hp6⟩ := hrun p5 m hp5
  obtain ⟨p7, h7, hp7⟩ := eat_step (m + 6) token.RBrace hp6 rfl nextTok_eof
  obtain ⟨p8, h8, hp8⟩ := advance_step (m + 14) hp7 nextTok_eof
  have hne : str "type" ≠ str "export" ∧ str "type" ≠ str "const" := by decide
  have hsig : parser.parseSignature (m + 8) p5 = .ok (sig, p6) := by
    rw [parser.parseSignature]
    simp [hp5.1, h6]
  have hloop : parser.parseTypeLiteralLoop (m + 9) [] p5 = .ok (.TypeLiteral [sig], p7) := by
    rw [parser.parseTypeLiteralLoop]
    simp only [hp5.1, bind, Except.bind, hsig]
    rw [if_neg (by decide), parser.parseTypeLiteralLoop]
    simp [hp6.1, h7, bind, Except.bind, pure, Except.pure]
  have htyp : parser.parseType (m + 14) p4 = .ok (.TypeLiteral [sig], p7) := by
    rw [parser.parseType, parser.parseTypeCheckUnion, parser.parseTypeCheckArray,
      parser.parseTypeInner, parser.parseTypeLiteral]
    simp [hp4.1, h5, hloop, hp7.1, bind, Except.bind, pure, Except.pure]
  have hstmt : parser.parseStatement (m + 16) p1
      = .ok (.TypeAliasDeclaration (.Identifier [88]) (.TypeLiteral [sig]) [], p7) := by
    rw [parser.parseStatement, parser.parseStatementLoop]
    simp only [parser.expect, hp1.1, bind, Except.bind, hne.1, hne.2, if_false, if_true,
      parser.parseTypeAliasDeclaration, h2, at_consumeComment hp2, h3, h4, htyp, pure,
      Except.pure, ne_eq, not_true_eq_false]
  simp only [Parse, hm, parser.parseSourceFile]
  rw [parser.parseSourceFileLoop]
  simp only [h1, bind, Except.bind, hp1.1, hstmt]
  rw [parser.parseSourceFileLoop]
  simp [h8, bind, Except.bind, hp8.1, pure, Except.pure]

end parser

namespace parser

theorem splitLines_ne_nil (s : List Nat) : splitLines s ≠ [] := by
  cases s with
  | nil => simp [splitLines]
  | cons b bs =>
    rw [splitLines]
    split
    · simp
    · split <;> simp

theorem splitLines_noNl (s : List Nat) (h : 10 ∉ s) : splitLines s = [s] := by
  induction s with
  | nil => rfl
  | cons b bs ih =>
    simp only [List.mem_cons, not_or] at h
    rw [splitLines, if_neg (fun e => h.1 e.symm), ih h.2]

theorem splitLines_append (h t : List Nat) (hh : 10 ∉ h) :
    splitLines (h ++ 10 :: t) = h :: splitLines t := by
  induction h with
  | nil => simp [splitLines]
  | cons b bs ih =>
    simp only [List.mem_cons, not_or] at hh
    have e : (b :: bs) ++ 10 :: t = b :: (bs ++ 10 :: t) := rfl
    rw [e, splitLines, if_neg (fun e => hh.1 e.symm), ih hh.2]

theorem lines_cases (s : List Nat) : 10 ∉ s ∨ ∃ h t, s = h ++ 10 :: t ∧ 10 ∉ h := by
  induction s with
  | nil => exact Or.inl (by simp)
  | cons b bs ih =>
    by_cases hb : b = 10
    · exact Or.inr ⟨[], bs, by simp [hb], by simp⟩
    · rcases ih with h | ⟨h, t, e, hh⟩
      · exact Or.inl (by simp [h, Ne.symm hb])
      · exact Or.inr ⟨b :: h, t, by simp [e], by simp [hh, Ne.symm hb]⟩

theorem stripLead_splitLines (t : List Nat) :
    splitLines (stripLead t)
      = stripLead (splitLines t).head! :: (splitLines t).tail := by
  induction t with
  | nil => rfl
  | cons b bs ih =>
    by_cases hs : (b == 42 || b == 32 || b == 9) = true
    · have hb : b ≠ 10 := by
        intro e
        subst e
        simp at hs
      have e1 : stripLead (b :: bs) = stripLead bs := by
        simp only [stripLead, List.dropWhile_cons, hs, if_true]
      rw [e1, ih, splitLines, if_neg hb]
      rcases hsp : splitLines bs with _ | ⟨l, ls⟩
      · exact absurd hsp (splitLines_ne_nil bs)
      · simp only [List.head!_cons, List.tail_cons]
        simp only [stripLead, List.dropWhile_cons, hs, if_true]
    · have e1 : stripLead (b :: bs) = b :: bs := by
        simp only [stripLead, List.dropWhile_cons, hs]
        simp
      rw [e1, splitLines]
      by_cases hb : b = 10
      · rw [if_pos hb]
        simp [stripLead]
      · rw [if_neg hb]
        rcases hsp : splitLines bs with _ | ⟨l, ls⟩
        · exact absurd hsp (splitLines_ne_nil bs)
        · simp only [List.head!_cons, List.tail_cons]
          simp only [stripLead, List.dropWhile_cons, hs]
          simp

theorem reflowLines_noNl (s : List Nat) (h : 10 ∉ s) : reflowLines s = s := by
  simp [reflowLines, splitLines_noNl s h, intercalate_cons, sepEach]

theorem reflowLines_append (h t : List Nat) (hh : 10 ∉ h) :
    reflowLines (h ++ 10 :: t) = h ++ 10 :: reflowLines (stripLead t) := by
  rw [reflowLines, splitLines_append h t hh, reflowLines, stripLead_splitLines]
  rcases hsp : splitLines t with _ | ⟨l, ls⟩
  · exact absurd hsp (splitLines_ne_nil t)
  · simp only [List.head!_cons, List.tail_cons, List.map_cons]
    rw [intercalate_cons, intercalate_cons]
    simp [sepEach]

end parser

namespace parser

theorem bytesIndex_nl_none (s : List Nat) (h : 10 ∉ s) : bytesIndex s [10] = none := by
  induction s with
  | nil => simp [bytesIndex]
  | cons b bs ih =>
    simp only [List.mem_cons, not_or] at h
    rw [bytesIndex, ih h.2]
    have : ¬ (10 == b) = true := by simpa using h.1
    simp [List.isPrefixOf, this]

theorem bytesIndex_nl_some (h t : List Nat) (hh : 10 ∉ h) :
    bytesIndex (h ++ 10 :: t) [10] = some h.length := by
  induction h with
  | nil => simp [bytesIndex, List.isPrefixOf]
  | cons b bs ih =>
    simp only [List.mem_cons, not_or] at hh
    have e : (b :: bs) ++ 10 :: t = b :: (bs ++ 10 :: t) := rfl
    rw [e, bytesIndex, ih hh.2]
    have : ¬ (10 == b) = true := by simpa using hh.1
    simp [List.isPrefixOf, this]

theorem bytesIndex_none_suffix (p s sep : List Nat) (h : bytesIndex (p ++ s) sep = none) :
    bytesIndex s sep = none := by
  induction p with
  | nil => simpa using h
  | cons b bs ih =>
    have e : (b :: bs) ++ s = b :: (bs ++ s) := rfl
    rw [e, bytesIndex] at h
    split at h
    · cases h
    · apply ih
      simpa using h

theorem bytesIndex_close (m rest : List Nat) (h : bytesIndex m [42, 47] = none) :
    bytesIndex (m ++ 42 :: 47 :: rest) [42, 47] = some m.length := by
  induction m with
  | nil => simp [bytesIndex, List.isPrefixOf]
  | cons b bs ih =>
    rw [bytesIndex] at h
    split at h
    · cases h
    rename_i hp
    have hbs : bytesIndex bs [42, 47] = none := by simpa using h
    have e : (b :: bs) ++ 42 :: 47 :: rest = b :: (bs ++ 42 :: 47 :: rest) := rfl
    rw [e, bytesIndex, ih hbs]
    have hnp : ¬ List.isPrefixOf [42, 47] (b :: (bs ++ 42 :: 47 :: rest)) = true := by
      cases bs with
      | nil => simp [List.isPrefixOf]
      | cons c cs =>
        simp only [List.isPrefixOf, Bool.and_true, Bool.and_eq_true, beq_iff_eq] at hp ⊢
        simpa using hp
    simp [hnp]

theorem indexFunc_strip (t : List Nat) :
    indexFunc (fun r => r ≠ 32 && r ≠ 9 && r ≠ 42) t
      = (if stripLead t = [] then none else some (t.length - (stripLead t).length)) ∧
    t.drop (t.length - (stripLead t).length) = stripLead t ∧
    (stripLead t).length ≤ t.length := by
  induction t with
  | nil => simp [indexFunc, stripLead]
  | cons b bs ih =>
    by_cases hs : (b == 42 || b == 32 || b == 9) = true
    · have e1 : stripLead (b :: bs) = stripLead bs := by
        simp only [stripLead, List.dropWhile_cons, hs, if_true]
      have hf : (decide (b ≠ 32) && decide (b ≠ 9) && decide (b ≠ 42)) = false := by
        simp only [Bool.or_eq_true, beq_iff_eq] at hs
        rcases hs with (h | h) | h <;> simp [h]
      rw [e1, indexFunc]
      simp only [hf, Bool.false_eq_true, if_false, ih.1]
      refine ⟨?_, ?_, by have := ih.2.2; simp only [List.length_cons]; omega⟩
      · by_cases he : stripLead bs = []
        · simp [he]
        · have := ih.2.2
          simp only [he, if_false, Option.map_some', List.length_cons, Option.some.injEq]
          omega
      · have := ih.2.2
        have e2 : (b :: bs).length - (stripLead bs).length
            = (bs.length - (stripLead bs).length) + 1 := by
          simp only [List.length_cons]; omega
        rw [e2, List.drop_succ_cons, ih.2.1]
    · have e1 : stripLead (b :: bs) = b :: bs := by
        simp only [stripLead, List.dropWhile_cons, hs]
        simp
      have hf : (decide (b ≠ 32) && decide (b ≠ 9) && decide (b ≠ 42)) = true := by
        simp only [Bool.or_eq_true, beq_iff_eq, not_or] at hs
        simp [hs.1.1, hs.1.2, hs.2]
      simp only [Bool.or_eq_true, beq_iff_eq, not_or] at hs
      rw [e1, indexFunc]
      simp [hs.1.1, hs.1.2, hs.2]

theorem slice_parts (a m b : List Nat) (lo hi : Nat) (hlo : lo = a.length)
    (hhi : hi = a.length + m.length) : slice (a ++ m ++ b) lo hi = .ok m := by
  subst hlo hhi
  unfold slice
  rw [if_pos (by simp)]
  simp

theorem idx_parts (a b : List Nat) (c i : Nat) (hi : i = a.length) :
    idx (a ++ c :: b) i = .ok c := by
  subst hi
  unfold idx
  rw [List.getElem?_append_right (le_refl _)]
  simp

end parser

namespace parser

theorem skipRun_stars : ∀ (a fuel : Nat) (x : lexer) (A B : List Nat) (c : Nat),
    x.Source = A ++ List.replicate a 42 ++ c :: B → x.offset = A.length → c ≠ 42 → a ≤ fuel →
    lexer.skipRun 42 fuel x = .ok { x with offset := x.offset + a } := by
  intro a
  induction a with
  | zero =>
    intro fuel x A B c hs ho hc _
    cases fuel with
    | zero => rfl
    | succ f =>
      rw [lexer.skipRun]
      have hidx : idx x.Source x.offset = .ok c := by
        rw [hs]
        exact idx_parts _ _ _ _ (by simp [ho])
      split
      · simp [hidx, bind, Except.bind, hc, pure, Except.pure]
      · rfl
  | succ a ih =>
    intro fuel x A B c hs ho hc hf
    obtain ⟨f, rfl⟩ : ∃ f, fuel = f + 1 := ⟨fuel - 1, by omega⟩
    have hs' : x.Source = (A ++ [42]) ++ List.replicate a 42 ++ c :: B := by
      rw [hs, List.replicate_succ]
      simp
    have hidx : idx x.Source x.offset = .ok 42 := by
      rw [hs, List.replicate_succ]
      have e : A ++ 42 :: List.replicate a 42 ++ c :: B
          = A ++ 42 :: (List.replicate a 42 ++ c :: B) := by simp
      rw [e]
      exact idx_parts _ _ _ _ ho
    have hlen : x.offset + 1 < x.Source.length := by
      rw [hs, ho]
      simp only [List.length_append, List.length_replicate, List.length_cons]
      omega
    rw [lexer.skipRun, if_pos hlen]
    simp only [hidx, bind, Except.bind, if_true]
    rw [ih f { x with offset := x.offset + 1 } (A ++ [42]) B c hs' (by simp [ho]) hc (by omega)]
    simp only [Except.ok.injEq, lexer.mk.injEq, and_true, true_and]
    omega

theorem backStars_spec : ∀ (b fuel : Nat) (A B : List Nat) (l : Nat),
    l ≠ 42 → b + 1 ≤ fuel →
    lexer.backStars (A ++ l :: (List.replicate b 42 ++ B)) fuel (A.length + 1 + b)
      = .ok (A.length + 1) := by
  intro b
  induction b with
  | zero =>
    intro fuel A B l hl hf
    obtain ⟨f, rfl⟩ : ∃ f, fuel = f + 1 := ⟨fuel - 1, by omega⟩
    rw [lexer.backStars, if_pos (by omega)]
    have hidx : idx (A ++ l :: B) A.length = .ok l := idx_parts _ _ _ _ rfl
    simp [hidx, bind, Except.bind, hl, pure, Except.pure]
  | succ b ih =>
    intro fuel A B l hl hf
    obtain ⟨f, rfl⟩ : ∃ f, fuel = f + 1 := ⟨fuel - 1, by omega⟩
    have e : A ++ l :: (List.replicate (b + 1) 42 ++ B)
        = A ++ l :: (List.replicate b 42 ++ 42 :: B) := by
      rw [List.replicate_succ']
      simp
    have e2 : A ++ l :: (List.replicate b 42 ++ 42 :: B)
        = (A ++ l :: List.replicate b 42) ++ 42 :: B := by simp
    rw [e, lexer.backStars, if_pos (by omega)]
    have hidx : idx (A ++ l :: (List.replicate b 42 ++ 42 :: B)) (A.length + 1 + (b + 1) - 1)
        = .ok 42 := by
      rw [e2]
      exact idx_parts _ _ _ _ (by simp; omega)
    simp only [hidx, bind, Except.bind, if_true]
    have e3 : A.length + 1 + (b + 1) - 1 = A.length + 1 + b := by omega
    rw [e3]
    exact ih f A (42 :: B) l hl (by omega)

theorem reflow_spec : ∀ (fuel : Nat) (A s post acc : List Nat), s.length ≤ fuel →
    lexer.reflow (A ++ s ++ post) (A.length + s.length) fuel A.length acc
      = .ok (acc ++ reflowLines s) := by
  intro fuel
  induction fuel with
  | zero =>
    intro A s post acc hf
    have : s = [] := List.length_eq_zero.1 (by omega)
    subst this
    simp [lexer.reflow, reflowLines, splitLines, intercalate_cons, sepEach]
  | succ f ih =>
    intro A s post acc hf
    rw [lexer.reflow]
    by_cases hs : s = []
    · subst hs
      simp [reflowLines, splitLines, intercalate_cons, sepEach, pure, Except.pure]
    · have hpos : 0 < s.length := List.length_pos.2 hs
      rw [if_pos (by omega)]
      have hline : slice (A ++ s ++ post) A.length (A.length + s.length) = .ok s :=
        slice_parts A s post _ _ rfl rfl
      simp only [hline, bind, Except.bind]
      rcases lines_cases s with hn | ⟨h, t, rfl, hh⟩
      · simp only [bytesIndex_nl_none s hn, reflowLines_noNl s hn]
        rfl
      · simp only [bytesIndex_nl_some h t hh, reflowLines_append h t hh]
        have hhead : slice (A ++ (h ++ 10 :: t) ++ post) A.length (A.length + h.length)
            = .ok h := by
          have e : A ++ (h ++ 10 :: t) ++ post = A ++ h ++ (10 :: t ++ post) := by simp
          rw [e]
          exact slice_parts A h _ _ _ rfl rfl
        have hrest : slice (A ++ (h ++ 10 :: t) ++ post) (A.length + h.length + 1)
            (A.length + (h ++ 10 :: t).length) = .ok t := by
          have e : A ++ (h ++ 10 :: t) ++ post = (A ++ h ++ [10]) ++ t ++ post := by simp
          rw [e]
          exact slice_parts _ t post _ _ (by simp; omega) (by simp; omega)
        simp only [hhead, hrest]
        obtain ⟨hi1, hi2, hi3⟩ := indexFunc_strip t
        by_cases hu : stripLead t = []
        · simp only [hi1, hu, if_true]
          simp [reflowLines, splitLines, intercalate_cons, sepEach, pure, Except.pure]
        · simp only [hi1, hu, if_false]
          have hsrc : A ++ (h ++ 10 :: t) ++ post
              = (A ++ h ++ [10] ++ t.take (t.length - (stripLead t).length))
                ++ stripLead t ++ post := by
            have e := List.take_append_drop (t.length - (stripLead t).length) t
            rw [hi2] at e
            conv_lhs => rw [← e]
            simp
          have hlenA : (A ++ h ++ [10] ++ t.take (t.length - (stripLead t).length)).length
              = A.length + h.length + 1 + (t.length - (stripLead t).length) := by
            simp only [List.length_append, List.length_take, List.length_cons, List.length_nil]
            omega
          have hend : A.length + (h ++ 10 :: t).length
              = (A ++ h ++ [10] ++ t.take (t.length - (stripLead t).length)).length
                + (stripLead t).length := by
            rw [hlenA]
            simp only [List.length_append, List.length_cons]
            omega
          rw [hend, ← hlenA, hsrc]
          rw [ih _ _ post _ (by simp only [List.length_append, List.length_cons] at hf; omega)]
          simp

end parser

namespace parser

theorem nextBlockComment_src (x : lexer) (P0 cinit ctail rest : List Nat) (a b c l : Nat)
    (hcore : c :: ctail = cinit ++ [l]) (hc : c ≠ 42) (hl : l ≠ 42)
    (hs : x.Source = P0 ++ 47 :: 42 :: (List.replicate a 42 ++ (c :: ctail ++
      (List.replicate b 42 ++ 42 :: 47 :: rest))))
    (ho : x.offset = P0.length)
    (hb : bytesIndex (c :: ctail ++ List.replicate b 42) [42, 47] = none) :
    x.nextBlockComment
      = .ok ({ Kind := x.commentKind, Text := trimSpace (reflowLines (c :: ctail)) },
          { x with offset := x.offset + (2 + a + (c :: ctail).length + b + 2) }) := by
  have hlen : x.Source.length = P0.length + 2 + a + (ctail.length + 1) + b + 2 + rest.length := by
    rw [hs]
    simp only [List.length_append, List.length_cons, List.length_replicate]
    omega
  -- the run of `*` after `/*`
  have hs1 : x.Source = (P0 ++ [47, 42]) ++ List.replicate a 42 ++ c :: (ctail ++
      (List.replicate b 42 ++ 42 :: 47 :: rest)) := by
    rw [hs]
    simp
  have hrun := skipRun_stars a (x.Source.length - (x.offset + 2)) { x with offset := x.offset + 2 }
    (P0 ++ [47, 42]) _ c hs1 (by simp [ho]) hc (by rw [hlen, ho]; omega)
  -- the bytes after the run
  have hs2 : x.Source = (P0 ++ 47 :: 42 :: List.replicate a 42) ++
      ((c :: ctail ++ List.replicate b 42) ++ 42 :: 47 :: rest) ++ [] := by
    rw [hs]
    simp
  have hP : (P0 ++ 47 :: 42 :: List.replicate a 42).length = x.offset + 2 + a := by
    simp only [List.length_append, List.length_cons, List.length_replicate, ho]
    omega
  have htail : slice x.Source (x.offset + 2 + a) x.Source.length
      = .ok ((c :: ctail ++ List.replicate b 42) ++ 42 :: 47 :: rest) := by
    conv_lhs => rw [hs2]
    apply slice_parts
    · exact hP.symm
    · simp only [List.length_append, List.length_cons, List.length_replicate,
        List.length_nil, ho]
      omega
  have hidx := bytesIndex_close (c :: ctail ++ List.replicate b 42) rest hb
  -- back over the run of `*` before `*/`
  have hs3 : x.Source = (P0 ++ 47 :: 42 :: List.replicate a 42 ++ cinit) ++
      l :: (List.replicate b 42 ++ 42 :: 47 :: rest) := by
    rw [hs]
    have e : c :: ctail ++ (List.replicate b 42 ++ 42 :: 47 :: rest)
        = (c :: ctail) ++ (List.replicate b 42 ++ 42 :: 47 :: rest) := rfl
    rw [e, hcore]
    simp
  have hci : cinit.length = ctail.length := by
    have := congrArg List.length hcore
    simp only [List.length_cons, List.length_append, List.length_nil] at this
    omega
  have hA : (P0 ++ 47 :: 42 :: List.replicate a 42 ++ cinit).length + 1
      = x.offset + 2 + a + (ctail.length + 1) := by
    simp only [List.length_append, List.length_cons, List.length_replicate, ho, hci]
    omega
  have hback := backStars_spec b ((c :: ctail ++ List.replicate b 42).length + (x.offset + 2 + a))
    (P0 ++ 47 :: 42 :: List.replicate a 42 ++ cinit) (42 :: 47 :: rest) l hl
    (by simp only [List.length_append, List.length_cons, List.length_replicate]; omega)
  rw [← hs3, hA] at hback
  have e4 : (c :: ctail ++ List.replicate b 42).length + (x.offset + 2 + a)
      = x.offset + 2 + a + (ctail.length + 1) + b := by
    simp only [List.length_append, List.length_cons, List.length_replicate]
    omega
  rw [e4] at hback
  -- the lines
  have hs4 : x.Source = (P0 ++ 47 :: 42 :: List.replicate a 42) ++ (c :: ctail) ++
      (List.replicate b 42 ++ 42 :: 47 :: rest) := by
    rw [hs]
    simp
  have hflow := reflow_spec (ctail.length + 1) (P0 ++ 47 :: 42 :: List.replicate a 42)
    (c :: ctail) (List.replicate b 42 ++ 42 :: 47 :: rest) [] (by simp)
  rw [← hs4, hP] at hflow
  simp only [List.length_cons, List.nil_append] at hflow
  -- together
  rw [lexer.nextBlockComment]
  simp only [hrun, bind, Except.bind, htail, hidx, e4, hback]
  have e5 : x.offset + 2 + a + (ctail.length + 1) - (x.offset + 2 + a) = ctail.length + 1 := by
    omega
  simp only [e5, hflow]
  simp only [pure, Except.pure, lexer.commentKind, List.length_cons, Except.ok.injEq,
    Prod.mk.injEq, lexer.mk.injEq, and_true, true_and]
  omega

end parser

namespace parser

theorem stars_decomp (s : List Nat) :
    ∃ a, s = List.replicate a 42 ++ dropStars s ∧ (dropStars s).head? ≠ some 42 := by
  induction s with
  | nil => exact ⟨0, by simp [dropStars], by simp [dropStars]⟩
  | cons b bs ih =>
    obtain ⟨a, h1, h2⟩ := ih
    by_cases hb : b = 42
    · subst hb
      have e : dropStars (42 :: bs) = dropStars bs := by simp [dropStars]
      refine ⟨a + 1, ?_, by rw [e]; exact h2⟩
      rw [e, List.replicate_succ]
      simp only [List.cons_append, List.cons.injEq, true_and]
      exact h1
    · have e : dropStars (b :: bs) = b :: bs := by simp [dropStars, hb]
      exact ⟨0, by simp [e], by simp [e, hb]⟩

theorem starsEnd_decomp (r : List Nat) :
    ∃ b, r = dropStarsEnd r ++ List.replicate b 42 ∧ (dropStarsEnd r).getLast? ≠ some 42 := by
  obtain ⟨b, h1, h2⟩ := stars_decomp r.reverse
  refine ⟨b, ?_, ?_⟩
  · have := congrArg List.reverse h1
    simp only [List.reverse_reverse, List.reverse_append, List.reverse_replicate] at this
    exact this
  · simp only [dropStarsEnd, List.getLast?_reverse]
    exact h2

theorem body_decomp (body : List Nat) (hne : ∃ b ∈ body, b ≠ 42) :
    ∃ (a b c l : Nat) (ctail cinit : List Nat), c ≠ 42 ∧ l ≠ 42 ∧ c :: ctail = cinit ++ [l] ∧
      dropStarsEnd (dropStars body) = c :: ctail ∧
      body = List.replicate a 42 ++ (c :: ctail ++ List.replicate b 42) := by
  obtain ⟨a, h1, h2⟩ := stars_decomp body
  obtain ⟨b, h3, h4⟩ := starsEnd_decomp (dropStars body)
  -- the middle part is not empty
  have hmid : dropStars body ≠ [] := by
    intro he
    rw [he] at h1
    obtain ⟨x, hx, hx42⟩ := hne
    rw [h1] at hx
    simp only [List.append_nil] at hx
    exact hx42 (List.eq_of_mem_replicate hx)
  have hcore : dropStarsEnd (dropStars body) ≠ [] := by
    intro he
    rw [he] at h3
    simp only [List.nil_append] at h3
    rw [h3] at h2 hmid
    cases b with
    | zero => exact hmid rfl
    | succ b => simp [List.replicate_succ] at h2
  rcases hd : dropStarsEnd (dropStars body) with _ | ⟨c, ctail⟩
  · exact absurd hd hcore
  · have hc : c ≠ 42 := by
      rw [h3, hd] at h2
      simpa using h2
    obtain ⟨cinit, l, hcl⟩ : ∃ cinit l, c :: ctail = cinit ++ [l] :=
      ⟨(c :: ctail).dropLast, (c :: ctail).getLast (by simp),
        (List.dropLast_append_getLast (by simp)).symm⟩
    have hl : l ≠ 42 := by
      rw [hd, hcl] at h4
      simpa using h4
    refine ⟨a, b, c, l, ctail, cinit, hc, hl, hcl, rfl, ?_⟩
    rw [← hd, ← h3]
    exact h1

theorem pop_blockComment (x : lexer) (body rest : List Nat) (hx : x.nextToken = {})
    (hrem : x.rem = 47 :: 42 :: (body ++ 42 :: 47 :: rest))
    (hfirst : bytesIndex body [42, 47] = none) (hne : ∃ b ∈ body, b ≠ 42) :
    ∃ x', x.Pop = .ok ({ Kind := x.commentKind, Text := refReflow body }, x') ∧
      x'.rem = rest ∧ x'.nextToken = {} := by
  obtain ⟨a, b, c, l, ctail, cinit, hc, hl, hcl, hd, hbody⟩ := body_decomp body hne
  obtain ⟨hlt, hidx, h1⟩ := rem_cons hrem
  obtain ⟨hlt1, hidx1, _⟩ := rem_cons h1
  simp only [] at hlt1 hidx1
  have hsrc : x.Source = x.Source.take x.offset ++ 47 :: 42 :: (List.replicate a 42 ++
      (c :: ctail ++ (List.replicate b 42 ++ 42 :: 47 :: rest))) := by
    have e := (List.take_append_drop x.offset x.Source).symm
    simp only [lexer.rem] at hrem
    rw [hrem, hbody] at e
    exact e.trans (by simp)
  have hoff : x.offset = (x.Source.take x.offset).length := by
    simp only [List.length_take]
    omega
  have hb : bytesIndex (c :: ctail ++ List.replicate b 42) [42, 47] = none := by
    rw [hbody] at hfirst
    exact bytesIndex_none_suffix _ _ _ hfirst
  have hsp := nextBlockComment_src x _ cinit ctail rest a b c l hcl hc hl hsrc hoff hb
  refine ⟨{ x with offset := x.offset + (2 + a + (c :: ctail).length + b + 2) }, ?_, ?_, hx⟩
  · have e : x.nextToken.Kind = 0 := by rw [hx]
    simp only [lexer.Pop, e, if_true, lexer.next]
    rw [lexer.nextLoop, if_pos hlt]
    simp only [hidx, bind, Except.bind]
    rw [if_neg (by omega), if_neg (by omega), if_pos (by trivial)]
    rw [lexer.nextComment, if_neg (by omega)]
    simp only [hidx1, bind, Except.bind]
    rw [if_neg (by omega), if_pos (by trivial), hsp]
    simp only [refReflow, hd]
  · simp only [lexer.rem] at hrem ⊢
    have e : x.offset + (2 + a + (c :: ctail).length + b + 2)
        = x.offset + (body.length + 4) := by
      rw [hbody]
      simp only [List.length_append, List.length_cons, List.length_replicate]
      omega
    rw [e, ← List.drop_drop, hrem]
    have e2 : 47 :: 42 :: (body ++ 42 :: 47 :: rest) = (47 :: 42 :: (body ++ [42, 47])) ++ rest := by
      simp
    rw [e2, List.drop_left' (by simp)]

theorem blockComment_src (body : List Nat) (hfirst : bytesIndex body [42, 47] = none)
    (hne : ∃ b ∈ body, b ≠ 42) :
    TrailingCommentSrc (47 :: 42 :: (body ++ [42, 47])) (refReflow body) := by
  intro x r hx hw h
  obtain ⟨x', h1, h2, h3⟩ := pop_blockComment x body (10 :: r) hx (by simpa using h) hfirst hne
  refine ⟨x', ?_, h2, h3⟩
  rw [h1]
  simp [lexer.commentKind, hw]

end parser

namespace parser
open ast (Node)

theorem parseType_ref_step {p : parser} {t : token.Token} {tail r : List Nat}
    (T : List Nat) (n : Nat)
    (hn : NextTok tail t r) (ht : endsIdent tail = true) (hd : t.Kind ≠ token.Dot)
    (hb : t.Kind ≠ token.LBrack) (ho : t.Kind ≠ token.Or) (hT : isIdent T = true)
    (hp : At p { Kind := token.Ident, Text := T } tail) :
    ∃ p', parser.parseType (n + 6) p = .ok (typeRef T, p') ∧ At p' t r := by
  have := parseType_ident_step (p := p) T [] (n + 3) hn ht hd hb ho hT (by simp) (by simp)
    (by simpa [sepEach] using hp)
  simpa using this

theorem tupleLoop_step (t : token.Token) (tail r : List Nat) (hn : NextTok tail t r) :
    ∀ (Ts : List (List Nat)) (U : List Nat) (acc : List Node) (p : parser) (n : Nat),
      isIdent U = true → (∀ V ∈ Ts, isIdent V = true) → Ts.length ≤ n →
      At p { Kind := token.Ident, Text := U } (sepEach [44, 32] Ts ++ (93 :: tail)) →
      ∃ p', parser.parseTupleTypeLoop (n + 8) acc p
          = .ok (.TupleType (acc ++ (U :: Ts).map typeRef), p') ∧ At p' t r := by
  intro Ts
  induction Ts with
  | nil =>
    intro U acc p n hU _ _ hp
    simp only [sepEach, List.nil_append] at hp
    obtain ⟨p1, h1, hp1⟩ := parseType_ref_step U (n + 1)
      (nextTok_punct (c := 93) (k := token.RBrack) tail rfl)
      (by simp [endsIdent, lexer.identEnd]) (by simp) (by simp)
      (by simp) hU hp
    obtain ⟨p2, h2, hp2⟩ := eat_step (n + 6) token.RBrack hp1 rfl hn
    refine ⟨p2, ?_, hp2⟩
    rw [parser.parseTupleTypeLoop]
    simp [h1, h2, bind, Except.bind, pure, Except.pure, hp1.1]
  | cons V Vs ih =>
    intro U acc p n hU hTs hf hp
    obtain ⟨m, rfl⟩ : ∃ m, n = m + 1 := ⟨n - 1, by simp at hf; omega⟩
    have hV : isIdent V = true := hTs V (by simp)
    have hVs : ∀ W ∈ Vs, isIdent W = true := fun W hW => hTs W (by simp [hW])
    have hnx : NextTok (sepEach [44, 32] (V :: Vs) ++ (93 :: tail)) { Kind := token.Comma }
        (32 :: V ++ (sepEach [44, 32] Vs ++ (93 :: tail))) := by
      have := nextTok_punct (c := 44) (k := token.Comma)
        (32 :: V ++ (sepEach [44, 32] Vs ++ (93 :: tail))) rfl
      simpa [sepEach] using this
    obtain ⟨p1, h1, hp1⟩ := parseType_ref_step U (m + 2) hnx
      (by simp [sepEach, endsIdent, lexer.identEnd]) (by simp) (by simp) (by simp) hU hp
    obtain ⟨p2, h2, hp2⟩ := advance_step (m + 7) hp1
      (nextTok_space (nextTok_ident _ hV
        (endsIdent_sepEach_comma Vs _ (by simp [endsIdent, lexer.identEnd]))))
    obtain ⟨p3, h3, hp3⟩ := ih V (acc ++ [typeRef U]) p2 m hV hVs
      (by simp at hf ⊢; omega) hp2
    refine ⟨p3, ?_, hp3⟩
    rw [parser.parseTupleTypeLoop]
    simp [h1, h2, bind, Except.bind, pure, Except.pure, hp1.1] at h3 ⊢
    rw [h3]

theorem tuple_run (T : List Nat) (Ts : List (List Nat))
    (hT : isIdent T = true) (hTs : ∀ V ∈ Ts, isIdent V = true) :
    Parse (str "type X = [" ++ List.intercalate (str ", ") (T :: Ts) ++ str "];")
      = .ok (.SourceFile [.TypeAliasDeclaration (.Identifier (str "X"))
          (.TupleType ((T :: Ts).map typeRef)) []]) := by
  have e1 : str "type X = [" = str "type" ++ [32, 88, 32, 61, 32, 91] := by decide
  have e2 : str ", " = [44, 32] := by decide
  have e3 : str "];" = [93, 59] := by decide
  have e4 : str "X" = [88] := by decide
  have hsrc : str "type X = [" ++ List.intercalate (str ", ") (T :: Ts) ++ str "];"
      = str "type" ++ (32 :: ([88] ++ (32 :: 61 :: 32 :: 91 :: (T ++
          (sepEach [44, 32] Ts ++ (93 :: [59])))))) := by
    rw [intercalate_cons, e1, e2, e3]
    simp
  rw [hsrc, e4]
  generalize hs : str "type" ++ (32 :: ([88] ++ (32 :: 61 :: 32 :: 91 :: (T ++
          (sepEach [44, 32] Ts ++ (93 :: [59])))))) = src
  have hlen : Ts.length ≤ src.length := by
    rw [← hs]
    have := length_sepEach_comma Ts
    simp only [List.length_append, List.length_cons]
    omega
  obtain ⟨m, hm, hmT⟩ : ∃ m, budget src = m + 20 ∧ Ts.length ≤ m :=
    ⟨budget src - 20, by simp only [budget]; omega, by simp only [budget]; omega⟩
  have n1 : NextTok src { Kind := token.Ident, Text := str "type" }
      (32 :: ([88] ++ (32 :: 61 :: 32 :: 91 :: (T ++ (sepEach [44, 32] Ts ++ (93 :: [59])))))) := by
    rw [← hs]
    exact nextTok_ident _ (by decide) (by simp [endsIdent, lexer.identEnd])
  have n2 : NextTok (32 :: ([88] ++ (32 :: 61 :: 32 :: 91 :: (T ++
        (sepEach [44, 32] Ts ++ (93 :: [59]))))))
      { Kind := token.Ident, Text := [88] }
      (32 :: 61 :: 32 :: 91 :: (T ++ (sepEach [44, 32] Ts ++ (93 :: [59])))) :=
    nextTok_space (nextTok_ident _ (by decide) (by simp [endsIdent, lexer.identEnd]))
  have n3 : NextTok (32 :: 61 :: 32 :: 91 :: (T ++ (sepEach [44, 32] Ts ++ (93 :: [59]))))
      { Kind := token.Assign } (32 :: 91 :: (T ++ (sepEach [44, 32] Ts ++ (93 :: [59])))) :=
    nextTok_space (nextTok_punct (c := 61) _ rfl)
  have n4 : NextTok (32 :: 91 :: (T ++ (sepEach [44, 32] Ts ++ (93 :: [59]))))
      { Kind := token.LBrack } (T ++ (sepEach [44, 32] Ts ++ (93 :: [59]))) :=
    nextTok_space (nextTok_punct (c := 91) _ rfl)
  have n5 : NextTok (T ++ (sepEach [44, 32] Ts ++ (93 :: [59])))
      { Kind := token.Ident, Text := T } (sepEach [44, 32] Ts ++ (93 :: [59])) :=
    nextTok_ident _ hT (endsIdent_sepEach_comma Ts _ (by decide))
  have n6 : NextTok [59] { Kind := token.Semicolon } [] := nextTok_punct (c := 59) [] rfl
  obtain ⟨p1, h1, hp1⟩ := advance_step (m + 18) (at_init src) n1
  obtain ⟨p2, h2, hp2⟩ := eat_step (m + 16) token.Ident hp1 rfl n2
  obtain ⟨p3, h3, hp3⟩ := parseIdentifier_step (m + 16) hp2 n3
  obtain ⟨p4, h4, hp4⟩ := eat_step (m + 16) token.Assign hp3 rfl n4
  obtain ⟨p5, h5, hp5⟩ := eat_step (m + 11) token.LBrack hp4 rfl n5
  obtain ⟨p6, h6, hp6⟩ := tupleLoop_step _ _ _ n6 Ts T [] p5 (m + 4) hT hTs (by omega) hp5
  obtain ⟨p7, h7, hp7⟩ := advance_step (m + 17) hp6 nextTok_eof
  have hne : str "type" ≠ str "export" ∧ str "type" ≠ str "const" := by decide
  have htyp : parser.parseType (m + 17) p4 = .ok (.TupleType ((T :: Ts).map typeRef), p6) := by
    rw [parser.parseType, parser.parseTypeCheckUnion, parser.parseTypeCheckArray,
      parser.parseTypeInner, parser.parseTupleType]
    simp only [List.nil_append] at h6
    simp [hp4.1, h5, h6, hp6.1, bind, Except.bind, pure, Except.pure]
  have hstmt : parser.parseStatement (m + 19) p1
      = .ok (.TypeAliasDeclaration (.Identifier [88]) (.TupleType ((T :: Ts).map typeRef)) [],
          p6) := by
    rw [parser.parseStatement, parser.parseStatementLoop]
    simp only [parser.expect, hp1.1, bind, Except.bind, hne.1, hne.2, if_false, if_true,
      parser.parseTypeAliasDeclaration, h2, at_consumeComment hp2, h3, h4, htyp, pure,
      Except.pure, ne_eq, not_true_eq_false]
  simp only [Parse, hm, parser.parseSourceFile]
  rw [parser.parseSourceFileLoop]
  simp only [h1, bind, Except.bind, hp1.1, hstmt]
  rw [parser.parseSourceFileLoop]
  simp [h7, bind, Except.bind, hp7.1, pure, Except.pure]

end parser

namespace parser
open ast (Node)

theorem union_array_run (A B : List Nat) (hA : isIdent A = true) (hB : isIdent B = true) :
    Parse (str "type X = " ++ A ++ str " | " ++ B ++ str "[];")
      = .ok (.SourceFile [.TypeAliasDeclaration (.Identifier (str "X"))
          (.UnionType [typeRef A, .ArrayType (typeRef B)]) []]) := by
  have e1 : str "type X = " = str "type" ++ [32, 88, 32, 61, 32] := by decide
  have e2 : str " | " = [32, 124, 32] := by decide
  have e3 : str "[];" = [91, 93, 59] := by decide
  have e4 : str "X" = [88] := by decide
  have hsrc : str "type X = " ++ A ++ str " | " ++ B ++ str "[];"
      = str "type" ++ (32 :: ([88] ++ (32 :: 61 :: 32 :: (A ++
          (32 :: 124 :: 32 :: (B ++ [91, 93, 59])))))) := by
    rw [e1, e2, e3]
    simp
  rw [hsrc, e4]
  generalize hs : str "type" ++ (32 :: ([88] ++ (32 :: 61 :: 32 :: (A ++
          (32 :: 124 :: 32 :: (B ++ [91, 93, 59])))))) = src
  obtain ⟨m, hm⟩ : ∃ m, budget src = m + 20 := ⟨budget src - 20, by simp only [budget]; omega⟩
  have n1 : NextTok src { Kind := token.Ident, Text := str "type" }
      (32 :: ([88] ++ (32 :: 61 :: 32 :: (A ++ (32 :: 124 :: 32 :: (B ++ [91, 93, 59])))))) := by
    rw [← hs]
    exact nextTok_ident _ (by decide) (by simp [endsIdent, lexer.identEnd])
  have n2 : NextTok (32 :: ([88] ++ (32 :: 61 :: 32 :: (A ++
        (32 :: 124 :: 32 :: (B ++ [91, 93, 59]))))))
      { Kind := token.Ident, Text := [88] }
      (32 :: 61 :: 32 :: (A ++ (32 :: 124 :: 32 :: (B ++ [91, 93, 59])))) :=
    nextTok_space (nextTok_ident _ (by decide) (by simp [endsIdent, lexer.identEnd]))
  have n3 : NextTok (32 :: 61 :: 32 :: (A ++ (32 :: 124 :: 32 :: (B ++ [91, 93, 59]))))
      { Kind := token.Assign } (32 :: (A ++ (32 :: 124 :: 32 :: (B ++ [91, 93, 59])))) :=
    nextTok_space (nextTok_punct (c := 61) _ rfl)
  have n4 : NextTok (32 :: (A ++ (32 :: 124 :: 32 :: (B ++ [91, 93, 59]))))
      { Kind := token.Ident, Text := A } (32 :: 124 :: 32 :: (B ++ [91, 93, 59])) :=
    nextTok_space (nextTok_ident _ hA (by simp [endsIdent, lexer.identEnd]))
  have n5 : NextTok (32 :: 124 :: 32 :: (B ++ [91, 93, 59])) { Kind := token.Or }
      (32 :: (B ++ [91, 93, 59])) :=
    nextTok_space (nextTok_punct (c := 124) _ rfl)
  have n6 : NextTok (32 :: (B ++ [91, 93, 59])) { Kind := token.Ident, Text := B } [91, 93, 59] :=
    nextTok_space (nextTok_ident _ hB (by simp [endsIdent, lexer.identEnd]))
  have n7 : NextTok [91, 93, 59] { Kind := token.LBrack } [93, 59] :=
    nextTok_punct (c := 91) _ rfl
  have n8 : NextTok [93, 59] { Kind := token.RBrack } [59] := nextTok_punct (c := 93) _ rfl
  have n9 : NextTok [59] { Kind := token.Semicolon } [] := nextTok_punct (c := 59) [] rfl
  obtain ⟨p1, h1, hp1⟩ := advance_step (m + 18) (at_init src) n1
  obtain ⟨p2, h2, hp2⟩ := eat_step (m + 16) token.Ident hp1 rfl n2
  obtain ⟨p3, h3, hp3⟩ := parseIdentifier_step (m + 16) hp2 n3
  obtain ⟨p4, h4, hp4⟩ := eat_step (m + 16) token.Assign hp3 rfl n4
  obtain ⟨p5, h5, hp5⟩ := parseTypeCheckArray_step (m + 12) hp4 n5 (by simp) (by simp)
  obtain ⟨p6, h6, hp6⟩ := eat_step (m + 13) token.Or hp5 rfl n6
  obtain ⟨p7, h7, hp7⟩ := parseTypeInner_step (m + 11) hp6 n7 (by simp)
  obtain ⟨p8, h8, hp8⟩ := eat_step (m + 12) token.LBrack hp7 rfl n8
  obtain ⟨p9, h9, hp9⟩ := eat_step (m + 12) token.RBrack hp8 rfl n9
  obtain ⟨p10, h10, hp10⟩ := advance_step (m + 17) hp9 nextTok_eof
  have hne : str "type" ≠ str "export" ∧ str "type" ≠ str "const" := by decide
  have harr : parser.parseTypeCheckArray (m + 14) p6 = .ok (.ArrayType (typeRef B), p9) := by
    rw [parser.parseTypeCheckArray]
    simp [h7, h8, h9, hp7.1, bind, Except.bind, pure, Except.pure, typeRef]
  have htyp : parser.parseType (m + 17) p4
      = .ok (.UnionType [typeRef A, .ArrayType (typeRef B)], p9) := by
    rw [parser.parseType, parser.parseTypeCheckUnion]
    simp only [h5, bind, Except.bind, hp5.1]
    rw [if_neg (by simp), parser.parseTypeCheckUnionLoop]
    simp [h6, harr, hp9.1, bind, Except.bind, pure, Except.pure, typeRef]
  have hstmt : parser.parseStatement (m + 19) p1
      = .ok (.TypeAliasDeclaration (.Identifier [88])
          (.UnionType [typeRef A, .ArrayType (typeRef B)]) [], p9) := by
    rw [parser.parseStatement, parser.parseStatementLoop]
    simp only [parser.expect, hp1.1, bind, Except.bind, hne.1, hne.2, if_false, if_true,
      parser.parseTypeAliasDeclaration, h2, at_consumeComment hp2, h3, h4, htyp, pure,
      Except.pure, ne_eq, not_true_eq_false]
  simp only [Parse, hm, parser.parseSourceFile]
  rw [parser.parseSourceFileLoop]
  simp only [h1, bind, Except.bind, hp1.1, hstmt]
  rw [parser.parseSourceFileLoop]
  simp [h10, bind, Except.bind, hp10.1, pure, Except.pure]

theorem paren_array_run (A B : List Nat) (hA : isIdent A = true) (hB : isIdent B = true) :
    Parse (str "type X = (" ++ A ++ str " | " ++ B ++ str ")[];")
      = .ok (.SourceFile [.TypeAliasDeclaration (.Identifier (str "X"))
          (.ArrayType (.ParenthesizedType (.UnionType [typeRef A, typeRef B]))) []]) := by
  have e1 : str "type X = (" = str "type" ++ [32, 88, 32, 61, 32, 40] := by decide
  have e2 : str " | " = [32, 124, 32] := by decide
  have e3 : str ")[];" = [41, 91, 93, 59] := by decide
  have e4 : str "X" = [88] := by decide
  have hsrc : str "type X = (" ++ A ++ str " | " ++ B ++ str ")[];"
      = str "type" ++ (32 :: ([88] ++ (32 :: 61 :: 32 :: 40 :: (A ++
          (sepEach [32, 124, 32] [B] ++ [41, 91, 93, 59]))))) := by
    rw [e1, e2, e3]
    simp [sepEach]
  rw [hsrc, e4]
  generalize hs : str "type" ++ (32 :: ([88] ++ (32 :: 61 :: 32 :: 40 :: (A ++
          (sepEach [32, 124, 32] [B] ++ [41, 91, 93, 59]))))) = src
  obtain ⟨m, hm⟩ : ∃ m, budget src = m + 20 := ⟨budget src - 20, by simp only [budget]; omega⟩
  have n1 : NextTok src { Kind := token.Ident, Text := str "type" }
      (32 :: ([88] ++ (32 :: 61 :: 32 :: 40 :: (A ++
          (sepEach [32, 124, 32] [B] ++ [41, 91, 93, 59]))))) := by
    rw [← hs]
    exact nextTok_ident _ (by decide) (by simp [endsIdent, lexer.identEnd])
  have n2 : NextTok (32 :: ([88] ++ (32 :: 61 :: 32 :: 40 :: (A ++
          (sepEach [32, 124, 32] [B] ++ [41, 91, 93, 59])))))
      { Kind := token.Ident, Text := [88] }
      (32 :: 61 :: 32 :: 40 :: (A ++ (sepEach [32, 124, 32] [B] ++ [41, 91, 93, 59]))) :=
    nextTok_space (nextTok_ident _ (by decide) (by simp [endsIdent, lexer.identEnd]))
  have n3 : NextTok (32 :: 61 :: 32 :: 40 :: (A ++ (sepEach [32, 124, 32] [B] ++ [41, 91, 93, 59])))
      { Kind := token.Assign }
      (32 :: 40 :: (A ++ (sepEach [32, 124, 32] [B] ++ [41, 91, 93, 59]))) :=
    nextTok_space (nextTok_punct (c := 61) _ rfl)
  have n4 : NextTok (32 :: 40 :: (A ++ (sepEach [32, 124, 32] [B] ++ [41, 91, 93, 59])))
      { Kind := token.LParen } (A ++ (sepEach [32, 124, 32] [B] ++ [41, 91, 93, 59])) :=
    nextTok_space (nextTok_punct (c := 40) _ rfl)
  have n5 : NextTok (A ++ (sepEach [32, 124, 32] [B] ++ [41, 91, 93, 59]))
      { Kind := token.Ident, Text := A } (sepEach [32, 124, 32] [B] ++ [41, 91, 93, 59]) :=
    nextTok_ident _ hA (by simp [sepEach, endsIdent, lexer.identEnd])
  have n6 : NextTok [41, 91, 93, 59] { Kind := token.RParen } [91, 93, 59] :=
    nextTok_punct (c := 41) _ rfl
  have n7 : NextTok [91, 93, 59] { Kind := token.LBrack } [93, 59] :=
    nextTok_punct (c := 91) _ rfl
  have n8 : NextTok [93, 59] { Kind := token.RBrack } [59] := nextTok_punct (c := 93) _ rfl
  have n9 : NextTok [59] { Kind := token.Semicolon } [] := nextTok_punct (c := 59) [] rfl
  obtain ⟨p1, h1, hp1⟩ := advance_step (m + 18) (at_init src) n1
  obtain ⟨p2, h2, hp2⟩ := eat_step (m + 16) token.Ident hp1 rfl n2
  obtain ⟨p3, h3, hp3⟩ := parseIdentifier_step (m + 16) hp2 n3
  obtain ⟨p4, h4, hp4⟩ := eat_step (m + 16) token.Assign hp3 rfl n4
  obtain ⟨p5, h5, hp5⟩ := eat_step (m + 11) token.LParen hp4 rfl n5
  obtain ⟨p6, h6, hp6⟩ := parseType_ident_step A [B] (m + 9) n6 (by decide) (by simp) (by simp)
    (by simp) hA (by simpa using hB) (by simp) hp5
  obtain ⟨p7, h7, hp7⟩ := eat_step (m + 11) token.RParen hp6 rfl n7
  obtain ⟨p8, h8, hp8⟩ := eat_step (m + 13) token.LBrack hp7 rfl n8
  obtain ⟨p9, h9, hp9⟩ := eat_step (m + 13) token.RBrack hp8 rfl n9
  obtain ⟨p10, h10, hp10⟩ := advance_step (m + 17) hp9 nextTok_eof
  have hne : str "type" ≠ str "export" ∧ str "type" ≠ str "const" := by decide
  have hinner : parser.parseTypeInner (m + 14) p4
      = .ok (.ParenthesizedType (.UnionType [typeRef A, typeRef B]), p7) := by
    rw [parser.parseTypeInner, parser.parseParenthesizedType]
    simp at h6
    simp [hp4.1, h5, h6, h7, bind, Except.bind, pure, Except.pure]
  have htyp : parser.parseType (m + 17) p4
      = .ok (.ArrayType (.ParenthesizedType (.UnionType [typeRef A, typeRef B])), p9) := by
    rw [parser.parseType, parser.parseTypeCheckUnion, parser.parseTypeCheckArray]
    simp [hinner, hp7.1, h8, h9, hp9.1, bind, Except.bind, pure, Except.pure]
  have hstmt : parser.parseStatement (m + 19) p1
      = .ok (.TypeAliasDeclaration (.Identifier [88])
          (.ArrayType (.ParenthesizedType (.UnionType [typeRef A, typeRef B]))) [], p9) := by
    rw [parser.parseStatement, parser.parseStatementLoop]
    simp only [parser.expect, hp1.1, bind, Except.bind, hne.1, hne.2, if_false, if_true,
      parser.parseTypeAliasDeclaration, h2, at_consumeComment hp2, h3, h4, htyp, pure,
      Except.pure, ne_eq, not_true_eq_false]
  simp only [Parse, hm, parser.parseSourceFile]
  rw [parser.parseSourceFileLoop]
  simp only [h1, bind, Except.bind, hp1.1, hstmt]
  rw [parser.parseSourceFileLoop]
  simp [h10, bind, Except.bind, hp10.1, pure, Except.pure]

end parser

namespace parser
open ast (Node)

theorem at_consumeLineComment {p : parser} {t : token.Token} {rem : List Nat} (hp : At p t rem) :
    p.consumeLineComment = ([], p) := by
  obtain ⟨_, _, _, _, h5⟩ := hp
  cases p
  simp_all [parser.consumeLineComment]

/-- The run of `parsePropertySignature` on `name: T; }` and on `name?: T; }`. -/
theorem propertySignature_ref_run {p : parser} (name T r : List Nat) (q : Bool) (n : Nat)
    (hro : name ≠ str "readonly") (hT : isIdent T = true)
    (hp : At p { Kind := token.Ident, Text := name }
      ((if q then [63] else []) ++ 58 :: 32 :: (T ++ 59 :: 32 :: 125 :: r))) :
    ∃ p', parser.parsePropertySignature (n + 7) p
        = .ok (.PropertySignature (.Identifier name) q (typeRef T) [] [], p') ∧
      At p' { Kind := token.RBrace } r := by
  have n1 : NextTok (58 :: 32 :: (T ++ 59 :: 32 :: 125 :: r))
      { Kind := token.Colon } (32 :: (T ++ 59 :: 32 :: 125 :: r)) :=
    nextTok_punct (c := 58) _ rfl
  have n2 : NextTok (32 :: (T ++ 59 :: 32 :: 125 :: r))
      { Kind := token.Ident, Text := T } (59 :: 32 :: 125 :: r) :=
    nextTok_space (nextTok_ident _ hT (by simp [endsIdent, lexer.identEnd]))
  have n3 : NextTok (59 :: 32 :: 125 :: r) { Kind := token.Semicolon } (32 :: 125 :: r) :=
    nextTok_punct (c := 59) _ rfl
  have n4 : NextTok (32 :: 125 :: r) { Kind := token.RBrace } r :=
    nextTok_space (nextTok_punct (c := 125) r rfl)
  have hro' : ¬ (p.tok.Kind = token.Ident ∧ p.tok.Text = str "readonly") := by
    rw [hp.1]
    exact fun h => hro h.2
  cases q with
  | false =>
    simp only [Bool.false_eq_true, if_false, List.nil_append] at hp
    obtain ⟨q1, h1, hq1⟩ := parseIdentifier_step (n + 5) hp n1
    obtain ⟨q2, h2, hq2⟩ := eat_step (n + 5) token.Colon hq1 rfl n2
    obtain ⟨q3, h3, hq3⟩ := parseType_ref_step T n n3 (by simp [endsIdent, lexer.identEnd])
      (by simp) (by simp) (by simp) hT hq2
    obtain ⟨q4, h4, hq4⟩ := advance_step (n + 5) hq3 n4
    refine ⟨q4, ?_, hq4⟩
    rw [parser.parsePropertySignature]
    simp only [at_consumeComment hp, bind, Except.bind, pure, Except.pure]
    rw [if_neg hro']
    simp only [h1, hq1.1]
    rw [if_neg (by decide)]
    simp only [h2, h3, hq3.1]
    rw [if_pos (by trivial)]
    simp only [h4, at_consumeLineComment hq4]
  | true =>
    simp only [if_true, List.singleton_append] at hp
    have n0 : NextTok (63 :: 58 :: 32 :: (T ++ 59 :: 32 :: 125 :: r))
        { Kind := token.Question } (58 :: 32 :: (T ++ 59 :: 32 :: 125 :: r)) :=
      nextTok_punct (c := 63) _ rfl
    obtain ⟨q1, h1, hq1⟩ := parseIdentifier_step (n + 5) hp n0
    obtain ⟨q1', h1', hq1'⟩ := advance_step (n + 5) hq1 n1
    obtain ⟨q2, h2, hq2⟩ := eat_step (n + 5) token.Colon hq1' rfl n2
    obtain ⟨q3, h3, hq3⟩ := parseType_ref_step T n n3 (by simp [endsIdent, lexer.identEnd])
      (by simp) (by simp) (by simp) hT hq2
    obtain ⟨q4, h4, hq4⟩ := advance_step (n + 5) hq3 n4
    refine ⟨q4, ?_, hq4⟩
    rw [parser.parsePropertySignature]
    simp only [at_consumeComment hp, bind, Except.bind, pure, Except.pure]
    rw [if_neg hro']
    simp only [h1, hq1.1]
    rw [if_pos (by trivial)]
    simp only [h1', h2, h3, hq3.1]
    rw [if_pos (by trivial)]
    simp only [h4, at_consumeLineComment hq4]

/-- The run of `parseType` on `A.B`. -/
theorem parseType_qualified_step {p : parser} {t : token.Token} {tail r : List Nat}
    (A B : List Nat) (n : Nat)
    (hn : NextTok tail t r) (ht : endsIdent tail = true)
    (hb : t.Kind ≠ token.LBrack) (ho : t.Kind ≠ token.Or) (hB : isIdent B = true)
    (hp : At p { Kind := token.Ident, Text := A } (46 :: (B ++ tail))) :
    ∃ p', parser.parseType (n + 6) p
        = .ok (.TypeReference (.QualifiedName (.Identifier A) (.Identifier B)), p') ∧
      At p' t r := by
  have n1 : NextTok (46 :: (B ++ tail)) { Kind := token.Dot } (B ++ tail) :=
    nextTok_punct (c := 46) _ rfl
  have n2 : NextTok (B ++ tail) { Kind := token.Ident, Text := B } tail :=
    nextTok_ident _ hB ht
  obtain ⟨q1, h1, hq1⟩ := parseIdentifier_step (n + 1) hp n1
  obtain ⟨q2, h2, hq2⟩ := advance_step (n + 1) hq1 n2
  obtain ⟨q3, h3, hq3⟩ := parseIdentifier_step (n + 1) hq2 hn
  refine ⟨q3, ?_, hq3⟩
  rw [parser.parseType, parser.parseTypeCheckUnion, parser.parseTypeCheckArray,
    parser.parseTypeInner]
  simp [hp.1, parser.parseTypeReference, h1, hq1.1, h2, h3, hq3.1, hb, ho, bind, Except.bind,
    pure, Except.pure]

/-- The run of `parsePropertySignature` on `name: A.B; }`. -/
theorem propertySignature_qualified_run {p : parser} (name A B r : List Nat) (n : Nat)
    (hro : name ≠ str "readonly") (hA : isIdent A = true) (hB : isIdent B = true)
    (hp : At p { Kind := token.Ident, Text := name }
      (58 :: 32 :: (A ++ 46 :: (B ++ 59 :: 32 :: 125 :: r)))) :
    ∃ p', parser.parsePropertySignature (n + 7) p
        = .ok (.PropertySignature (.Identifier name) false
            (.TypeReference (.QualifiedName (.Identifier A) (.Identifier B))) [] [], p') ∧
      At p' { Kind := token.RBrace } r := by
  have n1 : NextTok (58 :: 32 :: (A ++ 46 :: (B ++ 59 :: 32 :: 125 :: r)))
      { Kind := token.Colon } (32 :: (A ++ 46 :: (B ++ 59 :: 32 :: 125 :: r))) :=
    nextTok_punct (c := 58) _ rfl
  have n2 : NextTok (32 :: (A ++ 46 :: (B ++ 59 :: 32 :: 125 :: r)))
      { Kind := token.Ident, Text := A } (46 :: (B ++ 59 :: 32 :: 125 :: r)) :=
    nextTok_space (nextTok_ident _ hA (by simp [endsIdent, lexer.identEnd]))
  have n3 : NextTok (59 :: 32 :: 125 :: r) { Kind := token.Semicolon } (32 :: 125 :: r) :=
    nextTok_punct (c := 59) _ rfl
  have n4 : NextTok (32 :: 125 :: r) { Kind := token.RBrace } r :=
    nextTok_space (nextTok_punct (c := 125) r rfl)
  have hro' : ¬ (p.tok.Kind = token.Ident ∧ p.tok.Text = str "readonly") := by
    rw [hp.1]
    exact fun h => hro h.2
  obtain ⟨q1, h1, hq1⟩ := parseIdentifier_step (n + 5) hp n1
  obtain ⟨q2, h2, hq2⟩ := eat_step (n + 5) token.Colon hq1 rfl n2
  obtain ⟨q3, h3, hq3⟩ := parseType_qualified_step A B n n3
    (by simp [endsIdent, lexer.identEnd]) (by simp) (by simp) hB hq2
  obtain ⟨q4, h4, hq4⟩ := advance_step (n + 5) hq3 n4
  refine ⟨q4, ?_, hq4⟩
  rw [parser.parsePropertySignature]
  simp only [at_consumeComment hp, bind, Except.bind, pure, Except.pure]
  rw [if_neg hro']
  simp only [h1, hq1.1]
  rw [if_neg (by decide)]
  simp only [h2, h3, hq3.1]
  rw [if_pos (by trivial)]
  simp only [h4, at_consumeLineComment hq4]

/-- The run of `parsePropertySignature` on `name: A.B.C`: it stops at the second dot. -/
theorem propertySignature_qualified3_run {p : parser} (name A B r : List Nat) (n : Nat)
    (hro : name ≠ str "readonly") (hA : isIdent A = true) (hB : isIdent B = true)
    (hp : At p { Kind := token.Ident, Text := name }
      (58 :: 32 :: (A ++ 46 :: (B ++ 46 :: r)))) :
    ∃ p', parser.parsePropertySignature (n + 7) p
        = .ok (.PropertySignature (.Identifier name) false
            (.TypeReference (.QualifiedName (.Identifier A) (.Identifier B))) [] [], p') ∧
      At p' { Kind := token.Dot } r := by
  have n1 : NextTok (58 :: 32 :: (A ++ 46 :: (B ++ 46 :: r)))
      { Kind := token.Colon } (32 :: (A ++ 46 :: (B ++ 46 :: r))) :=
    nextTok_punct (c := 58) _ rfl
  have n2 : NextTok (32 :: (A ++ 46 :: (B ++ 46 :: r)))
      { Kind := token.Ident, Text := A } (46 :: (B ++ 46 :: r)) :=
    nextTok_space (nextTok_ident _ hA (by simp [endsIdent, lexer.identEnd]))
  have n3 : NextTok (46 :: r) { Kind := token.Dot } r := nextTok_punct (c := 46) _ rfl
  have hro' : ¬ (p.tok.Kind = token.Ident ∧ p.tok.Text = str "readonly") := by
    rw [hp.1]
    exact fun h => hro h.2
  obtain ⟨q1, h1, hq1⟩ := parseIdentifier_step (n + 5) hp n1
  obtain ⟨q2, h2, hq2⟩ := eat_step (n + 5) token.Colon hq1 rfl n2
  obtain ⟨q3, h3, hq3⟩ := parseType_qualified_step A B n n3
    (by simp [endsIdent, lexer.identEnd]) (by simp) (by simp) hB hq2
  refine ⟨q3, ?_, hq3⟩
  rw [parser.parsePropertySignature]
  simp only [at_consumeComment hp, bind, Except.bind, pure, Except.pure]
  rw [if_neg hro']
  simp only [h1, hq1.1]
  rw [if_neg (by decide)]
  simp only [h2, h3, hq3.1]
  rw [if_neg (by decide)]
  simp only [at_consumeLineComment hq3]

/-- The run of `parsePropertySignature` on `readonly:`: the word is taken for the
modifier, and the colon is not a name. -/
theorem propertySignature_readonly_run {p : parser} (r : List Nat) (n : Nat)
    (hp : At p { Kind := token.Ident, Text := str "readonly" } (58 :: r)) :
    parser.parsePropertySignature (n + 2) p
      = .error (.expectedKind token.Ident { Kind := token.Colon }) := by
  have n1 : NextTok (58 :: r) { Kind := token.Colon } r := nextTok_punct (c := 58) _ rfl
  obtain ⟨q1, h1, hq1⟩ := advance_step n hp n1
  rw [parser.parsePropertySignature]
  simp only [at_consumeComment hp, bind, Except.bind, pure, Except.pure, hp.1]
  rw [if_pos (by simp)]
  simp [h1, parser.parseIdentifier, parser.eat, parser.expect, hq1.1, bind, Except.bind]

/-- `Parse` of `interface I {`, a space and a member list that starts with a name,
when the member loop succeeds and stops at the closing brace that ends the source. -/
theorem interfaceI_ok (name rest : List Nat) (members : List Node)
    (hname : isIdent name = true) (hrest : endsIdent rest = true)
    (hrun : ∀ (p : parser) (n : Nat), At p { Kind := token.Ident, Text := name } rest →
      ∃ p', parser.parseInterfaceDeclarationLoop (n + 9) [] p = .ok (members, p') ∧
        At p' { Kind := token.RBrace } []) :
    Parse (str "interface I \x7b " ++ (name ++ rest))
      = .ok (.SourceFile [.InterfaceDeclaration (.Identifier (str "I")) [] [] members []]) := by
  have e1 : str "interface I \x7b " = str "interface" ++ [32, 73, 32, 123, 32] := by decide
  have e2 : str "I" = [73] := by decide
  have hsrc : str "interface I \x7b " ++ (name ++ rest)
      = str "interface" ++ (32 :: ([73] ++ (32 :: 123 :: 32 :: (name ++ rest)))) := by
    rw [e1]
    simp
  rw [hsrc, e2]
  generalize hg : str "interface" ++ (32 :: ([73] ++ (32 :: 123 :: 32 :: (name ++ rest)))) = src
  obtain ⟨m, hm⟩ : ∃ m, budget src = m + 12 := ⟨budget src - 12, by simp only [budget]; omega⟩
  have n1 : NextTok src { Kind := token.Ident, Text := str "interface" }
      (32 :: ([73] ++ (32 :: 123 :: 32 :: (name ++ rest)))) := by
    rw [← hg]
    exact nextTok_ident _ (by decide) (by simp [endsIdent, lexer.identEnd])
  have n2 : NextTok (32 :: ([73] ++ (32 :: 123 :: 32 :: (name ++ rest))))
      { Kind := token.Ident, Text := [73] } (32 :: 123 :: 32 :: (name ++ rest)) :=
    nextTok_space (nextTok_ident _ (by decide) (by simp [endsIdent, lexer.identEnd]))
  have n3 : NextTok (32 :: 123 :: 32 :: (name ++ rest)) { Kind := token.LBrace }
      (32 :: (name ++ rest)) :=
    nextTok_space (nextTok_punct (c := 123) _ rfl)
  have n4 : NextTok (32 :: (name ++ rest)) { Kind := token.Ident, Text := name } rest :=
    nextTok_space (nextTok_ident _ hname hrest)
  obtain ⟨p1, h1, hp1⟩ := advance_step (m + 10) (at_init src) n1
  obtain ⟨p2, h2, hp2⟩ := eat_step (m + 8) token.Ident hp1 rfl n2
  obtain ⟨p3, h3, hp3⟩ := parseIdentifier_step (m + 8) hp2 n3
  obtain ⟨p4, h4, hp4⟩ := eat_step (m + 8) token.LBrace hp3 rfl n4
  obtain ⟨p5, h5, hp5⟩ := hrun p4 m hp4
  obtain ⟨p6, h6, hp6⟩ := eat_step (m + 8) token.RBrace hp5 rfl nextTok_eof
  obtain ⟨p7, h7, hp7⟩ := advance_step (m + 9) hp6 nextTok_eof
  have hne : str "interface" ≠ str "export" ∧ str "interface" ≠ str "const" ∧
      str "interface" ≠ str "type" ∧ str "interface" ≠ str "enum" := by decide
  have hstmt : parser.parseStatement (m + 11) p1
      = .ok (.InterfaceDeclaration (.Identifier [73]) [] [] members [], p6) := by
    rw [parser.parseStatement, parser.parseStatementLoop]
    simp only [parser.expect, hp1.1, bind, Except.bind, hne.1, hne.2.1, hne.2.2.1, hne.2.2.2,
      if_false, if_true, parser.parseInterfaceDeclaration, h2, at_consumeComment hp2, h3, h4,
      pure, Except.pure, ne_eq, not_true_eq_false, hp3.1,
      h5, h6, List.nil_append, and_self, token.Ident, token.LAngle, token.LBrace,
      show ¬ ((14 : token.Kind) = 16) by decide, show ¬ ((14 : token.Kind) = 4) by decide,
      false_and]
  simp only [Parse, hm, parser.parseSourceFile]
  rw [parser.parseSourceFileLoop]
  simp only [h1, bind, Except.bind, hp1.1, hstmt]
  rw [parser.parseSourceFileLoop]
  simp [h7, bind, Except.bind, hp7.1, pure, Except.pure]

/-- `Parse` of `interface I {`, a space and a member list that starts with a name,
when the member loop fails. -/
theorem interfaceI_err (name rest : List Nat) (e : Err)
    (hname : isIdent name = true) (hrest : endsIdent rest = true)
    (hrun : ∀ (p : parser) (n : Nat), At p { Kind := token.Ident, Text := name } rest →
      parser.parseInterfaceDeclarationLoop (n + 9) [] p = .error e) :
    Parse (str "interface I \x7b " ++ (name ++ rest)) = .error e := by
  have e1 : str "interface I \x7b " = str "interface" ++ [32, 73, 32, 123, 32] := by decide
  have hsrc : str "interface I \x7b " ++ (name ++ rest)
      = str "interface" ++ (32 :: ([73] ++ (32 :: 123 :: 32 :: (name ++ rest)))) := by
    rw [e1]
    simp
  rw [hsrc]
  generalize hg : str "interface" ++ (32 :: ([73] ++ (32 :: 123 :: 32 :: (name ++ rest)))) = src
  obtain ⟨m, hm⟩ : ∃ m, budget src = m + 12 := ⟨budget src - 12, by simp only [budget]; omega⟩
  have n1 : NextTok src { Kind := token.Ident, Text := str "interface" }
      (32 :: ([73] ++ (32 :: 123 :: 32 :: (name ++ rest)))) := by
    rw [← hg]
    exact nextTok_ident _ (by decide) (by simp [endsIdent, lexer.identEnd])
  have n2 : NextTok (32 :: ([73] ++ (32 :: 123 :: 32 :: (name ++ rest))))
      { Kind := token.Ident, Text := [73] } (32 :: 123 :: 32 :: (name ++ rest)) :=
    nextTok_space (nextTok_ident _ (by decide) (by simp [endsIdent, lexer.identEnd]))
  have n3 : NextTok (32 :: 123 :: 32 :: (name ++ rest)) { Kind := token.LBrace }
      (32 :: (name ++ rest)) :=
    nextTok_space (nextTok_punct (c := 123) _ rfl)
  have n4 : NextTok (32 :: (name ++ rest)) { Kind := token.Ident, Text := name } rest :=
    nextTok_space (nextTok_ident _ hname hrest)
  obtain ⟨p1, h1, hp1⟩ := advance_step (m + 10) (at_init src) n1
  obtain ⟨p2, h2, hp2⟩ := eat_step (m + 8) token.Ident hp1 rfl n2
  obtain ⟨p3, h3, hp3⟩ := parseIdentifier_step (m + 8) hp2 n3
  obtain ⟨p4, h4, hp4⟩ := eat_step (m + 8) token.LBrace hp3 rfl n4
  have h5 := hrun p4 m hp4
  have hne : str "interface" ≠ str "export" ∧ str "interface" ≠ str "const" ∧
      str "interface" ≠ str "type" ∧ str "interface" ≠ str "enum" := by decide
  have hstmt : parser.parseStatement (m + 11) p1 = .error e := by
    rw [parser.parseStatement, parser.parseStatementLoop]
    simp only [parser.expect, hp1.1, bind, Except.bind, hne.1, hne.2.1, hne.2.2.1, hne.2.2.2,
      if_false, if_true, parser.parseInterfaceDeclaration, h2, at_consumeComment hp2, h3, h4,
      pure, Except.pure, ne_eq, not_true_eq_false, hp3.1,
      h5, List.nil_append, and_self, token.Ident, token.LAngle, token.LBrace,
      show ¬ ((14 : token.Kind) = 16) by decide, show ¬ ((14 : token.Kind) = 4) by decide,
      false_and]
  simp only [Parse, hm, parser.parseSourceFile]
  rw [parser.parseSourceFileLoop]
  simp only [h1, bind, Except.bind, hp1.1, hstmt]
  rw [if_neg (by decide)]

/-- The member loop of an interface on one property signature that stops at the
closing brace. -/
theorem interfaceLoop_one {p p' : parser} {w : List Nat} {sig : Node} {r : List Nat} (n : Nat)
    (ht : p.tok = { Kind := token.Ident, Text := w })
    (h : parser.parsePropertySignature (n + 7) p = .ok (sig, p'))
    (hp' : At p' { Kind := token.RBrace } r) :
    parser.parseInterfaceDeclarationLoop (n + 9) [] p = .ok ([sig], p') := by
  have hsig : parser.parseSignature (n + 8) p = .ok (sig, p') := by
    rw [parser.parseSignature]
    simp [ht, h]
  rw [parser.parseInterfaceDeclarationLoop]
  simp only [ht, bind, Except.bind, hsig]
  rw [if_neg (by decide), parser.parseInterfaceDeclarationLoop]
  simp [hp'.1, pure, Except.pure]

end parser

namespace parser
open ast (Node)

theorem enumMemberSrc_eq (m : List Nat × List Nat) :
    enumMemberSrc m = m.1 ++ 32 :: 61 :: 32 :: 39 :: (m.2 ++ [39]) := by
  have e1 : str " = \x27" = [32, 61, 32, 39] := by decide
  have e2 : str "\x27" = [39] := by decide
  simp [enumMemberSrc, e1, e2]

/-- The run of `parseEnumMember` on `N = 's'`. -/
theorem enumMember_step {p : parser} {t : token.Token} (N s rest r : List Nat) (n : Nat)
    (hs : 39 ∉ s) (hn : NextTok rest t r)
    (hp : At p { Kind := token.Ident, Text := N } (32 :: 61 :: 32 :: 39 :: (s ++ 39 :: rest))) :
    ∃ p', parser.parseEnumMember (n + 2) p
        = .ok (.EnumMember (.Identifier N) (.StringLiteral s) [], p') ∧ At p' t r := by
  have n1 : NextTok (32 :: 61 :: 32 :: 39 :: (s ++ 39 :: rest)) { Kind := token.Assign }
      (32 :: 39 :: (s ++ 39 :: rest)) :=
    nextTok_space (nextTok_punct (c := 61) _ rfl)
  have n2 : NextTok (32 :: 39 :: (s ++ 39 :: rest)) { Kind := token.String, Text := s } rest :=
    nextTok_space (nextTok_string rest hs)
  obtain ⟨q1, h1, hq1⟩ := parseIdentifier_step (n + 1) hp n1
  obtain ⟨q2, h2, hq2⟩ := advance_step (n + 1) hq1 n2
  obtain ⟨q3, h3, hq3⟩ := eat_step n token.String hq2 rfl hn
  refine ⟨q3, ?_, hq3⟩
  have hinit : parser.parseInitializer (n + 2) q2 = .ok (.StringLiteral s, q3) := by
    rw [parser.parseInitializer]
    simp [hq2.1, h3, bind, Except.bind, pure, Except.pure]
  simp [parser.parseEnumMember, h1, at_consumeComment hq1, hq1.1, h2, hinit, bind, Except.bind,
    pure, Except.pure]

theorem endsIdent_sepEach_members (ms : List (List Nat × List Nat)) (tail : List Nat)
    (ht : endsIdent tail = true) :
    endsIdent (sepEach [44, 32] (ms.map enumMemberSrc) ++ tail) = true := by
  cases ms with
  | nil => simpa [sepEach] using ht
  | cons V Vs => simp [sepEach, endsIdent, lexer.identEnd]

theorem length_sepEach_members (ms : List (List Nat × List Nat)) :
    ms.length ≤ (sepEach [44, 32] (ms.map enumMemberSrc)).length := by
  induction ms with
  | nil => simp [sepEach]
  | cons V Vs ih => simp [sepEach]; omega

/-- The loop of `parseEnumDeclaration` on `N = 's'` followed by more members, each
after a comma, then an optional comma and the closing brace. -/
theorem enumLoop_step (comma : Bool) (r : List Nat) :
    ∀ (ms : List (List Nat × List Nat)) (m : List Nat × List Nat) (acc : List Node) (p : parser)
      (n : Nat),
      (∀ V ∈ m :: ms, isIdent V.1 = true ∧ 39 ∉ V.2) → ms.length ≤ n →
      At p { Kind := token.Ident, Text := m.1 }
        (32 :: 61 :: 32 :: 39 :: (m.2 ++ 39 :: (sepEach [44, 32] (ms.map enumMemberSrc)
          ++ ((if comma then [44] else []) ++ 32 :: 125 :: r)))) →
      ∃ p', parser.parseEnumDeclarationLoop (n + 5) acc p
          = .ok (acc ++ (m :: ms).map enumMemberOf, p') ∧ At p' { Kind := token.RBrace } r := by
  intro ms
  induction ms with
  | nil =>
    intro m acc p n _ _ hp
    simp only [List.map_nil, sepEach, List.nil_append] at hp
    have nb : NextTok (32 :: 125 :: r) { Kind := token.RBrace } r :=
      nextTok_space (nextTok_punct (c := 125) r rfl)
    cases comma with
    | false =>
      simp only [Bool.false_eq_true, if_false, List.nil_append] at hp
      obtain ⟨q1, h1, hq1⟩ := enumMember_step m.1 m.2 _ r (n + 2) (by simp_all) nb hp
      refine ⟨q1, ?_, hq1⟩
      rw [parser.parseEnumDeclarationLoop]
      simp only [hp.1, bind, Except.bind, h1, hq1.1]
      rw [if_neg (by decide), if_neg (by decide), if_pos (by trivial),
        parser.parseEnumDeclarationLoop]
      simp [hq1.1, pure, Except.pure, enumMemberOf]
    | true =>
      simp only [if_true, List.singleton_append] at hp
      have nc : NextTok (44 :: 32 :: 125 :: r) { Kind := token.Comma } (32 :: 125 :: r) :=
        nextTok_punct (c := 44) _ rfl
      obtain ⟨q1, h1, hq1⟩ := enumMember_step m.1 m.2 _ _ (n + 2) (by simp_all) nc hp
      obtain ⟨q2, h2, hq2⟩ := advance_step (n + 3) hq1 nb
      refine ⟨q2, ?_, hq2⟩
      rw [parser.parseEnumDeclarationLoop]
      simp only [hp.1, bind, Except.bind, h1, hq1.1]
      rw [if_neg (by decide), if_pos (by trivial)]
      simp only [h2]
      rw [parser.parseEnumDeclarationLoop]
      simp [hq2.1, pure, Except.pure, enumMemberOf]
  | cons V Vs ih =>
    intro m acc p n hall hf hp
    obtain ⟨k, rfl⟩ : ∃ k, n = k + 1 := ⟨n - 1, by simp at hf; omega⟩
    have hV := hall V (by simp)
    have hm := hall m (by simp)
    have hVs : ∀ W ∈ V :: Vs, isIdent W.1 = true ∧ 39 ∉ W.2 :=
      fun W hW => hall W (by simp at hW ⊢; tauto)
    have hrest : sepEach [44, 32] ((V :: Vs).map enumMemberSrc)
          ++ ((if comma then [44] else []) ++ 32 :: 125 :: r)
        = 44 :: 32 :: (V.1 ++ (32 :: 61 :: 32 :: 39 :: (V.2 ++ 39 ::
            (sepEach [44, 32] (Vs.map enumMemberSrc)
              ++ ((if comma then [44] else []) ++ 32 :: 125 :: r))))) := by
      simp [sepEach, enumMemberSrc_eq]
    rw [hrest] at hp
    have nc : NextTok (44 :: 32 :: (V.1 ++ (32 :: 61 :: 32 :: 39 :: (V.2 ++ 39 ::
            (sepEach [44, 32] (Vs.map enumMemberSrc)
              ++ ((if comma then [44] else []) ++ 32 :: 125 :: r))))))
        { Kind := token.Comma }
        (32 :: (V.1 ++ (32 :: 61 :: 32 :: 39 :: (V.2 ++ 39 ::
            (sepEach [44, 32] (Vs.map enumMemberSrc)
              ++ ((if comma then [44] else []) ++ 32 :: 125 :: r)))))) :=
      nextTok_punct (c := 44) _ rfl
    obtain ⟨q1, h1, hq1⟩ := enumMember_step m.1 m.2 _ _ (k + 3) hm.2 nc hp
    obtain ⟨q2, h2, hq2⟩ := advance_step (k + 4) hq1
      (nextTok_space (nextTok_ident _ hV.1 (by simp [endsIdent, lexer.identEnd])))
    obtain ⟨q3, h3, hq3⟩ := ih V (acc ++ [enumMemberOf m]) q2 k hVs (by simp at hf ⊢; omega) hq2
    refine ⟨q3, ?_, hq3⟩
    rw [parser.parseEnumDeclarationLoop]
    simp only [hp.1, bind, Except.bind, h1, hq1.1]
    rw [if_neg (by decide), if_pos (by trivial)]
    simp only [h2]
    simp only [enumMemberOf, List.map_cons, List.append_assoc, List.singleton_append] at h3 ⊢
    rw [h3]

/-- `Parse` of `enum E {` and a body, when the member loop succeeds on the body and
stops at the closing brace that ends the source. -/
theorem enum_ok (E body body' : List Nat) (t0 : token.Token) (members : List Node)
    (hE : isIdent E = true) (hfirst : NextTok body t0 body')
    (hrun : ∀ (p : parser) (n : Nat), body.length ≤ n → At p t0 body' →
      ∃ p', parser.parseEnumDeclarationLoop (n + 9) [] p = .ok (members, p') ∧
        At p' { Kind := token.RBrace } []) :
    Parse (str "enum " ++ E ++ str " \x7b" ++ body)
      = .ok (.SourceFile [.EnumDeclaration (.Identifier E) members []]) := by
  have e1 : str "enum " = str "enum" ++ [32] := by decide
  have e2 : str " \x7b" = [32, 123] := by decide
  have hsrc : str "enum " ++ E ++ str " \x7b" ++ body
      = str "enum" ++ (32 :: (E ++ (32 :: 123 :: body))) := by
    rw [e1, e2]
    simp
  rw [hsrc]
  generalize hg : str "enum" ++ (32 :: (E ++ (32 :: 123 :: body))) = src
  obtain ⟨m, hm, hmb⟩ : ∃ m, budget src = m + 12 ∧ body.length ≤ m := by
    refine ⟨budget src - 12, by simp only [budget]; omega, ?_⟩
    rw [← hg]
    simp only [budget, List.length_append, List.length_cons]
    omega
  have n1 : NextTok src { Kind := token.Ident, Text := str "enum" }
      (32 :: (E ++ (32 :: 123 :: body))) := by
    rw [← hg]
    exact nextTok_ident _ (by decide) (by simp [endsIdent, lexer.identEnd])
  have n2 : NextTok (32 :: (E ++ (32 :: 123 :: body)))
      { Kind := token.Ident, Text := E } (32 :: 123 :: body) :=
    nextTok_space (nextTok_ident _ hE (by simp [endsIdent, lexer.identEnd]))
  have n3 : NextTok (32 :: 123 :: body) { Kind := token.LBrace } body :=
    nextTok_space (nextTok_punct (c := 123) _ rfl)
  obtain ⟨p1, h1, hp1⟩ := advance_step (m + 10) (at_init src) n1
  obtain ⟨p2, h2, hp2⟩ := eat_step (m + 8) token.Ident hp1 rfl n2
  obtain ⟨p3, h3, hp3⟩ := parseIdentifier_step (m + 8) hp2 n3
  obtain ⟨p4, h4, hp4⟩ := eat_step (m + 8) token.LBrace hp3 rfl hfirst
  obtain ⟨p5, h5, hp5⟩ := hrun p4 m hmb hp4
  obtain ⟨p6, h6, hp6⟩ := eat_step (m + 8) token.RBrace hp5 rfl nextTok_eof
  obtain ⟨p7, h7, hp7⟩ := advance_step (m + 9) hp6 nextTok_eof
  have hne : str "enum" ≠ str "export" ∧ str "enum" ≠ str "const" ∧
      str "enum" ≠ str "type" := by decide
  have hstmt : parser.parseStatement (m + 11) p1
      = .ok (.EnumDeclaration (.Identifier E) members [], p6) := by
    rw [parser.parseStatement, parser.parseStatementLoop]
    simp only [parser.expect, hp1.1, bind, Except.bind, hne.1, hne.2.1, hne.2.2,
      if_false, if_true, parser.parseEnumDeclaration, h2, at_consumeComment hp2, h3, h4,
      pure, Except.pure, ne_eq, not_true_eq_false, h5, h6]
  simp only [Parse, hm, parser.parseSourceFile]
  rw [parser.parseSourceFileLoop]
  simp only [h1, bind, Except.bind, hp1.1, hstmt]
  rw [parser.parseSourceFileLoop]
  simp [h7, bind, Except.bind, hp7.1, pure, Except.pure]

/-- `Parse` of `enum E {` and a body, when the member loop fails on the body. -/
theorem enum_err (E body body' : List Nat) (t0 : token.Token) (e : Err)
    (hE : isIdent E = true) (hfirst : NextTok body t0 body')
    (hrun : ∀ (p : parser) (n : Nat), body.length ≤ n → At p t0 body' →
      parser.parseEnumDeclarationLoop (n + 9) [] p = .error e) :
    Parse (str "enum " ++ E ++ str " \x7b" ++ body) = .error e := by
  have e1 : str "enum " = str "enum" ++ [32] := by decide
  have e2 : str " \x7b" = [32, 123] := by decide
  have hsrc : str "enum " ++ E ++ str " \x7b" ++ body
      = str "enum" ++ (32 :: (E ++ (32 :: 123 :: body))) := by
    rw [e1, e2]
    simp
  rw [hsrc]
  generalize hg : str "enum" ++ (32 :: (E ++ (32 :: 123 :: body))) = src
  obtain ⟨m, hm, hmb⟩ : ∃ m, budget src = m + 12 ∧ body.length ≤ m := by
    refine ⟨budget src - 12, by simp only [budget]; omega, ?_⟩
    rw [← hg]
    simp only [budget, List.length_append, List.length_cons]
    omega
  have n1 : NextTok src { Kind := token.Ident, Text := str "enum" }
      (32 :: (E ++ (32 :: 123 :: body))) := by
    rw [← hg]
    exact nextTok_ident _ (by decide) (by simp [endsIdent, lexer.identEnd])
  have n2 : NextTok (32 :: (E ++ (32 :: 123 :: body)))
      { Kind := token.Ident, Text := E } (32 :: 123 :: body) :=
    nextTok_space (nextTok_ident _ hE (by simp [endsIdent, lexer.identEnd]))
  have n3 : NextTok (32 :: 123 :: body) { Kind := token.LBrace } body :=
    nextTok_space (nextTok_punct (c := 123) _ rfl)
  obtain ⟨p1, h1, hp1⟩ := advance_step (m + 10) (at_init src) n1
  obtain ⟨p2, h2, hp2⟩ := eat_step (m + 8) token.Ident hp1 rfl n2
  obtain ⟨p3, h3, hp3⟩ := parseIdentifier_step (m + 8) hp2 n3
  obtain ⟨p4, h4, hp4⟩ := eat_step (m + 8) token.LBrace hp3 rfl hfirst
  have h5 := hrun p4 m hmb hp4
  have hne : str "enum" ≠ str "export" ∧ str "enum" ≠ str "const" ∧
      str "enum" ≠ str "type" := by decide
  have hstmt : parser.parseStatement (m + 11) p1 = .error e := by
    rw [parser.parseStatement, parser.parseStatementLoop]
    simp only [parser.expect, hp1.1, bind, Except.bind, hne.1, hne.2.1, hne.2.2,
      if_false, if_true, parser.parseEnumDeclaration, h2, at_consumeComment hp2, h3, h4,
      pure, Except.pure, ne_eq, not_true_eq_false, h5]
  simp only [Parse, hm, parser.parseSourceFile]
  rw [parser.parseSourceFileLoop]
  simp only [h1, bind, Except.bind, hp1.1, hstmt]
  rw [if_neg (by decide)]

/-- `Parse` of an enum whose members all have string initializers. -/
theorem enum_strings_run (E : List Nat) (ms : List (List Nat × List Nat)) (comma : Bool)
    (hE : isIdent E = true) (hms : ∀ V ∈ ms, isIdent V.1 = true ∧ 39 ∉ V.2)
    (hc : comma = true → ms ≠ []) :
    Parse (str "enum " ++ E ++ str " \x7b" ++ (str " " ++
        List.intercalate (str ", ") (ms.map enumMemberSrc)
        ++ (if comma then str "," else []) ++ str " \x7d"))
      = .ok (.SourceFile [.EnumDeclaration (.Identifier E) (ms.map enumMemberOf) []]) := by
  have e1 : str " " = [32] := by decide
  have e2 : str ", " = [44, 32] := by decide
  have e3 : str "," = [44] := by decide
  have e4 : str " \x7d" = [32, 125] := by decide
  cases ms with
  | nil =>
    have hcf : comma = false := by
      cases comma with
      | false => rfl
      | true => exact absurd rfl (hc rfl)
    subst hcf
    have hb : str " " ++ List.intercalate (str ", ") (List.map enumMemberSrc [])
        ++ (if false = true then str "," else []) ++ str " \x7d" = [32, 32, 125] := by
      simp [e1, e4, List.intercalate]
    rw [hb]
    refine enum_ok E [32, 32, 125] [] { Kind := token.RBrace } [] hE
      (nextTok_space (nextTok_space (nextTok_punct (c := 125) _ rfl))) ?_
    intro p n _ hp
    refine ⟨p, ?_, hp⟩
    rw [parser.parseEnumDeclarationLoop]
    simp [hp.1, pure, Except.pure]
  | cons m ms =>
    have hm := hms m (by simp)
    have hb : str " " ++ List.intercalate (str ", ") (List.map enumMemberSrc (m :: ms))
        ++ (if comma = true then str "," else []) ++ str " \x7d"
        = 32 :: (m.1 ++ (32 :: 61 :: 32 :: 39 :: (m.2 ++ 39 ::
            (sepEach [44, 32] (ms.map enumMemberSrc)
              ++ ((if comma then [44] else []) ++ 32 :: 125 :: []))))) := by
      rw [List.map_cons, intercalate_cons, e1, e2, e3, e4, enumMemberSrc_eq]
      cases comma <;> simp
    rw [hb]
    have hfirst : NextTok (32 :: (m.1 ++ (32 :: 61 :: 32 :: 39 :: (m.2 ++ 39 ::
            (sepEach [44, 32] (ms.map enumMemberSrc)
              ++ ((if comma then [44] else []) ++ 32 :: 125 :: []))))))
        { Kind := token.Ident, Text := m.1 }
        (32 :: 61 :: 32 :: 39 :: (m.2 ++ 39 ::
            (sepEach [44, 32] (ms.map enumMemberSrc)
              ++ ((if comma then [44] else []) ++ 32 :: 125 :: [])))) :=
      nextTok_space (nextTok_ident _ hm.1 (by simp [endsIdent, lexer.identEnd]))
    refine enum_ok E _ _ _ ((m :: ms).map enumMemberOf) hE hfirst ?_
    intro p n hn hp
    have hlen : ms.length ≤ n + 4 := by
      have := length_sepEach_members ms
      simp only [List.length_append, List.length_cons] at hn
      omega
    obtain ⟨p', h, hp'⟩ := enumLoop_step comma [] ms m [] p (n + 4) hms hlen hp
    exact ⟨p', by simpa using h, hp'⟩

end parser

namespace parser
open ast (Node)

theorem typeParametersLoop_step (t : token.Token) (tail r : List Nat) (hn : NextTok tail t r)
    (ht : endsIdent tail = true) (hc : t.Kind ≠ token.Comma) :
    ∀ (Ts : List (List Nat)) (U : List Nat) (acc : List Node) (p : parser) (n : Nat),
      isIdent U = true → (∀ V ∈ Ts, isIdent V = true) → Ts.length + 1 ≤ n →
      At p { Kind := token.Ident, Text := U } (sepEach [44, 32] Ts ++ tail) →
      ∃ p', parser.parseTypeParametersLoop (n + 1) acc p
          = .ok (acc ++ (U :: Ts).map typeParameterOf, p') ∧ At p' t r := by
  intro Ts
  induction Ts with
  | nil =>
    intro U acc p n _ _ hf hp
    obtain ⟨m, rfl⟩ : ∃ m, n = m + 1 := ⟨n - 1, by simp at hf; omega⟩
    simp only [sepEach, List.nil_append] at hp
    obtain ⟨p1, h1, hp1⟩ := parseIdentifier_step m hp hn
    refine ⟨p1, ?_, hp1⟩
    rw [parser.parseTypeParametersLoop]
    simp [parser.parseTypeParameter, h1, bind, Except.bind, pure, Except.pure, hp1.1, hc,
      typeParameterOf]
  | cons V Vs ih =>
    intro U acc p n _ hTs hf hp
    obtain ⟨m, rfl⟩ : ∃ m, n = m + 2 := ⟨n - 2, by simp at hf; omega⟩
    have hV : isIdent V = true := hTs V (by simp)
    have hVs : ∀ W ∈ Vs, isIdent W = true := fun W hW => hTs W (by simp [hW])
    have hnx : NextTok (sepEach [44, 32] (V :: Vs) ++ tail) { Kind := token.Comma }
        (32 :: V ++ (sepEach [44, 32] Vs ++ tail)) := by
      have := nextTok_punct (c := 44) (k := token.Comma)
        (32 :: V ++ (sepEach [44, 32] Vs ++ tail)) rfl
      simpa [sepEach] using this
    obtain ⟨p1, h1, hp1⟩ := parseIdentifier_step (m + 1) hp hnx
    obtain ⟨p2, h2, hp2⟩ := advance_step (m + 1) hp1
      (nextTok_space (nextTok_ident _ hV (endsIdent_sepEach_comma Vs tail ht)))
    obtain ⟨p3, h3, hp3⟩ := ih V (acc ++ [typeParameterOf U]) p2 (m + 1) hV hVs
      (by simp at hf ⊢; omega) hp2
    refine ⟨p3, ?_, hp3⟩
    rw [parser.parseTypeParametersLoop]
    simp [parser.parseTypeParameter, h1, h2, bind, Except.bind, pure, Except.pure, hp1.1,
      typeParameterOf] at h3 ⊢
    rw [h3]

/-- `Parse` of `interface P<T1, ..., Tn> {` and a body, when the member loop
succeeds on the body and stops at the closing brace that ends the source. -/
theorem interfaceParams_ok (P T : List Nat) (Ts : List (List Nat)) (body body' : List Nat)
    (t0 : token.Token) (members : List Node)
    (hP : isIdent P = true) (hT : isIdent T = true) (hTs : ∀ V ∈ Ts, isIdent V = true)
    (hfirst : NextTok body t0 body')
    (hrun : ∀ (p : parser) (n : Nat), At p t0 body' →
      ∃ p', parser.parseInterfaceDeclarationLoop (n + 10) [] p = .ok (members, p') ∧
        At p' { Kind := token.RBrace } []) :
    Parse (str "interface " ++ P ++ str "<" ++ List.intercalate (str ", ") (T :: Ts)
        ++ str "> \x7b" ++ body)
      = .ok (.SourceFile [.InterfaceDeclaration (.Identifier P) ((T :: Ts).map typeParameterOf)
          [] members []]) := by
  have e1 : str "interface " = str "interface" ++ [32] := by decide
  have e2 : str "<" = [60] := by decide
  have e3 : str ", " = [44, 32] := by decide
  have e4 : str "> \x7b" = [62, 32, 123] := by decide
  have hsrc : str "interface " ++ P ++ str "<" ++ List.intercalate (str ", ") (T :: Ts)
        ++ str "> \x7b" ++ body
      = str "interface" ++ (32 :: P ++ (60 :: (T ++
          (sepEach [44, 32] Ts ++ (62 :: 32 :: 123 :: body))))) := by
    rw [intercalate_cons, e1, e2, e3, e4]
    simp
  rw [hsrc]
  generalize hs : str "interface" ++ (32 :: P ++ (60 :: (T ++
          (sepEach [44, 32] Ts ++ (62 :: 32 :: 123 :: body))))) = src
  have hlen : Ts.length ≤ src.length := by
    rw [← hs]
    have := length_sepEach_comma Ts
    simp only [List.length_append, List.length_cons]
    omega
  obtain ⟨m, hm, hmT⟩ : ∃ m, budget src = m + 13 ∧ Ts.length + 1 ≤ m + 7 :=
    ⟨budget src - 13, by simp only [budget]; omega, by simp only [budget]; omega⟩
  have n1 : NextTok src { Kind := token.Ident, Text := str "interface" }
      (32 :: P ++ (60 :: (T ++ (sepEach [44, 32] Ts ++ (62 :: 32 :: 123 :: body))))) := by
    rw [← hs]
    exact nextTok_ident _ (by decide) (by simp [endsIdent, lexer.identEnd])
  have n2 : NextTok (32 :: P ++ (60 :: (T ++ (sepEach [44, 32] Ts ++ (62 :: 32 :: 123 :: body)))))
      { Kind := token.Ident, Text := P }
      (60 :: (T ++ (sepEach [44, 32] Ts ++ (62 :: 32 :: 123 :: body)))) :=
    nextTok_space (nextTok_ident _ hP (by simp [endsIdent, lexer.identEnd]))
  have n3 : NextTok (60 :: (T ++ (sepEach [44, 32] Ts ++ (62 :: 32 :: 123 :: body))))
      { Kind := token.LAngle } (T ++ (sepEach [44, 32] Ts ++ (62 :: 32 :: 123 :: body))) :=
    nextTok_punct (c := 60) _ rfl
  have n4 : NextTok (T ++ (sepEach [44, 32] Ts ++ (62 :: 32 :: 123 :: body)))
      { Kind := token.Ident, Text := T } (sepEach [44, 32] Ts ++ (62 :: 32 :: 123 :: body)) :=
    nextTok_ident _ hT (endsIdent_sepEach_comma Ts _ (by simp [endsIdent, lexer.identEnd]))
  have n5 : NextTok (62 :: 32 :: 123 :: body) { Kind := token.RAngle } (32 :: 123 :: body) :=
    nextTok_punct (c := 62) _ rfl
  have n6 : NextTok (32 :: 123 :: body) { Kind := token.LBrace } body :=
    nextTok_space (nextTok_punct (c := 123) _ rfl)
  obtain ⟨p1, h1, hp1⟩ := advance_step (m + 11) (at_init src) n1
  obtain ⟨p2, h2, hp2⟩ := eat_step (m + 9) token.Ident hp1 rfl n2
  obtain ⟨p3, h3, hp3⟩ := parseIdentifier_step (m + 9) hp2 n3
  obtain ⟨p4, h4, hp4⟩ := eat_step (m + 9) token.LAngle hp3 rfl n4
  obtain ⟨p5, h5, hp5⟩ := typeParametersLoop_step _ _ _ n5
    (by simp [endsIdent, lexer.identEnd]) (by simp) Ts T [] p4 (m + 9) hT hTs (by omega) hp4
  obtain ⟨p6, h6, hp6⟩ := eat_step (m + 9) token.RAngle hp5 rfl n6
  obtain ⟨p7, h7, hp7⟩ := eat_step (m + 9) token.LBrace hp6 rfl hfirst
  obtain ⟨p8, h8, hp8⟩ := hrun p7 m hp7
  obtain ⟨p9, h9, hp9⟩ := eat_step (m + 9) token.RBrace hp8 rfl nextTok_eof
  obtain ⟨p10, h10, hp10⟩ := advance_step (m + 10) hp9 nextTok_eof
  have hne : str "interface" ≠ str "export" ∧ str "interface" ≠ str "const" ∧
      str "interface" ≠ str "type" ∧ str "interface" ≠ str "enum" := by decide
  have hparams : parser.parseTypeParameters (m + 10) p3
      = .ok ((T :: Ts).map typeParameterOf, p6) := by
    simp only [List.nil_append] at h5
    simp [parser.parseTypeParameters, h4, h5, h6, bind, Except.bind, pure, Except.pure]
  have hstmt : parser.parseStatement (m + 12) p1
      = .ok (.InterfaceDeclaration (.Identifier P) ((T :: Ts).map typeParameterOf) [] members [],
          p9) := by
    rw [parser.parseStatement, parser.parseStatementLoop]
    simp only [parser.expect, hp1.1, bind, Except.bind, hne.1, hne.2.1, hne.2.2.1, hne.2.2.2,
      if_false, if_true, parser.parseInterfaceDeclaration, h2, at_consumeComment hp2, h3,
      pure, Except.pure, ne_eq, not_true_eq_false, hp3.1, hparams, hp6.1, h7, h8, h9,
      token.Ident, token.LAngle, token.LBrace,
      show ¬ ((14 : token.Kind) = 4) by decide, false_and]
  simp only [Parse, hm, parser.parseSourceFile]
  rw [parser.parseSourceFileLoop]
  simp only [h1, bind, Except.bind, hp1.1, hstmt]
  rw [parser.parseSourceFileLoop]
  simp [h10, bind, Except.bind, hp10.1, pure, Except.pure]

/-- The run of `parsePropertySignature` on `name: T;` followed by any token. -/
theorem propertySignature_next_run {p : parser} {t : token.Token} (name T rest r : List Nat)
    (n : Nat) (hro : name ≠ str "readonly") (hT : isIdent T = true) (hn : NextTok rest t r)
    (hp : At p { Kind := token.Ident, Text := name } (58 :: 32 :: (T ++ 59 :: rest))) :
    ∃ p', parser.parsePropertySignature (n + 7) p
        = .ok (.PropertySignature (.Identifier name) false (typeRef T) [] [], p') ∧
      At p' t r := by
  have n1 : NextTok (58 :: 32 :: (T ++ 59 :: rest))
      { Kind := token.Colon } (32 :: (T ++ 59 :: rest)) :=
    nextTok_punct (c := 58) _ rfl
  have n2 : NextTok (32 :: (T ++ 59 :: rest))
      { Kind := token.Ident, Text := T } (59 :: rest) :=
    nextTok_space (nextTok_ident _ hT (by simp [endsIdent, lexer.identEnd]))
  have n3 : NextTok (59 :: rest) { Kind := token.Semicolon } rest :=
    nextTok_punct (c := 59) _ rfl
  have hro' : ¬ (p.tok.Kind = token.Ident ∧ p.tok.Text = str "readonly") := by
    rw [hp.1]
    exact fun h => hro h.2
  obtain ⟨q1, h1, hq1⟩ := parseIdentifier_step (n + 5) hp n1
  obtain ⟨q2, h2, hq2⟩ := eat_step (n + 5) token.Colon hq1 rfl n2
  obtain ⟨q3, h3, hq3⟩ := parseType_ref_step T n n3 (by simp [endsIdent, lexer.identEnd])
    (by simp) (by simp) (by simp) hT hq2
  obtain ⟨q4, h4, hq4⟩ := advance_step (n + 5) hq3 hn
  refine ⟨q4, ?_, hq4⟩
  rw [parser.parsePropertySignature]
  simp only [at_consumeComment hp, bind, Except.bind, pure, Except.pure]
  rw [if_neg hro']
  simp only [h1, hq1.1]
  rw [if_neg (by decide)]
  simp only [h2, h3, hq3.1]
  rw [if_pos (by trivial)]
  simp only [h4, at_consumeLineComment hq4]

/-- The member loop of an interface on ` token: Tok; value: T; }`. -/
theorem interfaceLoop_token_value {p : parser} (n : Nat)
    (hp : At p { Kind := token.Ident, Text := str "token" } (str ": Tok; value: T; \x7d")) :
    ∃ p', parser.parseInterfaceDeclarationLoop (n + 10) [] p
        = .ok ([.PropertySignature (.Identifier (str "token")) false (typeRef (str "Tok")) [] [],
            .PropertySignature (.Identifier (str "value")) false (typeRef (str "T")) [] []], p') ∧
      At p' { Kind := token.RBrace } [] := by
  have e : str ": Tok; value: T; \x7d"
      = 58 :: 32 :: (str "Tok" ++ 59 :: (32 :: (str "value" ++ str ": T; \x7d"))) := by decide
  have e2 : str ": T; \x7d" = 58 :: 32 :: (str "T" ++ 59 :: [32, 125]) := by decide
  rw [e] at hp
  have nv : NextTok (32 :: (str "value" ++ str ": T; \x7d"))
      { Kind := token.Ident, Text := str "value" } (str ": T; \x7d") :=
    nextTok_space (nextTok_ident _ (by decide) (by decide))
  have nb : NextTok [32, 125] { Kind := token.RBrace } [] :=
    nextTok_space (nextTok_punct (c := 125) _ rfl)
  obtain ⟨q1, h1, hq1⟩ := propertySignature_next_run (str "token") (str "Tok") _ _ (n + 1)
    (by decide) (by decide) nv hp
  rw [e2] at hq1
  obtain ⟨q2, h2, hq2⟩ := propertySignature_next_run (str "value") (str "T") _ _ n
    (by decide) (by decide) nb hq1
  refine ⟨q2, ?_, hq2⟩
  have hsig1 : parser.parseSignature (n + 9) p
      = .ok (.PropertySignature (.Identifier (str "token")) false (typeRef (str "Tok")) [] [],
          q1) := by
    rw [parser.parseSignature]
    simp only [hp.1, if_true]
    exact h1
  have hsig2 : parser.parseSignature (n + 8) q1
      = .ok (.PropertySignature (.Identifier (str "value")) false (typeRef (str "T")) [] [],
          q2) := by
    rw [parser.parseSignature]
    simp only [hq1.1, if_true]
    exact h2
  rw [parser.parseInterfaceDeclarationLoop]
  simp only [hp.1, bind, Except.bind, hsig1]
  rw [if_neg (by decide), parser.parseInterfaceDeclarationLoop]
  simp only [hq1.1, bind, Except.bind, hsig2]
  rw [if_neg (by decide), parser.parseInterfaceDeclarationLoop]
  simp [hq2.1, pure, Except.pure]

end parser

namespace parser
open ast (Node)

/-- `Parse` of `enum E { N }`: a member without `=` has no initializer. -/
theorem enum_bare_run (E N : List Nat) (hE : isIdent E = true) (hN : isIdent N = true) :
    Parse (str "enum " ++ E ++ str " \x7b" ++ (str " " ++ N ++ str " \x7d"))
      = .ok (.SourceFile [.EnumDeclaration (.Identifier E)
          [.EnumMember (.Identifier N) .nil []] []]) := by
  have e1 : str " " = [32] := by decide
  have e4 : str " \x7d" = [32, 125] := by decide
  have hb : str " " ++ N ++ str " \x7d" = 32 :: (N ++ [32, 125]) := by
    rw [e1, e4]
    simp
  rw [hb]
  have hfirst : NextTok (32 :: (N ++ [32, 125])) { Kind := token.Ident, Text := N } [32, 125] :=
    nextTok_space (nextTok_ident _ hN (by decide))
  refine enum_ok E _ _ _ [.EnumMember (.Identifier N) .nil []] hE hfirst ?_
  intro p n _ hp
  have nb : NextTok [32, 125] { Kind := token.RBrace } [] :=
    nextTok_space (nextTok_punct (c := 125) _ rfl)
  obtain ⟨q1, h1, hq1⟩ := parseIdentifier_step (n + 7) hp nb
  refine ⟨q1, ?_, hq1⟩
  have hmem : parser.parseEnumMember (n + 8) p
      = .ok (.EnumMember (.Identifier N) .nil [], q1) := by
    simp [parser.parseEnumMember, h1, at_consumeComment hq1, hq1.1, bind, Except.bind, pure,
      Except.pure]
  rw [parser.parseEnumDeclarationLoop]
  simp only [hp.1, bind, Except.bind, hmem, hq1.1]
  rw [if_neg (by decide), if_neg (by decide), if_pos (by trivial),
    parser.parseEnumDeclarationLoop]
  simp [hq1.1, pure, Except.pure]

/-- `Parse` of `enum E { N = 's' M ...`: the second member is not after a comma. -/
theorem enum_nocomma_run (E N s M rest : List Nat) (hE : isIdent E = true)
    (hN : isIdent N = true) (hs : 39 ∉ s) (hM : isIdent M = true)
    (hrest : endsIdent rest = true) :
    Parse (str "enum " ++ E ++ str " \x7b" ++ (str " " ++ enumMemberSrc (N, s) ++ str " " ++ M
        ++ rest))
      = .error (.unexpectedToken { Kind := token.Ident, Text := M }) := by
  have e1 : str " " = [32] := by decide
  have hb : str " " ++ enumMemberSrc (N, s) ++ str " " ++ M ++ rest
      = 32 :: (N ++ (32 :: 61 :: 32 :: 39 :: (s ++ 39 :: (32 :: (M ++ rest))))) := by
    rw [e1, enumMemberSrc_eq]
    simp
  rw [hb]
  have hfirst : NextTok (32 :: (N ++ (32 :: 61 :: 32 :: 39 :: (s ++ 39 :: (32 :: (M ++ rest))))))
      { Kind := token.Ident, Text := N }
      (32 :: 61 :: 32 :: 39 :: (s ++ 39 :: (32 :: (M ++ rest)))) :=
    nextTok_space (nextTok_ident _ hN (by simp [endsIdent, lexer.identEnd]))
  refine enum_err E _ _ _ _ hE hfirst ?_
  intro p n _ hp
  have nm : NextTok (32 :: (M ++ rest)) { Kind := token.Ident, Text := M } rest :=
    nextTok_space (nextTok_ident _ hM hrest)
  obtain ⟨q1, h1, hq1⟩ := enumMember_step N s _ _ (n + 6) hs nm hp
  rw [parser.parseEnumDeclarationLoop]
  simp only [hp.1, bind, Except.bind, h1, hq1.1]
  rw [if_neg (by decide), if_neg (by decide), if_neg (by decide)]

end parser

namespace parser
open ast (Node)

theorem idx_ok {s : List Nat} {i : Nat} (h : i < s.length) : ∃ b, idx s i = .ok b := by
  unfold idx
  rw [List.getElem?_eq_getElem h]
  exact ⟨_, rfl⟩

theorem slice_ok (s : List Nat) {lo hi : Nat} (h1 : lo ≤ hi) (h2 : hi ≤ s.length) :
    slice s lo hi = .ok ((s.drop lo).take (hi - lo)) := by
  simp [slice, h1, h2]

theorem skipRun_total (c : Nat) : ∀ (n : Nat) (x : lexer),
    ∃ k, lexer.skipRun c n x = .ok { x with offset := x.offset + k } ∧
      (x.offset ≤ x.Source.length → x.offset + k ≤ x.Source.length) := by
  intro n
  induction n with
  | zero => intro x; exact ⟨0, rfl, fun h => h⟩
  | succ n ih =>
    intro x
    rw [lexer.skipRun]
    by_cases h : x.offset + 1 < x.Source.length
    · rw [if_pos h]
      obtain ⟨b, hb⟩ := idx_ok (s := x.Source) (i := x.offset) (by omega)
      rw [hb, ok_bind]
      by_cases hc : b = c
      · rw [if_pos hc]
        obtain ⟨k, hk, hk2⟩ := ih { x with offset := x.offset + 1 }
        refine ⟨1 + k, ?_, fun _ => ?_⟩
        · rw [hk]
          simp only [Nat.add_assoc]
        · have := hk2 (by simp only []; omega)
          simp only [] at this
          omega
      · rw [if_neg hc]
        exact ⟨0, rfl, fun h => h⟩
    · rw [if_neg h]
      exact ⟨0, rfl, fun h => h⟩

theorem skipLine_total : ∀ (n : Nat) (x : lexer),
    ∃ k, lexer.skipLine n x = .ok { x with offset := x.offset + k } ∧
      (x.offset ≤ x.Source.length → x.offset + k ≤ x.Source.length) := by
  intro n
  induction n with
  | zero => intro x; exact ⟨0, rfl, fun h => h⟩
  | succ n ih =>
    intro x
    rw [lexer.skipLine]
    by_cases h : x.offset < x.Source.length
    · rw [if_pos h]
      obtain ⟨b, hb⟩ := idx_ok (s := x.Source) (i := x.offset) h
      rw [hb, ok_bind]
      by_cases hc : b ≠ 10
      · rw [if_pos hc]
        obtain ⟨k, hk, hk2⟩ := ih { x with offset := x.offset + 1 }
        refine ⟨1 + k, ?_, fun _ => ?_⟩
        · rw [hk]
          simp only [Nat.add_assoc]
        · have := hk2 (by simp only []; omega)
          simp only [] at this
          omega
      · rw [if_neg hc]
        exact ⟨0, rfl, fun h => h⟩
    · rw [if_neg h]
      exact ⟨0, rfl, fun h => h⟩

theorem skipDigits_total : ∀ (n : Nat) (x : lexer),
    ∃ k, lexer.skipDigits n x = .ok { x with offset := x.offset + k } ∧
      (x.offset ≤ x.Source.length → x.offset + k ≤ x.Source.length) ∧
      (∀ b, 1 ≤ n → x.offset < x.Source.length → idx x.Source x.offset = .ok b →
        b ≥ 48 ∧ b ≤ 57 → 1 ≤ k) := by
  intro n
  induction n with
  | zero => intro x; exact ⟨0, rfl, fun h => h, fun _ h => absurd h (by omega)⟩
  | succ n ih =>
    intro x
    rw [lexer.skipDigits]
    by_cases h : x.offset < x.Source.length
    · rw [if_pos h]
      obtain ⟨b, hb⟩ := idx_ok (s := x.Source) (i := x.offset) h
      rw [hb, ok_bind]
      by_cases hc : b ≥ 48 ∧ b ≤ 57
      · rw [if_pos hc]
        obtain ⟨k, hk, hk2, _⟩ := ih { x with offset := x.offset + 1 }
        refine ⟨1 + k, ?_, fun _ => ?_, fun _ _ _ _ _ => by omega⟩
        · rw [hk]
          simp only [Nat.add_assoc]
        · have := hk2 (by simp only []; omega)
          simp only [] at this
          omega
      · rw [if_neg hc]
        refine ⟨0, rfl, fun h => h, ?_⟩
        intro b' _ _ hb' hd
        cases hb'
        exact absurd hd hc
    · rw [if_neg h]
      exact ⟨0, rfl, fun h => h, fun _ _ h' => absurd h' h⟩

theorem commentKind_cases (x : lexer) :
    x.commentKind = token.Comment ∨ x.commentKind = token.LineComment := by
  unfold lexer.commentKind
  split <;> simp

theorem nextLineComment_total (x : lexer) (h : x.offset + 1 < x.Source.length) :
    ∃ t o, lexer.nextLineComment x = .ok (t, { x with offset := o }) ∧
      x.offset + 2 ≤ o ∧ o ≤ x.Source.length ∧
      (t.Kind = token.Comment ∨ t.Kind = token.LineComment) := by
  unfold lexer.nextLineComment
  obtain ⟨k1, h1, hb1⟩ := skipRun_total 32 (x.Source.length - (x.offset + 2))
    { x with offset := x.offset + 2 }
  have hb1' := hb1 (by simp only []; omega)
  simp only [] at h1 hb1'
  obtain ⟨k2, h2, hb2⟩ := skipLine_total (x.Source.length - (x.offset + 2 + k1))
    { x with offset := x.offset + 2 + k1 }
  have hb2' := hb2 (by simp only []; omega)
  simp only [] at h2 hb2'
  simp only [h1, ok_bind, h2]
  rw [slice_ok _ (by omega) (by omega), ok_bind]
  exact ⟨_, _, rfl, by omega, by omega, commentKind_cases _⟩

end parser

namespace parser
open ast (Node)

theorem bytesIndex_bound (sep : List Nat) : ∀ (s : List Nat) (i : Nat),
    bytesIndex s sep = some i → i + sep.length ≤ s.length := by
  intro s
  induction s with
  | nil =>
    intro i h
    simp only [bytesIndex] at h
    split at h
    · rename_i hs
      cases h
      simp [hs]
    · cases h
  | cons b s ih =>
    intro i h
    simp only [bytesIndex] at h
    split at h
    · rename_i hp
      cases h
      have := (List.isPrefixOf_iff_prefix.1 hp).length_le
      simpa using this
    · simp only [Option.map_eq_some'] at h
      obtain ⟨j, hj, rfl⟩ := h
      have := ih j hj
      simp only [List.length_cons]
      omega

theorem indexByte_bound (c : Nat) : ∀ (s : List Nat) (e : Nat),
    indexByte s c = some e → e < s.length := by
  intro s
  induction s with
  | nil => intro e h; simp [indexByte] at h
  | cons b s ih =>
    intro e h
    simp only [indexByte] at h
    split at h
    · cases h
      simp
    · simp only [Option.map_eq_some'] at h
      obtain ⟨j, hj, rfl⟩ := h
      have := ih j hj
      simp only [List.length_cons]
      omega

theorem indexFunc_bound (f : Nat → Bool) : ∀ (s : List Nat) (e : Nat),
    indexFunc f s = some e → e < s.length := by
  intro s
  induction s with
  | nil => intro e h; simp [indexFunc] at h
  | cons b s ih =>
    intro e h
    simp only [indexFunc] at h
    split at h
    · cases h
      simp
    · simp only [Option.map_eq_some'] at h
      obtain ⟨j, hj, rfl⟩ := h
      have := ih j hj
      simp only [List.length_cons]
      omega

theorem backStars_total (src : List Nat) : ∀ (fuel i : Nat), i ≤ src.length →
    ∃ j, lexer.backStars src fuel i = .ok j ∧ j ≤ i := by
  intro fuel
  induction fuel with
  | zero => intro i _; exact ⟨i, rfl, le_refl _⟩
  | succ fuel ih =>
    intro i hi
    rw [lexer.backStars]
    by_cases h : i > 0
    · rw [if_pos h]
      obtain ⟨b, hb⟩ := idx_ok (s := src) (i := i - 1) (by omega)
      rw [hb, ok_bind]
      by_cases hc : b = 42
      · rw [if_pos hc]
        obtain ⟨j, hj, hj2⟩ := ih (i - 1) (by omega)
        exact ⟨j, hj, by omega⟩
      · rw [if_neg hc]
        exact ⟨i, rfl, le_refl _⟩
    · rw [if_neg h]
      exact ⟨i, rfl, le_refl _⟩

theorem reflow_total (src : List Nat) (e : Nat) (he : e ≤ src.length) :
    ∀ (fuel offset : Nat) (acc : List Nat),
      ∃ c, lexer.reflow src e fuel offset acc = .ok c := by
  intro fuel
  induction fuel with
  | zero => intro offset acc; exact ⟨acc, rfl⟩
  | succ fuel ih =>
    intro offset acc
    rw [lexer.reflow]
    by_cases h : offset < e
    · rw [if_pos h, slice_ok _ (le_of_lt h) he, ok_bind]
      cases hb : bytesIndex (List.take (e - offset) (List.drop offset src)) [10] with
      | none => exact ⟨_, rfl⟩
      | some lineEnd =>
        have hl := bytesIndex_bound _ _ _ hb
        simp only [List.length_take, List.length_drop, List.length_singleton] at hl
        have h1 : lineEnd + 1 ≤ e - offset := by omega
        simp only []
        rw [slice_ok _ (by omega) (by omega), ok_bind,
          slice_ok _ (by omega) he, ok_bind]
        split
        · exact ⟨_, rfl⟩
        · exact ih _ _
    · rw [if_neg h]
      exact ⟨acc, rfl⟩

theorem nextBlockComment_total (x : lexer) (h : x.offset + 1 < x.Source.length) :
    ∃ t o, lexer.nextBlockComment x = .ok (t, { x with offset := o }) ∧
      x.offset + 2 ≤ o ∧ o ≤ x.Source.length ∧
      (t.Kind = token.Comment ∨ t.Kind = token.LineComment ∨
        (t.Kind = token.Illegal ∧ t.Text = [])) := by
  unfold lexer.nextBlockComment
  obtain ⟨k1, h1, hb1⟩ := skipRun_total 42 (x.Source.length - (x.offset + 2))
    { x with offset := x.offset + 2 }
  have hb1' := hb1 (by simp only []; omega)
  simp only [] at h1 hb1'
  simp only [h1, ok_bind]
  rw [slice_ok _ (by omega) (le_refl _), ok_bind]
  cases hb : bytesIndex (List.take (x.Source.length - (x.offset + 2 + k1))
      (List.drop (x.offset + 2 + k1) x.Source)) [42, 47] with
  | none =>
    exact ⟨_, _, rfl, by omega, by omega, Or.inr (Or.inr ⟨rfl, rfl⟩)⟩
  | some i =>
    have hl := bytesIndex_bound _ _ _ hb
    simp only [List.length_take, List.length_drop, List.length_cons, List.length_nil] at hl
    have hi : i + (x.offset + 2 + k1) + 2 ≤ x.Source.length := by omega
    obtain ⟨j, hj, hj2⟩ := backStars_total x.Source (i + (x.offset + 2 + k1))
      (i + (x.offset + 2 + k1)) (by omega)
    obtain ⟨c, hc⟩ := reflow_total x.Source j (by omega) (j - (x.offset + 2 + k1))
      (x.offset + 2 + k1) []
    simp only [hj, ok_bind, hc]
    refine ⟨_, _, rfl, by omega, by omega, ?_⟩
    rcases commentKind_cases { x with offset := i + (x.offset + 2 + k1) + 2 } with hk | hk
    · exact Or.inl hk
    · exact Or.inr (Or.inl hk)

theorem nextComment_total (x : lexer) (h : x.offset < x.Source.length) :
    ∃ t o, lexer.nextComment x = .ok (t, { x with offset := o }) ∧
      x.offset ≤ o ∧ o ≤ x.Source.length ∧
      (((t.Kind = token.Comment ∨ t.Kind = token.LineComment) ∧ x.offset < o) ∨
        (t.Kind = token.Illegal ∧ t.Text = [])) := by
  unfold lexer.nextComment
  by_cases h1 : x.offset + 1 ≥ x.Source.length
  · rw [if_pos h1]
    exact ⟨_, x.offset, rfl, le_refl _, le_of_lt h, Or.inr ⟨rfl, rfl⟩⟩
  · rw [if_neg h1]
    obtain ⟨b, hb⟩ := idx_ok (s := x.Source) (i := x.offset + 1) (by omega)
    rw [hb, ok_bind]
    by_cases h47 : b = 47
    · rw [if_pos h47]
      obtain ⟨t, o, ht, ho1, ho2, hk⟩ := nextLineComment_total x (by omega)
      exact ⟨t, o, ht, by omega, ho2, Or.inl ⟨hk, by omega⟩⟩
    · rw [if_neg h47]
      by_cases h42 : b = 42
      · rw [if_pos h42]
        obtain ⟨t, o, ht, ho1, ho2, hk⟩ := nextBlockComment_total x (by omega)
        refine ⟨t, o, ht, by omega, ho2, ?_⟩
        rcases hk with hk | hk | hk
        · exact Or.inl ⟨Or.inl hk, by omega⟩
        · exact Or.inl ⟨Or.inr hk, by omega⟩
        · exact Or.inr hk
      · rw [if_neg h42]
        exact ⟨_, x.offset, rfl, le_refl _, le_of_lt h, Or.inr ⟨rfl, rfl⟩⟩

theorem nextString_total (x : lexer) (h : x.offset < x.Source.length) :
    ∃ t o, lexer.nextString x = .ok (t, { x with offset := o }) ∧
      x.offset < o ∧ o ≤ x.Source.length ∧
      (t.Kind = token.String ∨ (t.Kind = token.Illegal ∧ t.Text = [])) := by
  unfold lexer.nextString
  simp only []
  rw [slice_ok _ (by omega) (le_refl _), ok_bind]
  cases hb : indexByte (List.take (x.Source.length - (x.offset + 1))
      (List.drop (x.offset + 1) x.Source)) 39 with
  | none => exact ⟨_, _, rfl, by omega, by omega, Or.inr ⟨rfl, rfl⟩⟩
  | some e =>
    have hl := indexByte_bound _ _ _ hb
    simp only [List.length_take, List.length_drop] at hl
    simp only []
    rw [slice_ok _ (by omega) (by omega), ok_bind]
    exact ⟨_, _, rfl, by omega, by omega, Or.inl rfl⟩

theorem nextNumber_total (x : lexer) (h : x.offset < x.Source.length) (b : Nat)
    (hb : idx x.Source x.offset = .ok b) (hd : b ≥ 48 ∧ b ≤ 57) :
    ∃ t o, lexer.nextNumber x = .ok (t, { x with offset := o }) ∧
      x.offset < o ∧ o ≤ x.Source.length ∧ t.Kind = token.Number := by
  unfold lexer.nextNumber
  obtain ⟨k, hk, hk1, hk2⟩ := skipDigits_total (x.Source.length - x.offset) x
  have h1 := hk1 (le_of_lt h)
  have h2 := hk2 b (by omega) h hb hd
  simp only [hk, ok_bind]
  rw [slice_ok _ (by omega) h1, ok_bind]
  exact ⟨_, _, rfl, by omega, h1, rfl⟩

end parser

namespace parser
open ast (Node)

theorem rem_of_idx {x : lexer} {c : Nat} (h : x.offset < x.Source.length)
    (hc : idx x.Source x.offset = .ok c) :
    x.rem = c :: lexer.rem { x with offset := x.offset + 1 } := by
  unfold idx at hc
  rw [List.getElem?_eq_getElem h] at hc
  simp only [Except.ok.injEq] at hc
  simp only [lexer.rem]
  rw [List.drop_eq_getElem_cons h, hc]

theorem ident_split (c : Nat) (rest : List Nat) (hs : identStart c = true) :
    ∃ w r, c :: rest = w ++ r ∧ isIdent w = true ∧ endsIdent r = true := by
  refine ⟨c :: rest.takeWhile (fun b => !lexer.identEnd b),
    rest.dropWhile (fun b => !lexer.identEnd b), ?_, ?_, ?_⟩
  · simp
  · simp only [isIdent, hs, Bool.true_and]
    exact List.all_takeWhile
  · have := List.head?_dropWhile_not (fun b => !lexer.identEnd b) rest
    cases hr : rest.dropWhile (fun b => !lexer.identEnd b) with
    | nil => rfl
    | cons b r =>
      rw [hr] at this
      simpa [endsIdent] using this

theorem isIdent_length {w : List Nat} (h : isIdent w = true) : 1 ≤ w.length := by
  cases w with
  | nil => simp [isIdent] at h
  | cons c w => simp

theorem nextIdent_total (x : lexer) (h : x.offset < x.Source.length) (c : Nat)
    (hc : idx x.Source x.offset = .ok c) (hs : identStart c = true) :
    ∃ t o, lexer.nextIdent x = .ok (t, { x with offset := o }) ∧
      x.offset < o ∧ o ≤ x.Source.length ∧ t.Kind = token.Ident ∧ isIdent t.Text = true := by
  obtain ⟨w, r, hwr, hw, hr⟩ := ident_split c (lexer.rem { x with offset := x.offset + 1 }) hs
  have hrem : x.rem = w ++ r := by rw [rem_of_idx h hc, hwr]
  have hsp := nextIdent_spec w r hw hr hrem
  have hl := rem_length x
  rw [hrem, List.length_append] at hl
  have := isIdent_length hw
  exact ⟨_, _, hsp.1, by omega, by omega, rfl, hw⟩

theorem punctKind_none {c : Nat} (h : punctKind c = none) :
    c ≠ 124 ∧ c ≠ 61 ∧ c ≠ 45 ∧ c ≠ 40 ∧ c ≠ 41 ∧ c ≠ 91 ∧ c ≠ 93 ∧ c ≠ 123 ∧ c ≠ 125 ∧
      c ≠ 60 ∧ c ≠ 62 ∧ c ≠ 44 ∧ c ≠ 46 ∧ c ≠ 58 ∧ c ≠ 59 ∧ c ≠ 63 := by
  refine ⟨?_, ?_, ?_, ?_, ?_, ?_, ?_, ?_, ?_, ?_, ?_, ?_, ?_, ?_, ?_, ?_⟩ <;>
    (intro e; subst e; simp [punctKind] at h)

theorem punctKind_range {c : Nat} {k : token.Kind} (h : punctKind c = some k) :
    c ≠ 32 ∧ c ≠ 9 ∧ c ≠ 13 ∧ c ≠ 10 ∧ c ≠ 47 ∧ k ≠ token.EOF ∧ k ≠ token.Illegal ∧
      k ≠ token.Ident := by
  unfold punctKind at h
  split at h <;> cases h <;> simp

/-- The one-byte tokens: the state after the token. -/
theorem nextLoop_punct_state {x : lexer} {c : Nat} {k : token.Kind} (n : Nat)
    (hlt : x.offset < x.Source.length) (hidx : idx x.Source x.offset = .ok c)
    (hk : punctKind c = some k) :
    ∃ b, lexer.nextLoop (n + 1) x = .ok ({ Kind := k },
      { x with offset := x.offset + 1, willBeTrailingComment := true, isInsideBlock := b }) := by
  rw [lexer.nextLoop, if_pos hlt]
  simp only [hidx, bind, Except.bind]
  unfold punctKind at hk
  split at hk <;> cases hk <;>
    simp [pure, Except.pure, lexer.char]

theorem nextLoop_total : ∀ (n : Nat) (x : lexer), x.Source.length - x.offset + 1 ≤ n →
    x.nextToken = {} → ∃ t x', lexer.nextLoop n x = .ok (t, x') ∧ PopPost x t x' := by
  intro n
  induction n with
  | zero => intro x h; omega
  | succ n ih =>
    intro x hn h0
    by_cases hlt : x.offset < x.Source.length
    · obtain ⟨c, hc⟩ := idx_ok hlt
      by_cases hws : c = 32 ∨ c = 9 ∨ c = 13
      · obtain ⟨t, x', h1, h2, h3, h4, h5, h6, h7⟩ := ih { x with offset := x.offset + 1 }
          (by simp only []; omega) h0
        refine ⟨t, x', ?_, h2, h3, by simp only [] at h4; omega, ?_, h6, h7⟩
        · rw [lexer.nextLoop, if_pos hlt, hc, ok_bind, if_pos hws]
          exact h1
        · intro a b
          have := h5 a b
          simp only [] at this h4
          omega
      by_cases hnl : c = 10
      · obtain ⟨t, x', h1, h2, h3, h4, h5, h6, h7⟩ := ih
          { x with offset := x.offset + 1, willBeTrailingComment := false }
          (by simp only []; omega) h0
        refine ⟨t, x', ?_, h2, h3, by simp only [] at h4; omega, ?_, h6, h7⟩
        · rw [lexer.nextLoop, if_pos hlt, hc, ok_bind, if_neg hws, if_pos hnl]
          exact h1
        · intro a b
          have := h5 a b
          simp only [] at this h4
          omega
      by_cases hsl : c = 47
      · obtain ⟨t, o, h1, h2, h3, h4⟩ := nextComment_total x hlt
        refine ⟨t, { x with offset := o }, ?_, h0, rfl, h2, ?_, ?_, ?_⟩
        · rw [lexer.nextLoop, if_pos hlt, hc, ok_bind, if_neg hws, if_neg hnl, if_pos hsl]
          exact h1
        · intro a b
          rcases h4 with ⟨_, h4⟩ | ⟨h4, _⟩
          · exact ⟨h4, h3⟩
          · exact absurd h4 b
        · intro a
          rcases h4 with ⟨h4 | h4, _⟩ | ⟨h4, _⟩ <;> rw [h4] at a <;> simp at a
        · intro a
          rcases h4 with ⟨h4 | h4, _⟩ | ⟨_, h4⟩
          · rw [h4] at a; simp at a
          · rw [h4] at a; simp at a
          · exact h4
      cases hp : punctKind c with
      | some k =>
        obtain ⟨b, hb⟩ := nextLoop_punct_state n hlt hc hp
        obtain ⟨_, _, _, _, _, k1, k2, k3⟩ := punctKind_range hp
        refine ⟨_, _, hb, h0, rfl, by simp, ?_, ?_, ?_⟩
        · intro _ _
          simp only []
          omega
        · intro a
          exact absurd a k3
        · intro a
          rcases a with a | a
          · exact absurd a k1
          · exact absurd a k2
      | none =>
        obtain ⟨p1, p2, p3, p4, p5, p6, p7, p8, p9, p10, p11, p12, p13, p14, p15, p16⟩ :=
          punctKind_none hp
        have hunf : lexer.nextLoop (n + 1) x
            = (if c = 39 then lexer.nextString { x with willBeTrailingComment := true }
               else if c ≥ 48 ∧ c ≤ 57 then
                 lexer.nextNumber { x with willBeTrailingComment := true }
               else if (c ≥ 97 ∧ c ≤ 122) ∨ (c ≥ 65 ∧ c ≤ 90) then
                 lexer.nextIdent { x with willBeTrailingComment := true }
               else pure ({ Kind := token.Illegal }, { x with willBeTrailingComment := true })) := by
          rw [lexer.nextLoop, if_pos hlt, hc, ok_bind, if_neg hws, if_neg hnl, if_neg hsl]
          simp only []
          rw [if_neg p1, if_neg p2, if_neg p3, if_neg p4, if_neg p5, if_neg p6, if_neg p7,
            if_neg p8, if_neg p9, if_neg p10, if_neg p11, if_neg p12, if_neg p13, if_neg p14,
            if_neg p15, if_neg p16]
        rw [hunf]
        by_cases hq : c = 39
        · rw [if_pos hq]
          obtain ⟨t, o, h1, h2, h3, h4⟩ :=
            nextString_total { x with willBeTrailingComment := true } hlt
          refine ⟨t, _, h1, h0, rfl, le_of_lt h2, fun _ _ => ⟨h2, h3⟩, ?_, ?_⟩
          · intro a
            rcases h4 with h4 | ⟨h4, _⟩ <;> rw [h4] at a <;> simp at a
          · intro a
            rcases h4 with h4 | ⟨_, h4⟩
            · rw [h4] at a; simp at a
            · exact h4
        rw [if_neg hq]
        by_cases hd : c ≥ 48 ∧ c ≤ 57
        · rw [if_pos hd]
          obtain ⟨t, o, h1, h2, h3, h4⟩ :=
            nextNumber_total { x with willBeTrailingComment := true } hlt c hc hd
          refine ⟨t, _, h1, h0, rfl, le_of_lt h2, fun _ _ => ⟨h2, h3⟩, ?_, ?_⟩
          · intro a
            rw [h4] at a
            simp at a
          · intro a
            rw [h4] at a
            simp at a
        rw [if_neg hd]
        by_cases hl : (c ≥ 97 ∧ c ≤ 122) ∨ (c ≥ 65 ∧ c ≤ 90)
        · rw [if_pos hl]
          obtain ⟨t, o, h1, h2, h3, h4, h5⟩ :=
            nextIdent_total { x with willBeTrailingComment := true } hlt c hc
              (by simpa [identStart] using hl)
          refine ⟨t, _, h1, h0, rfl, le_of_lt h2, fun _ _ => ⟨h2, h3⟩, fun _ => h5, ?_⟩
          intro a
          rw [h4] at a
          simp at a
        · rw [if_neg hl]
          refine ⟨_, _, rfl, h0, rfl, le_refl _, ?_, ?_, fun _ => rfl⟩
          · intro _ b
            exact absurd rfl b
          · intro a
            simp at a
    · refine ⟨{ Kind := token.EOF }, x, ?_, h0, rfl, le_refl _, ?_, ?_, fun _ => rfl⟩
      · rw [lexer.nextLoop, if_neg hlt]
        rfl
      · intro a
        exact absurd rfl a
      · intro a
        simp at a

/-- `Pop` always returns a token, with the guarantees of `PopPost`. -/
theorem pop_total (x : lexer) (h0 : x.nextToken = {}) :
    ∃ t x', x.Pop = .ok (t, x') ∧ PopPost x t x' := by
  have e : x.nextToken.Kind = 0 := by rw [h0]
  simp only [lexer.Pop, e, if_true, lexer.next]
  exact nextLoop_total _ x (le_refl _) h0

end parser

namespace parser
open ast (Node)

theorem agree_bind {α β : Type} {a b : Except Err α} {k k' : α → Except Err β}
    {Q : α → Prop} {R : β → Prop} (h : Agree a b Q)
    (hk : ∀ x, Q x → Agree (k x) (k' x) R) : Agree (a >>= k) (b >>= k') R := by
  obtain ⟨h1, h2, h3⟩ := h
  subst h1
  cases b with
  | error e =>
    refine ⟨rfl, ?_, ?_⟩
    · intro he
      cases he
      exact h2 rfl
    · intro x hx
      cases hx
  | ok x => exact hk x (h3 x rfl)

theorem agree_pure {α : Type} {Q : α → Prop} (x : α) (h : Q x) :
    Agree (pure x : Except Err α) (pure x) Q := by
  refine ⟨rfl, ?_, ?_⟩
  · intro he
    cases he
  · intro y hy
    cases hy
    exact h

theorem agree_ok {α : Type} {Q : α → Prop} (x : α) (h : Q x) :
    Agree (Except.ok x : Except Err α) (Except.ok x) Q := by
  refine ⟨rfl, ?_, ?_⟩
  · intro he
    cases he
  · intro y hy
    cases hy
    exact h

theorem agree_error {α : Type} {Q : α → Prop} (e : Err) (h : e ≠ .fuel) :
    Agree (Except.error e : Except Err α) (Except.error e) Q := by
  refine ⟨rfl, ?_, ?_⟩
  · intro he
    cases he
    exact h rfl
  · intro y hy
    cases hy

theorem agree_ite {α : Type} {c : Prop} [Decidable c] {a a' b b' : Except Err α}
    {Q : α → Prop} (h1 : c → Agree a b Q) (h2 : ¬ c → Agree a' b' Q) :
    Agree (if c then a else a') (if c then b else b') Q := by
  by_cases h : c
  · rw [if_pos h, if_pos h]
    exact h1 h
  · rw [if_neg h, if_neg h]
    exact h2 h

theorem agree_mono {α : Type} {a b : Except Err α} {Q Q' : α → Prop} (h : Agree a b Q)
    (hq : ∀ x, Q x → Q' x) : Agree a b Q' :=
  ⟨h.1, h.2.1, fun x hx => hq x (h.2.2 x hx)⟩

theorem identsOk_iff (r : Node) :
    IdentsOk r ↔ (∀ t, r = .Identifier t → isIdent t = true) ∧ ∀ c ∈ r.children, IdentsOk c := by
  constructor
  · intro h
    exact ⟨fun t ht => h t (ht ▸ .root r), fun c hc t ht => h t (.child _ c r ht hc)⟩
  · intro h t ht
    rcases within_inv ht with e | ⟨c, hc, hw⟩
    · exact h.1 t e.symm
    · exact h.2 c hc t hw

@[simp] theorem identsOk_Identifier (t : List Nat) :
    IdentsOk (.Identifier t) ↔ isIdent t = true := by
  rw [identsOk_iff]
  simp [Node.children]

@[simp] theorem identsOk_nil :
    IdentsOk (.nil) ↔ True := by
  rw [identsOk_iff]
  simp [Node.children, or_imp, forall_and, and_assoc]

@[simp] theorem identsOk_NumericLiteral (x0 : List Nat) :
    IdentsOk (.NumericLiteral x0) ↔ True := by
  rw [identsOk_iff]
  simp [Node.children, or_imp, forall_and, and_assoc]

@[simp] theorem identsOk_StringLiteral (x0 : List Nat) :
    IdentsOk (.StringLiteral x0) ↔ True := by
  rw [identsOk_iff]
  simp [Node.children, or_imp, forall_and, and_assoc]

@[simp] theorem identsOk_ArrayLiteralExpression (x0 : List Node) :
    IdentsOk (.ArrayLiteralExpression x0) ↔ (∀ e ∈ x0, IdentsOk e) := by
  rw [identsOk_iff]
  simp [Node.children, or_imp, forall_and, and_assoc]

@[simp] theorem identsOk_QualifiedName (x0 : Node) (x1 : Node) :
    IdentsOk (.QualifiedName x0 x1) ↔ IdentsOk x0 ∧ IdentsOk x1 := by
  rw [identsOk_iff]
  simp [Node.children, or_imp, forall_and, and_assoc]

@[simp] theorem identsOk_EnumMember (x0 : Node) (x1 : Node) (x2 : List Nat) :
    IdentsOk (.EnumMember x0 x1 x2) ↔ IdentsOk x0 ∧ IdentsOk x1 := by
  rw [identsOk_iff]
  simp [Node.children, or_imp, forall_and, and_assoc]

@[simp] theorem identsOk_TypeParameter (x0 : Node) :
    IdentsOk (.TypeParameter x0) ↔ IdentsOk x0 := by
  rw [identsOk_iff]
  simp [Node.children, or_imp, forall_and, and_assoc]

@[simp] theorem identsOk_HeritageClause (x0 : List Node) :
    IdentsOk (.HeritageClause x0) ↔ (∀ e ∈ x0, IdentsOk e) := by
  rw [identsOk_iff]
  simp [Node.children, or_imp, forall_and, and_assoc]

@[simp] theorem identsOk_ExpressionWithTypeArguments (x0 : Node) :
    IdentsOk (.ExpressionWithTypeArguments x0) ↔ IdentsOk x0 := by
  rw [identsOk_iff]
  simp [Node.children, or_imp, forall_and, and_assoc]

@[simp] theorem identsOk_Parameter (x0 : Node) (x1 : Node) :
    IdentsOk (.Parameter x0 x1) ↔ IdentsOk x0 ∧ IdentsOk x1 := by
  rw [identsOk_iff]
  simp [Node.children, or_imp, forall_and, and_assoc]

@[simp] theorem identsOk_VariableDeclarationList (x0 : List Node) :
    IdentsOk (.VariableDeclarationList x0) ↔ (∀ e ∈ x0, IdentsOk e) := by
  rw [identsOk_iff]
  simp [Node.children, or_imp, forall_and, and_assoc]

@[simp] theorem identsOk_VariableDeclaration (x0 : Node) (x1 : Node) (x2 : Node) :
    IdentsOk (.VariableDeclaration x0 x1 x2) ↔ IdentsOk x0 ∧ IdentsOk x1 ∧ IdentsOk x2 := by
  rw [identsOk_iff]
  simp [Node.children, or_imp, forall_and, and_assoc]

@[simp] theorem identsOk_PrefixUnaryExpression (x0 : token.Kind) (x1 : Node) :
    IdentsOk (.PrefixUnaryExpression x0 x1) ↔ IdentsOk x1 := by
  rw [identsOk_iff]
  simp [Node.children, or_imp, forall_and, and_assoc]

@[simp] theorem identsOk_LiteralType (x0 : Node) :
    IdentsOk (.LiteralType x0) ↔ IdentsOk x0 := by
  rw [identsOk_iff]
  simp [Node.children, or_imp, forall_and, and_assoc]

@[simp] theorem identsOk_TypeLiteral (x0 : List Node) :
    IdentsOk (.TypeLiteral x0) ↔ (∀ e ∈ x0, IdentsOk e) := by
  rw [identsOk_iff]
  simp [Node.children, or_imp, forall_and, and_assoc]

@[simp] theorem identsOk_ArrayType (x0 : Node) :
    IdentsOk (.ArrayType x0) ↔ IdentsOk x0 := by
  rw [identsOk_iff]
  simp [Node.children, or_imp, forall_and, and_assoc]

@[simp] theorem identsOk_TypeReference (x0 : Node) :
    IdentsOk (.TypeReference x0) ↔ IdentsOk x0 := by
  rw [identsOk_iff]
  simp [Node.children, or_imp, forall_and, and_assoc]

@[simp] theorem identsOk_UnionType (x0 : List Node) :
    IdentsOk (.UnionType x0) ↔ (∀ e ∈ x0, IdentsOk e) := by
  rw [identsOk_iff]
  simp [Node.children, or_imp, forall_and, and_assoc]

@[simp] theorem identsOk_TupleType (x0 : List Node) :
    IdentsOk (.TupleType x0) ↔ (∀ e ∈ x0, IdentsOk e) := by
  rw [identsOk_iff]
  simp [Node.children, or_imp, forall_and, and_assoc]

@[simp] theorem identsOk_ParenthesizedType (x0 : Node) :
    IdentsOk (.ParenthesizedType x0) ↔ IdentsOk x0 := by
  rw [identsOk_iff]
  simp [Node.children, or_imp, forall_and, and_assoc]

@[simp] theorem identsOk_PropertySignature (x0 : Node) (x1 : Bool) (x2 : Node) (x3 : List Nat) (x4 : List Nat) :
    IdentsOk (.PropertySignature x0 x1 x2 x3 x4) ↔ IdentsOk x0 ∧ IdentsOk x2 := by
  rw [identsOk_iff]
  simp [Node.children, or_imp, forall_and, and_assoc]

@[simp] theorem identsOk_IndexSignature (x0 : List Node) (x1 : Node) (x2 : List Nat) :
    IdentsOk (.IndexSignature x0 x1 x2) ↔ (∀ e ∈ x0, IdentsOk e) ∧ IdentsOk x1 := by
  rw [identsOk_iff]
  simp [Node.children, or_imp, forall_and, and_assoc]

@[simp] theorem identsOk_SourceFile (x0 : List Node) :
    IdentsOk (.SourceFile x0) ↔ (∀ e ∈ x0, IdentsOk e) := by
  rw [identsOk_iff]
  simp [Node.children, or_imp, forall_and, and_assoc]

@[simp] theorem identsOk_ModuleBlock (x0 : List Node) :
    IdentsOk (.ModuleBlock x0) ↔ (∀ e ∈ x0, IdentsOk e) := by
  rw [identsOk_iff]
  simp [Node.children, or_imp, forall_and, and_assoc]

@[simp] theorem identsOk_VariableStatement (x0 : Node) (x1 : List Nat) :
    IdentsOk (.VariableStatement x0 x1) ↔ IdentsOk x0 := by
  rw [identsOk_iff]
  simp [Node.children, or_imp, forall_and, and_assoc]

@[simp] theorem identsOk_TypeAliasDeclaration (x0 : Node) (x1 : Node) (x2 : List Nat) :
    IdentsOk (.TypeAliasDeclaration x0 x1 x2) ↔ IdentsOk x0 ∧ IdentsOk x1 := by
  rw [identsOk_iff]
  simp [Node.children, or_imp, forall_and, and_assoc]

@[simp] theorem identsOk_EnumDeclaration (x0 : Node) (x1 : List Node) (x2 : List Nat) :
    IdentsOk (.EnumDeclaration x0 x1 x2) ↔ IdentsOk x0 ∧ (∀ e ∈ x1, IdentsOk e) := by
  rw [identsOk_iff]
  simp [Node.children, or_imp, forall_and, and_assoc]

@[simp] theorem identsOk_InterfaceDeclaration (x0 : Node) (x1 : List Node) (x2 : List Node) (x3 : List Node) (x4 : List Nat) :
    IdentsOk (.InterfaceDeclaration x0 x1 x2 x3 x4) ↔ IdentsOk x0 ∧ (∀ e ∈ x1, IdentsOk e) ∧ (∀ e ∈ x2, IdentsOk e) ∧ (∀ e ∈ x3, IdentsOk e) := by
  rw [identsOk_iff]
  simp [Node.children, or_imp, forall_and, and_assoc]

@[simp] theorem identsOk_ModuleDeclaration (x0 : Node) (x1 : Node) (x2 : List Nat) :
    IdentsOk (.ModuleDeclaration x0 x1 x2) ↔ IdentsOk x0 ∧ IdentsOk x1 := by
  rw [identsOk_iff]
  simp [Node.children, or_imp, forall_and, and_assoc]

end parser

namespace parser
open ast (Node)

theorem advance_agree : ∀ (n : Nat) (p : parser), p.lex.nextToken = {} →
    (p.lex.Source.length - p.lex.offset) + 1 ≤ n → ∀ m, n ≤ m →
    Agree (parser.advance n p) (parser.advance m p)
      (fun p' => Inv p' ∧ p'.measure ≤ p.lex.Source.length - p.lex.offset) := by
  intro n
  induction n with
  | zero => intro p _ h; omega
  | succ n ih =>
    intro p h0 hn m hm
    obtain ⟨m', rfl⟩ : ∃ m', m = m' + 1 := ⟨m - 1, by omega⟩
    obtain ⟨t, x', hpop, hx0, hsrc, hle, hlt, hid, hnt⟩ := pop_total p.lex h0
    rw [parser.advance, parser.advance]
    simp only [hpop, ok_bind]
    by_cases hc : t.Kind = token.Comment
    · rw [if_pos hc, if_pos hc]
      have hl := hlt (by rw [hc]; decide) (by rw [hc]; decide)
      refine agree_mono (ih _ hx0 (by simp only [hsrc]; omega) m' (by omega)) ?_
      intro p' hp'
      refine ⟨hp'.1, ?_⟩
      have := hp'.2
      simp only [hsrc] at this
      omega
    · rw [if_neg hc, if_neg hc]
      by_cases hlc : t.Kind = token.LineComment
      · rw [if_pos hlc, if_pos hlc]
        have hl := hlt (by rw [hlc]; decide) (by rw [hlc]; decide)
        refine agree_mono (ih _ hx0 (by simp only [hsrc]; omega) m' (by omega)) ?_
        intro p' hp'
        refine ⟨hp'.1, ?_⟩
        have := hp'.2
        simp only [hsrc] at this
        omega
      · rw [if_neg hlc, if_neg hlc]
        refine agree_pure _ ⟨⟨hx0, hid, hnt⟩, ?_⟩
        simp only [parser.measure, hsrc]
        by_cases hr : t.Kind = token.EOF ∨ t.Kind = token.Illegal
        · rw [if_pos hr]
          omega
        · rw [if_neg hr]
          have := hlt (fun h => hr (Or.inl h)) (fun h => hr (Or.inr h))
          omega

theorem measure_real {p : parser} (h1 : p.tok.Kind ≠ token.EOF) (h2 : p.tok.Kind ≠ token.Illegal) :
    p.measure = (p.lex.Source.length - p.lex.offset) + 1 := by
  simp [parser.measure, h1, h2]

theorem measure_ge (p : parser) : p.lex.Source.length - p.lex.offset ≤ p.measure := by
  simp [parser.measure]

/-- `advance`, from a state that holds a token other than `EOF` and `Illegal`. -/
theorem advance_runs (n : Nat) (p : parser) (hp : Inv p) (hn : 16 * p.measure + 1 ≤ n)
    (m : Nat) (hm : n ≤ m) :
    Agree (parser.advance n p) (parser.advance m p)
      (fun p' => Inv p' ∧ p'.measure ≤ p.measure ∧
        (p.tok.Kind ≠ token.EOF → p.tok.Kind ≠ token.Illegal → p'.measure + 1 ≤ p.measure)) := by
  have hg := measure_ge p
  refine agree_mono (advance_agree n p hp.1 (by omega) m hm) ?_
  intro p' hp'
  refine ⟨hp'.1, by omega, fun h1 h2 => ?_⟩
  rw [measure_real h1 h2]
  omega

/-- `eat` of a kind other than `EOF` and `Illegal`. -/
theorem eat_runs (k : token.Kind) (hk1 : k ≠ token.EOF) (hk2 : k ≠ token.Illegal) (n : Nat)
    (p : parser) (hp : Inv p) (hn : 16 * p.measure + 1 ≤ n) (m : Nat) (hm : n ≤ m) :
    Agree (parser.eat n p k) (parser.eat m p k)
      (fun r => Inv r.2 ∧ r.2.measure + 1 ≤ p.measure ∧ r.1 = p.tok ∧ p.tok.Kind = k) := by
  simp only [parser.eat, parser.expect]
  by_cases h : p.tok.Kind = k
  · rw [if_neg (not_not.2 h)]
    simp only [ok_bind]
    refine agree_bind (advance_runs n p hp hn m hm) ?_
    intro p' hp'
    refine agree_pure _ ⟨hp'.1, ?_, rfl, h⟩
    exact hp'.2.2 (by rw [h]; exact hk1) (by rw [h]; exact hk2)
  · rw [if_pos h]
    exact agree_error _ (by simp)

theorem agree_ret {α : Type} {Q : α → Prop} {p : parser} {k : Nat} (a : α) (q : parser)
    (h1 : Inv q) (h2 : q.measure + k ≤ p.measure) (h3 : Q a) :
    Agree (pure (a, q) : Except Err (α × parser)) (pure (a, q)) (Post p k Q) :=
  agree_pure _ ⟨h1, h2, h3⟩

theorem agree_step {α : Type} {a b : Except Err (α × parser)} {Q Q' : α → Prop}
    {p q : parser} {k k' : Nat} (h : Agree a b (Post q k Q))
    (hm : q.measure + k' ≤ p.measure + k) (hq : ∀ x, Q x → Q' x) :
    Agree a b (Post p k' Q') := by
  refine agree_mono h ?_
  rintro ⟨r, q'⟩ ⟨h1, h2, h3⟩
  dsimp only at h1 h2 h3
  exact (show Inv q' ∧ q'.measure + k' ≤ p.measure ∧ Q' r from ⟨h1, by omega, hq r h3⟩)

/-- `eat` of a kind other than `EOF` and `Illegal`, as a step of a parsing function. -/
theorem eat_post (k : token.Kind) (hk1 : k ≠ token.EOF) (hk2 : k ≠ token.Illegal) (n : Nat)
    (p : parser) (hp : Inv p) (hn : 16 * p.measure + 1 ≤ n) (m : Nat) (hm : n ≤ m) :
    Agree (parser.eat n p k) (parser.eat m p k) (Post p 1 (fun t => t = p.tok ∧ p.tok.Kind = k)) :=
  eat_runs k hk1 hk2 n p hp hn m hm

theorem parseIdentifier_runs (n : Nat) : RunsAt parser.parseIdentifier 1 1 IdentsOk n := by
  intro p hp hn m hm
  simp only [parser.parseIdentifier]
  refine agree_bind (eat_post token.Ident (by decide) (by decide) n p hp hn m hm) ?_
  rintro ⟨t, q⟩ ⟨hq, hμ, ht, hk⟩
  dsimp only at hq hμ ht ⊢
  subst ht
  exact agree_ret _ _ hq hμ (by simpa using hp.2.1 hk)

end parser

namespace parser
open ast (Node)

theorem parseTypeReference_runs (n : Nat) : RunsAt parser.parseTypeReference 1 1 IdentsOk n := by
  intro p hp hn m hm
  simp only [parser.parseTypeReference]
  refine agree_bind (parseIdentifier_runs n p hp hn m hm) ?_
  rintro ⟨a, q⟩ ⟨hq, hμ, ha⟩
  dsimp only at hq hμ ha ⊢
  refine agree_ite (fun _ => agree_ret _ _ hq hμ (by simpa using ha)) (fun _ => ?_)
  refine agree_bind (advance_runs n q hq (by omega) m hm) ?_
  rintro q2 ⟨hq2, hμ2, _⟩
  refine agree_bind (parseIdentifier_runs n q2 hq2 (by omega) m hm) ?_
  rintro ⟨b, q3⟩ ⟨hq3, hμ3, hb⟩
  dsimp only at hq3 hμ3 hb ⊢
  exact agree_ret _ _ hq3 (by omega) (by simp [ha, hb])

theorem parseTypeParameter_runs (n : Nat) : RunsAt parser.parseTypeParameter 1 1 IdentsOk n := by
  intro p hp hn m hm
  simp only [parser.parseTypeParameter]
  refine agree_bind (parseIdentifier_runs n p hp hn m hm) ?_
  rintro ⟨a, q⟩ ⟨hq, hμ, ha⟩
  dsimp only at hq hμ ha ⊢
  exact agree_ret _ _ hq hμ (by simpa using ha)

theorem parseTypeParametersLoop_runs : ∀ (n : Nat) (acc : List Node),
    (∀ e ∈ acc, IdentsOk e) →
    RunsAt (fun n p => parser.parseTypeParametersLoop n acc p) 2 1
      (fun l => ∀ e ∈ l, IdentsOk e) n := by
  intro n
  induction n with
  | zero => intro acc _ p _ hn; omega
  | succ n ih =>
    intro acc hacc p hp hn m hm
    obtain ⟨m', rfl⟩ : ∃ m', m = m' + 1 := ⟨m - 1, by omega⟩
    dsimp only
    rw [parser.parseTypeParametersLoop, parser.parseTypeParametersLoop]
    refine agree_bind (parseTypeParameter_runs n p hp (by omega) m' (by omega)) ?_
    rintro ⟨a, q⟩ ⟨hq, hμ, ha⟩
    dsimp only at hq hμ ha ⊢
    have hacc2 : ∀ e ∈ acc ++ [a], IdentsOk e := mem_snoc hacc ha
    refine agree_ite (fun _ => agree_ret _ _ hq hμ hacc2) (fun _ => ?_)
    refine agree_bind (advance_runs n q hq (by omega) m' (by omega)) ?_
    rintro q2 ⟨hq2, hμ2, _⟩
    exact agree_step (ih _ hacc2 q2 hq2 (by omega) m' (by omega)) (by omega) (fun _ h => h)

theorem parseTypeParameters_runs (n : Nat) :
    RunsAt parser.parseTypeParameters 1 1 (fun l => ∀ e ∈ l, IdentsOk e) n := by
  intro p hp hn m hm
  simp only [parser.parseTypeParameters]
  refine agree_bind (eat_post token.LAngle (by decide) (by decide) n p hp hn m hm) ?_
  rintro ⟨t, q1⟩ ⟨hq1, hμ1, _, _⟩
  dsimp only at hq1 hμ1 ⊢
  refine agree_bind (parseTypeParametersLoop_runs n [] (by simp) q1 hq1 (by omega) m hm) ?_
  rintro ⟨l, q2⟩ ⟨hq2, hμ2, hl⟩
  dsimp only at hq2 hμ2 hl ⊢
  refine agree_bind (eat_post token.RAngle (by decide) (by decide) n q2 hq2 (by omega) m hm) ?_
  rintro ⟨t2, q3⟩ ⟨hq3, hμ3, _, _⟩
  dsimp only at hq3 hμ3 ⊢
  exact agree_ret _ _ hq3 (by omega) hl

theorem parseHeritageClause_runs (n : Nat) : RunsAt parser.parseHeritageClause 1 1 IdentsOk n := by
  intro p hp hn m hm
  simp only [parser.parseHeritageClause, parser.parseExpressionWithTypeArguments]
  simp only [bind_assoc]
  refine agree_bind (parseIdentifier_runs n p hp hn m hm) ?_
  rintro ⟨a, q⟩ ⟨hq, hμ, ha⟩
  dsimp only at hq hμ ha ⊢
  simp only [pure_bind]
  exact agree_ret _ _ hq hμ (by simpa using ha)

theorem parseHeritageClausesLoop_runs : ∀ (n : Nat) (acc : List Node),
    (∀ e ∈ acc, IdentsOk e) →
    RunsAt (fun n p => parser.parseHeritageClausesLoop n acc p) 2 1
      (fun l => ∀ e ∈ l, IdentsOk e) n := by
  intro n
  induction n with
  | zero => intro acc _ p _ hn; omega
  | succ n ih =>
    intro acc hacc p hp hn m hm
    obtain ⟨m', rfl⟩ : ∃ m', m = m' + 1 := ⟨m - 1, by omega⟩
    dsimp only
    rw [parser.parseHeritageClausesLoop, parser.parseHeritageClausesLoop]
    refine agree_bind (parseHeritageClause_runs n p hp (by omega) m' (by omega)) ?_
    rintro ⟨a, q⟩ ⟨hq, hμ, ha⟩
    dsimp only at hq hμ ha ⊢
    have hacc2 : ∀ e ∈ acc ++ [a], IdentsOk e := mem_snoc hacc ha
    refine agree_ite (fun _ => agree_ret _ _ hq hμ hacc2) (fun _ => ?_)
    refine agree_bind (advance_runs n q hq (by omega) m' (by omega)) ?_
    rintro q2 ⟨hq2, hμ2, _⟩
    exact agree_step (ih _ hacc2 q2 hq2 (by omega) m' (by omega)) (by omega) (fun _ h => h)

theorem parseHeritageClauses_runs (n : Nat) :
    RunsAt parser.parseHeritageClauses 1 1 (fun l => ∀ e ∈ l, IdentsOk e) n := by
  intro p hp hn m hm
  simp only [parser.parseHeritageClauses]
  refine agree_bind (eat_post token.Ident (by decide) (by decide) n p hp hn m hm) ?_
  rintro ⟨t, q1⟩ ⟨hq1, hμ1, _, _⟩
  dsimp only at hq1 hμ1 ⊢
  exact agree_step (parseHeritageClausesLoop_runs n [] (by simp) q1 hq1 (by omega) m hm)
    (by omega) (fun _ h => h)

end parser

namespace parser
open ast (Node)

/-- An optional `advance`. -/
theorem optAdvance_runs (c : Prop) [Decidable c] (n : Nat) (p : parser) (hp : Inv p)
    (hn : 16 * p.measure + 1 ≤ n) (m : Nat) (hm : n ≤ m) :
    Agree (if c then parser.advance n p else pure p) (if c then parser.advance m p else pure p)
      (fun p' => Inv p' ∧ p'.measure ≤ p.measure) :=
  agree_ite (fun _ => agree_mono (advance_runs n p hp hn m hm) (fun _ h => ⟨h.1, h.2.1⟩))
    (fun _ => agree_pure _ ⟨hp, le_refl _⟩)

theorem types_runs : ∀ n : Nat,
    RunsAt parser.parseType 6 1 IdentsOk n ∧
    RunsAt parser.parseTypeCheckUnion 5 1 IdentsOk n ∧
    (∀ acc, (∀ e ∈ acc, IdentsOk e) →
      RunsAt (fun n p => parser.parseTypeCheckUnionLoop n acc p) 2 1 IdentsOk n) ∧
    RunsAt parser.parseTypeCheckArray 4 1 IdentsOk n ∧
    RunsAt parser.parseTypeInner 3 1 IdentsOk n ∧
    RunsAt parser.parseTupleType 2 1 IdentsOk n ∧
    (∀ acc, (∀ e ∈ acc, IdentsOk e) →
      RunsAt (fun n p => parser.parseTupleTypeLoop n acc p) 7 1 IdentsOk n) ∧
    RunsAt parser.parseParenthesizedType 2 1 IdentsOk n ∧
    RunsAt parser.parseTypeLiteral 2 1 IdentsOk n ∧
    (∀ acc, (∀ e ∈ acc, IdentsOk e) →
      RunsAt (fun n p => parser.parseTypeLiteralLoop n acc p) 4 1 IdentsOk n) ∧
    RunsAt parser.parseSignature 3 1 IdentsOk n ∧
    RunsAt parser.parsePropertySignature 2 1 IdentsOk n ∧
    RunsAt parser.parseIndexSignature 2 1 IdentsOk n ∧
    (∀ acc, (∀ e ∈ acc, IdentsOk e) →
      RunsAt (fun n p => parser.parseIndexSignatureLoop n acc p) 3 0
        (fun l => ∀ e ∈ l, IdentsOk e) n) ∧
    RunsAt parser.parseParameter 2 1 IdentsOk n := by
  intro n
  induction n with
  | zero =>
    refine ⟨?_, ?_, ?_, ?_, ?_, ?_, ?_, ?_, ?_, ?_, ?_, ?_, ?_, ?_, ?_⟩
    · intro p _ hn; omega
    · intro p _ hn; omega
    · intro acc _ p _ hn; omega
    · intro p _ hn; omega
    · intro p _ hn; omega
    · intro p _ hn; omega
    · intro acc _ p _ hn; omega
    · intro p _ hn; omega
    · intro p _ hn; omega
    · intro acc _ p _ hn; omega
    · intro p _ hn; omega
    · intro p _ hn; omega
    · intro p _ hn; omega
    · intro acc _ p _ hn; omega
    · intro p _ hn; omega
  | succ n ih =>
    obtain ⟨iType, iUnion, iUnionLoop, iArray, iInner, iTuple, iTupleLoop, iParen, iLit, iLitLoop,
      iSig, iProp, iIndex, iIndexLoop, iParam⟩ := ih
    refine ⟨?_, ?_, ?_, ?_, ?_, ?_, ?_, ?_, ?_, ?_, ?_, ?_, ?_, ?_, ?_⟩
    · -- parseType
      intro p hp hn m hm
      obtain ⟨m', rfl⟩ : ∃ m', m = m' + 1 := ⟨m - 1, by omega⟩
      rw [parser.parseType, parser.parseType]
      exact iUnion p hp (by omega) m' (by omega)
    · -- parseTypeCheckUnion
      intro p hp hn m hm
      obtain ⟨m', rfl⟩ : ∃ m', m = m' + 1 := ⟨m - 1, by omega⟩
      rw [parser.parseTypeCheckUnion, parser.parseTypeCheckUnion]
      refine agree_bind (iArray p hp (by omega) m' (by omega)) ?_
      rintro ⟨a, q⟩ ⟨hq, hμ, ha⟩
      dsimp only at hq hμ ha ⊢
      refine agree_ite (fun _ => agree_ret _ _ hq hμ ha) (fun _ => ?_)
      exact agree_step (iUnionLoop [a] (by simpa using ha) q hq (by omega) m' (by omega))
        (by omega) (fun _ h => h)
    · -- parseTypeCheckUnionLoop
      intro acc hacc p hp hn m hm
      obtain ⟨m', rfl⟩ : ∃ m', m = m' + 1 := ⟨m - 1, by omega⟩
      dsimp only
      rw [parser.parseTypeCheckUnionLoop, parser.parseTypeCheckUnionLoop]
      refine agree_bind (eat_post token.Or (by decide) (by decide) n p hp (by omega) m'
        (by omega)) ?_
      rintro ⟨t, q1⟩ ⟨hq1, hμ1, _⟩
      dsimp only at hq1 hμ1 ⊢
      refine agree_bind (iArray q1 hq1 (by omega) m' (by omega)) ?_
      rintro ⟨a, q2⟩ ⟨hq2, hμ2, ha⟩
      dsimp only at hq2 hμ2 ha ⊢
      have hacc2 : ∀ e ∈ acc ++ [a], IdentsOk e := mem_snoc hacc ha
      refine agree_ite (fun _ => agree_ret _ _ hq2 (by omega) (by simpa using hacc2))
        (fun _ => ?_)
      exact agree_step (iUnionLoop _ hacc2 q2 hq2 (by omega) m' (by omega))
        (by omega) (fun _ h => h)
    · -- parseTypeCheckArray
      intro p hp hn m hm
      obtain ⟨m', rfl⟩ : ∃ m', m = m' + 1 := ⟨m - 1, by omega⟩
      rw [parser.parseTypeCheckArray, parser.parseTypeCheckArray]
      refine agree_bind (iInner p hp (by omega) m' (by omega)) ?_
      rintro ⟨a, q⟩ ⟨hq, hμ, ha⟩
      dsimp only at hq hμ ha ⊢
      refine agree_ite (fun _ => agree_ret _ _ hq hμ ha) (fun _ => ?_)
      refine agree_bind (eat_post token.LBrack (by decide) (by decide) n q hq (by omega) m'
        (by omega)) ?_
      rintro ⟨t1, q1⟩ ⟨hq1, hμ1, _⟩
      dsimp only at hq1 hμ1 ⊢
      refine agree_bind (eat_post token.RBrack (by decide) (by decide) n q1 hq1 (by omega) m'
        (by omega)) ?_
      rintro ⟨t2, q2⟩ ⟨hq2, hμ2, _⟩
      dsimp only at hq2 hμ2 ⊢
      exact agree_ret _ _ hq2 (by omega) (by simpa using ha)
    · -- parseTypeInner
      intro p hp hn m hm
      obtain ⟨m', rfl⟩ : ∃ m', m = m' + 1 := ⟨m - 1, by omega⟩
      rw [parser.parseTypeInner, parser.parseTypeInner]
      refine agree_ite (fun _ => parseTypeReference_runs n p hp (by omega) m' (by omega))
        (fun _ => ?_)
      refine agree_ite (fun _ => iLit p hp (by omega) m' (by omega)) (fun _ => ?_)
      refine agree_ite (fun _ => iParen p hp (by omega) m' (by omega)) (fun _ => ?_)
      refine agree_ite (fun _ => iTuple p hp (by omega) m' (by omega)) (fun _ => ?_)
      refine agree_ite (fun _ => ?_) (fun _ => ?_)
      · refine agree_bind (eat_post token.String (by decide) (by decide) n p hp (by omega) m'
          (by omega)) ?_
        rintro ⟨t, q⟩ ⟨hq, hμ, _⟩
        dsimp only at hq hμ ⊢
        exact agree_ret _ _ hq hμ (by simp)
      refine agree_ite (fun _ => ?_) (fun _ => ?_)
      · refine agree_bind (eat_post token.Number (by decide) (by decide) n p hp (by omega) m'
          (by omega)) ?_
        rintro ⟨t, q⟩ ⟨hq, hμ, _⟩
        dsimp only at hq hμ ⊢
        exact agree_ret _ _ hq hμ (by simp)
      · exact agree_error _ (by simp)
    · -- parseTupleType
      intro p hp hn m hm
      obtain ⟨m', rfl⟩ : ∃ m', m = m' + 1 := ⟨m - 1, by omega⟩
      rw [parser.parseTupleType, parser.parseTupleType]
      refine agree_bind (eat_post token.LBrack (by decide) (by decide) n p hp (by omega) m'
        (by omega)) ?_
      rintro ⟨t, q⟩ ⟨hq, hμ, _⟩
      dsimp only at hq hμ ⊢
      exact agree_step (iTupleLoop [] (by simp) q hq (by omega) m' (by omega))
        (by omega) (fun _ h => h)
    · -- parseTupleTypeLoop
      intro acc hacc p hp hn m hm
      obtain ⟨m', rfl⟩ : ∃ m', m = m' + 1 := ⟨m - 1, by omega⟩
      dsimp only
      rw [parser.parseTupleTypeLoop, parser.parseTupleTypeLoop]
      refine agree_bind (iType p hp (by omega) m' (by omega)) ?_
      rintro ⟨a, q⟩ ⟨hq, hμ, ha⟩
      dsimp only at hq hμ ha ⊢
      have hacc2 : ∀ e ∈ acc ++ [a], IdentsOk e := mem_snoc hacc ha
      refine agree_ite (fun _ => ?_) (fun _ => ?_)
      · refine agree_bind (eat_post token.RBrack (by decide) (by decide) n q hq (by omega) m'
          (by omega)) ?_
        rintro ⟨t, q2⟩ ⟨hq2, hμ2, _⟩
        dsimp only at hq2 hμ2 ⊢
        exact agree_ret _ _ hq2 (by omega) (by simpa using hacc2)
      · refine agree_bind (advance_runs n q hq (by omega) m' (by omega)) ?_
        rintro q2 ⟨hq2, hμ2, _⟩
        exact agree_step (iTupleLoop _ hacc2 q2 hq2 (by omega) m' (by omega))
          (by omega) (fun _ h => h)
    · -- parseParenthesizedType
      intro p hp hn m hm
      obtain ⟨m', rfl⟩ : ∃ m', m = m' + 1 := ⟨m - 1, by omega⟩
      rw [parser.parseParenthesizedType, parser.parseParenthesizedType]
      refine agree_bind (eat_post token.LParen (by decide) (by decide) n p hp (by omega) m'
        (by omega)) ?_
      rintro ⟨t, q⟩ ⟨hq, hμ, _⟩
      dsimp only at hq hμ ⊢
      refine agree_bind (iType q hq (by omega) m' (by omega)) ?_
      rintro ⟨a, q2⟩ ⟨hq2, hμ2, ha⟩
      dsimp only at hq2 hμ2 ha ⊢
      refine agree_bind (eat_post token.RParen (by decide) (by decide) n q2 hq2 (by omega) m'
        (by omega)) ?_
      rintro ⟨t3, q3⟩ ⟨hq3, hμ3, _⟩
      dsimp only at hq3 hμ3 ⊢
      exact agree_ret _ _ hq3 (by omega) (by simpa using ha)
    · -- parseTypeLiteral
      intro p hp hn m hm
      obtain ⟨m', rfl⟩ : ∃ m', m = m' + 1 := ⟨m - 1, by omega⟩
      rw [parser.parseTypeLiteral, parser.parseTypeLiteral]
      refine agree_bind (eat_post token.LBrace (by decide) (by decide) n p hp (by omega) m'
        (by omega)) ?_
      rintro ⟨t, q⟩ ⟨hq, hμ, _⟩
      dsimp only at hq hμ ⊢
      exact agree_step (iLitLoop [] (by simp) q hq (by omega) m' (by omega))
        (by omega) (fun _ h => h)
    · -- parseTypeLiteralLoop
      intro acc hacc p hp hn m hm
      obtain ⟨m', rfl⟩ : ∃ m', m = m' + 1 := ⟨m - 1, by omega⟩
      dsimp only
      rw [parser.parseTypeLiteralLoop, parser.parseTypeLiteralLoop]
      refine agree_ite (fun _ => ?_) (fun _ => ?_)
      · refine agree_bind (eat_post token.RBrace (by decide) (by decide) n p hp (by omega) m'
          (by omega)) ?_
        rintro ⟨t, q⟩ ⟨hq, hμ, _⟩
        dsimp only at hq hμ ⊢
        exact agree_ret _ _ hq hμ (by simpa using hacc)
      · refine agree_bind (iSig p hp (by omega) m' (by omega)) ?_
        rintro ⟨a, q⟩ ⟨hq, hμ, ha⟩
        dsimp only at hq hμ ha ⊢
        exact agree_step (iLitLoop _ (mem_snoc hacc ha) q hq (by omega) m' (by omega))
          (by omega) (fun _ h => h)
    · -- parseSignature
      intro p hp hn m hm
      obtain ⟨m', rfl⟩ : ∃ m', m = m' + 1 := ⟨m - 1, by omega⟩
      rw [parser.parseSignature, parser.parseSignature]
      refine agree_ite (fun _ => iProp p hp (by omega) m' (by omega)) (fun _ => ?_)
      refine agree_ite (fun _ => iIndex p hp (by omega) m' (by omega)) (fun _ => ?_)
      exact agree_error _ (by simp)
    · -- parsePropertySignature
      intro p hp hn m hm
      obtain ⟨m', rfl⟩ : ∃ m', m = m' + 1 := ⟨m - 1, by omega⟩
      rw [parser.parsePropertySignature, parser.parsePropertySignature]
      simp only [parser.consumeComment, parser.consumeLineComment]
      have hp0 : Inv { p with lastComment := [] } := hp
      have e0 : parser.measure { p with lastComment := [] } = p.measure := rfl
      refine agree_bind (optAdvance_runs _ n _ hp0 (by omega) m' (by omega)) ?_
      rintro q1 ⟨hq1, hμ1⟩
      refine agree_bind (parseIdentifier_runs n q1 hq1 (by omega) m' (by omega)) ?_
      rintro ⟨name, q2⟩ ⟨hq2, hμ2, hname⟩
      dsimp only at hq2 hμ2 hname ⊢
      refine agree_bind (Q := Post q2 0 (fun _ => True)) (agree_ite (fun _ => ?_) (fun _ => ?_)) ?_
      · refine agree_bind (advance_runs n q2 hq2 (by omega) m' (by omega)) ?_
        rintro q ⟨hq, hμ, _⟩
        exact agree_ret _ _ hq (by omega) trivial
      · exact agree_ret _ _ hq2 (by omega) trivial
      rintro ⟨qt, q3⟩ ⟨hq3, hμ3, _⟩
      dsimp only at hq3 hμ3 ⊢
      refine agree_bind (eat_post token.Colon (by decide) (by decide) n q3 hq3 (by omega) m'
        (by omega)) ?_
      rintro ⟨t4, q4⟩ ⟨hq4, hμ4, _⟩
      dsimp only at hq4 hμ4 ⊢
      refine agree_bind (iType q4 hq4 (by omega) m' (by omega)) ?_
      rintro ⟨typ, q5⟩ ⟨hq5, hμ5, htyp⟩
      dsimp only at hq5 hμ5 htyp ⊢
      refine agree_bind (optAdvance_runs _ n q5 hq5 (by omega) m' (by omega)) ?_
      rintro q6 ⟨hq6, hμ6⟩
      have hq6' : Inv { q6 with lastLineComment := [] } := hq6
      have e6 : parser.measure { q6 with lastLineComment := [] } = q6.measure := rfl
      exact agree_ret _ _ hq6' (by omega) (by simp [hname, htyp])
    · -- parseIndexSignature
      intro p hp hn m hm
      obtain ⟨m', rfl⟩ : ∃ m', m = m' + 1 := ⟨m - 1, by omega⟩
      rw [parser.parseIndexSignature, parser.parseIndexSignature]
      simp only [parser.consumeComment, parser.consumeLineComment]
      have hp0 : Inv { p with lastComment := [] } := hp
      have e0 : parser.measure { p with lastComment := [] } = p.measure := rfl
      refine agree_bind (eat_post token.LBrack (by decide) (by decide) n _ hp0 (by omega) m'
        (by omega)) ?_
      rintro ⟨t1, q1⟩ ⟨hq1, hμ1, _⟩
      dsimp only at hq1 hμ1 ⊢
      refine agree_bind (iIndexLoop [] (by simp) q1 hq1 (by omega) m' (by omega)) ?_
      rintro ⟨ps, q2⟩ ⟨hq2, hμ2, hps⟩
      dsimp only at hq2 hμ2 hps ⊢
      have hq2' : Inv { q2 with lastLineComment := [] } := hq2
      have e2 : parser.measure { q2 with lastLineComment := [] } = q2.measure := rfl
      refine agree_bind (eat_post token.RBrack (by decide) (by decide) n _ hq2' (by omega) m'
        (by omega)) ?_
      rintro ⟨t3, q3⟩ ⟨hq3, hμ3, _⟩
      dsimp only at hq3 hμ3 ⊢
      refine agree_bind (eat_post token.Colon (by decide) (by decide) n q3 hq3 (by omega) m'
        (by omega)) ?_
      rintro ⟨t4, q4⟩ ⟨hq4, hμ4, _⟩
      dsimp only at hq4 hμ4 ⊢
      refine agree_bind (iType q4 hq4 (by omega) m' (by omega)) ?_
      rintro ⟨typ, q5⟩ ⟨hq5, hμ5, htyp⟩
      dsimp only at hq5 hμ5 htyp ⊢
      refine agree_bind (optAdvance_runs _ n q5 hq5 (by omega) m' (by omega)) ?_
      rintro q6 ⟨hq6, hμ6⟩
      exact agree_ret _ _ hq6 (by omega) (by simp [htyp]; exact hps)
    · -- parseIndexSignatureLoop
      intro acc hacc p hp hn m hm
      obtain ⟨m', rfl⟩ : ∃ m', m = m' + 1 := ⟨m - 1, by omega⟩
      dsimp only
      rw [parser.parseIndexSignatureLoop, parser.parseIndexSignatureLoop]
      refine agree_ite (fun _ => ?_) (fun _ => agree_ret _ _ hp (by omega) hacc)
      refine agree_bind (iParam p hp (by omega) m' (by omega)) ?_
      rintro ⟨a, q⟩ ⟨hq, hμ, ha⟩
      dsimp only at hq hμ ha ⊢
      exact agree_step (iIndexLoop _ (mem_snoc hacc ha) q hq (by omega) m' (by omega))
        (by omega) (fun _ h => h)
    · -- parseParameter
      intro p hp hn m hm
      obtain ⟨m', rfl⟩ : ∃ m', m = m' + 1 := ⟨m - 1, by omega⟩
      rw [parser.parseParameter, parser.parseParameter]
      refine agree_bind (parseIdentifier_runs n p hp (by omega) m' (by omega)) ?_
      rintro ⟨name, q1⟩ ⟨hq1, hμ1, hname⟩
      dsimp only at hq1 hμ1 hname ⊢
      refine agree_bind (eat_post token.Colon (by decide) (by decide) n q1 hq1 (by omega) m'
        (by omega)) ?_
      rintro ⟨t2, q2⟩ ⟨hq2, hμ2, _⟩
      dsimp only at hq2 hμ2 ⊢
      refine agree_bind (iType q2 hq2 (by omega) m' (by omega)) ?_
      rintro ⟨typ, q3⟩ ⟨hq3, hμ3, htyp⟩
      dsimp only at hq3 hμ3 htyp ⊢
      exact agree_ret _ _ hq3 (by omega) (by simp [hname, htyp])

end parser

namespace parser
open ast (Node)

theorem inits_runs : ∀ n : Nat,
    RunsAt parser.parseInitializer 3 1 IdentsOk n ∧
    RunsAt parser.parseArrayLiteralExpression 2 1 IdentsOk n ∧
    (∀ acc, (∀ e ∈ acc, IdentsOk e) →
      RunsAt (fun n p => parser.parseArrayLiteralExpressionLoop n acc p) 4 0
        (fun l => ∀ e ∈ l, IdentsOk e) n) := by
  intro n
  induction n with
  | zero =>
    refine ⟨?_, ?_, ?_⟩
    · intro p _ hn; omega
    · intro p _ hn; omega
    · intro acc _ p _ hn; omega
  | succ n ih =>
    obtain ⟨iInit, iArr, iLoop⟩ := ih
    refine ⟨?_, ?_, ?_⟩
    · -- parseInitializer
      intro p hp hn m hm
      obtain ⟨m', rfl⟩ : ∃ m', m = m' + 1 := ⟨m - 1, by omega⟩
      rw [parser.parseInitializer, parser.parseInitializer]
      refine agree_ite (fun _ => ?_) (fun _ => ?_)
      · refine agree_bind (eat_post token.Number (by decide) (by decide) n p hp (by omega) m'
          (by omega)) ?_
        rintro ⟨t, q⟩ ⟨hq, hμ, _⟩
        dsimp only at hq hμ ⊢
        exact agree_ret _ _ hq hμ (by simp)
      refine agree_ite (fun _ => ?_) (fun _ => ?_)
      · refine agree_bind (eat_post token.String (by decide) (by decide) n p hp (by omega) m'
          (by omega)) ?_
        rintro ⟨t, q⟩ ⟨hq, hμ, _⟩
        dsimp only at hq hμ ⊢
        exact agree_ret _ _ hq hμ (by simp)
      refine agree_ite (fun hk => ?_) (fun _ => ?_)
      · refine agree_bind (advance_runs n p hp (by omega) m' (by omega)) ?_
        rintro q ⟨hq, _, hμ⟩
        have hμ' := hμ (by rw [hk]; decide) (by rw [hk]; decide)
        refine agree_bind (iInit q hq (by omega) m' (by omega)) ?_
        rintro ⟨a, q2⟩ ⟨hq2, hμ2, ha⟩
        dsimp only at hq2 hμ2 ha ⊢
        exact agree_ret _ _ hq2 (by omega) (by simpa using ha)
      refine agree_ite (fun _ => ?_) (fun _ => ?_)
      · refine agree_bind (parseIdentifier_runs n p hp (by omega) m' (by omega)) ?_
        rintro ⟨a, q⟩ ⟨hq, hμ, ha⟩
        dsimp only at hq hμ ha ⊢
        exact agree_ret _ _ hq hμ (by simpa using ha)
      refine agree_ite (fun _ => iArr p hp (by omega) m' (by omega)) (fun _ => ?_)
      exact agree_error _ (by simp)
    · -- parseArrayLiteralExpression
      intro p hp hn m hm
      obtain ⟨m', rfl⟩ : ∃ m', m = m' + 1 := ⟨m - 1, by omega⟩
      rw [parser.parseArrayLiteralExpression, parser.parseArrayLiteralExpression]
      refine agree_bind (eat_post token.LBrack (by decide) (by decide) n p hp (by omega) m'
        (by omega)) ?_
      rintro ⟨t, q⟩ ⟨hq, hμ, _⟩
      dsimp only at hq hμ ⊢
      refine agree_bind (iLoop [] (by simp) q hq (by omega) m' (by omega)) ?_
      rintro ⟨es, q2⟩ ⟨hq2, hμ2, hes⟩
      dsimp only at hq2 hμ2 hes ⊢
      refine agree_bind (eat_post token.RBrack (by decide) (by decide) n q2 hq2 (by omega) m'
        (by omega)) ?_
      rintro ⟨t3, q3⟩ ⟨hq3, hμ3, _⟩
      dsimp only at hq3 hμ3 ⊢
      exact agree_ret _ _ hq3 (by omega) (by simpa using hes)
    · -- parseArrayLiteralExpressionLoop
      intro acc hacc p hp hn m hm
      obtain ⟨m', rfl⟩ : ∃ m', m = m' + 1 := ⟨m - 1, by omega⟩
      dsimp only
      rw [parser.parseArrayLiteralExpressionLoop, parser.parseArrayLiteralExpressionLoop]
      refine agree_ite (fun _ => ?_) (fun _ => agree_ret _ _ hp (by omega) hacc)
      refine agree_bind (iInit p hp (by omega) m' (by omega)) ?_
      rintro ⟨a, q⟩ ⟨hq, hμ, ha⟩
      dsimp only at hq hμ ha ⊢
      refine agree_bind (optAdvance_runs _ n q hq (by omega) m' (by omega)) ?_
      rintro q2 ⟨hq2, hμ2⟩
      exact agree_step (iLoop _ (mem_snoc hacc ha) q2 hq2 (by omega) m' (by omega))
        (by omega) (fun _ h => h)

theorem parseType_runs (n : Nat) : RunsAt parser.parseType 6 1 IdentsOk n := (types_runs n).1

theorem parseSignature_runs (n : Nat) : RunsAt parser.parseSignature 3 1 IdentsOk n :=
  (types_runs n).2.2.2.2.2.2.2.2.2.2.1

theorem parseInitializer_runs (n : Nat) : RunsAt parser.parseInitializer 3 1 IdentsOk n :=
  (inits_runs n).1

theorem parseVariableDeclaration_runs (n : Nat) :
    RunsAt parser.parseVariableDeclaration 1 1 IdentsOk n := by
  intro p hp hn m hm
  simp only [parser.parseVariableDeclaration]
  refine agree_bind (parseIdentifier_runs n p hp hn m hm) ?_
  rintro ⟨name, q1⟩ ⟨hq1, hμ1, hname⟩
  dsimp only at hq1 hμ1 hname ⊢
  refine agree_bind (Q := Post q1 0 IdentsOk) (agree_ite (fun _ => ?_) (fun _ => ?_)) ?_
  · refine agree_bind (advance_runs n q1 hq1 (by omega) m hm) ?_
    rintro q ⟨hq, hμ, _⟩
    exact agree_step (parseType_runs n q hq (by omega) m hm) (by omega) (fun _ h => h)
  · exact agree_ret _ _ hq1 (by omega) (by simp)
  rintro ⟨typ, q2⟩ ⟨hq2, hμ2, htyp⟩
  dsimp only at hq2 hμ2 htyp ⊢
  refine agree_bind (Q := Post q2 0 IdentsOk) (agree_ite (fun _ => ?_) (fun _ => ?_)) ?_
  · refine agree_bind (advance_runs n q2 hq2 (by omega) m hm) ?_
    rintro q ⟨hq, hμ, _⟩
    exact agree_step (parseInitializer_runs n q hq (by omega) m hm) (by omega) (fun _ h => h)
  · exact agree_ret _ _ hq2 (by omega) (by simp)
  rintro ⟨ini, q3⟩ ⟨hq3, hμ3, hini⟩
  dsimp only at hq3 hμ3 hini ⊢
  exact agree_ret _ _ hq3 (by omega) (by simp [hname, htyp, hini])

theorem parseVariableDeclarationListLoop_runs : ∀ (n : Nat) (acc : List Node),
    (∀ e ∈ acc, IdentsOk e) →
    RunsAt (fun n p => parser.parseVariableDeclarationListLoop n acc p) 2 1 IdentsOk n := by
  intro n
  induction n with
  | zero => intro acc _ p _ hn; omega
  | succ n ih =>
    intro acc hacc p hp hn m hm
    obtain ⟨m', rfl⟩ : ∃ m', m = m' + 1 := ⟨m - 1, by omega⟩
    dsimp only
    rw [parser.parseVariableDeclarationListLoop, parser.parseVariableDeclarationListLoop]
    refine agree_bind (parseVariableDeclaration_runs n p hp (by omega) m' (by omega)) ?_
    rintro ⟨a, q⟩ ⟨hq, hμ, ha⟩
    dsimp only at hq hμ ha ⊢
    have hacc2 : ∀ e ∈ acc ++ [a], IdentsOk e := mem_snoc hacc ha
    refine agree_ite (fun _ => ?_) (fun _ => ?_)
    · refine agree_bind (eat_post token.Semicolon (by decide) (by decide) n q hq (by omega) m'
        (by omega)) ?_
      rintro ⟨t, q2⟩ ⟨hq2, hμ2, _⟩
      dsimp only at hq2 hμ2 ⊢
      exact agree_ret _ _ hq2 (by omega) (by simpa using hacc2)
    · refine agree_bind (advance_runs n q hq (by omega) m' (by omega)) ?_
      rintro q2 ⟨hq2, hμ2, _⟩
      exact agree_step (ih _ hacc2 q2 hq2 (by omega) m' (by omega)) (by omega) (fun _ h => h)

theorem parseVariableStatement_runs (n : Nat) :
    RunsAt parser.parseVariableStatement 1 1 IdentsOk n := by
  intro p hp hn m hm
  simp only [parser.parseVariableStatement, parser.parseVariableDeclarationList,
    parser.consumeComment]
  refine agree_bind (eat_post token.Ident (by decide) (by decide) n p hp hn m hm) ?_
  rintro ⟨t, q⟩ ⟨hq, hμ, _⟩
  dsimp only at hq hμ ⊢
  have hq0 : Inv { q with lastComment := [] } := hq
  have e0 : parser.measure { q with lastComment := [] } = q.measure := rfl
  refine agree_bind (parseVariableDeclarationListLoop_runs n [] (by simp) _ hq0 (by omega) m hm)
    ?_
  rintro ⟨d, q2⟩ ⟨hq2, hμ2, hd⟩
  dsimp only at hq2 hμ2 hd ⊢
  exact agree_ret _ _ hq2 (by omega) (by simpa using hd)

theorem parseTypeAliasDeclaration_runs (n : Nat) :
    RunsAt parser.parseTypeAliasDeclaration 1 1 IdentsOk n := by
  intro p hp hn m hm
  simp only [parser.parseTypeAliasDeclaration, parser.consumeComment]
  refine agree_bind (eat_post token.Ident (by decide) (by decide) n p hp hn m hm) ?_
  rintro ⟨t, q⟩ ⟨hq, hμ, _⟩
  dsimp only at hq hμ ⊢
  have hq0 : Inv { q with lastComment := [] } := hq
  have e0 : parser.measure { q with lastComment := [] } = q.measure := rfl
  refine agree_bind (parseIdentifier_runs n _ hq0 (by omega) m hm) ?_
  rintro ⟨name, q2⟩ ⟨hq2, hμ2, hname⟩
  dsimp only at hq2 hμ2 hname ⊢
  refine agree_bind (eat_post token.Assign (by decide) (by decide) n q2 hq2 (by omega) m hm) ?_
  rintro ⟨t3, q3⟩ ⟨hq3, hμ3, _⟩
  dsimp only at hq3 hμ3 ⊢
  refine agree_bind (parseType_runs n q3 hq3 (by omega) m hm) ?_
  rintro ⟨typ, q4⟩ ⟨hq4, hμ4, htyp⟩
  dsimp only at hq4 hμ4 htyp ⊢
  exact agree_ret _ _ hq4 (by omega) (by simp [hname, htyp])

theorem parseEnumMember_runs (n : Nat) : RunsAt parser.parseEnumMember 1 1 IdentsOk n := by
  intro p hp hn m hm
  simp only [parser.parseEnumMember, parser.consumeComment]
  refine agree_bind (parseIdentifier_runs n p hp hn m hm) ?_
  rintro ⟨name, q⟩ ⟨hq, hμ, hname⟩
  dsimp only at hq hμ hname ⊢
  have hq0 : Inv { q with lastComment := [] } := hq
  have e0 : parser.measure { q with lastComment := [] } = q.measure := rfl
  refine agree_ite (fun _ => agree_ret _ _ hq0 (by omega) (by simp [hname])) (fun _ => ?_)
  refine agree_bind (advance_runs n _ hq0 (by omega) m hm) ?_
  rintro q2 ⟨hq2, hμ2, _⟩
  refine agree_bind (parseInitializer_runs n q2 hq2 (by omega) m hm) ?_
  rintro ⟨ini, q3⟩ ⟨hq3, hμ3, hini⟩
  dsimp only at hq3 hμ3 hini ⊢
  exact agree_ret _ _ hq3 (by omega) (by simp [hname, hini])

theorem parseEnumDeclarationLoop_runs : ∀ (n : Nat) (acc : List Node),
    (∀ e ∈ acc, IdentsOk e) →
    RunsAt (fun n p => parser.parseEnumDeclarationLoop n acc p) 2 0
      (fun l => ∀ e ∈ l, IdentsOk e) n := by
  intro n
  induction n with
  | zero => intro acc _ p _ hn; omega
  | succ n ih =>
    intro acc hacc p hp hn m hm
    obtain ⟨m', rfl⟩ : ∃ m', m = m' + 1 := ⟨m - 1, by omega⟩
    dsimp only
    rw [parser.parseEnumDeclarationLoop, parser.parseEnumDeclarationLoop]
    refine agree_ite (fun _ => agree_ret _ _ hp (by omega) hacc) (fun _ => ?_)
    refine agree_bind (parseEnumMember_runs n p hp (by omega) m' (by omega)) ?_
    rintro ⟨a, q⟩ ⟨hq, hμ, ha⟩
    dsimp only at hq hμ ha ⊢
    have hacc2 : ∀ e ∈ acc ++ [a], IdentsOk e := mem_snoc hacc ha
    refine agree_ite (fun _ => ?_) (fun _ => ?_)
    · refine agree_bind (advance_runs n q hq (by omega) m' (by omega)) ?_
      rintro q2 ⟨hq2, hμ2, _⟩
      exact agree_step (ih _ hacc2 q2 hq2 (by omega) m' (by omega)) (by omega) (fun _ h => h)
    refine agree_ite (fun _ => ?_) (fun _ => agree_error _ (by simp))
    exact agree_step (ih _ hacc2 q hq (by omega) m' (by omega)) (by omega) (fun _ h => h)

theorem parseEnumDeclaration_runs (n : Nat) :
    RunsAt parser.parseEnumDeclaration 1 1 IdentsOk n := by
  intro p hp hn m hm
  simp only [parser.parseEnumDeclaration, parser.consumeComment]
  refine agree_bind (eat_post token.Ident (by decide) (by decide) n p hp hn m hm) ?_
  rintro ⟨t, q⟩ ⟨hq, hμ, _⟩
  dsimp only at hq hμ ⊢
  have hq0 : Inv { q with lastComment := [] } := hq
  have e0 : parser.measure { q with lastComment := [] } = q.measure := rfl
  refine agree_bind (parseIdentifier_runs n _ hq0 (by omega) m hm) ?_
  rintro ⟨name, q2⟩ ⟨hq2, hμ2, hname⟩
  dsimp only at hq2 hμ2 hname ⊢
  refine agree_bind (eat_post token.LBrace (by decide) (by decide) n q2 hq2 (by omega) m hm) ?_
  rintro ⟨t3, q3⟩ ⟨hq3, hμ3, _⟩
  dsimp only at hq3 hμ3 ⊢
  refine agree_bind (parseEnumDeclarationLoop_runs n [] (by simp) q3 hq3 (by omega) m hm) ?_
  rintro ⟨ms, q4⟩ ⟨hq4, hμ4, hms⟩
  dsimp only at hq4 hμ4 hms ⊢
  refine agree_bind (eat_post token.RBrace (by decide) (by decide) n q4 hq4 (by omega) m hm) ?_
  rintro ⟨t5, q5⟩ ⟨hq5, hμ5, _⟩
  dsimp only at hq5 hμ5 ⊢
  exact agree_ret _ _ hq5 (by omega) (by simp [hname]; exact hms)

theorem parseInterfaceDeclarationLoop_runs : ∀ (n : Nat) (acc : List Node),
    (∀ e ∈ acc, IdentsOk e) →
    RunsAt (fun n p => parser.parseInterfaceDeclarationLoop n acc p) 4 0
      (fun l => ∀ e ∈ l, IdentsOk e) n := by
  intro n
  induction n with
  | zero => intro acc _ p _ hn; omega
  | succ n ih =>
    intro acc hacc p hp hn m hm
    obtain ⟨m', rfl⟩ : ∃ m', m = m' + 1 := ⟨m - 1, by omega⟩
    dsimp only
    rw [parser.parseInterfaceDeclarationLoop, parser.parseInterfaceDeclarationLoop]
    refine agree_ite (fun _ => agree_ret _ _ hp (by omega) hacc) (fun _ => ?_)
    refine agree_bind (parseSignature_runs n p hp (by omega) m' (by omega)) ?_
    rintro ⟨a, q⟩ ⟨hq, hμ, ha⟩
    dsimp only at hq hμ ha ⊢
    exact agree_step (ih _ (mem_snoc hacc ha) q hq (by omega) m' (by omega)) (by omega)
      (fun _ h => h)

theorem parseInterfaceDeclaration_runs (n : Nat) :
    RunsAt parser.parseInterfaceDeclaration 1 1 IdentsOk n := by
  intro p hp hn m hm
  simp only [parser.parseInterfaceDeclaration, parser.consumeComment]
  refine agree_bind (eat_post token.Ident (by decide) (by decide) n p hp hn m hm) ?_
  rintro ⟨t, q⟩ ⟨hq, hμ, _⟩
  dsimp only at hq hμ ⊢
  have hq0 : Inv { q with lastComment := [] } := hq
  have e0 : parser.measure { q with lastComment := [] } = q.measure := rfl
  refine agree_bind (parseIdentifier_runs n _ hq0 (by omega) m hm) ?_
  rintro ⟨name, q2⟩ ⟨hq2, hμ2, hname⟩
  dsimp only at hq2 hμ2 hname ⊢
  refine agree_bind (Q := Post q2 0 (fun l => ∀ e ∈ l, IdentsOk e))
    (agree_ite (fun _ => ?_) (fun _ => ?_)) ?_
  · exact agree_step (parseTypeParameters_runs n q2 hq2 (by omega) m hm) (by omega)
      (fun _ h => h)
  · exact agree_ret _ _ hq2 (by omega) (by simp)
  rintro ⟨tps, q3⟩ ⟨hq3, hμ3, htps⟩
  dsimp only at hq3 hμ3 htps ⊢
  refine agree_bind (Q := Post q3 0 (fun l => ∀ e ∈ l, IdentsOk e))
    (agree_ite (fun _ => ?_) (fun _ => ?_)) ?_
  · exact agree_step (parseHeritageClauses_runs n q3 hq3 (by omega) m hm) (by omega)
      (fun _ h => h)
  · exact agree_ret _ _ hq3 (by omega) (by simp)
  rintro ⟨hcs, q4⟩ ⟨hq4, hμ4, hhcs⟩
  dsimp only at hq4 hμ4 hhcs ⊢
  refine agree_bind (eat_post token.LBrace (by decide) (by decide) n q4 hq4 (by omega) m hm) ?_
  rintro ⟨t5, q5⟩ ⟨hq5, hμ5, _⟩
  dsimp only at hq5 hμ5 ⊢
  refine agree_bind (parseInterfaceDeclarationLoop_runs n [] (by simp) q5 hq5 (by omega) m hm) ?_
  rintro ⟨ms, q6⟩ ⟨hq6, hμ6, hms⟩
  dsimp only at hq6 hμ6 hms ⊢
  refine agree_bind (eat_post token.RBrace (by decide) (by decide) n q6 hq6 (by omega) m hm) ?_
  rintro ⟨t7, q7⟩ ⟨hq7, hμ7, _⟩
  dsimp only at hq7 hμ7 ⊢
  refine agree_ret _ _ hq7 (by omega) ?_
  simp only [identsOk_InterfaceDeclaration]
  exact ⟨hname, htps, hhcs, hms⟩

end parser

namespace parser
open ast (Node)

theorem inv_text_real {p : parser} (hp : Inv p) (h : p.tok.Text ≠ []) :
    p.tok.Kind ≠ token.EOF ∧ p.tok.Kind ≠ token.Illegal :=
  ⟨fun e => h (hp.2.2 (Or.inl e)), fun e => h (hp.2.2 (Or.inr e))⟩

theorem stmts_runs : ∀ n : Nat,
    RunsAt parser.parseStatement 4 1 IdentsOk n ∧
    RunsAt parser.parseStatementLoop 3 1 IdentsOk n ∧
    RunsAt parser.parseModuleDeclaration 2 1 IdentsOk n ∧
    (∀ acc, (∀ e ∈ acc, IdentsOk e) →
      RunsAt (fun n p => parser.parseModuleDeclarationLoop n acc p) 5 1
        (fun l => ∀ e ∈ l, IdentsOk e) n) := by
  intro n
  induction n with
  | zero =>
    refine ⟨?_, ?_, ?_, ?_⟩
    · intro p _ hn; omega
    · intro p _ hn; omega
    · intro p _ hn; omega
    · intro acc _ p _ hn; omega
  | succ n ih =>
    obtain ⟨iStmt, iLoop, iMod, iModLoop⟩ := ih
    refine ⟨?_, ?_, ?_, ?_⟩
    · -- parseStatement
      intro p hp hn m hm
      obtain ⟨m', rfl⟩ : ∃ m', m = m' + 1 := ⟨m - 1, by omega⟩
      rw [parser.parseStatement, parser.parseStatement]
      simp only [parser.expect]
      by_cases h : p.tok.Kind = token.Ident
      · rw [if_neg (not_not.2 h)]
        simp only [ok_bind]
        exact iLoop p hp (by omega) m' (by omega)
      · rw [if_pos h]
        exact agree_error _ (by simp)
    · -- parseStatementLoop
      intro p hp hn m hm
      obtain ⟨m', rfl⟩ : ∃ m', m = m' + 1 := ⟨m - 1, by omega⟩
      rw [parser.parseStatementLoop, parser.parseStatementLoop]
      refine agree_ite (fun he => ?_) (fun _ => ?_)
      · have hr := inv_text_real hp (by rw [he]; decide)
        refine agree_bind (advance_runs n p hp (by omega) m' (by omega)) ?_
        rintro q ⟨hq, _, hμ⟩
        have hμ' := hμ hr.1 hr.2
        exact agree_step (iLoop q hq (by omega) m' (by omega)) (by omega) (fun _ h => h)
      refine agree_ite (fun _ => parseVariableStatement_runs n p hp (by omega) m' (by omega))
        (fun _ => ?_)
      refine agree_ite (fun _ => parseTypeAliasDeclaration_runs n p hp (by omega) m' (by omega))
        (fun _ => ?_)
      refine agree_ite (fun _ => parseEnumDeclaration_runs n p hp (by omega) m' (by omega))
        (fun _ => ?_)
      refine agree_ite (fun _ => parseInterfaceDeclaration_runs n p hp (by omega) m' (by omega))
        (fun _ => ?_)
      refine agree_ite (fun _ => iMod p hp (by omega) m' (by omega)) (fun _ => ?_)
      exact agree_error _ (by simp)
    · -- parseModuleDeclaration
      intro p hp hn m hm
      obtain ⟨m', rfl⟩ : ∃ m', m = m' + 1 := ⟨m - 1, by omega⟩
      rw [parser.parseModuleDeclaration, parser.parseModuleDeclaration]
      simp only [parser.consumeComment]
      refine agree_bind (eat_post token.Ident (by decide) (by decide) n p hp (by omega) m'
        (by omega)) ?_
      rintro ⟨t, q⟩ ⟨hq, hμ, _⟩
      dsimp only at hq hμ ⊢
      have hq0 : Inv { q with lastComment := [] } := hq
      have e0 : parser.measure { q with lastComment := [] } = q.measure := rfl
      refine agree_bind (parseIdentifier_runs n _ hq0 (by omega) m' (by omega)) ?_
      rintro ⟨name, q2⟩ ⟨hq2, hμ2, hname⟩
      dsimp only at hq2 hμ2 hname ⊢
      refine agree_bind (eat_post token.LBrace (by decide) (by decide) n q2 hq2 (by omega) m'
        (by omega)) ?_
      rintro ⟨t3, q3⟩ ⟨hq3, hμ3, _⟩
      dsimp only at hq3 hμ3 ⊢
      refine agree_bind (iModLoop [] (by simp) q3 hq3 (by omega) m' (by omega)) ?_
      rintro ⟨ss, q4⟩ ⟨hq4, hμ4, hss⟩
      dsimp only at hq4 hμ4 hss ⊢
      exact agree_ret _ _ hq4 (by omega) (by simp [hname]; exact hss)
    · -- parseModuleDeclarationLoop
      intro acc hacc p hp hn m hm
      obtain ⟨m', rfl⟩ : ∃ m', m = m' + 1 := ⟨m - 1, by omega⟩
      dsimp only
      rw [parser.parseModuleDeclarationLoop, parser.parseModuleDeclarationLoop]
      refine agree_ite (fun _ => ?_) (fun _ => ?_)
      · refine agree_bind (eat_post token.RBrace (by decide) (by decide) n p hp (by omega) m'
          (by omega)) ?_
        rintro ⟨t, q⟩ ⟨hq, hμ, _⟩
        dsimp only at hq hμ ⊢
        exact agree_ret _ _ hq hμ hacc
      · refine agree_bind (iStmt p hp (by omega) m' (by omega)) ?_
        rintro ⟨a, q⟩ ⟨hq, hμ, ha⟩
        dsimp only at hq hμ ha ⊢
        exact agree_step (iModLoop _ (mem_snoc hacc ha) q hq (by omega) m' (by omega))
          (by omega) (fun _ h => h)

theorem parseStatement_runs (n : Nat) : RunsAt parser.parseStatement 4 1 IdentsOk n :=
  (stmts_runs n).1

theorem parseSourceFileLoop_runs : ∀ (n : Nat) (acc : List Node),
    (∀ e ∈ acc, IdentsOk e) →
    RunsAt (fun n p => parser.parseSourceFileLoop n acc p) 5 0 IdentsOk n := by
  intro n
  induction n with
  | zero => intro acc _ p _ hn; omega
  | succ n ih =>
    intro acc hacc p hp hn m hm
    obtain ⟨m', rfl⟩ : ∃ m', m = m' + 1 := ⟨m - 1, by omega⟩
    dsimp only
    rw [parser.parseSourceFileLoop, parser.parseSourceFileLoop]
    refine agree_bind (advance_runs n p hp (by omega) m' (by omega)) ?_
    rintro q ⟨hq, hμ, _⟩
    refine agree_ite (fun _ => agree_ret _ _ hq (by omega) (by simpa using hacc)) (fun _ => ?_)
    refine agree_bind (parseStatement_runs n q hq (by omega) m' (by omega)) ?_
    rintro ⟨a, q2⟩ ⟨hq2, hμ2, ha⟩
    dsimp only at hq2 hμ2 ha ⊢
    exact agree_step (ih _ (mem_snoc hacc ha) q2 hq2 (by omega) m' (by omega)) (by omega)
      (fun _ h => h)

/-- The budget of `Parse` is enough: the run of `parseSourceFile` does not run out
of budget, every larger budget gives the same outcome, and the identifiers of a
tree returned are identifiers. -/
theorem parseSourceFile_budget (src : List Nat) (m : Nat) (hm : budget src ≤ m) :
    Agree (parser.parseSourceFile (budget src) { lex := { Source := src } })
      (parser.parseSourceFile m { lex := { Source := src } })
      (fun r => IdentsOk r.1) := by
  have hinv : Inv { lex := { Source := src } } := by
    refine ⟨rfl, ?_, fun _ => rfl⟩
    intro h
    simp at h
  have hμ : parser.measure { lex := { Source := src } } = src.length := by
    simp [parser.measure]
  have := parseSourceFileLoop_runs (budget src) [] (by simp) _ hinv
    (by rw [hμ]; simp only [budget]; omega) m hm
  exact agree_mono this (fun r hr => hr.2.2)

/-- A run of `parseSourceFile` on the source with a budget above the one of
`Parse` has the outcome of `Parse`. -/
theorem parse_of_run (src : List Nat) (m : Nat) (hm : budget src ≤ m) (tree : Node)
    (q : parser) (h : parser.parseSourceFile m { lex := { Source := src } } = .ok (tree, q)) :
    Parse src = .ok tree := by
  have := (parseSourceFile_budget src m hm).1
  rw [this] at h
  simp [Parse, h]

/-- `Parse` that returns a tree: every larger budget returns the same tree. -/
theorem run_of_parse (src : List Nat) (m : Nat) (hm : budget src ≤ m) (tree : Node)
    (h : Parse src = .ok tree) :
    ∃ q, parser.parseSourceFile m { lex := { Source := src } } = .ok (tree, q) := by
  have := (parseSourceFile_budget src m hm).1
  rw [this]
  simp only [Parse] at h
  split at h
  · rename_i t q hq
    cases h
    exact ⟨q, hq⟩
  · cases h

/-- `Parse` never runs out of budget. -/
theorem parse_ne_fuel (src : List Nat) : Parse src ≠ .error .fuel := by
  have := (parseSourceFile_budget src _ (le_refl _)).2.1
  intro h
  simp only [Parse] at h
  split at h
  · cases h
  · rename_i e he
    cases h
    exact this he

theorem identsOk_Parse (src : List Nat) (tree : Node) (h : Parse src = .ok tree) :
    IdentsOk tree := by
  obtain ⟨q, hq⟩ := run_of_parse src _ (le_refl _) tree h
  exact (parseSourceFile_budget src _ (le_refl _)).2.2 _ hq

end parser

namespace parser
open ast (Node)

theorem skipRun_exit (c : Nat) : ∀ (n : Nat) (x x' : lexer),
    x.Source.length - x.offset ≤ n → lexer.skipRun c n x = .ok x' →
    x'.offset + 1 < x'.Source.length → ∃ b, idx x'.Source x'.offset = .ok b ∧ b ≠ c := by
  intro n
  induction n with
  | zero =>
    intro x x' hn h hlt
    cases h
    omega
  | succ n ih =>
    intro x x' hn h hlt
    rw [lexer.skipRun] at h
    by_cases h1 : x.offset + 1 < x.Source.length
    · rw [if_pos h1] at h
      obtain ⟨b, hb⟩ := idx_ok (s := x.Source) (i := x.offset) (by omega)
      rw [hb, ok_bind] at h
      by_cases hc : b = c
      · rw [if_pos hc] at h
        exact ih _ _ (by simp only []; omega) h hlt
      · rw [if_neg hc] at h
        cases h
        exact ⟨b, hb, hc⟩
    · rw [if_neg h1] at h
      cases h
      exact absurd hlt h1

theorem nextLineComment_shift (pre : List Nat) (x : lexer) :
    lexer.nextLineComment (x.shift pre) = shiftR pre (lexer.nextLineComment x) := by
  unfold lexer.nextLineComment
  have e1 : ({ x.shift pre with offset := (x.shift pre).offset + 2 } : lexer)
      = lexer.shift pre { x with offset := x.offset + 2 } := by
    simp only [lexer.shift, Nat.add_assoc]
  have e2 : (x.shift pre).Source.length - ((x.shift pre).offset + 2)
      = x.Source.length - (x.offset + 2) := by
    simp only [lexer.shift, List.length_append]; omega
  simp only []
  rw [e1, e2, skipRun_shift]
  cases hs : lexer.skipRun 32 (x.Source.length - (x.offset + 2))
      { x with offset := x.offset + 2 } with
  | error e => rfl
  | ok x1 =>
    have hsrc := skipRun_source _ _ _ _ hs
    simp only [] at hsrc
    have e3 : (x1.shift pre).Source.length - (x1.shift pre).offset
        = x1.Source.length - x1.offset := by
      simp only [lexer.shift, List.length_append]; omega
    simp only [shiftX, ok_bind]
    rw [e3, skipLine_shift]
    cases hs2 : lexer.skipLine (x1.Source.length - x1.offset) x1 with
    | error e => rfl
    | ok x2 =>
      have hsrc2 := skipLine_source _ _ _ hs2
      simp only [shiftX, ok_bind, lexer.shift, slice_shift]
      cases slice x2.Source x1.offset x2.offset with
      | error e => rfl
      | ok text => rfl

theorem bytesIndex_zero (t : List Nat) (h : bytesIndex t [42, 47] = some 0) :
    ∃ r, t = 42 :: r := by
  cases t with
  | nil => simp [bytesIndex] at h
  | cons b s =>
    simp only [bytesIndex] at h
    split at h
    · rename_i hp
      simp only [List.isPrefixOf, Bool.and_eq_true, beq_iff_eq] at hp
      exact ⟨s, by rw [← hp.1]⟩
    · simp only [Option.map_eq_some'] at h
      obtain ⟨j, _, hj⟩ := h
      omega

theorem backStars_shift (pre s : List Nat) (o b : Nat) (hb : idx s o = .ok b) (hne : b ≠ 42) :
    ∀ (f i j f' : Nat), lexer.backStars s f i = .ok j → o < i → i ≤ s.length → i - o ≤ f →
      i - o ≤ f' → lexer.backStars (pre ++ s) f' (pre.length + i) = .ok (pre.length + j) := by
  intro f
  induction f with
  | zero => intro i j f' _ h1 _ h2; omega
  | succ f ih =>
    intro i j f' h hoi hil hf hf'
    obtain ⟨g, rfl⟩ : ∃ g, f' = g + 1 := ⟨f' - 1, by omega⟩
    rw [lexer.backStars] at h ⊢
    rw [if_pos (by omega)] at h
    rw [if_pos (by omega)]
    obtain ⟨c, hc⟩ := idx_ok (s := s) (i := i - 1) (by omega)
    have e : pre.length + i - 1 = pre.length + (i - 1) := by omega
    rw [hc, ok_bind] at h
    rw [e, idx_shift, hc, ok_bind]
    by_cases h42 : c = 42
    · rw [if_pos h42] at h
      rw [if_pos h42]
      have hne2 : i - 1 ≠ o := by
        intro heq
        rw [heq, hb] at hc
        cases hc
        exact hne h42
      exact ih (i - 1) j g h (by omega) (by omega) (by omega) (by omega)
    · rw [if_neg h42] at h
      rw [if_neg h42]
      cases h
      rfl

theorem reflow_shift (pre s : List Nat) (e : Nat) : ∀ (fuel off : Nat) (acc : List Nat),
    lexer.reflow (pre ++ s) (pre.length + e) fuel (pre.length + off) acc
      = lexer.reflow s e fuel off acc := by
  intro fuel
  induction fuel with
  | zero => intro off acc; rfl
  | succ fuel ih =>
    intro off acc
    rw [lexer.reflow, lexer.reflow]
    by_cases h : off < e
    · rw [if_pos h, if_pos (by omega), slice_shift]
      cases slice s off e with
      | error err => rfl
      | ok line =>
        simp only [ok_bind]
        cases bytesIndex line [10] with
        | none => rfl
        | some lineEnd =>
          simp only [Nat.add_assoc, slice_shift]
          cases slice s off (off + lineEnd) with
          | error err => rfl
          | ok head =>
            simp only [ok_bind]
            cases slice s (off + (lineEnd + 1)) e with
            | error err => rfl
            | ok rest =>
              simp only [ok_bind]
              cases indexFunc (fun r => r ≠ 32 && r ≠ 9 && r ≠ 42) rest with
              | none => rfl
              | some i => exact ih _ _
    · rw [if_neg h, if_neg (by omega)]

theorem nextBlockComment_shift_all (pre : List Nat) {x x' : lexer} {t : token.Token}
    (h : lexer.nextBlockComment x = .ok (t, x')) :
    lexer.nextBlockComment (x.shift pre) = .ok (t, x'.shift pre) := by
  rw [lexer.nextBlockComment] at h ⊢
  simp only [bind_ok] at h
  obtain ⟨x1, h1, tail, h2, h⟩ := h
  have hsrc := skipRun_source _ _ _ _ h1
  simp only [] at hsrc
  have hexit := skipRun_exit 42 (x.Source.length - (x.offset + 2))
    { x with offset := x.offset + 2 } x1 (le_refl _) h1
  have h1' := skipRun_shift pre 42 (x.Source.length - (x.offset + 2))
    { x with offset := x.offset + 2 }
  rw [h1] at h1'
  simp only [lexer.shift, shiftX] at h1'
  simp only [lexer.shift, List.length_append]
  rw [show pre.length + x.offset + 2 = pre.length + (x.offset + 2) by omega,
    show pre.length + x.Source.length - (pre.length + (x.offset + 2))
      = x.Source.length - (x.offset + 2) by omega, h1']
  simp only [bind, Except.bind, List.length_append, slice_shift, h2]
  cases hi : bytesIndex tail [42, 47] with
  | none =>
    rw [hi] at h
    cases h
    rfl
  | some i =>
    rw [hi] at h
    simp only [bind_ok] at h
    obtain ⟨j, hj, comment, hcm, h⟩ := h
    cases h
    -- the bytes of `tail`
    have htail : tail = List.take (x1.Source.length - x1.offset) (List.drop x1.offset x1.Source) := by
      simp only [slice] at h2
      split at h2
      · cases h2; rfl
      · cases h2
    have hle : x1.offset ≤ x1.Source.length := by
      simp only [slice] at h2
      split at h2
      · rename_i hc; exact hc.1
      · cases h2
    have hlen : tail.length = x1.Source.length - x1.offset := by
      rw [htail]
      simp
    have hb := bytesIndex_bound _ _ _ hi
    simp only [List.length_cons, List.length_nil] at hb
    obtain ⟨b, hb1, hb2⟩ := hexit (by omega)
    have hi0 : 0 < i := by
      rcases Nat.eq_zero_or_pos i with h0 | h0
      · exfalso
        subst h0
        obtain ⟨r, hr⟩ := bytesIndex_zero _ hi
        have hlt : x1.offset < x1.Source.length := by omega
        have hd : List.drop x1.offset x1.Source
            = x1.Source[x1.offset] :: List.drop (x1.offset + 1) x1.Source :=
          List.drop_eq_getElem_cons hlt
        rw [htail, hd, List.take_cons (by omega)] at hr
        simp only [List.cons.injEq] at hr
        unfold idx at hb1
        rw [List.getElem?_eq_getElem hlt] at hb1
        simp only [Except.ok.injEq] at hb1
        exact hb2 (hb1 ▸ hr.1)
      · exact h0
    have hbs := backStars_shift pre x1.Source x1.offset b hb1 hb2 (i + x1.offset) (i + x1.offset)
      j (pre.length + (i + x1.offset)) hj (by omega) (by omega) (by omega) (by omega)
    have hj2 : j ≤ i + x1.offset := by
      obtain ⟨j', hj', hle'⟩ := backStars_total x1.Source (i + x1.offset) (i + x1.offset)
        (by omega)
      rw [hj] at hj'
      cases hj'
      exact hle'
    have e5 : i + (pre.length + x1.offset) = pre.length + (i + x1.offset) := by omega
    have e6 : pre.length + j - (pre.length + x1.offset) = j - x1.offset := by omega
    simp only [e5, hbs, e6, reflow_shift, hcm, lexer.commentKind, Nat.add_assoc, pure,
      Except.pure]

theorem nextComment_shift_all (pre : List Nat) {x x' : lexer} {t : token.Token}
    (h : lexer.nextComment x = .ok (t, x')) :
    lexer.nextComment (x.shift pre) = .ok (t, x'.shift pre) := by
  rw [lexer.nextComment] at h ⊢
  have e : (x.shift pre).offset + 1 = pre.length + (x.offset + 1) := by
    simp only [lexer.shift]; omega
  have e2 : (x.shift pre).Source = pre ++ x.Source := rfl
  rw [e, e2, idx_shift, List.length_append]
  by_cases hc : x.offset + 1 ≥ x.Source.length
  · rw [if_pos hc] at h
    rw [if_pos (by omega)]
    cases h
    rfl
  · rw [if_neg hc] at h
    rw [if_neg (by omega)]
    simp only [bind_ok] at h
    obtain ⟨b, hb, h⟩ := h
    simp only [hb, bind, Except.bind]
    split at h
    · rename_i h47
      rw [if_pos h47, nextLineComment_shift, h]
      rfl
    · rename_i h47
      rw [if_neg h47]
      split at h
      · rename_i h42
        rw [if_pos h42]
        exact nextBlockComment_shift_all pre h
      · rename_i h42
        rw [if_neg h42]
        cases h
        rfl

end parser

namespace parser
open ast (Node)

/-- The branch of `nextLoop` for a byte that starts a string, a number or an
identifier, or that starts no token. -/
theorem nextLoop_other {x : lexer} {c : Nat} (n : Nat) (hlt : x.offset < x.Source.length)
    (hc : idx x.Source x.offset = .ok c) (hws : ¬(c = 32 ∨ c = 9 ∨ c = 13)) (hnl : ¬c = 10)
    (hsl : ¬c = 47) (hp : punctKind c = none) :
    lexer.nextLoop (n + 1) x
      = (if c = 39 then lexer.nextString { x with willBeTrailingComment := true }
         else if c ≥ 48 ∧ c ≤ 57 then lexer.nextNumber { x with willBeTrailingComment := true }
         else if (c ≥ 97 ∧ c ≤ 122) ∨ (c ≥ 65 ∧ c ≤ 90) then
           lexer.nextIdent { x with willBeTrailingComment := true }
         else pure ({ Kind := token.Illegal }, { x with willBeTrailingComment := true })) := by
  obtain ⟨p1, p2, p3, p4, p5, p6, p7, p8, p9, p10, p11, p12, p13, p14, p15, p16⟩ :=
    punctKind_none hp
  rw [lexer.nextLoop, if_pos hlt, hc, ok_bind, if_neg hws, if_neg hnl, if_neg hsl]
  simp only []
  rw [if_neg p1, if_neg p2, if_neg p3, if_neg p4, if_neg p5, if_neg p6, if_neg p7,
    if_neg p8, if_neg p9, if_neg p10, if_neg p11, if_neg p12, if_neg p13, if_neg p14,
    if_neg p15, if_neg p16]

/-- The kind of the token that `nextLoop` returns at a byte that is neither
white space nor a slash. -/
theorem nextLoop_other_kind {x x' : lexer} {t : token.Token} {c : Nat} (n : Nat)
    (hlt : x.offset < x.Source.length) (hc : idx x.Source x.offset = .ok c)
    (hws : ¬(c = 32 ∨ c = 9 ∨ c = 13)) (hnl : ¬c = 10) (hsl : ¬c = 47)
    (h : lexer.nextLoop (n + 1) x = .ok (t, x')) :
    t.Kind ≠ token.Comment ∧ t.Kind ≠ token.LineComment := by
  cases hp : punctKind c with
  | some k =>
    obtain ⟨b, hb⟩ := nextLoop_punct_state n hlt hc hp
    rw [hb] at h
    cases h
    exact punctKind_ne hp
  | none =>
    rw [nextLoop_other n hlt hc hws hnl hsl hp] at h
    by_cases hq : c = 39
    · rw [if_pos hq] at h
      obtain ⟨t0, o, h1, _, _, h4⟩ := nextString_total { x with willBeTrailingComment := true } hlt
      rw [h1] at h
      cases h
      rcases h4 with h4 | ⟨h4, _⟩ <;> rw [h4] <;> exact ⟨by decide, by decide⟩
    rw [if_neg hq] at h
    by_cases hd : c ≥ 48 ∧ c ≤ 57
    · rw [if_pos hd] at h
      obtain ⟨t0, o, h1, _, _, h4⟩ :=
        nextNumber_total { x with willBeTrailingComment := true } hlt c hc hd
      rw [h1] at h
      cases h
      rw [h4]
      exact ⟨by decide, by decide⟩
    rw [if_neg hd] at h
    by_cases hl : (c ≥ 97 ∧ c ≤ 122) ∨ (c ≥ 65 ∧ c ≤ 90)
    · rw [if_pos hl] at h
      obtain ⟨t0, o, h1, _, _, h4, _⟩ :=
        nextIdent_total { x with willBeTrailingComment := true } hlt c hc
          (by simpa [identStart] using hl)
      rw [h1] at h
      cases h
      rw [h4]
      exact ⟨by decide, by decide⟩
    · rw [if_neg hl] at h
      cases h
      exact ⟨by decide, by decide⟩

/-- The lexer on a source with bytes written before it: every token, comments
included. -/
theorem nextLoop_shift_all (pre : List Nat) : ∀ (n : Nat) (x x' : lexer) (t : token.Token),
    lexer.nextLoop n x = .ok (t, x') →
    lexer.nextLoop n (x.shift pre) = .ok (t, x'.shift pre) := by
  intro n
  induction n with
  | zero => intro x x' t h; rw [lexer.nextLoop] at h; cases h
  | succ n ih =>
    intro x x' t h
    by_cases hlt : x.offset < x.Source.length
    · obtain ⟨c, hc⟩ := idx_ok hlt
      have hlt' : (x.shift pre).offset < (x.shift pre).Source.length := by
        simp only [lexer.shift, List.length_append]; omega
      have hc' : idx (x.shift pre).Source (x.shift pre).offset = .ok c := by
        simp only [lexer.shift, idx_shift, hc]
      by_cases hws : c = 32 ∨ c = 9 ∨ c = 13
      · rw [lexer.nextLoop, if_pos hlt, hc, ok_bind, if_pos hws] at h
        rw [lexer.nextLoop, if_pos hlt', hc', ok_bind, if_pos hws]
        have := ih _ _ _ h
        simp only [lexer.shift, Nat.add_assoc] at this ⊢
        exact this
      by_cases hnl : c = 10
      · rw [lexer.nextLoop, if_pos hlt, hc, ok_bind, if_neg hws, if_pos hnl] at h
        rw [lexer.nextLoop, if_pos hlt', hc', ok_bind, if_neg hws, if_pos hnl]
        have := ih _ _ _ h
        simp only [lexer.shift, Nat.add_assoc] at this ⊢
        exact this
      by_cases hsl : c = 47
      · rw [lexer.nextLoop, if_pos hlt, hc, ok_bind, if_neg hws, if_neg hnl, if_pos hsl] at h
        rw [lexer.nextLoop, if_pos hlt', hc', ok_bind, if_neg hws, if_neg hnl, if_pos hsl]
        exact nextComment_shift_all pre h
      exact nextLoop_shift pre (n + 1) x x' t h (nextLoop_other_kind n hlt hc hws hnl hsl h)
    · refine nextLoop_shift pre (n + 1) x x' t h ?_
      rw [lexer.nextLoop, if_neg hlt] at h
      cases h
      exact ⟨by decide, by decide⟩

theorem pop_shift_all (pre : List Nat) {x x' : lexer} {t : token.Token}
    (h0 : x.nextToken = {}) (h : x.Pop = .ok (t, x')) :
    (x.shift pre).Pop = .ok (t, x'.shift pre) := by
  have e : x.nextToken.Kind = 0 := by rw [h0]
  have e' : (x.shift pre).nextToken.Kind = 0 := e
  simp only [lexer.Pop, e, e', if_true, lexer.next] at h ⊢
  have e2 : (x.shift pre).Source.length - (x.shift pre).offset + 1
      = x.Source.length - x.offset + 1 := by
    simp only [lexer.shift, List.length_append]; omega
  rw [e2]
  exact nextLoop_shift_all pre _ x x' t h

/-- The calls of `Pop` on a source with bytes written before it return the tokens
of the calls on the source itself. -/
theorem tokenAt_shift (pre : List Nat) : ∀ (k : Nat) (x : lexer), x.nextToken = {} →
    lexer.tokenAt k (x.shift pre) = lexer.tokenAt k x := by
  intro k
  induction k with
  | zero =>
    intro x h0
    obtain ⟨t, x', h1, _⟩ := pop_total x h0
    rw [tokenAt_zero_of h1, tokenAt_zero_of (pop_shift_all pre h0 h1)]
  | succ k ih =>
    intro x h0
    obtain ⟨t, x', h1, h2, _⟩ := pop_total x h0
    rw [tokenAt_succ k h1, tokenAt_succ k (pop_shift_all pre h0 h1)]
    exact ih x' h2

/-- The tokens that a lexer returns are those of the bytes it has left, given
its two flags. -/
theorem tokenAt_rem (k : Nat) (x : lexer) (h0 : x.nextToken = {}) :
    lexer.tokenAt k x = lexer.tokenAt k
      { Source := x.rem, isInsideBlock := x.isInsideBlock,
        willBeTrailingComment := x.willBeTrailingComment } := by
  by_cases hr : x.rem = []
  · have hl := rem_length x
    rw [hr] at hl
    simp only [List.length_nil] at hl
    rw [tokenAt_eof (by rw [h0]) (by omega) k,
      tokenAt_eof rfl (by simp only [hr, List.length_nil]; omega) k]
  · have hl := rem_length x
    have hlt : x.offset < x.Source.length := by
      rcases Nat.lt_or_ge x.offset x.Source.length with h | h
      · exact h
      · exfalso
        apply hr
        apply List.eq_nil_of_length_eq_zero
        omega
    have e : x = lexer.shift (x.Source.take x.offset)
        { Source := x.rem, isInsideBlock := x.isInsideBlock,
          willBeTrailingComment := x.willBeTrailingComment } := by
      cases x with
      | mk S o b w nt =>
        simp only [] at h0 hlt
        subst h0
        simp only [lexer.shift, lexer.rem, List.take_append_drop, List.length_take,
          Nat.add_zero, lexer.mk.injEq, true_and, and_true]
        omega
    conv => lhs; rw [e]
    exact tokenAt_shift _ k _ rfl

theorem lexSim_of_rem {x y : lexer} (hx : x.nextToken = {}) (hy : y.nextToken = {})
    (hr : x.rem = y.rem) (hb : x.isInsideBlock = y.isInsideBlock)
    (hw : x.willBeTrailingComment = y.willBeTrailingComment) : LexSim x y := by
  intro k t h
  rw [tokenAt_rem k x hx] at h
  rw [tokenAt_rem k y hy, ← hr, ← hb, ← hw]
  exact h

end parser

namespace parser
open ast (Node)

/-- The one-byte tokens: the flags after the token. -/
theorem nextLoop_punct_flags {x : lexer} {c : Nat} {k : token.Kind} (n : Nat)
    (hlt : x.offset < x.Source.length) (hidx : idx x.Source x.offset = .ok c)
    (hk : punctKind c = some k) :
    lexer.nextLoop (n + 1) x = .ok ({ Kind := k },
        { x with offset := x.offset + 1, willBeTrailingComment := true,
                 isInsideBlock := if k = token.LBrace then true
                                  else if k = token.RBrace then false else x.isInsideBlock }) := by
  rw [lexer.nextLoop, if_pos hlt]
  simp only [hidx, bind, Except.bind]
  unfold punctKind at hk
  split at hk <;> cases hk <;>
    simp [pure, Except.pure, lexer.char]

/-- The flags of the lexer after a token. -/
theorem nextLoop_flags : ∀ (n : Nat) (x x' : lexer) (t : token.Token),
    lexer.nextLoop n x = .ok (t, x') →
    x'.nextToken = x.nextToken ∧
    (t.Kind ≠ token.LBrace → t.Kind ≠ token.RBrace → x'.isInsideBlock = x.isInsideBlock) ∧
    (t.Kind = token.LBrace → x'.isInsideBlock = true) ∧
    (t.Kind ≠ token.Comment → t.Kind ≠ token.LineComment → t.Kind ≠ token.EOF →
      t.Kind ≠ token.Illegal → x'.willBeTrailingComment = true) := by
  intro n
  induction n with
  | zero => intro x x' t h; rw [lexer.nextLoop] at h; cases h
  | succ n ih =>
    intro x x' t h
    by_cases hlt : x.offset < x.Source.length
    · obtain ⟨c, hc⟩ := idx_ok hlt
      by_cases hws : c = 32 ∨ c = 9 ∨ c = 13
      · rw [lexer.nextLoop, if_pos hlt, hc, ok_bind, if_pos hws] at h
        have := ih _ _ _ h
        exact this
      by_cases hnl : c = 10
      · rw [lexer.nextLoop, if_pos hlt, hc, ok_bind, if_neg hws, if_pos hnl] at h
        have := ih _ _ _ h
        exact this
      by_cases hsl : c = 47
      · rw [lexer.nextLoop, if_pos hlt, hc, ok_bind, if_neg hws, if_neg hnl, if_pos hsl] at h
        obtain ⟨t0, o, h1, _, _, h4⟩ := nextComment_total x hlt
        rw [h1] at h
        cases h
        refine ⟨rfl, fun _ _ => rfl, ?_, ?_⟩
        · intro a
          rcases h4 with ⟨h4 | h4, _⟩ | ⟨h4, _⟩ <;> rw [h4] at a <;> simp at a
        · intro a b _ d
          rcases h4 with ⟨h4 | h4, _⟩ | ⟨h4, _⟩
          · exact absurd h4 a
          · exact absurd h4 b
          · exact absurd h4 d
      cases hp : punctKind c with
      | some k =>
        have hb := nextLoop_punct_flags n hlt hc hp
        rw [hb] at h
        cases h
        refine ⟨rfl, ?_, ?_, fun _ _ _ _ => rfl⟩
        · intro a b
          simp only [] at a b ⊢
          rw [if_neg a, if_neg b]
        · intro a
          simp only [] at a ⊢
          rw [if_pos a]
      | none =>
        rw [nextLoop_other n hlt hc hws hnl hsl hp] at h
        by_cases hq : c = 39
        · rw [if_pos hq] at h
          obtain ⟨t0, o, h1, _, _, h4⟩ :=
            nextString_total { x with willBeTrailingComment := true } hlt
          rw [h1] at h
          cases h
          refine ⟨rfl, fun _ _ => rfl, ?_, fun _ _ _ _ => rfl⟩
          intro a
          rcases h4 with h4 | ⟨h4, _⟩ <;> rw [h4] at a <;> simp at a
        rw [if_neg hq] at h
        by_cases hd : c ≥ 48 ∧ c ≤ 57
        · rw [if_pos hd] at h
          obtain ⟨t0, o, h1, _, _, h4⟩ :=
            nextNumber_total { x with willBeTrailingComment := true } hlt c hc hd
          rw [h1] at h
          cases h
          refine ⟨rfl, fun _ _ => rfl, ?_, fun _ _ _ _ => rfl⟩
          intro a
          rw [h4] at a
          simp at a
        rw [if_neg hd] at h
        by_cases hl : (c ≥ 97 ∧ c ≤ 122) ∨ (c ≥ 65 ∧ c ≤ 90)
        · rw [if_pos hl] at h
          obtain ⟨t0, o, h1, _, _, h4, _⟩ :=
            nextIdent_total { x with willBeTrailingComment := true } hlt c hc
              (by simpa [identStart] using hl)
          rw [h1] at h
          cases h
          refine ⟨rfl, fun _ _ => rfl, ?_, fun _ _ _ _ => rfl⟩
          intro a
          rw [h4] at a
          simp at a
        · rw [if_neg hl] at h
          cases h
          refine ⟨rfl, fun _ _ => rfl, ?_, fun _ _ _ _ => rfl⟩
          intro a
          simp at a
    · rw [lexer.nextLoop, if_neg hlt] at h
      cases h
      refine ⟨rfl, fun _ _ => rfl, ?_, fun _ _ a _ => absurd rfl a⟩
      intro a
      simp at a

theorem pop_flags {x x' : lexer} {t : token.Token} (h0 : x.nextToken = {})
    (h : x.Pop = .ok (t, x')) :
    x'.nextToken = {} ∧
    (t.Kind ≠ token.LBrace → t.Kind ≠ token.RBrace → x'.isInsideBlock = x.isInsideBlock) ∧
    (t.Kind = token.LBrace → x'.isInsideBlock = true) ∧
    (t.Kind ≠ token.Comment → t.Kind ≠ token.LineComment → t.Kind ≠ token.EOF →
      t.Kind ≠ token.Illegal → x'.willBeTrailingComment = true) := by
  have e : x.nextToken.Kind = 0 := by rw [h0]
  simp only [lexer.Pop, e, if_true, lexer.next] at h
  have := nextLoop_flags _ _ _ _ h
  rw [h0] at this
  exact this

/-- The flags of the lexer after `advance`. -/
theorem advance_flags : ∀ (n : Nat) (p p' : parser), p.lex.nextToken = {} →
    parser.advance n p = .ok p' →
    p'.lex.nextToken = {} ∧
    (p'.tok.Kind ≠ token.LBrace → p'.tok.Kind ≠ token.RBrace →
      p'.lex.isInsideBlock = p.lex.isInsideBlock) ∧
    (p'.tok.Kind = token.LBrace → p'.lex.isInsideBlock = true) ∧
    (p'.tok.Kind ≠ token.EOF → p'.tok.Kind ≠ token.Illegal →
      p'.lex.willBeTrailingComment = true) := by
  intro n
  induction n with
  | zero => intro p p' _ h; rw [parser.advance] at h; cases h
  | succ n ih =>
    intro p p' h0 h
    rw [parser.advance] at h
    simp only [bind_ok, Prod.exists] at h
    obtain ⟨t, x, hpop, h⟩ := h
    obtain ⟨f1, f2, f3, f4⟩ := pop_flags h0 hpop
    by_cases hc : t.Kind = token.Comment
    · rw [if_pos hc] at h
      obtain ⟨g1, g2, g3, g4⟩ := ih _ _ f1 h
      refine ⟨g1, ?_, g3, g4⟩
      intro a b
      rw [g2 a b]
      exact f2 (by rw [hc]; decide) (by rw [hc]; decide)
    rw [if_neg hc] at h
    by_cases hl : t.Kind = token.LineComment
    · rw [if_pos hl] at h
      obtain ⟨g1, g2, g3, g4⟩ := ih _ _ f1 h
      refine ⟨g1, ?_, g3, g4⟩
      intro a b
      rw [g2 a b]
      exact f2 (by rw [hl]; decide) (by rw [hl]; decide)
    rw [if_neg hl] at h
    cases h
    exact ⟨f1, f2, f3, f4 hc hl⟩

theorem nextIdent_flagless (x : lexer) (b w : Bool) :
    lexer.nextIdent { x with isInsideBlock := b, willBeTrailingComment := w }
      = (match lexer.nextIdent x with
         | .ok (t, x') => .ok (t, { x' with isInsideBlock := b, willBeTrailingComment := w })
         | .error e => .error e) := by
  unfold lexer.nextIdent
  simp only []
  cases slice x.Source x.offset x.Source.length with
  | error e => rfl
  | ok tail =>
    simp only [ok_bind]
    cases indexFunc lexer.identEnd tail with
    | none =>
      simp only []
      cases slice x.Source x.offset x.Source.length with
      | error e => rfl
      | ok v => rfl
    | some e =>
      simp only []
      cases slice x.Source x.offset (x.offset + e) with
      | error e => rfl
      | ok v => rfl

/-- An identifier token is returned whatever the flags of the lexer are. -/
theorem nextLoop_ident_flagless : ∀ (n : Nat) (x x' : lexer) (t : token.Token) (b w : Bool),
    lexer.nextLoop n x = .ok (t, x') → t.Kind = token.Ident →
    lexer.nextLoop n { x with isInsideBlock := b, willBeTrailingComment := w }
      = .ok (t, { x' with isInsideBlock := b }) := by
  intro n
  induction n with
  | zero => intro x x' t b w h; rw [lexer.nextLoop] at h; cases h
  | succ n ih =>
    intro x x' t b w h hk
    by_cases hlt : x.offset < x.Source.length
    · obtain ⟨c, hc⟩ := idx_ok hlt
      by_cases hws : c = 32 ∨ c = 9 ∨ c = 13
      · rw [lexer.nextLoop, if_pos hlt, hc, ok_bind, if_pos hws] at h
        rw [lexer.nextLoop, if_pos hlt, hc, ok_bind, if_pos hws]
        exact ih _ _ _ b w h hk
      by_cases hnl : c = 10
      · rw [lexer.nextLoop, if_pos hlt, hc, ok_bind, if_neg hws, if_pos hnl] at h
        rw [lexer.nextLoop, if_pos hlt, hc, ok_bind, if_neg hws, if_pos hnl]
        exact ih _ _ _ b false h hk
      by_cases hsl : c = 47
      · exfalso
        rw [lexer.nextLoop, if_pos hlt, hc, ok_bind, if_neg hws, if_neg hnl, if_pos hsl] at h
        obtain ⟨t0, o, h1, _, _, h4⟩ := nextComment_total x hlt
        rw [h1] at h
        cases h
        rcases h4 with ⟨h4 | h4, _⟩ | ⟨h4, _⟩ <;> rw [h4] at hk <;> simp at hk
      cases hp : punctKind c with
      | some k =>
        exfalso
        obtain ⟨_, hb⟩ := nextLoop_punct_state n hlt hc hp
        rw [hb] at h
        cases h
        obtain ⟨_, _, _, _, _, _, _, k3⟩ := punctKind_range hp
        exact k3 hk
      | none =>
        rw [nextLoop_other n hlt hc hws hnl hsl hp] at h
        rw [nextLoop_other (x := { x with isInsideBlock := b, willBeTrailingComment := w }) n
          hlt hc hws hnl hsl hp]
        by_cases hq : c = 39
        · exfalso
          rw [if_pos hq] at h
          obtain ⟨t0, o, h1, _, _, h4⟩ :=
            nextString_total { x with willBeTrailingComment := true } hlt
          rw [h1] at h
          cases h
          rcases h4 with h4 | ⟨h4, _⟩ <;> rw [h4] at hk <;> simp at hk
        rw [if_neg hq] at h ⊢
        by_cases hd : c ≥ 48 ∧ c ≤ 57
        · exfalso
          rw [if_pos hd] at h
          obtain ⟨t0, o, h1, _, _, h4⟩ :=
            nextNumber_total { x with willBeTrailingComment := true } hlt c hc hd
          rw [h1] at h
          cases h
          rw [h4] at hk
          simp at hk
        rw [if_neg hd] at h ⊢
        by_cases hl : (c ≥ 97 ∧ c ≤ 122) ∨ (c ≥ 65 ∧ c ≤ 90)
        · rw [if_pos hl] at h ⊢
          have := nextIdent_flagless x b true
          simp only [] at this ⊢
          rw [this]
          obtain ⟨t0, o, h1, _⟩ :=
            nextIdent_total { x with willBeTrailingComment := true } hlt c hc
              (by simpa [identStart] using hl)
          have h2 := nextIdent_flagless x x.isInsideBlock true
          simp only [] at h1 h2
          rw [h1] at h
          cases h
          rw [h2] at h1
          cases hx : lexer.nextIdent x with
          | error e => rw [hx] at h1; cases h1
          | ok r =>
            obtain ⟨t1, x1⟩ := r
            rw [hx] at h1
            simp only [Except.ok.injEq, Prod.mk.injEq] at h1
            obtain ⟨h1a, h1b⟩ := h1
            subst h1a
            simp only [lexer.mk.injEq, true_and, and_true] at h1b
            obtain ⟨a1, a2, a5⟩ := h1b
            simp only [a1, a2, a5]
        · exfalso
          rw [if_neg hl] at h
          cases h
          simp at hk
    · exfalso
      rw [lexer.nextLoop, if_neg hlt] at h
      cases h
      simp at hk

end parser

namespace parser
open ast (Node)

theorem lexer_eq_shift (x : lexer) (h0 : x.nextToken = {}) (hle : x.offset ≤ x.Source.length) :
    x = lexer.shift (x.Source.take x.offset)
      { Source := x.rem, isInsideBlock := x.isInsideBlock,
        willBeTrailingComment := x.willBeTrailingComment } := by
  cases x with
  | mk S o b w nt =>
    simp only [] at h0 hle
    subst h0
    simp only [lexer.shift, lexer.rem, List.take_append_drop, List.length_take,
      Nat.add_zero, lexer.mk.injEq, true_and, and_true]
    omega

theorem rem_shift (pre : List Nat) (x : lexer) : (x.shift pre).rem = x.rem := by
  simp [lexer.shift, lexer.rem]

theorem pop_next (x : lexer) (h0 : x.nextToken = {}) :
    x.Pop = lexer.nextLoop (x.Source.length - x.offset + 1) x := by
  have e : x.nextToken.Kind = 0 := by rw [h0]
  simp only [lexer.Pop, e, if_true, lexer.next]

/-- An identifier that `Pop` returns is returned by every lexer that has the same
bytes left. -/
theorem nextTok_of_pop {x0 x1 : lexer} {t : token.Token} (h0 : x0.nextToken = {})
    (h : x0.Pop = .ok (t, x1)) (hk : t.Kind = token.Ident) : NextTok x0.rem t x1.rem := by
  refine ⟨by rw [hk]; exact ⟨by decide, by decide⟩, ?_⟩
  have hlt0 : x0.offset < x0.Source.length := by
    by_contra hc
    have e : x0.nextToken.Kind = 0 := by rw [h0]
    simp only [lexer.Pop, e, if_true, lexer.next] at h
    rw [lexer.nextLoop, if_neg hc] at h
    cases h
    simp at hk
  -- the lexer on the bytes left
  obtain ⟨t', z1, hz, hz1, _⟩ := pop_total
    { Source := x0.rem, isInsideBlock := x0.isInsideBlock,
      willBeTrailingComment := x0.willBeTrailingComment } rfl
  have hx0 := pop_shift_all (x0.Source.take x0.offset) rfl hz
  rw [← lexer_eq_shift x0 h0 (le_of_lt hlt0), h] at hx0
  simp only [Except.ok.injEq, Prod.mk.injEq] at hx0
  obtain ⟨ht, hx1⟩ := hx0
  subst ht
  intro x hx hr
  have hlt : x.offset < x.Source.length := by
    have h1 := rem_length x
    have h2 := rem_length x0
    rw [hr] at h1
    omega
  rw [pop_next _ rfl] at hz
  have hz' := nextLoop_ident_flagless _ _ _ _ x.isInsideBlock x.willBeTrailingComment hz hk
  simp only [] at hz'
  have hpop : lexer.Pop
      { Source := x.rem, isInsideBlock := x.isInsideBlock,
        willBeTrailingComment := x.willBeTrailingComment }
      = .ok (t, { z1 with isInsideBlock := x.isInsideBlock }) := by
    rw [pop_next _ rfl, hr]
    exact hz'
  have hx2 := pop_shift_all (x.Source.take x.offset) rfl hpop
  rw [← lexer_eq_shift x hx (le_of_lt hlt)] at hx2
  refine ⟨_, hx2, ?_, hz1⟩
  rw [rem_shift, hx1, rem_shift]
  rfl

theorem advance_pop {p : parser} {t : token.Token} {x' : lexer} (n : Nat)
    (h : p.lex.Pop = .ok (t, x'))
    (hk : t.Kind ≠ token.Comment ∧ t.Kind ≠ token.LineComment) :
    parser.advance (n + 1) p = .ok { p with lex := x', tok := t } := by
  rw [parser.advance]
  simp [h, bind, Except.bind, hk.1, hk.2, pure, Except.pure]

/-- Two states that hold the same token, with the same bytes left and the same
flags in the lexer, and empty comment registers. -/
theorem sim_of_at {p q : parser} {tok : token.Token} {rem : List Nat} (hp : At p tok rem)
    (hq : At q tok rem) (hb : p.lex.isInsideBlock = q.lex.isInsideBlock)
    (hw : p.lex.willBeTrailingComment = q.lex.willBeTrailingComment) : Sim p q := by
  obtain ⟨p1, p2, p3, p4, p5⟩ := hp
  obtain ⟨q1, q2, q3, q4, q5⟩ := hq
  exact ⟨by rw [p1, q1], by rw [p4, q4], by rw [p5, q5],
    lexSim_of_rem p3 q3 (by rw [p2, q2]) hb hw⟩

/-- After a statement that starts at the state `p`, the rest of the source file:
the runs from a state that `p` simulates. -/
theorem sim_statement_rest {p q : parser} (hs : Sim p q) (a b a' b' : Nat) (ha : a ≤ a')
    (hb : b ≤ b') (tree : Node) (x : parser)
    (h : (do let (st, p2) ← parser.parseStatementLoop a p
             parser.parseSourceFileLoop b [st] p2) = .ok (tree, x)) :
    ∃ y, (do let (st, p2) ← parser.parseStatementLoop a' q
             parser.parseSourceFileLoop b' [st] p2) = .ok (tree, y) := by
  simp only [bind_ok, Prod.exists] at h
  obtain ⟨st, p2, h1, h2⟩ := h
  obtain ⟨q2, hq2, hs2⟩ := (sim_stmts a).2.1 [] false a' p q _ _ ha (simU_of_sim hs) h1
  simp only [fixComment, Bool.false_eq_true, if_false] at hq2
  obtain ⟨y, hy, _⟩ := sim_parseSourceFileLoop b [st] b' p2 q2 _ _ hb hs2 h2
  exact ⟨y, by simp only [hq2, bind, Except.bind]; exact hy⟩

/-- The first statement of a source file that starts with an identifier. -/
theorem sourceFile_first {p p1 : parser} (n : Nat) (h : parser.advance (n + 2) p = .ok p1)
    (hk : p1.tok.Kind = token.Ident) :
    parser.parseSourceFile (n + 3) p
      = (do let (st, p2) ← parser.parseStatementLoop (n + 1) p1
            parser.parseSourceFileLoop (n + 2) [st] p2) := by
  rw [parser.parseSourceFile, parser.parseSourceFileLoop, h, ok_bind, hk,
    if_neg (by decide), parser.parseStatement]
  simp only [parser.expect, hk, ne_eq, not_true_eq_false, if_false, ok_bind, List.nil_append]

/-- The modifier `export`: the statement is the one that follows it. -/
theorem statementLoop_export {p p1 : parser} (n : Nat) (ht : p.tok.Text = str "export")
    (h : parser.advance n p = .ok p1) :
    parser.parseStatementLoop (n + 1) p = parser.parseStatementLoop n p1 := by
  rw [parser.parseStatementLoop, if_pos ht, h, ok_bind]

/-- The modifier `export` before a source that starts with an identifier: the
tree is the tree of the source. -/
theorem export_run (s kw : List Nat) (x1 : lexer)
    (h : lexer.Pop { Source := s } = .ok ({ Kind := token.Ident, Text := kw }, x1))
    (tree : Node) :
    Parse (str "export " ++ s) = .ok tree ↔ Parse s = .ok tree := by
  have hN : NextTok s { Kind := token.Ident, Text := kw } x1.rem := by
    have := @nextTok_of_pop { Source := s } x1 _ rfl h rfl
    simpa [lexer.rem] using this
  have hE : NextTok (str "export " ++ s) { Kind := token.Ident, Text := str "export" }
      (32 :: s) := by
    have e : str "export " ++ s = str "export" ++ 32 :: s := by
      have : str "export " = str "export" ++ [32] := by decide
      rw [this]
      simp
    rw [e]
    exact nextTok_ident _ (by decide) (by simp [endsIdent, lexer.identEnd])
  -- the state of the run on `s` at the keyword
  obtain ⟨xs, hs1, hs2, hs3⟩ := hN.2 { Source := s } rfl (by simp [lexer.rem])
  have as : ∀ n, parser.advance (n + 1) { lex := { Source := s } }
      = .ok { lex := xs, tok := { Kind := token.Ident, Text := kw } } :=
    fun n => advance_pop n hs1 hN.1
  have hps : At { lex := xs, tok := { Kind := token.Ident, Text := kw } }
      { Kind := token.Ident, Text := kw } x1.rem := ⟨rfl, hs2, hs3, rfl, rfl⟩
  obtain ⟨_, fs2, _, fs4⟩ := advance_flags 1 _ _ rfl (as 0)
  -- the states of the run on the source with `export`
  obtain ⟨xe, he1, he2, he3⟩ := hE.2 { Source := str "export " ++ s } rfl (by simp [lexer.rem])
  have ae : ∀ n, parser.advance (n + 1) { lex := { Source := str "export " ++ s } }
      = .ok { lex := xe, tok := { Kind := token.Ident, Text := str "export" } } :=
    fun n => advance_pop n he1 hE.1
  obtain ⟨_, fe2, _, _⟩ := advance_flags 1 _ _ rfl (ae 0)
  obtain ⟨xk, hk1, hk2, hk3⟩ := (nextTok_space hN).2 xe he3 he2
  have ak : ∀ n, parser.advance (n + 1)
      { lex := xe, tok := { Kind := token.Ident, Text := str "export" } }
      = .ok { lex := xk, tok := { Kind := token.Ident, Text := kw } } :=
    fun n => advance_pop n hk1 hN.1
  have hpk : At { lex := xk, tok := { Kind := token.Ident, Text := kw } }
      { Kind := token.Ident, Text := kw } x1.rem := ⟨rfl, hk2, hk3, rfl, rfl⟩
  obtain ⟨_, fk2, _, fk4⟩ := advance_flags 1 _ _ he3 (ak 0)
  simp only [] at fs2 fs4 fe2 fk2 fk4
  have hb : xs.isInsideBlock = xk.isInsideBlock := by
    rw [fs2 (by decide) (by decide), fk2 (by decide) (by decide),
      fe2 (by decide) (by decide)]
  have hw : xs.willBeTrailingComment = xk.willBeTrailingComment := by
    rw [fs4 (by decide) (by decide), fk4 (by decide) (by decide)]
  have sim1 := sim_of_at hps hpk hb hw
  have sim2 := sim_of_at hpk hps hb.symm hw.symm
  -- the two runs
  have runS : ∀ n, parser.parseSourceFile (n + 3) { lex := { Source := s } }
      = (do let (st, p2) ← parser.parseStatementLoop (n + 1)
                { lex := xs, tok := { Kind := token.Ident, Text := kw } }
            parser.parseSourceFileLoop (n + 2) [st] p2) :=
    fun n => sourceFile_first n (as (n + 1)) rfl
  have runE : ∀ n, parser.parseSourceFile (n + 3) { lex := { Source := str "export " ++ s } }
      = (do let (st, p2) ← parser.parseStatementLoop n
                { lex := xk, tok := { Kind := token.Ident, Text := kw } }
            parser.parseSourceFileLoop (n + 2) [st] p2) := by
    intro n
    cases n with
    | zero =>
      rw [sourceFile_first 0 (ae 1) rfl, parser.parseStatementLoop, parser.parseStatementLoop]
      simp only [parser.advance, if_true]
      rfl
    | succ n =>
      rw [sourceFile_first (n + 1) (ae (n + 2)) rfl, statementLoop_export (n + 1) rfl (ak n)]
  have hbs : budget s ≤ budget (str "export " ++ s) := by
    simp only [budget, List.length_append]
    omega
  obtain ⟨N, hNe⟩ : ∃ N, budget (str "export " ++ s) = N + 3 :=
    ⟨budget (str "export " ++ s) - 3, by simp only [budget, List.length_append]; omega⟩
  constructor
  · intro hp
    obtain ⟨q, hq⟩ := run_of_parse _ (N + 3) (by omega) tree hp
    rw [runE N] at hq
    obtain ⟨y, hy⟩ := sim_statement_rest sim2 N (N + 2) (N + 1) (N + 2) (by omega)
      (le_refl _) tree q hq
    rw [← runS N] at hy
    exact parse_of_run s (N + 3) (by omega) tree y hy
  · intro hp
    obtain ⟨q, hq⟩ := run_of_parse _ (N + 3) (by omega) tree hp
    rw [runS N] at hq
    obtain ⟨y, hy⟩ := sim_statement_rest sim1 (N + 1) (N + 2) (N + 1) (N + 3) (le_refl _)
      (by omega) tree q hq
    rw [← runE (N + 1)] at hy
    exact parse_of_run _ (N + 4) (by omega) tree y hy

end parser

namespace parser
open ast (Node)

theorem eat_pop {p : parser} {t : token.Token} {x' : lexer} (n : Nat) (k : token.Kind)
    (hk : p.tok.Kind = k) (h : p.lex.Pop = .ok (t, x'))
    (hc : t.Kind ≠ token.Comment ∧ t.Kind ≠ token.LineComment) :
    parser.eat (n + 1) p k = .ok (p.tok, { p with lex := x', tok := t }) := by
  simp [parser.eat, parser.expect, hk, advance_pop n h hc, bind, Except.bind, pure, Except.pure]

/-- The run of the parser on `interface I {`, a space and a member list that
starts with a name: the state at the name, and the rest of the run from it. -/
theorem interfaceI_open (name rest : List Nat) (hname : isIdent name = true)
    (hrest : endsIdent rest = true) :
    ∃ p, At p { Kind := token.Ident, Text := name } rest ∧ p.lex.isInsideBlock = true ∧
      p.lex.willBeTrailingComment = true ∧
      ∀ m, parser.parseSourceFile (m + 4)
          { lex := { Source := str "interface I \x7b " ++ (name ++ rest) } }
        = (do let (ms, q) ← parser.parseInterfaceDeclarationLoop (m + 1) [] p
              let (_, q) ← parser.eat (m + 1) q token.RBrace
              parser.parseSourceFileLoop (m + 3)
                [.InterfaceDeclaration (.Identifier (str "I")) [] [] ms []] q) := by
  have e1 : str "interface I \x7b " = str "interface" ++ [32, 73, 32, 123, 32] := by decide
  have e2 : str "I" = [73] := by decide
  have hsrc : str "interface I \x7b " ++ (name ++ rest)
      = str "interface" ++ (32 :: ([73] ++ (32 :: 123 :: 32 :: (name ++ rest)))) := by
    rw [e1]
    simp
  rw [hsrc, e2]
  generalize hg : str "interface" ++ (32 :: ([73] ++ (32 :: 123 :: 32 :: (name ++ rest)))) = src
  have n1 : NextTok src { Kind := token.Ident, Text := str "interface" }
      (32 :: ([73] ++ (32 :: 123 :: 32 :: (name ++ rest)))) := by
    rw [← hg]
    exact nextTok_ident _ (by decide) (by simp [endsIdent, lexer.identEnd])
  have n2 : NextTok (32 :: ([73] ++ (32 :: 123 :: 32 :: (name ++ rest))))
      { Kind := token.Ident, Text := [73] } (32 :: 123 :: 32 :: (name ++ rest)) :=
    nextTok_space (nextTok_ident _ (by decide) (by simp [endsIdent, lexer.identEnd]))
  have n3 : NextTok (32 :: 123 :: 32 :: (name ++ rest)) { Kind := token.LBrace }
      (32 :: (name ++ rest)) :=
    nextTok_space (nextTok_punct (c := 123) _ rfl)
  have n4 : NextTok (32 :: (name ++ rest)) { Kind := token.Ident, Text := name } rest :=
    nextTok_space (nextTok_ident _ hname hrest)
  obtain ⟨x1, a1, b1, c1⟩ := n1.2 { Source := src } rfl (by simp [lexer.rem])
  obtain ⟨x2, a2, b2, c2⟩ := n2.2 x1 c1 b1
  obtain ⟨x3, a3, b3, c3⟩ := n3.2 x2 c2 b2
  obtain ⟨x4, a4, b4, c4⟩ := n4.2 x3 c3 b3
  obtain ⟨_, _, f3, _⟩ := pop_flags c2 a3
  obtain ⟨_, f4, _, g4⟩ := pop_flags c3 a4
  simp only [] at f3 f4 g4
  refine ⟨{ lex := x4, tok := { Kind := token.Ident, Text := name } },
    ⟨rfl, b4, c4, rfl, rfl⟩, ?_, g4 (by decide) (by decide) (by decide) (by decide), ?_⟩
  · simp only []
    rw [f4 (by decide) (by decide)]
    exact f3 trivial
  intro m
  have h1 := advance_pop (p := { lex := { Source := src } }) (m + 2) a1 n1.1
  have h2 := eat_pop (p := { lex := x1, tok := { Kind := token.Ident, Text := str "interface" } })
    m token.Ident rfl a2 n2.1
  have h3 := eat_pop (p := { lex := x2, tok := { Kind := token.Ident, Text := [73] } })
    m token.Ident rfl a3 n3.1
  have h4 := eat_pop (p := { lex := x3, tok := { Kind := token.LBrace } })
    m token.LBrace rfl a4 n4.1
  have hne : str "interface" ≠ str "export" ∧ str "interface" ≠ str "const" ∧
      str "interface" ≠ str "type" ∧ str "interface" ≠ str "enum" := by decide
  rw [parser.parseSourceFile, parser.parseSourceFileLoop, h1, ok_bind]
  simp only []
  rw [if_neg (by decide), parser.parseStatement, parser.parseStatementLoop]
  simp only [parser.expect, bind, Except.bind, hne.1, hne.2.1, hne.2.2.1, hne.2.2.2,
    if_false, if_true, parser.parseInterfaceDeclaration, h2, parser.consumeComment,
    parser.parseIdentifier, h3, h4,
    pure, Except.pure, ne_eq, not_true_eq_false,
    List.nil_append, and_self, token.Ident, token.LAngle, token.LBrace,
    show ¬ ((14 : token.Kind) = 16) by decide, show ¬ ((14 : token.Kind) = 4) by decide,
    false_and]
  cases parser.parseInterfaceDeclarationLoop (m + 1) []
      { lex := x4, tok := { Kind := token.Ident, Text := name } } with
  | error e => rfl
  | ok r =>
    obtain ⟨ms, q⟩ := r
    simp only []
    cases parser.eat (m + 1) q token.RBrace with
    | error e => rfl
    | ok r2 => rfl

/-- The modifier `readonly` of a property: the member list is parsed as from the
name of the property. -/
theorem interfaceLoop_readonly {p p1 : parser} {n rest rest1 : List Nat} (k : Nat)
    (hp : At p { Kind := token.Ident, Text := str "readonly" } rest)
    (hp1 : At p1 { Kind := token.Ident, Text := n } rest1) (hn : n ≠ str "readonly")
    (h : parser.advance k p = .ok p1) :
    parser.parseInterfaceDeclarationLoop (k + 3) [] p
      = parser.parseInterfaceDeclarationLoop (k + 3) [] p1 := by
  rw [parser.parseInterfaceDeclarationLoop, parser.parseInterfaceDeclarationLoop,
    parser.parseSignature, parser.parseSignature, parser.parsePropertySignature,
    parser.parsePropertySignature, at_consumeComment hp, at_consumeComment hp1]
  simp only [hp.1, hp1.1, h, ok_bind, hn, and_false, and_self, if_true, if_false,
    show ¬ (token.Ident = token.RBrace) by decide, pure, Except.pure]

/-- After the member list of an interface that starts at the state `p`, the rest
of the source file: the runs from a state that `p` simulates. -/
theorem sim_interface_rest {p q : parser} (hs : Sim p q) (name : Node) (a b a' b' : Nat)
    (ha : a ≤ a') (hb : b ≤ b') (tree : Node) (x : parser)
    (h : (do let (ms, q) ← parser.parseInterfaceDeclarationLoop a [] p
             let (_, q) ← parser.eat a q token.RBrace
             parser.parseSourceFileLoop b [.InterfaceDeclaration name [] [] ms []] q)
          = .ok (tree, x)) :
    ∃ y, (do let (ms, q) ← parser.parseInterfaceDeclarationLoop a' [] q
             let (_, q) ← parser.eat a' q token.RBrace
             parser.parseSourceFileLoop b' [.InterfaceDeclaration name [] [] ms []] q)
          = .ok (tree, y) := by
  simp only [bind_ok, Prod.exists] at h
  obtain ⟨ms, p2, h1, t, p3, h2, h3⟩ := h
  obtain ⟨q2, hq2, hs2⟩ := sim_parseInterfaceDeclarationLoop a [] a' p q _ _ ha hs h1
  obtain ⟨q3, hq3, hs3⟩ := sim_eat token.RBrace a a' p2 q2 _ _ ha hs2 h2
  obtain ⟨y, hy, _⟩ := sim_parseSourceFileLoop b _ b' p3 q3 _ _ hb hs3 h3
  simp only [] at hq2 hq3 hy
  exact ⟨y, by simp only [hq2, hq3, bind, Except.bind]; exact hy⟩

/-- The modifier `readonly` before the name of the first property of an
interface: the tree is the tree of the source without the modifier. -/
theorem readonly_run (n rest : List Nat) (hn : isIdent n = true) (hne : n ≠ str "readonly")
    (hr : endsIdent rest = true) (tree : Node) :
    Parse (str "interface I \x7b " ++ (str "readonly" ++ (32 :: (n ++ rest)))) = .ok tree ↔
      Parse (str "interface I \x7b " ++ (n ++ rest)) = .ok tree := by
  obtain ⟨p, hp, fb, fw, run1⟩ := interfaceI_open (str "readonly") (32 :: (n ++ rest))
    (by decide) (by simp [endsIdent, lexer.identEnd])
  obtain ⟨q, hq, gb, gw, run2⟩ := interfaceI_open n rest hn hr
  have hN : NextTok (32 :: (n ++ rest)) { Kind := token.Ident, Text := n } rest :=
    nextTok_space (nextTok_ident _ hn hr)
  obtain ⟨x', a, b, c⟩ := hN.2 p.lex hp.2.2.1 hp.2.1
  have adv : ∀ k, parser.advance (k + 1) p
      = .ok { p with lex := x', tok := { Kind := token.Ident, Text := n } } :=
    fun k => advance_pop k a hN.1
  have hp1 : At { p with lex := x', tok := { Kind := token.Ident, Text := n } }
      { Kind := token.Ident, Text := n } rest := ⟨rfl, b, c, hp.2.2.2.1, hp.2.2.2.2⟩
  obtain ⟨_, f2, _, f4⟩ := advance_flags 1 _ _ hp.2.2.1 (adv 0)
  simp only [] at f2 f4
  have hb : x'.isInsideBlock = q.lex.isInsideBlock := by
    rw [f2 (by decide) (by decide), fb, gb]
  have hw : x'.willBeTrailingComment = q.lex.willBeTrailingComment := by
    rw [f4 (by decide) (by decide), gw]
  have sim1 := sim_of_at hp1 hq hb hw
  have sim2 := sim_of_at hq hp1 hb.symm hw.symm
  have hbs : budget (str "interface I \x7b " ++ (n ++ rest))
      ≤ budget (str "interface I \x7b " ++ (str "readonly" ++ (32 :: (n ++ rest)))) := by
    simp only [budget, List.length_append, List.length_cons]
    omega
  obtain ⟨K, hK⟩ : ∃ K, budget (str "interface I \x7b " ++ (str "readonly" ++ (32 :: (n ++ rest))))
      = K + 7 :=
    ⟨budget (str "interface I \x7b " ++ (str "readonly" ++ (32 :: (n ++ rest)))) - 7,
      by simp only [budget, List.length_append]; omega⟩
  constructor
  · intro h
    obtain ⟨y, hy⟩ := run_of_parse _ (K + 7) (by omega) tree h
    rw [run1 (K + 3), interfaceLoop_readonly (K + 1) hp hp1 hne (adv K)] at hy
    obtain ⟨z, hz⟩ := sim_interface_rest sim1 _ (K + 4) (K + 6) (K + 4) (K + 6) (le_refl _)
      (le_refl _) tree y hy
    rw [← run2 (K + 3)] at hz
    exact parse_of_run _ (K + 7) (by omega) tree z hz
  · intro h
    obtain ⟨y, hy⟩ := run_of_parse _ (K + 7) (by omega) tree h
    rw [run2 (K + 3)] at hy
    obtain ⟨z, hz⟩ := sim_interface_rest sim2 _ (K + 4) (K + 6) (K + 4) (K + 6) (le_refl _)
      (le_refl _) tree y hy
    rw [← interfaceLoop_readonly (K + 1) hp hp1 hne (adv K), ← run1 (K + 3)] at hz
    exact parse_of_run _ (K + 7) (by omega) tree z hz

end parser

namespace parser
open ast (Node)

/-- The bytes of an identifier are ASCII letters, digits and underscores. -/
theorem isIdent_chars {t : List Nat} (h : isIdent t = true) :
    t ≠ [] ∧ ∀ b ∈ t, (97 ≤ b ∧ b ≤ 122) ∨ (65 ≤ b ∧ b ≤ 90) ∨ (48 ≤ b ∧ b ≤ 57) ∨ b = 95 := by
  cases t with
  | nil => simp [isIdent] at h
  | cons c cs =>
    simp only [isIdent, Bool.and_eq_true, List.all_eq_true] at h
    refine ⟨by simp, ?_⟩
    intro b hb
    rcases List.mem_cons.1 hb with rfl | hb
    · have := h.1
      simp only [identStart, Bool.or_eq_true, Bool.and_eq_true, decide_eq_true_eq] at this
      rcases this with h1 | h1
      · exact Or.inl h1
      · exact Or.inr (Or.inl h1)
    · have := h.2 b hb
      simp only [lexer.identEnd, Bool.not_not, Bool.or_eq_true, Bool.and_eq_true,
        decide_eq_true_eq] at this
      rcases this with ((h1 | h1) | h1) | h1
      · exact Or.inl h1
      · exact Or.inr (Or.inl h1)
      · exact Or.inr (Or.inr (Or.inl h1))
      · exact Or.inr (Or.inr (Or.inr h1))

/-- A property named `readonly` followed by its colon: the member list fails at
the colon, where the name is expected. -/
theorem interfaceLoop_readonly_err {p : parser} (r : List Nat) (n : Nat)
    (hp : At p { Kind := token.Ident, Text := str "readonly" } (58 :: r)) :
    parser.parseInterfaceDeclarationLoop (n + 4) [] p
      = .error (.expectedKind token.Ident { Kind := token.Colon }) := by
  rw [parser.parseInterfaceDeclarationLoop, hp.1, parser.parseSignature, hp.1]
  simp only [show ¬ (token.Ident = token.RBrace) by decide, if_false, if_true]
  rw [propertySignature_readonly_run r n hp]
  rfl

/-- A property whose type is followed by a dot: the member list fails at the dot. -/
theorem interfaceLoop_dot_err {p p' : parser} {w : List Nat} {sig : Node} {r : List Nat}
    (n : Nat) (ht : p.tok = { Kind := token.Ident, Text := w })
    (h : parser.parsePropertySignature (n + 7) p = .ok (sig, p'))
    (hp' : At p' { Kind := token.Dot } r) :
    parser.parseInterfaceDeclarationLoop (n + 9) [] p
      = .error (.unexpectedToken { Kind := token.Dot }) := by
  rw [parser.parseInterfaceDeclarationLoop, ht, parser.parseSignature, ht]
  simp only [show ¬ (token.Ident = token.RBrace) by decide, if_false, if_true, h, ok_bind]
  rw [parser.parseInterfaceDeclarationLoop, hp'.1, parser.parseSignature, hp'.1]
  simp only [show ¬ (token.Dot = token.RBrace) by decide, show ¬ (token.Dot = token.Ident) by decide,
    show ¬ (token.Dot = token.LBrack) by decide, if_false]
  rfl

/-- `Parse` of an interface `I` with the one property `x: A.B;`. -/
theorem qualified_run (x A B : List Nat) (hx : isIdent x = true) (hro : x ≠ str "readonly")
    (hA : isIdent A = true) (hB : isIdent B = true) :
    Parse (str "interface I \x7b " ++ (x ++ 58 :: 32 :: (A ++ 46 :: (B ++ [59, 32, 125]))))
      = .ok (.SourceFile [.InterfaceDeclaration (.Identifier (str "I")) [] []
          [.PropertySignature (.Identifier x) false
            (.TypeReference (.QualifiedName (.Identifier A) (.Identifier B))) [] []] []]) := by
  refine interfaceI_ok x _ _ hx (by simp [endsIdent, lexer.identEnd]) ?_
  intro p n hp
  obtain ⟨p', h, hp'⟩ := propertySignature_qualified_run x A B [] n hro hA hB hp
  exact ⟨p', interfaceLoop_one n hp.1 h hp', hp'⟩

/-- `Parse` of an interface `I` with a property whose type has a second dot. -/
theorem qualified3_run (x A B r : List Nat) (hx : isIdent x = true)
    (hA : isIdent A = true) (hB : isIdent B = true) :
    Parse (str "interface I \x7b " ++ (x ++ 58 :: 32 :: (A ++ 46 :: (B ++ 46 :: r))))
      = .error (if x = str "readonly" then .expectedKind token.Ident { Kind := token.Colon }
                else .unexpectedToken { Kind := token.Dot }) := by
  by_cases hro : x = str "readonly"
  · rw [if_pos hro]
    subst hro
    refine interfaceI_err _ _ _ (by decide) (by simp [endsIdent, lexer.identEnd]) ?_
    intro p n hp
    exact interfaceLoop_readonly_err _ (n + 5) hp
  · rw [if_neg hro]
    refine interfaceI_err x _ _ hx (by simp [endsIdent, lexer.identEnd]) ?_
    intro p n hp
    obtain ⟨p', h, hp'⟩ := propertySignature_qualified3_run x A B r n hro hA hB hp
    exact interfaceLoop_dot_err n hp.1 h hp'

/-- `Parse` of an interface `I` whose first property is named `readonly`. -/
theorem readonly_name_run (r : List Nat) :
    Parse (str "interface I \x7b " ++ (str "readonly" ++ 58 :: r))
      = .error (.expectedKind token.Ident { Kind := token.Colon }) := by
  refine interfaceI_err _ _ _ (by decide) (by simp [endsIdent, lexer.identEnd]) ?_
  intro p n hp
  exact interfaceLoop_readonly_err _ (n + 5) hp

/-- `Parse` of an interface `I` with the one property `n: T;` or `n?: T;`. -/
theorem property_run (n T : List Nat) (q : Bool) (hn : isIdent n = true)
    (hro : n ≠ str "readonly") (hT : isIdent T = true) :
    Parse (str "interface I \x7b " ++ (n ++ ((if q then [63] else []) ++
        58 :: 32 :: (T ++ [59, 32, 125]))))
      = .ok (.SourceFile [.InterfaceDeclaration (.Identifier (str "I")) [] []
          [.PropertySignature (.Identifier n) q (typeRef T) [] []] []]) := by
  refine interfaceI_ok n _ _ hn (by cases q <;> simp [endsIdent, lexer.identEnd]) ?_
  intro p k hp
  obtain ⟨p', h, hp'⟩ := propertySignature_ref_run n T [] q k hro hT hp
  exact ⟨p', interfaceLoop_one k hp.1 h hp', hp'⟩

/-- `Parse` of `interface P<T1, ..., Tn> {}`. -/
theorem interfaceParams_empty_run (P T : List Nat) (Ts : List (List Nat))
    (hP : isIdent P = true) (hT : isIdent T = true) (hTs : ∀ V ∈ Ts, isIdent V = true) :
    Parse (str "interface " ++ P ++ str "<" ++ List.intercalate (str ", ") (T :: Ts)
        ++ str "> \x7b" ++ [125])
      = .ok (.SourceFile [.InterfaceDeclaration (.Identifier P) ((T :: Ts).map typeParameterOf)
          [] [] []]) := by
  refine interfaceParams_ok P T Ts [125] [] { Kind := token.RBrace } [] hP hT hTs
    (nextTok_punct (c := 125) _ rfl) ?_
  intro p n hp
  refine ⟨p, ?_, hp⟩
  rw [parser.parseInterfaceDeclarationLoop, hp.1]
  rfl

/-- `Parse` of `interface P<T1, ..., Tn> { token: Tok; value: T; }`. -/
theorem interfaceParams_members_run (P T : List Nat) (Ts : List (List Nat))
    (hP : isIdent P = true) (hT : isIdent T = true) (hTs : ∀ V ∈ Ts, isIdent V = true) :
    Parse (str "interface " ++ P ++ str "<" ++ List.intercalate (str ", ") (T :: Ts)
        ++ str "> \x7b" ++ str " token: Tok; value: T; \x7d")
      = .ok (.SourceFile [.InterfaceDeclaration (.Identifier P) ((T :: Ts).map typeParameterOf)
          []
          [.PropertySignature (.Identifier (str "token")) false (typeRef (str "Tok")) [] [],
            .PropertySignature (.Identifier (str "value")) false (typeRef (str "T")) [] []]
          []]) := by
  have e : str " token: Tok; value: T; \x7d" = 32 :: (str "token" ++ str ": Tok; value: T; \x7d") := by
    decide
  refine interfaceParams_ok P T Ts _ (str ": Tok; value: T; \x7d")
    { Kind := token.Ident, Text := str "token" } _ hP hT hTs ?_ ?_
  · rw [e]
    exact nextTok_space (nextTok_ident _ (by decide) (by decide))
  · intro p n hp
    exact interfaceLoop_token_value n hp

end parser

namespace parser

theorem digitsRev_decode : ∀ (fuel n : Nat), n < fuel →
    (token.digitsRev fuel n).foldr (fun d acc => (d - 48) + 10 * acc) 0 = n := by
  intro fuel
  induction fuel with
  | zero => intro n h; omega
  | succ fuel ih =>
    intro n h
    rw [token.digitsRev]
    by_cases h10 : n < 10
    · rw [if_pos h10]
      simp
    · rw [if_neg h10]
      simp only [List.foldr_cons]
      rw [ih (n / 10) (by omega)]
      omega

theorem digitsRev_range : ∀ (fuel n : Nat), ∀ d ∈ token.digitsRev fuel n, 48 ≤ d ∧ d ≤ 57 := by
  intro fuel
  induction fuel with
  | zero => intro n d h; simp [token.digitsRev] at h
  | succ fuel ih =>
    intro n d h
    rw [token.digitsRev] at h
    by_cases h10 : n < 10
    · rw [if_pos h10] at h
      simp only [List.mem_singleton] at h
      omega
    · rw [if_neg h10] at h
      rcases List.mem_cons.1 h with h | h
      · omega
      · exact ih _ d h

theorem digitsRev_inj {a b : Nat}
    (h : token.digitsRev (a + 1) a = token.digitsRev (b + 1) b) : a = b := by
  have ha := digitsRev_decode (a + 1) a (by omega)
  have hb := digitsRev_decode (b + 1) b (by omega)
  rw [h] at ha
  omega

/-- Go `strconv.Itoa` is injective. -/
theorem itoa_inj {a b : Int} (h : token.itoa a = token.itoa b) : a = b := by
  unfold token.itoa at h
  by_cases ha : a < 0
  · rw [if_pos ha] at h
    by_cases hb : b < 0
    · rw [if_pos hb] at h
      simp only [List.cons.injEq, true_and, List.reverse_inj] at h
      have := digitsRev_inj h
      omega
    · rw [if_neg hb] at h
      exfalso
      have hm : 45 ∈ (token.digitsRev (b.toNat + 1) b.toNat).reverse := by
        rw [← h]
        simp
      have := digitsRev_range _ _ 45 (List.mem_reverse.1 hm)
      omega
  · rw [if_neg ha] at h
    by_cases hb : b < 0
    · rw [if_pos hb] at h
      exfalso
      have hm : 45 ∈ (token.digitsRev (a.toNat + 1) a.toNat).reverse := by
        rw [h]
        simp
      have := digitsRev_range _ _ 45 (List.mem_reverse.1 hm)
      omega
    · rw [if_neg hb] at h
      simp only [List.reverse_inj] at h
      have := digitsRev_inj h
      omega

theorem kindString_table (k : Int) (h0 : 0 ≤ k) (h1 : k < 23) :
    token.Kind.String k = token.tokens.getD k.toNat [] := by
  have hl : (token.tokens.length : Int) = 23 := rfl
  unfold token.Kind.String
  rw [if_pos ⟨h0, by rw [hl]; exact h1⟩]

theorem kindString_other (k : Int) (h : k < 0 ∨ 23 ≤ k) :
    token.Kind.String k = str "token(" ++ token.itoa k ++ str ")" := by
  have hl : (token.tokens.length : Int) = 23 := rfl
  unfold token.Kind.String
  rw [if_neg]
  rw [hl]
  intro hc
  have c1 : (0 : Int) ≤ k := hc.1
  have c2 : k < (23 : Int) := hc.2
  omega

theorem tokens_distinct : ∀ i : Fin 23, ∀ j : Fin 23,
    token.tokens.getD i.1 [] = token.tokens.getD j.1 [] → i = j := by
  decide

theorem tokens_not_other : ∀ i : Fin 23,
    (token.tokens.getD i.1 []).take 6 ≠ str "token(" ∧ token.tokens.getD i.1 [] ≠ [] := by
  decide

theorem kindString_table_ne_other (j k : Int) (h0 : 0 ≤ j) (h1 : j < 23)
    (hk : k < 0 ∨ 23 ≤ k) : token.Kind.String k ≠ token.Kind.String j := by
  rw [kindString_table j h0 h1, kindString_other k hk]
  intro h
  have h2 := (tokens_not_other ⟨j.toNat, by omega⟩).1
  apply h2
  simp only []
  rw [← h]
  have e : str "token(" = [116, 111, 107, 101, 110, 40] := by decide
  rw [e]
  rfl

theorem kindString_inj (a b : Int) (h : token.Kind.String a = token.Kind.String b) :
    a = b := by
  by_cases ha : 0 ≤ a ∧ a < 23
  · by_cases hb : 0 ≤ b ∧ b < 23
    · rw [kindString_table a ha.1 ha.2, kindString_table b hb.1 hb.2] at h
      have := tokens_distinct ⟨a.toNat, by omega⟩ ⟨b.toNat, by omega⟩ h
      simp only [Fin.mk.injEq] at this
      omega
    · exact absurd h.symm (kindString_table_ne_other a b ha.1 ha.2 (by omega))
  · by_cases hb : 0 ≤ b ∧ b < 23
    · exact absurd h (kindString_table_ne_other b a hb.1 hb.2 (by omega))
    · rw [kindString_other a (by omega), kindString_other b (by omega)] at h
      simp only [List.append_assoc, List.append_cancel_left_eq, List.append_cancel_right_eq] at h
      exact itoa_inj h

/-- `Kind.String` is injective. -/
theorem kindString_injective : Function.Injective token.Kind.String :=
  fun a b h => kindString_inj a b h

theorem kindString_ne_nil (k : Int) (h0 : 0 ≤ k) (h1 : k < 23) :
    token.Kind.String k ≠ [] := by
  rw [kindString_table k h0 h1]
  exact (tokens_not_other ⟨k.toNat, by omega⟩).2

end parser

namespace parser

/-- The offset stays within the source. -/
theorem nextLoop_le : ∀ (n : Nat) (x x' : lexer) (t : token.Token),
    lexer.nextLoop n x = .ok (t, x') → x.offset ≤ x.Source.length →
    x'.offset ≤ x.Source.length := by
  intro n
  induction n with
  | zero => intro x x' t h; rw [lexer.nextLoop] at h; cases h
  | succ n ih =>
    intro x x' t h hle
    by_cases hlt : x.offset < x.Source.length
    · obtain ⟨c, hc⟩ := idx_ok hlt
      by_cases hws : c = 32 ∨ c = 9 ∨ c = 13
      · rw [lexer.nextLoop, if_pos hlt, hc, ok_bind, if_pos hws] at h
        have := ih _ _ _ h (by simp only []; omega)
        exact this
      by_cases hnl : c = 10
      · rw [lexer.nextLoop, if_pos hlt, hc, ok_bind, if_neg hws, if_pos hnl] at h
        have := ih _ _ _ h (by simp only []; omega)
        exact this
      by_cases hsl : c = 47
      · rw [lexer.nextLoop, if_pos hlt, hc, ok_bind, if_neg hws, if_neg hnl, if_pos hsl] at h
        obtain ⟨t0, o, h1, _, h3, _⟩ := nextComment_total x hlt
        rw [h1] at h
        cases h
        exact h3
      cases hp : punctKind c with
      | some k =>
        have hb := nextLoop_punct_flags n hlt hc hp
        rw [hb] at h
        cases h
        simp only []
        omega
      | none =>
        rw [nextLoop_other n hlt hc hws hnl hsl hp] at h
        by_cases hq : c = 39
        · rw [if_pos hq] at h
          obtain ⟨t0, o, h1, _, h3, _⟩ :=
            nextString_total { x with willBeTrailingComment := true } hlt
          rw [h1] at h
          cases h
          exact h3
        rw [if_neg hq] at h
        by_cases hd : c ≥ 48 ∧ c ≤ 57
        · rw [if_pos hd] at h
          obtain ⟨t0, o, h1, _, h3, _⟩ :=
            nextNumber_total { x with willBeTrailingComment := true } hlt c hc hd
          rw [h1] at h
          cases h
          exact h3
        rw [if_neg hd] at h
        by_cases hl : (c ≥ 97 ∧ c ≤ 122) ∨ (c ≥ 65 ∧ c ≤ 90)
        · rw [if_pos hl] at h
          obtain ⟨t0, o, h1, _, h3, _⟩ :=
            nextIdent_total { x with willBeTrailingComment := true } hlt c hc
              (by simpa [identStart] using hl)
          rw [h1] at h
          cases h
          exact h3
        · rw [if_neg hl] at h
          cases h
          exact hle
    · rw [lexer.nextLoop, if_neg hlt] at h
      cases h
      exact hle

/-- A call of `Peek` or of `Pop` on a lexer whose offset is within the source and
whose buffer holds no text without a kind: the call returns a token, the source is
the same, the offset does not decrease and stays within the source. -/
theorem call_total (c : lexer.Call) (x : lexer) (hle : x.offset ≤ x.Source.length)
    (hb : x.nextToken.Kind = 0 → x.nextToken = {}) :
    ∃ t x', lexer.call c x = .ok (t, x') ∧ x'.Source = x.Source ∧ x.offset ≤ x'.offset ∧
      x'.offset ≤ x.Source.length ∧ (x'.nextToken.Kind = 0 → x'.nextToken = {}) := by
  by_cases hk : x.nextToken.Kind = 0
  · have h0 := hb hk
    obtain ⟨t, x', h1, h2, h3, h4, _, _, h7⟩ := pop_total x h0
    have hle' : x'.offset ≤ x.Source.length := by
      rw [pop_next x h0] at h1
      exact nextLoop_le _ _ _ _ h1 hle
    cases c with
    | Pop => exact ⟨t, x', h1, h3, h4, hle', fun _ => h2⟩
    | Peek =>
      refine ⟨t, { x' with nextToken := t }, ?_, h3, h4, hle', ?_⟩
      · simp only [lexer.call, lexer.Peek, hk, if_true]
        simp only [lexer.Pop, hk, if_true] at h1
        rw [h1]
        rfl
      · intro hz
        simp only [] at hz ⊢
        have := h7 (Or.inr hz)
        cases t with
        | mk k tx =>
          simp only [] at hz this
          rw [hz, this]
  · cases c with
    | Pop =>
      refine ⟨x.nextToken, { x with nextToken := {} }, ?_, rfl, le_refl _, hle, fun _ => rfl⟩
      simp only [lexer.call, lexer.Pop, hk, if_false]
      rfl
    | Peek =>
      refine ⟨x.nextToken, x, ?_, rfl, le_refl _, hle, hb⟩
      simp only [lexer.call, lexer.Peek, hk, if_false]
      rfl

theorem calls_total : ∀ (cs : List lexer.Call) (x : lexer), x.offset ≤ x.Source.length →
    (x.nextToken.Kind = 0 → x.nextToken = {}) →
    ∃ x', lexer.calls cs x = .ok x' ∧ x'.Source = x.Source ∧ x.offset ≤ x'.offset ∧
      x'.offset ≤ x.Source.length ∧ (x'.nextToken.Kind = 0 → x'.nextToken = {}) := by
  intro cs
  induction cs with
  | nil => intro x hle hb; exact ⟨x, rfl, rfl, le_refl _, hle, hb⟩
  | cons c cs ih =>
    intro x hle hb
    obtain ⟨t, x1, h1, h2, h3, h4, h5⟩ := call_total c x hle hb
    obtain ⟨x2, g1, g2, g3, g4, g5⟩ := ih x1 (by rw [h2]; exact h4) h5
    refine ⟨x2, ?_, by rw [g2, h2], le_trans h3 g3, by rw [h2] at g4; exact g4, g5⟩
    rw [lexer.calls, h1, ok_bind]
    exact g1

/-- `Peek` of a token other than `Illegal`: the token is held, so that `Peek`
returns it again and `Pop` is what it is without the `Peek`. -/
theorem peek_pop {x x1 : lexer} {t : token.Token}
    (hb : x.nextToken.Kind = 0 → x.nextToken = {})
    (h : x.Peek = .ok (t, x1)) (ht : t.Kind ≠ token.Illegal) :
    x1.Peek = .ok (t, x1) ∧ x1.Pop = x.Pop ∧ ∃ x2, x.Pop = .ok (t, x2) := by
  by_cases hk : x.nextToken.Kind = 0
  · have h0 := hb hk
    obtain ⟨t', x', h1, h2, _⟩ := pop_total x h0
    have hn : x.next = .ok (t', x') := by
      simp only [lexer.Pop, hk, if_true] at h1
      exact h1
    simp only [lexer.Peek, hk, if_true, hn, ok_bind] at h
    cases h
    have hk1 : ¬ (t.Kind = 0) := ht
    refine ⟨?_, ?_, x', h1⟩
    · rw [lexer.Peek]
      simp only []
      rw [if_neg hk1]
      rfl
    · rw [h1, lexer.Pop]
      simp only []
      rw [if_neg hk1]
      cases x' with
      | mk S o b w nt =>
        simp only [] at h2
        rw [h2]
        rfl
  · simp only [lexer.Peek, hk, if_false] at h
    cases h
    refine ⟨?_, rfl, { x with nextToken := {} }, ?_⟩
    · simp only [lexer.Peek, hk, if_false]
      rfl
    · simp only [lexer.Pop, hk, if_false]
      rfl

end parser

namespace parser

theorem skipRun_settled (c : Nat) : ∀ (n : Nat) (x : lexer), x.Source.length - x.offset ≤ n →
    ∀ m, n ≤ m → lexer.skipRun c m x = lexer.skipRun c n x := by
  intro n
  induction n with
  | zero =>
    intro x hn m _
    cases m with
    | zero => rfl
    | succ m => rw [lexer.skipRun, lexer.skipRun, if_neg (show ¬ (x.offset + 1 < x.Source.length) by omega)]; rfl
  | succ n ih =>
    intro x hn m hm
    obtain ⟨m, rfl⟩ : ∃ m', m = m' + 1 := ⟨m - 1, by omega⟩
    rw [lexer.skipRun, lexer.skipRun]
    by_cases h : x.offset + 1 < x.Source.length
    · rw [if_pos h, if_pos h]
      cases idx x.Source x.offset with
      | error e => rfl
      | ok b =>
        simp only [ok_bind]
        by_cases hb : b = c
        · rw [if_pos hb, if_pos hb]
          exact ih _ (by simp only []; omega) m (by omega)
        · rw [if_neg hb, if_neg hb]
    · rw [if_neg h, if_neg h]

theorem skipLine_settled : ∀ (n : Nat) (x : lexer), x.Source.length - x.offset ≤ n →
    ∀ m, n ≤ m → lexer.skipLine m x = lexer.skipLine n x := by
  intro n
  induction n with
  | zero =>
    intro x hn m _
    cases m with
    | zero => rfl
    | succ m => rw [lexer.skipLine, lexer.skipLine, if_neg (show ¬ (x.offset < x.Source.length) by omega)]; rfl
  | succ n ih =>
    intro x hn m hm
    obtain ⟨m, rfl⟩ : ∃ m', m = m' + 1 := ⟨m - 1, by omega⟩
    rw [lexer.skipLine, lexer.skipLine]
    by_cases h : x.offset < x.Source.length
    · rw [if_pos h, if_pos h]
      cases idx x.Source x.offset with
      | error e => rfl
      | ok b =>
        simp only [ok_bind]
        by_cases hb : b ≠ 10
        · rw [if_pos hb, if_pos hb]
          exact ih _ (by simp only []; omega) m (by omega)
        · rw [if_neg hb, if_neg hb]
    · rw [if_neg h, if_neg h]

theorem skipDigits_settled : ∀ (n : Nat) (x : lexer), x.Source.length - x.offset ≤ n →
    ∀ m, n ≤ m → lexer.skipDigits m x = lexer.skipDigits n x := by
  intro n
  induction n with
  | zero =>
    intro x hn m _
    cases m with
    | zero => rfl
    | succ m => rw [lexer.skipDigits, lexer.skipDigits, if_neg (show ¬ (x.offset < x.Source.length) by omega)]; rfl
  | succ n ih =>
    intro x hn m hm
    obtain ⟨m, rfl⟩ : ∃ m', m = m' + 1 := ⟨m - 1, by omega⟩
    rw [lexer.skipDigits, lexer.skipDigits]
    by_cases h : x.offset < x.Source.length
    · rw [if_pos h, if_pos h]
      cases idx x.Source x.offset with
      | error e => rfl
      | ok b =>
        simp only [ok_bind]
        by_cases hb : b ≥ 48 ∧ b ≤ 57
        · rw [if_pos hb, if_pos hb]
          exact ih _ (by simp only []; omega) m (by omega)
        · rw [if_neg hb, if_neg hb]
    · rw [if_neg h, if_neg h]

theorem backStars_settled (s : List Nat) : ∀ (n i : Nat), i ≤ n →
    ∀ m, n ≤ m → lexer.backStars s m i = lexer.backStars s n i := by
  intro n
  induction n with
  | zero =>
    intro i hn m _
    cases m with
    | zero => rfl
    | succ m => rw [lexer.backStars, lexer.backStars, if_neg (show ¬ (i > 0) by omega)]; rfl
  | succ n ih =>
    intro i hn m hm
    obtain ⟨m, rfl⟩ : ∃ m', m = m' + 1 := ⟨m - 1, by omega⟩
    rw [lexer.backStars, lexer.backStars]
    by_cases h : i > 0
    · rw [if_pos h, if_pos h]
      cases idx s (i - 1) with
      | error e => rfl
      | ok b =>
        simp only [ok_bind]
        by_cases hb : b = 42
        · rw [if_pos hb, if_pos hb]
          exact ih _ (by omega) m (by omega)
        · rw [if_neg hb, if_neg hb]
    · rw [if_neg h, if_neg h]

theorem reflow_settled (s : List Nat) (e : Nat) : ∀ (n off : Nat) (acc : List Nat),
    e - off ≤ n → ∀ m, n ≤ m → lexer.reflow s e m off acc = lexer.reflow s e n off acc := by
  intro n
  induction n with
  | zero =>
    intro off acc hn m _
    cases m with
    | zero => rfl
    | succ m => rw [lexer.reflow, lexer.reflow, if_neg (show ¬ (off < e) by omega)]; rfl
  | succ n ih =>
    intro off acc hn m hm
    obtain ⟨m, rfl⟩ : ∃ m', m = m' + 1 := ⟨m - 1, by omega⟩
    rw [lexer.reflow, lexer.reflow]
    by_cases h : off < e
    · rw [if_pos h, if_pos h]
      cases slice s off e with
      | error err => rfl
      | ok line =>
        simp only [ok_bind]
        cases bytesIndex line [10] with
        | none => rfl
        | some lineEnd =>
          simp only []
          cases slice s off (off + lineEnd) with
          | error err => rfl
          | ok head =>
            simp only [ok_bind]
            cases slice s (off + lineEnd + 1) e with
            | error err => rfl
            | ok rest =>
              simp only [ok_bind]
              cases indexFunc (fun r => r ≠ 32 && r ≠ 9 && r ≠ 42) rest with
              | none => rfl
              | some i => exact ih _ _ (by omega) m (by omega)
    · rw [if_neg h, if_neg h]

theorem stripSpace_length {spaces : List (List Nat)} (hs : ∀ w ∈ spaces, w ≠ [])
    {s rest : List Nat} (h : stripSpace spaces s = some rest) : rest.length < s.length := by
  cases s with
  | nil => simp [stripSpace] at h
  | cons b r =>
    simp only [stripSpace] at h
    split at h
    · cases h
      simp
    · simp only [Option.map_eq_some'] at h
      obtain ⟨w, hw, hr⟩ := h
      have hmem := List.mem_of_find?_eq_some hw
      have hne := hs w hmem
      rw [← hr]
      simp only [List.length_drop, List.length_cons]
      have : 0 < w.length := List.length_pos.2 hne
      omega

theorem trimLeft_settled {spaces : List (List Nat)} (hs : ∀ w ∈ spaces, w ≠ []) :
    ∀ (n : Nat) (s : List Nat), s.length ≤ n →
    ∀ m, n ≤ m → trimLeft spaces m s = trimLeft spaces n s := by
  intro n
  induction n with
  | zero =>
    intro s hn m _
    have : s = [] := List.eq_nil_of_length_eq_zero (by omega)
    subst this
    cases m with
    | zero => rfl
    | succ m => simp [trimLeft, stripSpace]
  | succ n ih =>
    intro s hn m hm
    obtain ⟨m, rfl⟩ : ∃ m', m = m' + 1 := ⟨m - 1, by omega⟩
    rw [trimLeft, trimLeft]
    cases h : stripSpace spaces s with
    | none => rfl
    | some rest =>
      simp only []
      have := stripSpace_length hs h
      exact ih rest (by omega) m (by omega)

theorem nextLoop_settled : ∀ (n : Nat) (x : lexer), x.Source.length - x.offset + 1 ≤ n →
    ∀ m, n ≤ m → lexer.nextLoop m x = lexer.nextLoop n x := by
  intro n
  induction n with
  | zero => intro x hn; omega
  | succ n ih =>
    intro x hn m hm
    obtain ⟨m, rfl⟩ : ∃ m', m = m' + 1 := ⟨m - 1, by omega⟩
    by_cases hlt : x.offset < x.Source.length
    · obtain ⟨c, hc⟩ := idx_ok hlt
      by_cases hws : c = 32 ∨ c = 9 ∨ c = 13
      · rw [lexer.nextLoop, lexer.nextLoop, if_pos hlt, if_pos hlt, hc, ok_bind, ok_bind,
          if_pos hws, if_pos hws]
        exact ih _ (by simp only []; omega) m (by omega)
      by_cases hnl : c = 10
      · rw [lexer.nextLoop, lexer.nextLoop, if_pos hlt, if_pos hlt, hc, ok_bind, ok_bind,
          if_neg hws, if_neg hws, if_pos hnl, if_pos hnl]
        exact ih _ (by simp only []; omega) m (by omega)
      rw [lexer.nextLoop, lexer.nextLoop, if_pos hlt, if_pos hlt, hc, ok_bind, ok_bind,
        if_neg hws, if_neg hws, if_neg hnl, if_neg hnl]
    · rw [lexer.nextLoop, lexer.nextLoop, if_neg hlt, if_neg hlt]

end parser

namespace parser
open ast (Node)

/-- White space before a token: a space, a tab or a carriage return. -/
theorem nextTok_blank {rem rem' : List Nat} {t : token.Token} (c : Nat)
    (hc : c = 32 ∨ c = 9 ∨ c = 13) (h : NextTok rem t rem') : NextTok (c :: rem) t rem' := by
  refine ⟨h.1, ?_⟩
  intro x hx hr
  obtain ⟨hlt, hidx, hrem⟩ := rem_cons hr
  obtain ⟨x', h1, h2, h3⟩ := h.2 { x with offset := x.offset + 1 } hx hrem
  refine ⟨x', ?_, h2, h3⟩
  rw [← h1, pop_next x hx, pop_next { x with offset := x.offset + 1 } hx]
  have e : x.Source.length - x.offset + 1 = (x.Source.length - (x.offset + 1) + 1) + 1 := by omega
  rw [e, lexer.nextLoop, if_pos hlt, hidx, ok_bind, if_pos hc]

/-- White space before a token: any run of spaces, tabs, carriage returns and
newlines. -/
theorem nextTok_blanks {rem rem' : List Nat} {t : token.Token} (h : NextTok rem t rem') :
    ∀ ws : List Nat, (∀ b ∈ ws, b = 32 ∨ b = 9 ∨ b = 13 ∨ b = 10) → NextTok (ws ++ rem) t rem' := by
  intro ws
  induction ws with
  | nil => intro _; exact h
  | cons b ws ih =>
    intro hws
    have hb := hws b (List.mem_cons_self _ _)
    have ih' := ih (fun c hc => hws c (List.mem_cons_of_mem _ hc))
    by_cases h10 : b = 10
    · subst h10
      exact nextTok_newline ih'
    · exact nextTok_blank b (by omega) ih'

theorem skipDigits_spec (rest : List Nat)
    (hrest : ∀ b r, rest = b :: r → ¬ (b ≥ 48 ∧ b ≤ 57)) :
    ∀ (ds : List Nat) (n : Nat) (x : lexer), (∀ d ∈ ds, d ≥ 48 ∧ d ≤ 57) → ds.length ≤ n →
    x.rem = ds ++ rest →
    lexer.skipDigits n x = .ok { x with offset := x.offset + ds.length } := by
  intro ds
  induction ds with
  | nil =>
    intro n x _ _ hr
    cases n with
    | zero => rfl
    | succ n =>
      rw [lexer.skipDigits]
      cases rest with
      | nil => rw [if_neg (rem_nil (by simpa using hr))]; rfl
      | cons b r =>
        obtain ⟨hlt, hidx, _⟩ := rem_cons (x := x) (b := b) (r := r) (by simpa using hr)
        rw [if_pos hlt, hidx, ok_bind, if_neg (hrest b r rfl)]
        rfl
  | cons d ds ih =>
    intro n x hd hn hr
    obtain ⟨n, rfl⟩ : ∃ n', n = n' + 1 := ⟨n - 1, by simp only [List.length_cons] at hn; omega⟩
    obtain ⟨hlt, hidx, hrem⟩ := rem_cons (x := x) (b := d) (r := ds ++ rest) (by simpa using hr)
    rw [lexer.skipDigits, if_pos hlt, hidx, ok_bind, if_pos (hd d (List.mem_cons_self _ _))]
    rw [ih n _ (fun c hc => hd c (List.mem_cons_of_mem _ hc))
      (by simp only [List.length_cons] at hn; omega) hrem]
    simp only [List.length_cons]
    congr 2
    omega

/-- A number: a non-empty run of digits that no digit follows. -/
theorem nextTok_number (ds rest : List Nat) (hne : ds ≠ [])
    (hd : ∀ d ∈ ds, d ≥ 48 ∧ d ≤ 57) (hrest : endsIdent rest = true) :
    NextTok (ds ++ rest) { Kind := token.Number, Text := ds } rest := by
  refine ⟨by simp, ?_⟩
  intro x hx hr
  have hrest' : ∀ b r, rest = b :: r → ¬ (b ≥ 48 ∧ b ≤ 57) := by
    intro b r hb
    subst hb
    simp only [endsIdent, lexer.identEnd, Bool.not_eq_true', Bool.or_eq_false_iff,
      Bool.and_eq_false_imp, decide_eq_true_eq, decide_eq_false_iff_not] at hrest
    omega
  cases ds with
  | nil => exact absurd rfl hne
  | cons d ds =>
    obtain ⟨hlt, hidx, _⟩ := rem_cons (x := x) (b := d) (r := ds ++ rest) (by simpa using hr)
    have hdd := hd d (List.mem_cons_self _ _)
    have hl := rem_length x
    rw [hr] at hl
    simp only [List.length_append, List.length_cons] at hl
    refine ⟨{ x with willBeTrailingComment := true, offset := x.offset + (d :: ds).length },
      ?_, ?_, hx⟩
    · rw [pop_next x hx]
      have hp : punctKind d = none := by
        unfold punctKind
        split <;> first | rfl | omega
      obtain ⟨m, hm⟩ : ∃ m, x.Source.length - x.offset + 1 = m + 1 := ⟨_, rfl⟩
      rw [hm, nextLoop_other m hlt hidx (by omega) (by omega) (by omega) hp,
        if_neg (by omega), if_pos hdd, lexer.nextNumber]
      simp only []
      have hsk3 := skipDigits_spec rest hrest' (d :: ds) (x.Source.length - x.offset)
        { x with willBeTrailingComment := true } hd
        (by simp only [List.length_cons]; omega) (by simpa [lexer.rem] using hr)
      rw [hsk3, ok_bind]
      have hsl := slice_take (x := x) (d :: ds).length (by rw [hr]; simp) (le_of_lt hlt)
      simp only []
      rw [hsl, hr, ok_bind]
      simp
      rfl
    · simp only [lexer.rem] at hr ⊢
      rw [← List.drop_drop, hr]
      simp

/-- The first token of a well-formed initializer expression. -/
theorem nextTok_first (e : Initializer) (hw : e.wf = true) (rest : List Nat)
    (hrest : endsIdent rest = true) : NextTok (e.src ++ rest) e.first (e.rest ++ rest) := by
  cases e with
  | number t =>
    simp only [Initializer.wf, Bool.and_eq_true, decide_eq_true_eq, List.all_eq_true] at hw
    simp only [Initializer.src, Initializer.first, Initializer.rest, List.nil_append]
    exact nextTok_number t rest hw.1 (fun d hd => by have := hw.2 d hd; omega) hrest
  | string t =>
    simp only [Initializer.wf, Bool.not_eq_true', List.contains_eq_any_beq, List.any_eq_false,
      beq_iff_eq] at hw
    simp only [Initializer.src, Initializer.first, Initializer.rest, List.nil_append,
      List.cons_append, List.append_assoc]
    exact nextTok_string rest (fun h => hw 39 h rfl)
  | name t =>
    simp only [Initializer.wf] at hw
    simp only [Initializer.src, Initializer.first, Initializer.rest, List.nil_append]
    exact nextTok_ident rest hw hrest
  | minus e =>
    simp only [Initializer.src, Initializer.first, Initializer.rest, List.cons_append]
    exact nextTok_punct (c := 45) _ rfl
  | array es =>
    cases es with
    | nil =>
      simp only [Initializer.src, Initializer.first, Initializer.rest, List.cons_append]
      exact nextTok_punct (c := 91) _ rfl
    | cons e es =>
      simp only [Initializer.src, Initializer.first, Initializer.rest, List.cons_append]
      exact nextTok_punct (c := 91) _ rfl

end parser

namespace parser
open ast (Node)

theorem first_kind (e : Initializer) :
    e.first.Kind ≠ token.RBrack ∧ e.first.Kind ≠ token.Comma := by
  cases e <;> simp [Initializer.first]

theorem src_first (e : Initializer) (hw : e.wf = true) : 1 ≤ e.src.length := by
  cases e with
  | number t =>
    simp only [Initializer.wf, Bool.and_eq_true, decide_eq_true_eq] at hw
    simp only [Initializer.src]
    exact List.length_pos.2 hw.1
  | string t => simp [Initializer.src]
  | name t =>
    simp only [Initializer.wf] at hw
    simp only [Initializer.src]
    cases t with
    | nil => simp [isIdent] at hw
    | cons b bs => simp
  | minus e => simp [Initializer.src]
  | array es => cases es <;> simp [Initializer.src]

theorem endsIdent_srcTail (es : List Initializer) (rest : List Nat) :
    endsIdent (Initializer.srcTail es ++ 93 :: rest) = true := by
  cases es <;> simp [Initializer.srcTail, endsIdent, lexer.identEnd]

/-- The token after an element of an array. -/
theorem nextTok_sep (es : List Initializer) (rest : List Nat) :
    ∃ tk rm, NextTok (Initializer.srcTail es ++ 93 :: rest) tk rm ∧
      ∀ q : parser, At q tk rm → Initializer.AtSep q es rest := by
  cases es with
  | nil =>
    exact ⟨_, _, nextTok_punct (c := 93) rest rfl, fun q hq => hq⟩
  | cons e' es' =>
    refine ⟨_, _, ?_, fun q hq => hq⟩
    simp only [Initializer.srcTail, List.cons_append, List.append_assoc]
    exact nextTok_punct (c := 44) _ rfl

/-- The loop of `parseArrayLiteralExpression` after an element: the elements `es`
that follow, each after a comma and a space, up to the closing bracket. -/
theorem arrayLoop_run : ∀ (es : List Initializer),
    (∀ e ∈ es, e.wf = true → e.Runs) → Initializer.wfAll es = true →
    ∀ (n : Nat) (acc : List Node) (p : parser) (rest : List Nat),
    2 * (Initializer.srcTail es).length + 2 ≤ n →
    Initializer.AtSep p es rest →
    ∃ p', (do let p ← (if p.tok.Kind = token.Comma then parser.advance n p else pure p)
              parser.parseArrayLiteralExpressionLoop n acc p)
            = .ok (acc ++ Initializer.nodes es, p') ∧
      At p' { Kind := token.RBrack } rest := by
  intro es
  induction es with
  | nil =>
    intro _ _ n acc p rest hn hp
    simp only [Initializer.AtSep] at hp
    obtain ⟨k, rfl⟩ : ∃ k, n = k + 1 := ⟨n - 1, by omega⟩
    refine ⟨p, ?_, hp⟩
    rw [hp.1]
    simp only [show ¬ (token.RBrack = token.Comma) by decide, if_false, pure, Except.pure,
      bind, Except.bind]
    rw [parser.parseArrayLiteralExpressionLoop, hp.1]
    simp [Initializer.nodes, pure, Except.pure]
  | cons e es ih =>
    intro hruns hwf n acc p rest hn hp
    simp only [Initializer.AtSep] at hp
    simp only [Initializer.wfAll, Bool.and_eq_true] at hwf
    simp only [Initializer.srcTail, List.length_cons, List.length_append] at hn
    obtain ⟨k, rfl⟩ : ∃ k, n = k + 1 := ⟨n - 1, by omega⟩
    obtain ⟨j, rfl⟩ : ∃ j, k = j + 1 := ⟨k - 1, by omega⟩
    have hrest' := endsIdent_srcTail es rest
    obtain ⟨p1, h1, hp1⟩ := advance_step (j + 1) hp
      (nextTok_space (nextTok_first e hwf.1 _ hrest'))
    have hk := first_kind e
    obtain ⟨tk, rm, hn1, hmatch⟩ := nextTok_sep es rest
    have hr := hruns e (List.mem_cons_self _ _) hwf.1
    unfold Initializer.Runs at hr
    obtain ⟨p2, h2, hp2⟩ := hr (j + 1) p1
      (Initializer.srcTail es ++ 93 :: rest) tk rm (by omega) hrest' hn1 hp1
    obtain ⟨p3, h3, hp3⟩ := ih (fun e' he' => hruns e' (List.mem_cons_of_mem _ he')) hwf.2
      (j + 1) (acc ++ [e.node]) p2 rest (by omega) (hmatch p2 hp2)
    refine ⟨p3, ?_, hp3⟩
    rw [hp.1]
    simp only [if_true, h1, ok_bind]
    rw [parser.parseArrayLiteralExpressionLoop, hp1.1, if_pos hk.1, h2, ok_bind]
    simp only []
    rw [h3]
    simp [Initializer.nodes]

/-- Every well-formed initializer expression is parsed by `parseInitializer`. -/
theorem initializer_runs (e : Initializer) : e.wf = true → e.Runs := by
  refine Initializer.rec (motive_1 := fun e => e.wf = true → e.Runs)
    (motive_2 := fun es => ∀ e ∈ es, e.wf = true → e.Runs) ?_ ?_ ?_ ?_ ?_ ?_ ?_ e
  · -- a number
    intro t hw n p rest tk r hn hrest hnt hp
    have hl := src_first _ hw
    obtain ⟨k, rfl⟩ : ∃ k, n = k + 1 := ⟨n - 1, by omega⟩
    obtain ⟨j, rfl⟩ : ∃ j, k = j + 1 := ⟨k - 1, by omega⟩
    simp only [Initializer.first, Initializer.rest, List.nil_append] at hp
    obtain ⟨p1, h1, hp1⟩ := eat_step j token.Number hp rfl hnt
    refine ⟨p1, ?_, hp1⟩
    rw [parser.parseInitializer, hp.1]
    simp [h1, pure, Except.pure, bind, Except.bind, Initializer.node]
  · -- a string
    intro t _ n p rest tk r hn hrest hnt hp
    have hl : 1 ≤ (Initializer.string t).src.length := by simp [Initializer.src]
    obtain ⟨k, rfl⟩ : ∃ k, n = k + 1 := ⟨n - 1, by omega⟩
    obtain ⟨j, rfl⟩ : ∃ j, k = j + 1 := ⟨k - 1, by omega⟩
    simp only [Initializer.first, Initializer.rest, List.nil_append] at hp
    obtain ⟨p1, h1, hp1⟩ := eat_step j token.String hp rfl hnt
    refine ⟨p1, ?_, hp1⟩
    rw [parser.parseInitializer, hp.1]
    simp [h1, pure, Except.pure, bind, Except.bind, Initializer.node]
  · -- a name
    intro t hw n p rest tk r hn hrest hnt hp
    have hl := src_first _ hw
    obtain ⟨k, rfl⟩ : ∃ k, n = k + 1 := ⟨n - 1, by omega⟩
    obtain ⟨j, rfl⟩ : ∃ j, k = j + 1 := ⟨k - 1, by omega⟩
    simp only [Initializer.first, Initializer.rest, List.nil_append] at hp
    obtain ⟨p1, h1, hp1⟩ := parseIdentifier_step j hp hnt
    refine ⟨p1, ?_, hp1⟩
    rw [parser.parseInitializer, hp.1]
    simp [h1, pure, Except.pure, bind, Except.bind, Initializer.node]
  · -- a negated expression
    intro e ih hw n p rest tk r hn hrest hnt hp
    simp only [Initializer.wf] at hw
    simp only [Initializer.src, List.length_cons] at hn
    obtain ⟨k, rfl⟩ : ∃ k, n = k + 1 := ⟨n - 1, by omega⟩
    obtain ⟨j, rfl⟩ : ∃ j, k = j + 1 := ⟨k - 1, by omega⟩
    simp only [Initializer.first, Initializer.rest] at hp
    obtain ⟨p1, h1, hp1⟩ := advance_step j hp (nextTok_first e hw rest hrest)
    have hr := ih hw
    unfold Initializer.Runs at hr
    obtain ⟨p2, h2, hp2⟩ := hr (j + 1) p1 rest tk r (by omega) hrest hnt hp1
    refine ⟨p2, ?_, hp2⟩
    rw [parser.parseInitializer, hp.1]
    simp [h1, h2, pure, Except.pure, bind, Except.bind, Initializer.node]
  · -- an array
    intro es ih hw n p rest tk r hn hrest hnt hp
    simp only [Initializer.wf] at hw
    cases es with
    | nil =>
      simp only [Initializer.src, List.length_cons, List.length_nil] at hn
      obtain ⟨k, rfl⟩ : ∃ k, n = k + 1 := ⟨n - 1, by omega⟩
      obtain ⟨j, rfl⟩ : ∃ j, k = j + 1 := ⟨k - 1, by omega⟩
      obtain ⟨i, rfl⟩ : ∃ i, j = i + 1 := ⟨j - 1, by omega⟩
      simp only [Initializer.first, Initializer.rest, List.cons_append, List.nil_append] at hp
      obtain ⟨p1, h1, hp1⟩ := eat_step i token.LBrack hp rfl (nextTok_punct (c := 93) rest rfl)
      obtain ⟨p2, h2, hp2⟩ := eat_step i token.RBrack hp1 rfl hnt
      refine ⟨p2, ?_, hp2⟩
      rw [parser.parseInitializer, hp.1]
      simp only [show ¬ (token.LBrack = token.Number) by decide,
        show ¬ (token.LBrack = token.String) by decide,
        show ¬ (token.LBrack = token.Minus) by decide,
        show ¬ (token.LBrack = token.Ident) by decide, if_false, if_true]
      rw [parser.parseArrayLiteralExpression, h1, ok_bind]
      simp only []
      rw [parser.parseArrayLiteralExpressionLoop, hp1.1]
      simp [h2, pure, Except.pure, bind, Except.bind, Initializer.node, Initializer.nodes]
    | cons e es =>
      simp only [Initializer.wfAll, Bool.and_eq_true] at hw
      simp only [Initializer.src, List.length_cons, List.length_append, List.length_nil] at hn
      obtain ⟨k, rfl⟩ : ∃ k, n = k + 1 := ⟨n - 1, by omega⟩
      obtain ⟨j, rfl⟩ : ∃ j, k = j + 1 := ⟨k - 1, by omega⟩
      obtain ⟨i, rfl⟩ : ∃ i, j = i + 1 := ⟨j - 1, by omega⟩
      simp only [Initializer.first, Initializer.rest, List.append_assoc,
        List.singleton_append] at hp
      have hrest' := endsIdent_srcTail es rest
      obtain ⟨p1, h1, hp1⟩ := eat_step i token.LBrack hp rfl (nextTok_first e hw.1 _ hrest')
      have hk := first_kind e
      obtain ⟨t', rm, hn1, hmatch⟩ := nextTok_sep es rest
      have hr := ih e (List.mem_cons_self _ _) hw.1
      unfold Initializer.Runs at hr
      obtain ⟨p2, h2, hp2⟩ := hr i p1
        (Initializer.srcTail es ++ 93 :: rest) t' rm (by omega) hrest' hn1 hp1
      obtain ⟨p3, h3, hp3⟩ := arrayLoop_run es
        (fun e' he' => ih e' (List.mem_cons_of_mem _ he')) hw.2 i [e.node] p2 rest
        (by omega) (hmatch p2 hp2)
      obtain ⟨p4, h4, hp4⟩ := eat_step i token.RBrack hp3 rfl hnt
      refine ⟨p4, ?_, hp4⟩
      rw [parser.parseInitializer, hp.1]
      simp only [show ¬ (token.LBrack = token.Number) by decide,
        show ¬ (token.LBrack = token.String) by decide,
        show ¬ (token.LBrack = token.Minus) by decide,
        show ¬ (token.LBrack = token.Ident) by decide, if_false, if_true]
      rw [parser.parseArrayLiteralExpression, h1, ok_bind]
      simp only []
      rw [parser.parseArrayLiteralExpressionLoop, hp1.1, if_pos hk.1, h2, ok_bind]
      simp only [List.nil_append]
      rw [h3, ok_bind]
      simp [h4, pure, Except.pure, bind, Except.bind, Initializer.node, Initializer.nodes]
  · intro e he
    cases he
  · intro e es ih1 ih2 e' he'
    rcases List.mem_cons.1 he' with rfl | h
    · exact ih1
    · exact ih2 e' h

end parser

namespace parser
open ast (Node)

/-- `Parse` of `const x = ` and an initializer that `parseInitializer` reads up to a
semicolon at the end of the source. -/
theorem constX_ok (body body' : List Nat) (t0 : token.Token) (node : Node)
    (hfirst : NextTok body t0 body')
    (hrun : ∀ (p : parser) (n : Nat), 2 * body.length + 1 ≤ n → At p t0 body' →
      ∃ p', parser.parseInitializer n p = .ok (node, p') ∧
        At p' { Kind := token.Semicolon } []) :
    Parse (str "const x = " ++ body)
      = .ok (.SourceFile [.VariableStatement (.VariableDeclarationList
          [.VariableDeclaration (.Identifier (str "x")) .nil node]) []]) := by
  have e1 : str "const x = " = str "const" ++ [32, 120, 32, 61, 32] := by decide
  have e3 : str "x" = [120] := by decide
  have hsrc : str "const x = " ++ body
      = str "const" ++ (32 :: ([120] ++ (32 :: 61 :: 32 :: body))) := by
    rw [e1]
    simp
  rw [hsrc, e3]
  generalize hg : str "const" ++ (32 :: ([120] ++ (32 :: 61 :: 32 :: body))) = src
  have hlen : body.length ≤ src.length := by
    rw [← hg]
    simp only [List.length_append, List.length_cons]
    omega
  obtain ⟨m, hm, hmb⟩ : ∃ m, budget src = m + 12 ∧ 2 * body.length + 1 ≤ m :=
    ⟨budget src - 12, by simp only [budget]; omega, by simp only [budget]; omega⟩
  have n1 : NextTok src { Kind := token.Ident, Text := str "const" }
      (32 :: ([120] ++ (32 :: 61 :: 32 :: body))) := by
    rw [← hg]
    exact nextTok_ident _ (by decide) (by simp [endsIdent, lexer.identEnd])
  have n2 : NextTok (32 :: ([120] ++ (32 :: 61 :: 32 :: body)))
      { Kind := token.Ident, Text := [120] } (32 :: 61 :: 32 :: body) :=
    nextTok_space (nextTok_ident _ (by decide) (by simp [endsIdent, lexer.identEnd]))
  have n3 : NextTok (32 :: 61 :: 32 :: body) { Kind := token.Assign } (32 :: body) :=
    nextTok_space (nextTok_punct (c := 61) _ rfl)
  have n4 : NextTok (32 :: body) t0 body' := nextTok_space hfirst
  obtain ⟨p1, h1, hp1⟩ := advance_step (m + 10) (at_init src) n1
  obtain ⟨p2, h2, hp2⟩ := eat_step (m + 8) token.Ident hp1 rfl n2
  obtain ⟨p3, h3, hp3⟩ := parseIdentifier_step (m + 7) hp2 n3
  obtain ⟨p4, h4, hp4⟩ := advance_step (m + 7) hp3 n4
  obtain ⟨p5, hini, hp5⟩ := hrun p4 (m + 8) (by omega) hp4
  obtain ⟨p6, h6, hp6⟩ := eat_step (m + 7) token.Semicolon hp5 rfl nextTok_eof
  obtain ⟨p7, h7, hp7⟩ := advance_step (m + 9) hp6 nextTok_eof
  have hne : str "const" ≠ str "export" := by decide
  have hdecl : parser.parseVariableDeclaration (m + 8) p2
      = .ok (.VariableDeclaration (.Identifier [120]) .nil node, p5) := by
    simp [parser.parseVariableDeclaration, h3, hp3.1, h4, hini, bind, Except.bind, pure,
      Except.pure]
  have hstmt : parser.parseStatement (m + 11) p1
      = .ok (.VariableStatement (.VariableDeclarationList
          [.VariableDeclaration (.Identifier [120]) .nil node]) [], p6) := by
    rw [parser.parseStatement, parser.parseStatementLoop]
    simp only [parser.expect, hp1.1, bind, Except.bind, hne, if_false, if_true,
      parser.parseVariableStatement, parser.parseVariableDeclarationList, h2,
      at_consumeComment hp2, ne_eq, not_true_eq_false]
    rw [parser.parseVariableDeclarationListLoop]
    simp [hdecl, hp5.1, h6, bind, Except.bind, pure, Except.pure]
  simp only [Parse, hm, parser.parseSourceFile]
  rw [parser.parseSourceFileLoop]
  simp only [h1, bind, Except.bind, hp1.1, hstmt]
  rw [parser.parseSourceFileLoop]
  simp [h7, bind, Except.bind, hp7.1, pure, Except.pure]

/-- `Parse` of `const x = ` and an initializer on which `parseInitializer` fails. -/
theorem constX_err (body body' : List Nat) (t0 : token.Token) (e : Err)
    (hfirst : NextTok body t0 body')
    (hrun : ∀ (p : parser) (n : Nat), 2 * body.length + 1 ≤ n → At p t0 body' →
      parser.parseInitializer n p = .error e) :
    Parse (str "const x = " ++ body) = .error e := by
  have e1 : str "const x = " = str "const" ++ [32, 120, 32, 61, 32] := by decide
  have hsrc : str "const x = " ++ body
      = str "const" ++ (32 :: ([120] ++ (32 :: 61 :: 32 :: body))) := by
    rw [e1]
    simp
  rw [hsrc]
  generalize hg : str "const" ++ (32 :: ([120] ++ (32 :: 61 :: 32 :: body))) = src
  have hlen : body.length ≤ src.length := by
    rw [← hg]
    simp only [List.length_append, List.length_cons]
    omega
  obtain ⟨m, hm, hmb⟩ : ∃ m, budget src = m + 12 ∧ 2 * body.length + 1 ≤ m :=
    ⟨budget src - 12, by simp only [budget]; omega, by simp only [budget]; omega⟩
  have n1 : NextTok src { Kind := token.Ident, Text := str "const" }
      (32 :: ([120] ++ (32 :: 61 :: 32 :: body))) := by
    rw [← hg]
    exact nextTok_ident _ (by decide) (by simp [endsIdent, lexer.identEnd])
  have n2 : NextTok (32 :: ([120] ++ (32 :: 61 :: 32 :: body)))
      { Kind := token.Ident, Text := [120] } (32 :: 61 :: 32 :: body) :=
    nextTok_space (nextTok_ident _ (by decide) (by simp [endsIdent, lexer.identEnd]))
  have n3 : NextTok (32 :: 61 :: 32 :: body) { Kind := token.Assign } (32 :: body) :=
    nextTok_space (nextTok_punct (c := 61) _ rfl)
  have n4 : NextTok (32 :: body) t0 body' := nextTok_space hfirst
  obtain ⟨p1, h1, hp1⟩ := advance_step (m + 10) (at_init src) n1
  obtain ⟨p2, h2, hp2⟩ := eat_step (m + 8) token.Ident hp1 rfl n2
  obtain ⟨p3, h3, hp3⟩ := parseIdentifier_step (m + 7) hp2 n3
  obtain ⟨p4, h4, hp4⟩ := advance_step (m + 7) hp3 n4
  have hini := hrun p4 (m + 8) (by omega) hp4
  have hne : str "const" ≠ str "export" := by decide
  have hdecl : parser.parseVariableDeclaration (m + 8) p2 = .error e := by
    simp [parser.parseVariableDeclaration, h3, hp3.1, h4, hini, bind, Except.bind, pure,
      Except.pure]
  have hstmt : parser.parseStatement (m + 11) p1 = .error e := by
    rw [parser.parseStatement, parser.parseStatementLoop]
    simp only [parser.expect, hp1.1, bind, Except.bind, hne, if_false, if_true,
      parser.parseVariableStatement, parser.parseVariableDeclarationList, h2,
      at_consumeComment hp2, ne_eq, not_true_eq_false]
    rw [parser.parseVariableDeclarationListLoop]
    simp [hdecl, bind, Except.bind]
  simp only [Parse, hm, parser.parseSourceFile]
  rw [parser.parseSourceFileLoop]
  simp only [h1, bind, Except.bind, hp1.1, hstmt]
  rw [if_neg (by decide)]

/-- The array literal `[e1, e2]`. -/
theorem array_comma_run (e1 e2 : Initializer) (h1 : e1.wf = true) (h2 : e2.wf = true) :
    Parse (str "const x = " ++ (91 :: (e1.src ++ 44 :: 32 :: (e2.src ++ [93, 59]))))
      = .ok (.SourceFile [.VariableStatement (.VariableDeclarationList
          [.VariableDeclaration (.Identifier (str "x")) .nil
            (.ArrayLiteralExpression [e1.node, e2.node])]) []]) := by
  have hw : (Initializer.array [e1, e2]).wf = true := by
    simp [Initializer.wf, Initializer.wfAll, h1, h2]
  have hr := initializer_runs _ hw
  unfold Initializer.Runs at hr
  have hsrc : (Initializer.array [e1, e2]).src ++ [59]
      = 91 :: (e1.src ++ 44 :: 32 :: (e2.src ++ [93, 59])) := by
    simp [Initializer.src, Initializer.srcTail]
  have hrest : (Initializer.array [e1, e2]).rest ++ [59]
      = e1.src ++ 44 :: 32 :: (e2.src ++ [93, 59]) := by
    simp [Initializer.rest, Initializer.srcTail]
  have hnode : (Initializer.array [e1, e2]).node = .ArrayLiteralExpression [e1.node, e2.node] := by
    simp [Initializer.node, Initializer.nodes]
  rw [← hnode]
  refine constX_ok _ (e1.src ++ 44 :: 32 :: (e2.src ++ [93, 59])) { Kind := token.LBrack } _
    (nextTok_punct (c := 91) _ rfl) ?_
  intro p n hn hp
  refine hr n p [59] { Kind := token.Semicolon } [] ?_ (by decide)
    (nextTok_punct (c := 59) [] rfl) ?_
  · rw [← hsrc] at hn
    simp only [List.length_append, List.length_cons, List.length_nil] at hn
    omega
  · rw [hrest]
    exact hp

/-- The array literal `[e1 e2]`, without a comma. -/
theorem array_space_run (e1 e2 : Initializer) (h1 : e1.wf = true) (h2 : e2.wf = true) :
    Parse (str "const x = " ++ (91 :: (e1.src ++ 32 :: (e2.src ++ [93, 59]))))
      = .ok (.SourceFile [.VariableStatement (.VariableDeclarationList
          [.VariableDeclaration (.Identifier (str "x")) .nil
            (.ArrayLiteralExpression [e1.node, e2.node])]) []]) := by
  refine constX_ok _ (e1.src ++ 32 :: (e2.src ++ [93, 59])) { Kind := token.LBrack } _
    (nextTok_punct (c := 91) _ rfl) ?_
  intro p n hn hp
  simp only [List.length_append, List.length_cons, List.length_nil] at hn
  have hl1 := src_first e1 h1
  have hl2 := src_first e2 h2
  obtain ⟨k, rfl⟩ : ∃ k, n = k + 6 := ⟨n - 6, by omega⟩
  have hr1 := initializer_runs e1 h1
  have hr2 := initializer_runs e2 h2
  unfold Initializer.Runs at hr1 hr2
  have hk1 := first_kind e1
  have hk2 := first_kind e2
  obtain ⟨p1, a1, hp1⟩ := eat_step (k + 3) token.LBrack hp rfl
    (nextTok_first e1 h1 (32 :: (e2.src ++ [93, 59])) (by simp [endsIdent, lexer.identEnd]))
  obtain ⟨p2, a2, hp2⟩ := hr1 (k + 3) p1 (32 :: (e2.src ++ [93, 59])) e2.first
    (e2.rest ++ [93, 59]) (by omega) (by simp [endsIdent, lexer.identEnd])
    (nextTok_space (nextTok_first e2 h2 [93, 59] (by simp [endsIdent, lexer.identEnd]))) hp1
  obtain ⟨p3, a3, hp3⟩ := hr2 (k + 2) p2 [93, 59] { Kind := token.RBrack } [59] (by omega)
    (by simp [endsIdent, lexer.identEnd]) (nextTok_punct (c := 93) _ rfl) hp2
  obtain ⟨p4, a4, hp4⟩ := eat_step (k + 3) token.RBrack hp3 rfl (nextTok_punct (c := 59) [] rfl)
  refine ⟨p4, ?_, hp4⟩
  rw [parser.parseInitializer, hp.1]
  simp only [show ¬ (token.LBrack = token.Number) by decide,
    show ¬ (token.LBrack = token.String) by decide,
    show ¬ (token.LBrack = token.Minus) by decide,
    show ¬ (token.LBrack = token.Ident) by decide, if_false, if_true]
  rw [parser.parseArrayLiteralExpression, a1, ok_bind]
  simp only []
  rw [parser.parseArrayLiteralExpressionLoop, hp1.1, if_pos hk1.1, a2, ok_bind]
  simp only [hp2.1, if_neg hk2.2, pure, Except.pure, bind, Except.bind]
  rw [parser.parseArrayLiteralExpressionLoop, hp2.1, if_pos hk2.1, a3, ok_bind]
  simp only [hp3.1, show ¬ (token.RBrack = token.Comma) by decide, if_false, pure,
    Except.pure, bind, Except.bind]
  rw [parser.parseArrayLiteralExpressionLoop, hp3.1]
  simp [a4, pure, Except.pure]

/-- The array literal `[e1,, e2]`: the second comma is not an initializer. -/
theorem array_commas_run (e1 e2 : Initializer) (h1 : e1.wf = true) :
    Parse (str "const x = " ++ (91 :: (e1.src ++ 44 :: 44 :: 32 :: (e2.src ++ [93, 59]))))
      = .error (.unexpectedToken { Kind := token.Comma }) := by
  refine constX_err _ (e1.src ++ 44 :: 44 :: 32 :: (e2.src ++ [93, 59]))
    { Kind := token.LBrack } _ (nextTok_punct (c := 91) _ rfl) ?_
  intro p n hn hp
  simp only [List.length_append, List.length_cons, List.length_nil] at hn
  have hl1 := src_first e1 h1
  obtain ⟨k, rfl⟩ : ∃ k, n = k + 6 := ⟨n - 6, by omega⟩
  have hr1 := initializer_runs e1 h1
  unfold Initializer.Runs at hr1
  have hk1 := first_kind e1
  obtain ⟨p1, a1, hp1⟩ := eat_step (k + 3) token.LBrack hp rfl
    (nextTok_first e1 h1 (44 :: 44 :: 32 :: (e2.src ++ [93, 59]))
      (by simp [endsIdent, lexer.identEnd]))
  obtain ⟨p2, a2, hp2⟩ := hr1 (k + 3) p1 (44 :: 44 :: 32 :: (e2.src ++ [93, 59]))
    { Kind := token.Comma } (44 :: 32 :: (e2.src ++ [93, 59])) (by omega)
    (by simp [endsIdent, lexer.identEnd]) (nextTok_punct (c := 44) _ rfl) hp1
  obtain ⟨p3, a3, hp3⟩ := advance_step (k + 2) hp2
    (nextTok_punct (c := 44) (32 :: (e2.src ++ [93, 59])) rfl)
  rw [parser.parseInitializer, hp.1]
  simp only [show ¬ (token.LBrack = token.Number) by decide,
    show ¬ (token.LBrack = token.String) by decide,
    show ¬ (token.LBrack = token.Minus) by decide,
    show ¬ (token.LBrack = token.Ident) by decide, if_false, if_true]
  rw [parser.parseArrayLiteralExpression, a1, ok_bind]
  simp only []
  rw [parser.parseArrayLiteralExpressionLoop, hp1.1, if_pos hk1.1, a2, ok_bind]
  simp only [hp2.1, if_true, a3, ok_bind]
  rw [parser.parseArrayLiteralExpressionLoop, hp3.1,
    if_pos (show (token.Comma : token.Kind) ≠ token.RBrack by decide), parser.parseInitializer,
    hp3.1]
  rfl

end parser

namespace parser
open ast (Node)

theorem reads_cons {t : token.Token} {ts : List token.Token} {x z : lexer}
    (h : lexer.reads (t :: ts) x = some z) :
    ∃ x', x.Pop = .ok (t, x') ∧ lexer.reads ts x' = some z := by
  rw [lexer.reads] at h
  cases hp : x.Pop with
  | error e => rw [hp] at h; cases h
  | ok r =>
    obtain ⟨t', x'⟩ := r
    rw [hp] at h
    simp only [] at h
    by_cases e : t' = t
    · rw [if_pos e] at h
      exact ⟨x', by rw [e], h⟩
    · rw [if_neg e] at h
      cases h

theorem reads_cons_of {t : token.Token} {ts : List token.Token} {x x' : lexer}
    (h : x.Pop = .ok (t, x')) : lexer.reads (t :: ts) x = lexer.reads ts x' := by
  rw [lexer.reads, h]
  simp only [if_true]

theorem reads_append (A B : List token.Token) : ∀ (x z : lexer),
    lexer.reads (A ++ B) x = some z ↔ ∃ y, lexer.reads A x = some y ∧ lexer.reads B y = some z := by
  induction A with
  | nil =>
    intro x z
    simp [lexer.reads]
  | cons a A ih =>
    intro x z
    constructor
    · intro h
      obtain ⟨x', h1, h2⟩ := reads_cons (by simpa using h)
      obtain ⟨y, h3, h4⟩ := (ih x' z).1 h2
      exact ⟨y, by rw [reads_cons_of h1]; exact h3, h4⟩
    · rintro ⟨y, h1, h2⟩
      obtain ⟨x', h3, h4⟩ := reads_cons h1
      rw [List.cons_append, reads_cons_of h3]
      exact (ih x' z).2 ⟨y, h4, h2⟩

theorem pop_step {x x' : lexer} {t : token.Token} (h0 : x.nextToken = {})
    (h : x.Pop = .ok (t, x')) :
    x'.nextToken = {} ∧ x.offset ≤ x'.offset ∧
      (t.Kind ≠ token.EOF → t.Kind ≠ token.Illegal → x.offset < x'.offset) := by
  obtain ⟨t1, x1, h1, hp⟩ := pop_total x h0
  rw [h] at h1
  cases h1
  exact ⟨hp.1, hp.2.2.1, fun a b => (hp.2.2.2.1 a b).1⟩

theorem reads_offset : ∀ (D : List token.Token) (y z : lexer), y.nextToken = {} →
    lexer.reads D y = some z →
    z.nextToken = {} ∧ y.offset ≤ z.offset ∧
      ((∃ t ∈ D, t.Kind ≠ token.EOF ∧ t.Kind ≠ token.Illegal) → y.offset < z.offset) := by
  intro D
  induction D with
  | nil =>
    intro y z h0 h
    simp only [lexer.reads, Option.some.injEq] at h
    subst h
    exact ⟨h0, le_refl _, by simp⟩
  | cons d D ih =>
    intro y z h0 h
    obtain ⟨y', h1, h2⟩ := reads_cons h
    obtain ⟨a1, a2, a3⟩ := pop_step h0 h1
    obtain ⟨b1, b2, b3⟩ := ih y' z a1 h2
    refine ⟨b1, le_trans a2 b2, ?_⟩
    rintro ⟨t, ht, hk1, hk2⟩
    rcases List.mem_cons.1 ht with e | e
    · subst e
      exact lt_of_lt_of_le (a3 hk1 hk2) b2
    · exact lt_of_le_of_lt a2 (b3 ⟨t, e, hk1, hk2⟩)

theorem reads_cycle {D : List token.Token} {y : lexer} (h0 : y.nextToken = {})
    (h : lexer.reads D y = some y) :
    ∀ t ∈ D, t.Kind = token.EOF ∨ t.Kind = token.Illegal := by
  intro t ht
  by_contra hc
  have hc1 : t.Kind ≠ token.EOF := fun e => hc (Or.inl e)
  have hc2 : t.Kind ≠ token.Illegal := fun e => hc (Or.inr e)
  have := (reads_offset D y y h0 h).2.2 ⟨t, ht, hc1, hc2⟩
  omega

theorem reads_compare : ∀ (A B : List token.Token) (x y z : lexer),
    lexer.reads A x = some y → lexer.reads B x = some z →
    (∃ D, B = A ++ D ∧ lexer.reads D y = some z) ∨
      (∃ D, A = B ++ D ∧ lexer.reads D z = some y) := by
  intro A
  induction A with
  | nil =>
    intro B x y z h1 h2
    simp only [lexer.reads, Option.some.injEq] at h1
    subst h1
    exact Or.inl ⟨B, rfl, h2⟩
  | cons a A ih =>
    intro B x y z h1 h2
    cases B with
    | nil =>
      simp only [lexer.reads, Option.some.injEq] at h2
      subst h2
      exact Or.inr ⟨a :: A, rfl, h1⟩
    | cons b B =>
      obtain ⟨x1, p1, q1⟩ := reads_cons h1
      obtain ⟨x2, p2, q2⟩ := reads_cons h2
      rw [p1] at p2
      cases p2
      rcases ih B x1 y z q1 q2 with ⟨D, e, hD⟩ | ⟨D, e, hD⟩
      · exact Or.inl ⟨D, by rw [e]; rfl, hD⟩
      · exact Or.inr ⟨D, by rw [e]; rfl, hD⟩

theorem takeWhile_append_stop {α : Type} (P : α → Bool) (b : α) (hb : P b = false) :
    ∀ (A C : List α), (A ++ b :: C).takeWhile P = (A ++ [b]).takeWhile P := by
  intro A
  induction A with
  | nil => intro C; simp [List.takeWhile, hb]
  | cons a A ih =>
    intro C
    simp only [List.cons_append, List.takeWhile_cons]
    rw [ih C]

theorem lastLine_append (M1 M2 : List token.Token) (b : token.Token)
    (hb : isComment b = false) : lastLine (M1 ++ b :: M2) = lastLine (b :: M2) := by
  unfold lastLine
  have e1 : (M1 ++ b :: M2).reverse = M2.reverse ++ b :: M1.reverse := by simp
  have e2 : (b :: M2).reverse = M2.reverse ++ b :: [] := by simp
  rw [e1, e2, takeWhile_append_stop isComment b hb, takeWhile_append_stop isComment b hb]

theorem lastLine_comments (cs : List token.Token) (hcs : ∀ t ∈ cs, isComment t = true) :
    lastLine cs = (cs.reverse.find? (fun t => t.Kind == token.LineComment)).map
      (fun t => t.Text) := by
  unfold lastLine
  have : cs.reverse.takeWhile isComment = cs.reverse := by
    rw [List.takeWhile_eq_self_iff]
    intro t ht
    exact hcs t (List.mem_reverse.1 ht)
  rw [this]

theorem lastLine_cons (t : token.Token) (cs : List token.Token) (ht : isComment t = true)
    (hcs : ∀ s ∈ cs, isComment s = true) :
    lastLine (t :: cs) = match lastLine cs with
      | some c => some c
      | none => if t.Kind = token.LineComment then some t.Text else none := by
  rw [lastLine_comments cs hcs, lastLine_comments (t :: cs) (by
    intro s hs
    rcases List.mem_cons.1 hs with e | e
    · rw [e]; exact ht
    · exact hcs s e)]
  rw [List.reverse_cons, List.find?_append]
  cases h : cs.reverse.find? (fun t => t.Kind == token.LineComment) with
  | some s => simp
  | none =>
    by_cases hk : t.Kind = token.LineComment
    · simp [List.find?, hk]
    · have hb : (t.Kind == token.LineComment) = false := by simpa using hk
      simp [List.find?, hk, hb]

theorem lastLine_nil : lastLine [] = none := rfl

theorem advance_reads : ∀ (n : Nat) (p p' : parser), p.lex.nextToken = {} →
    parser.advance n p = .ok p' →
    ∃ cs, (∀ t ∈ cs, isComment t = true) ∧
      lexer.reads (cs ++ [p'.tok]) p.lex = some p'.lex ∧
      isComment p'.tok = false ∧ p'.lex.nextToken = {} ∧
      (∀ c, lastLine cs = some c → p'.lastLineComment = c) ∧
      (lastLine cs = none → p'.lastLineComment = p.lastLineComment) := by
  intro n
  induction n with
  | zero => intro p p' _ h; simp [parser.advance] at h
  | succ n ih =>
    intro p p' h0 h
    rw [parser.advance] at h
    simp only [bind_ok] at h
    obtain ⟨⟨t, x⟩, h1, h⟩ := h
    obtain ⟨hx, _, _⟩ := pop_step h0 h1
    dsimp only at h
    by_cases hk1 : t.Kind = token.Comment
    · rw [if_pos hk1] at h
      obtain ⟨cs, a1, a2, a3, a4, a5, a6⟩ := ih _ p' hx h
      have ht : isComment t = true := by simp [isComment, hk1]
      have hnl : t.Kind ≠ token.LineComment := by rw [hk1]; decide
      refine ⟨t :: cs, ?_, ?_, a3, a4, ?_, ?_⟩
      · intro s hs
        rcases List.mem_cons.1 hs with e | e
        · rw [e]; exact ht
        · exact a1 s e
      · rw [List.cons_append, reads_cons_of h1]
        exact a2
      · intro c hc
        rw [lastLine_cons t cs ht a1] at hc
        cases hl : lastLine cs with
        | some c' =>
          rw [hl] at hc
          simp only [Option.some.injEq] at hc
          rw [← hc]
          exact a5 c' hl
        | none =>
          rw [hl] at hc
          simp only [if_neg hnl] at hc
          cases hc
      · intro hc
        rw [lastLine_cons t cs ht a1] at hc
        cases hl : lastLine cs with
        | some c' => rw [hl] at hc; cases hc
        | none => exact a6 hl
    · rw [if_neg hk1] at h
      by_cases hk2 : t.Kind = token.LineComment
      · rw [if_pos hk2] at h
        obtain ⟨cs, a1, a2, a3, a4, a5, a6⟩ := ih _ p' hx h
        have ht : isComment t = true := by simp [isComment, hk2]
        refine ⟨t :: cs, ?_, ?_, a3, a4, ?_, ?_⟩
        · intro s hs
          rcases List.mem_cons.1 hs with e | e
          · rw [e]; exact ht
          · exact a1 s e
        · rw [List.cons_append, reads_cons_of h1]
          exact a2
        · intro c hc
          rw [lastLine_cons t cs ht a1] at hc
          cases hl : lastLine cs with
          | some c' =>
            rw [hl] at hc
            simp only [Option.some.injEq] at hc
            rw [← hc]
            exact a5 c' hl
          | none =>
            rw [hl] at hc
            simp only [if_pos hk2, Option.some.injEq] at hc
            rw [a6 hl, ← hc]
        · intro hc
          rw [lastLine_cons t cs ht a1] at hc
          cases hl : lastLine cs with
          | some c' => rw [hl] at hc; cases hc
          | none =>
            rw [hl] at hc
            simp only [if_pos hk2] at hc
            cases hc
      · rw [if_neg hk2] at h
        simp only [pure, Except.pure, Except.ok.injEq] at h
        subst h
        refine ⟨[], by simp, ?_, ?_, hx, ?_, ?_⟩
        · simp only [List.nil_append]
          rw [reads_cons_of h1]
          rfl
        · simp [isComment, hk1, hk2]
        · intro c hc
          cases hc
        · intro _
          rfl

theorem reads_trans {p p1 p2 : parser} {M1 M2 : List token.Token} (h1 : Reads p p1 M1)
    (h2 : Reads p1 p2 M2) : Reads p p2 (M1 ++ M2) := by
  obtain ⟨_, _, L1, e1, r1, g1⟩ := h1
  obtain ⟨b1, b2, L2, e2, r2, g2⟩ := h2
  refine ⟨b1, b2, L1 ++ L2, ?_, ?_, ?_⟩
  · rw [← List.cons_append, e1, List.append_assoc, List.singleton_append, e2,
      List.append_assoc]
  · exact (reads_append L1 L2 _ _).2 ⟨_, r1, r2⟩
  · intro t ht
    rcases List.mem_append.1 ht with e | e
    · exact g1 t e
    · exact g2 t e

theorem reads_refl (p : parser) (h0 : p.lex.nextToken = {}) (hc : isComment p.tok = false) :
    Reads p p [] :=
  ⟨h0, hc, [], rfl, rfl, by simp⟩

theorem reads_congr {p q p' : parser} {M : List token.Token} (hl : q.lex = p.lex)
    (ht : q.tok = p.tok) (h : Reads q p' M) : Reads p p' M := by
  unfold Reads at h ⊢
  rw [hl, ht] at h
  exact h

theorem reads_congr_right {p p' q' : parser} {M : List token.Token} (hl : q'.lex = p'.lex)
    (ht : q'.tok = p'.tok) (h : Reads p p' M) : Reads p q' M := by
  unfold Reads at h ⊢
  rw [hl, ht]
  exact h

theorem passes_trans {p p1 p2 : parser} (h1 : Passes p p1) (h2 : Passes p1 p2) :
    Passes p p2 := by
  obtain ⟨M1, a⟩ := h1
  obtain ⟨M2, b⟩ := h2
  exact ⟨_, reads_trans a b⟩

theorem ends_passes {p p' : parser} (h : Ends p p') : Passes p p' := by
  obtain ⟨M, a, _⟩ := h
  exact ⟨M, a⟩

theorem passes_ends {p p1 p2 : parser} (h1 : Passes p p1) (h2 : Ends p1 p2) : Ends p p2 := by
  obtain ⟨M1, a⟩ := h1
  obtain ⟨M2, b, hne, hreg⟩ := h2
  refine ⟨M1 ++ M2, reads_trans a b, by simp [hne], ?_⟩
  intro c hc
  obtain ⟨_, _, L2, e2, _, _⟩ := b
  cases M2 with
  | nil => exact absurd rfl hne
  | cons m M2 =>
    have hm : m = p1.tok := by
      have := congrArg List.head? e2
      simp at this
      exact this.symm
    rw [hm] at hc hreg
    rw [lastLine_append M1 M2 p1.tok a.2.1] at hc
    exact hreg c hc

theorem ends_trans {p p1 p2 : parser} (h1 : Ends p p1) (h2 : Ends p1 p2) : Ends p p2 :=
  passes_ends (ends_passes h1) h2

theorem passes_state {p p' : parser} (h : Passes p p') :
    p'.lex.nextToken = {} ∧ isComment p'.tok = false := by
  obtain ⟨M, a, b, _⟩ := h
  exact ⟨a, b⟩

theorem advance_ends (n : Nat) (p p' : parser) (h0 : p.lex.nextToken = {})
    (hc : isComment p.tok = false)
    (hk : p.tok.Kind ≠ token.EOF ∧ p.tok.Kind ≠ token.Illegal)
    (h : parser.advance n p = .ok p') : Ends p p' := by
  obtain ⟨cs, a1, a2, a3, a4, a5, _⟩ := advance_reads n p p' h0 h
  refine ⟨p.tok :: cs, ⟨a4, a3, cs ++ [p'.tok], by simp, a2, ?_⟩, by simp, ?_⟩
  · intro t ht
    rcases List.mem_cons.1 ht with e | e
    · rw [e]; exact hk
    · have := a1 t e
      simp only [isComment, Bool.or_eq_true, beq_iff_eq] at this
      rcases this with e1 | e1 <;> rw [e1] <;> decide
  · intro c hcc
    have := lastLine_append [] cs p.tok hc
    simp only [List.nil_append] at this
    have e : lastLine (p.tok :: cs) = lastLine cs := by
      unfold lastLine
      have r1 : (p.tok :: cs).reverse = cs.reverse ++ p.tok :: [] := by simp
      rw [r1, takeWhile_append_stop isComment p.tok hc, List.takeWhile_append]
      have r2 : cs.reverse.takeWhile isComment = cs.reverse := by
        rw [List.takeWhile_eq_self_iff]
        intro t ht
        exact a1 t (List.mem_reverse.1 ht)
      simp [r2, List.takeWhile, hc]
    rw [e] at hcc
    exact a5 c hcc

theorem eat_ends (n : Nat) (p p' : parser) (k : token.Kind) (t : token.Token)
    (hk : k ≠ token.EOF ∧ k ≠ token.Illegal ∧ k ≠ token.Comment ∧ k ≠ token.LineComment)
    (h0 : p.lex.nextToken = {}) (h : parser.eat n p k = .ok (t, p')) : Ends p p' := by
  simp only [parser.eat, bind_ok] at h
  obtain ⟨_, h1, q, h2, h⟩ := h
  simp only [pure, Except.pure, Except.ok.injEq, Prod.mk.injEq] at h
  obtain ⟨_, rfl⟩ := h
  have hkind : p.tok.Kind = k := by
    simp only [parser.expect] at h1
    by_contra hc
    rw [if_pos hc] at h1
    cases h1
  refine advance_ends n p q h0 ?_ ?_ h2
  · simp [isComment, hkind, hk.2.2.1, hk.2.2.2]
  · rw [hkind]; exact ⟨hk.1, hk.2.1⟩

end parser

namespace parser
open ast (Node)

theorem kind_facts {t : token.Token} {k : token.Kind} (h : t.Kind = k)
    (hk : k ≠ token.EOF ∧ k ≠ token.Illegal ∧ k ≠ token.Comment ∧ k ≠ token.LineComment) :
    isComment t = false ∧ (t.Kind ≠ token.EOF ∧ t.Kind ≠ token.Illegal) := by
  refine ⟨?_, ?_⟩
  · simp [isComment, h, hk.2.2.1, hk.2.2.2]
  · rw [h]; exact ⟨hk.1, hk.2.1⟩

theorem optAdvance_passes (n : Nat) (c : Prop) [Decidable c] (p q : parser)
    (h0 : p.lex.nextToken = {}) (hc : isComment p.tok = false)
    (hk : c → p.tok.Kind ≠ token.EOF ∧ p.tok.Kind ≠ token.Illegal)
    (h : (if c then parser.advance n p else pure p) = .ok q) : Passes p q := by
  split at h
  · rename_i hcc
    exact ends_passes (advance_ends n p q h0 hc (hk hcc) h)
  · cases h
    exact ⟨[], reads_refl p h0 hc⟩

theorem parseIdentifier_ends (n : Nat) : EndsAt (parser.parseIdentifier n) := by
  intro p r p' h0 _ h
  simp only [parser.parseIdentifier, bind_ok, Prod.exists] at h
  obtain ⟨t, q, h1, h⟩ := h
  cases h
  exact eat_ends n p _ _ _ (by decide) h0 h1

theorem parseTypeReference_ends (n : Nat) : EndsAt (parser.parseTypeReference n) := by
  intro p r p' h0 hc h
  simp only [parser.parseTypeReference, bind_ok, Prod.exists] at h
  obtain ⟨a, q, h1, h⟩ := h
  have e1 := parseIdentifier_ends n _ _ _ h0 hc h1
  split at h
  · cases h
    exact e1
  · rename_i hdot
    simp only [bind_ok, Prod.exists] at h
    obtain ⟨q2, h2, b, q3, h3, h⟩ := h
    cases h
    have hd : q.tok.Kind = token.Dot := by
      by_contra hh
      exact hdot hh
    obtain ⟨s1, s2⟩ := passes_state (ends_passes e1)
    have e2 := advance_ends n q q2 s1 s2 (kind_facts hd (by decide)).2 h2
    obtain ⟨s3, s4⟩ := passes_state (ends_passes e2)
    exact ends_trans e1 (ends_trans e2 (parseIdentifier_ends n _ _ _ s3 s4 h3))

theorem ends_types : ∀ n : Nat,
    EndsAt (parser.parseType n) ∧
    EndsAt (parser.parseTypeCheckUnion n) ∧
    (∀ acc, EndsAt (parser.parseTypeCheckUnionLoop n acc)) ∧
    EndsAt (parser.parseTypeCheckArray n) ∧
    EndsAt (parser.parseTypeInner n) ∧
    EndsAt (parser.parseTupleType n) ∧
    (∀ acc, EndsAt (parser.parseTupleTypeLoop n acc)) ∧
    EndsAt (parser.parseParenthesizedType n) ∧
    EndsAt (parser.parseTypeLiteral n) ∧
    (∀ acc, EndsAt (parser.parseTypeLiteralLoop n acc)) ∧
    PassesAt (parser.parseSignature n) ∧
    PassesAt (parser.parsePropertySignature n) ∧
    PassesAt (parser.parseIndexSignature n) ∧
    (∀ acc, PassesAt (parser.parseIndexSignatureLoop n acc)) ∧
    EndsAt (parser.parseParameter n) := by
  intro n
  induction n with
  | zero =>
    refine ⟨?_, ?_, ?_, ?_, ?_, ?_, ?_, ?_, ?_, ?_, ?_, ?_, ?_, ?_, ?_⟩
    · intro p r p' _ _ h; rw [parser.parseType] at h; cases h
    · intro p r p' _ _ h; rw [parser.parseTypeCheckUnion] at h; cases h
    · intro acc p r p' _ _ h; rw [parser.parseTypeCheckUnionLoop] at h; cases h
    · intro p r p' _ _ h; rw [parser.parseTypeCheckArray] at h; cases h
    · intro p r p' _ _ h; rw [parser.parseTypeInner] at h; cases h
    · intro p r p' _ _ h; rw [parser.parseTupleType] at h; cases h
    · intro acc p r p' _ _ h; rw [parser.parseTupleTypeLoop] at h; cases h
    · intro p r p' _ _ h; rw [parser.parseParenthesizedType] at h; cases h
    · intro p r p' _ _ h; rw [parser.parseTypeLiteral] at h; cases h
    · intro acc p r p' _ _ h; rw [parser.parseTypeLiteralLoop] at h; cases h
    · intro p r p' _ _ h; rw [parser.parseSignature] at h; cases h
    · intro p r p' _ _ h; rw [parser.parsePropertySignature] at h; cases h
    · intro p r p' _ _ h; rw [parser.parseIndexSignature] at h; cases h
    · intro acc p r p' _ _ h; rw [parser.parseIndexSignatureLoop] at h; cases h
    · intro p r p' _ _ h; rw [parser.parseParameter] at h; cases h
  | succ n ih =>
    obtain ⟨iType, iUnion, iUnionLoop, iArray, iInner, iTuple, iTupleLoop, iParen, iLit, iLitLoop,
      iSig, iProp, iIndex, iIndexLoop, iParam⟩ := ih
    refine ⟨?_, ?_, ?_, ?_, ?_, ?_, ?_, ?_, ?_, ?_, ?_, ?_, ?_, ?_, ?_⟩
    · -- parseType
      intro p r p' h0 hc h
      rw [parser.parseType] at h
      exact iUnion p r p' h0 hc h
    · -- parseTypeCheckUnion
      intro p r p' h0 hc h
      rw [parser.parseTypeCheckUnion] at h
      simp only [bind_ok, Prod.exists] at h
      obtain ⟨a, q, h1, h⟩ := h
      have e1 := iArray _ _ _ h0 hc h1
      obtain ⟨s1, s2⟩ := passes_state (ends_passes e1)
      split at h
      · cases h
        exact e1
      · exact ends_trans e1 (iUnionLoop [a] _ _ _ s1 s2 h)
    · -- parseTypeCheckUnionLoop
      intro acc p r p' h0 hc h
      rw [parser.parseTypeCheckUnionLoop] at h
      simp only [bind_ok, Prod.exists] at h
      obtain ⟨t, q, h1, a, q2, h2, h⟩ := h
      have e1 := eat_ends n p q _ _ (by decide) h0 h1
      obtain ⟨s1, s2⟩ := passes_state (ends_passes e1)
      have e2 := iArray _ _ _ s1 s2 h2
      obtain ⟨s3, s4⟩ := passes_state (ends_passes e2)
      split at h
      · cases h
        exact ends_trans e1 e2
      · exact ends_trans e1 (ends_trans e2 (iUnionLoop _ _ _ _ s3 s4 h))
    · -- parseTypeCheckArray
      intro p r p' h0 hc h
      rw [parser.parseTypeCheckArray] at h
      simp only [bind_ok, Prod.exists] at h
      obtain ⟨a, q, h1, h⟩ := h
      have e1 := iInner _ _ _ h0 hc h1
      obtain ⟨s1, s2⟩ := passes_state (ends_passes e1)
      split at h
      · cases h
        exact e1
      · simp only [bind_ok, Prod.exists] at h
        obtain ⟨t1, q1, h2, t2, q2, h3, h⟩ := h
        cases h
        have e2 := eat_ends n q q1 _ _ (by decide) s1 h2
        obtain ⟨s3, _⟩ := passes_state (ends_passes e2)
        exact ends_trans e1 (ends_trans e2 (eat_ends n q1 _ _ _ (by decide) s3 h3))
    · -- parseTypeInner
      intro p r p' h0 hc h
      rw [parser.parseTypeInner] at h
      split at h
      · exact parseTypeReference_ends _ _ _ _ h0 hc h
      split at h
      · exact iLit _ _ _ h0 hc h
      split at h
      · exact iParen _ _ _ h0 hc h
      split at h
      · exact iTuple _ _ _ h0 hc h
      split at h
      · simp only [bind_ok, Prod.exists] at h
        obtain ⟨t, q, h1, h⟩ := h
        cases h
        exact eat_ends n p _ _ _ (by decide) h0 h1
      split at h
      · simp only [bind_ok, Prod.exists] at h
        obtain ⟨t, q, h1, h⟩ := h
        cases h
        exact eat_ends n p _ _ _ (by decide) h0 h1
      · cases h
    · -- parseTupleType
      intro p r p' h0 hc h
      rw [parser.parseTupleType] at h
      simp only [bind_ok, Prod.exists] at h
      obtain ⟨t, q, h1, h⟩ := h
      have e1 := eat_ends n p q _ _ (by decide) h0 h1
      obtain ⟨s1, s2⟩ := passes_state (ends_passes e1)
      exact ends_trans e1 (iTupleLoop [] _ _ _ s1 s2 h)
    · -- parseTupleTypeLoop
      intro acc p r p' h0 hc h
      rw [parser.parseTupleTypeLoop] at h
      simp only [bind_ok, Prod.exists] at h
      obtain ⟨a, q, h1, h⟩ := h
      have e1 := iType _ _ _ h0 hc h1
      obtain ⟨s1, s2⟩ := passes_state (ends_passes e1)
      split at h
      · simp only [bind_ok, Prod.exists] at h
        obtain ⟨t, q2, h2, h⟩ := h
        cases h
        exact ends_trans e1 (eat_ends n q _ _ _ (by decide) s1 h2)
      · rename_i hcomma
        simp only [bind_ok] at h
        obtain ⟨q2, h2, h⟩ := h
        have hd : q.tok.Kind = token.Comma := by
          by_contra hh
          exact hcomma hh
        have e2 := advance_ends n q q2 s1 s2 (kind_facts hd (by decide)).2 h2
        obtain ⟨s3, s4⟩ := passes_state (ends_passes e2)
        exact ends_trans e1 (ends_trans e2 (iTupleLoop _ _ _ _ s3 s4 h))
    · -- parseParenthesizedType
      intro p r p' h0 hc h
      rw [parser.parseParenthesizedType] at h
      simp only [bind_ok, Prod.exists] at h
      obtain ⟨t, q, h1, a, q2, h2, t3, q3, h3, h⟩ := h
      cases h
      have e1 := eat_ends n p q _ _ (by decide) h0 h1
      obtain ⟨s1, s2⟩ := passes_state (ends_passes e1)
      have e2 := iType _ _ _ s1 s2 h2
      obtain ⟨s3, _⟩ := passes_state (ends_passes e2)
      exact ends_trans e1 (ends_trans e2 (eat_ends n q2 _ _ _ (by decide) s3 h3))
    · -- parseTypeLiteral
      intro p r p' h0 hc h
      rw [parser.parseTypeLiteral] at h
      simp only [bind_ok, Prod.exists] at h
      obtain ⟨t, q, h1, h⟩ := h
      have e1 := eat_ends n p q _ _ (by decide) h0 h1
      obtain ⟨s1, s2⟩ := passes_state (ends_passes e1)
      exact ends_trans e1 (iLitLoop [] _ _ _ s1 s2 h)
    · -- parseTypeLiteralLoop
      intro acc p r p' h0 hc h
      rw [parser.parseTypeLiteralLoop] at h
      split at h
      · simp only [bind_ok, Prod.exists] at h
        obtain ⟨t, q, h1, h⟩ := h
        cases h
        exact eat_ends n p _ _ _ (by decide) h0 h1
      · simp only [bind_ok, Prod.exists] at h
        obtain ⟨a, q, h1, h⟩ := h
        have e1 := iSig _ _ _ h0 hc h1
        obtain ⟨s1, s2⟩ := passes_state e1
        exact passes_ends e1 (iLitLoop _ _ _ _ s1 s2 h)
    · -- parseSignature
      intro p r p' h0 hc h
      rw [parser.parseSignature] at h
      split at h
      · exact iProp _ _ _ h0 hc h
      split at h
      · exact iIndex _ _ _ h0 hc h
      · cases h
    · -- parsePropertySignature
      intro p r p' h0 hc h
      rw [parser.parsePropertySignature] at h
      simp only [bind_ok, Prod.exists] at h
      obtain ⟨q1, h1, name, q2, h2, qt, q3, h3, t4, q4, h4, typ, q5, h5, q6, h6, h⟩ := h
      cases h
      have e1 : Passes p q1 := by
        obtain ⟨M, hM⟩ := optAdvance_passes n _ p.consumeComment.2 q1 h0 hc
          (fun hh => (kind_facts hh.1 (by decide)).2) h1
        exact ⟨M, reads_congr rfl rfl hM⟩
      obtain ⟨s1, s2⟩ := passes_state e1
      have e2 := parseIdentifier_ends n _ _ _ s1 s2 h2
      obtain ⟨s3, s4⟩ := passes_state (ends_passes e2)
      have e3 : Passes q2 q3 := by
        split at h3
        · rename_i hq
          simp only [bind_ok] at h3
          obtain ⟨q, h31, h32⟩ := h3
          cases h32
          exact ends_passes (advance_ends n q2 _ s3 s4 (kind_facts hq (by decide)).2 h31)
        · cases h3
          exact ⟨[], reads_refl _ s3 s4⟩
      obtain ⟨s5, s6⟩ := passes_state e3
      have e4 := eat_ends n q3 q4 _ _ (by decide) s5 h4
      obtain ⟨s7, s8⟩ := passes_state (ends_passes e4)
      have e5 := iType _ _ _ s7 s8 h5
      obtain ⟨s9, s10⟩ := passes_state (ends_passes e5)
      have e6 := optAdvance_passes n _ q5 q6 s9 s10
        (fun hh => (kind_facts hh (by decide)).2) h6
      obtain ⟨M, hM⟩ := passes_trans e1 (passes_trans (ends_passes e2) (passes_trans e3
        (passes_trans (ends_passes e4) (passes_trans (ends_passes e5) e6))))
      exact ⟨M, reads_congr_right rfl rfl hM⟩
    · -- parseIndexSignature
      intro p r p' h0 hc h
      rw [parser.parseIndexSignature] at h
      simp only [bind_ok, Prod.exists] at h
      obtain ⟨t1, q1, h1, ps, q2, h2, t3, q3, h3, t4, q4, h4, typ, q5, h5, q6, h6, h⟩ := h
      cases h
      have e1 : Passes p q1 := by
        obtain ⟨M, hM, _⟩ := eat_ends n p.consumeComment.2 q1 _ _ (by decide) h0 h1
        exact ⟨M, reads_congr rfl rfl hM⟩
      obtain ⟨s1, s2⟩ := passes_state e1
      have e2 := iIndexLoop [] _ _ _ s1 s2 h2
      obtain ⟨s3, s4⟩ := passes_state e2
      have e3 : Passes q2 q3 := by
        obtain ⟨M, hM, _⟩ := eat_ends n q2.consumeLineComment.2 q3 _ _ (by decide) s3 h3
        exact ⟨M, reads_congr rfl rfl hM⟩
      obtain ⟨s5, s6⟩ := passes_state e3
      have e4 := eat_ends n q3 q4 _ _ (by decide) s5 h4
      obtain ⟨s7, s8⟩ := passes_state (ends_passes e4)
      have e5 := iType _ _ _ s7 s8 h5
      obtain ⟨s9, s10⟩ := passes_state (ends_passes e5)
      have e6 := optAdvance_passes n _ q5 _ s9 s10
        (fun hh => (kind_facts hh (by decide)).2) h6
      exact passes_trans e1 (passes_trans e2 (passes_trans e3
        (passes_trans (ends_passes e4) (passes_trans (ends_passes e5) e6))))
    · -- parseIndexSignatureLoop
      intro acc p r p' h0 hc h
      rw [parser.parseIndexSignatureLoop] at h
      split at h
      · simp only [bind_ok, Prod.exists] at h
        obtain ⟨a, q, h1, h⟩ := h
        have e1 := iParam _ _ _ h0 hc h1
        obtain ⟨s1, s2⟩ := passes_state (ends_passes e1)
        exact passes_trans (ends_passes e1) (iIndexLoop _ _ _ _ s1 s2 h)
      · cases h
        exact ⟨[], reads_refl _ h0 hc⟩
    · -- parseParameter
      intro p r p' h0 hc h
      rw [parser.parseParameter] at h
      simp only [bind_ok, Prod.exists] at h
      obtain ⟨name, q1, h1, t2, q2, h2, typ, q3, h3, h⟩ := h
      cases h
      have e1 := parseIdentifier_ends n _ _ _ h0 hc h1
      obtain ⟨s1, s2⟩ := passes_state (ends_passes e1)
      have e2 := eat_ends n q1 q2 _ _ (by decide) s1 h2
      obtain ⟨s3, s4⟩ := passes_state (ends_passes e2)
      exact ends_trans e1 (ends_trans e2 (iType _ _ _ s3 s4 h3))

theorem parseType_ends (n : Nat) : EndsAt (parser.parseType n) := (ends_types n).1

/-- The run of `parsePropertySignature`: it ends in a state `q`, read with `Ends`
from the state at entry, whose register `lastLineComment` becomes the
`TrailingComment`. -/
theorem propertySignature_ends (n : Nat) (p p' : parser) (sig : Node)
    (h0 : p.lex.nextToken = {}) (hc : isComment p.tok = false)
    (h : parser.parsePropertySignature n p = .ok (sig, p')) :
    ∃ q name qt typ lc, Ends p q ∧
      sig = .PropertySignature name qt typ lc q.lastLineComment ∧
      p'.lex = q.lex ∧ p'.tok = q.tok := by
  cases n with
  | zero => rw [parser.parsePropertySignature] at h; cases h
  | succ n =>
    rw [parser.parsePropertySignature] at h
    simp only [bind_ok, Prod.exists] at h
    obtain ⟨q1, h1, name, q2, h2, qt, q3, h3, t4, q4, h4, typ, q5, h5, q6, h6, h⟩ := h
    cases h
    have e1 : Passes p q1 := by
      obtain ⟨M, hM⟩ := optAdvance_passes n _ p.consumeComment.2 q1 h0 hc
        (fun hh => (kind_facts hh.1 (by decide)).2) h1
      exact ⟨M, reads_congr rfl rfl hM⟩
    obtain ⟨s1, s2⟩ := passes_state e1
    have e2 := parseIdentifier_ends n _ _ _ s1 s2 h2
    obtain ⟨s3, s4⟩ := passes_state (ends_passes e2)
    have e3 : Passes q2 q3 := by
      split at h3
      · rename_i hq
        simp only [bind_ok] at h3
        obtain ⟨q, h31, h32⟩ := h3
        cases h32
        exact ends_passes (advance_ends n q2 _ s3 s4 (kind_facts hq (by decide)).2 h31)
      · cases h3
        exact ⟨[], reads_refl _ s3 s4⟩
    obtain ⟨s5, s6⟩ := passes_state e3
    have e4 := eat_ends n q3 q4 _ _ (by decide) s5 h4
    obtain ⟨s7, s8⟩ := passes_state (ends_passes e4)
    have e5 := parseType_ends n _ _ _ s7 s8 h5
    obtain ⟨s9, s10⟩ := passes_state (ends_passes e5)
    have e05 : Ends p q5 :=
      passes_ends (passes_trans e1 (passes_trans (ends_passes e2) (passes_trans e3
        (ends_passes e4)))) e5
    refine ⟨q6, name, qt, typ, p.consumeComment.1, ?_, rfl, rfl, rfl⟩
    split at h6
    · rename_i hsemi
      exact ends_trans e05 (advance_ends n q5 q6 s9 s10 (kind_facts hsemi (by decide)).2 h6)
    · cases h6
      exact e05

end parser

namespace parser
open ast (Node)

theorem propertySignature_tok (n : Nat) (p p' : parser) (sig : Node)
    (h : parser.parsePropertySignature n p = .ok (sig, p')) : p.tok.Kind = token.Ident := by
  cases n with
  | zero => rw [parser.parsePropertySignature] at h; cases h
  | succ n =>
    rw [parser.parsePropertySignature] at h
    simp only [bind_ok, Prod.exists] at h
    obtain ⟨q1, h1, name, q2, h2, _⟩ := h
    split at h1
    · rename_i hh
      exact hh.1
    · cases h1
      simp only [parser.parseIdentifier, parser.eat, bind_ok, Prod.exists] at h2
      obtain ⟨t, q, ⟨_, h3, _⟩, _⟩ := h2
      simp only [parser.expect] at h3
      by_contra hc
      have hc' : p.consumeComment.2.tok.Kind ≠ token.Ident := hc
      rw [if_pos hc'] at h3
      cases h3

theorem lastLine_trailing (A cs : List token.Token) (c : List Nat)
    (hcs : ∀ t ∈ cs, t.Kind = token.Comment) :
    lastLine (A ++ { Kind := token.LineComment, Text := c } :: cs) = some c := by
  unfold lastLine
  have e : (A ++ { Kind := token.LineComment, Text := c } :: cs).reverse
      = cs.reverse ++ ({ Kind := token.LineComment, Text := c } :: A.reverse) := by simp
  have h1 : ∀ t ∈ cs.reverse, isComment t = true := by
    intro t ht
    simp [isComment, hcs t (List.mem_reverse.1 ht)]
  have h2 : ∀ t ∈ cs.reverse, ¬ ((t.Kind == token.LineComment) = true) := by
    intro t ht
    rw [hcs t (List.mem_reverse.1 ht)]
    decide
  rw [e, List.takeWhile_append_of_pos h1, List.find?_append,
    List.find?_eq_none.2 h2]
  simp [List.takeWhile, isComment, List.find?]

/-- Two readings of tokens between the same two lexers, each ending with the token
`tok`: the first passes only tokens other than `EOF` and `Illegal`, the second
has a comment before `tok`. They are the same reading. -/
theorem reads_exact {x y : lexer} {tok : token.Token} {A B : List token.Token}
    (hy : y.nextToken = {}) (htok : isComment tok = false)
    (hA : lexer.reads (A ++ [tok]) x = some y) (hB : lexer.reads (B ++ [tok]) x = some y)
    (gA : ∀ t ∈ A, t.Kind ≠ token.EOF ∧ t.Kind ≠ token.Illegal)
    (gB : ∃ B' b, B = B' ++ [b] ∧ isComment b = true) : A = B := by
  obtain ⟨B', b, eB, hb⟩ := gB
  have hbk : b.Kind ≠ token.EOF ∧ b.Kind ≠ token.Illegal := by
    simp only [isComment, Bool.or_eq_true, beq_iff_eq] at hb
    rcases hb with e | e <;> rw [e] <;> decide
  rcases reads_compare _ _ x y y hA hB with ⟨D, e, hD⟩ | ⟨D, e, hD⟩
  · -- B ++ [tok] = A ++ [tok] ++ D
    cases D using List.reverseRecOn with
    | nil =>
      simp only [List.append_nil] at e
      exact (List.append_cancel_right e).symm
    | append_singleton D' d _ =>
      have hcyc := reads_cycle hy hD
      rw [← List.append_assoc] at e
      have e1 := List.append_inj_left' e (by simp)
      have e2 := List.append_inj_right' e (by simp)
      simp only [List.cons.injEq, and_true] at e2
      -- B = A ++ [tok] ++ D', and B ends with the comment b
      cases D' using List.reverseRecOn with
      | nil =>
        simp only [List.append_nil] at e1
        rw [eB] at e1
        have := List.append_inj_right' e1 (by simp)
        simp only [List.cons.injEq, and_true] at this
        rw [this] at hb
        rw [hb] at htok
        cases htok
      | append_singleton D'' d' _ =>
        rw [eB, ← List.append_assoc] at e1
        have := List.append_inj_right' e1 (by simp)
        simp only [List.cons.injEq, and_true] at this
        have hd := hcyc d' (by simp)
        rw [← this] at hd
        rcases hd with hd | hd
        · exact absurd hd hbk.1
        · exact absurd hd hbk.2
  · -- A ++ [tok] = B ++ [tok] ++ D
    cases D using List.reverseRecOn with
    | nil =>
      simp only [List.append_nil] at e
      exact List.append_cancel_right e
    | append_singleton D' d _ =>
      have hcyc := reads_cycle hy hD
      rw [← List.append_assoc] at e
      have e1 := List.append_inj_left' e (by simp)
      have e2 := List.append_inj_right' e (by simp)
      simp only [List.cons.injEq, and_true] at e2
      have hd := hcyc d (by simp)
      rw [← e2] at hd
      have hin : tok ∈ A := by rw [e1]; simp
      have := gA tok hin
      rcases hd with hd | hd
      · exact absurd hd this.1
      · exact absurd hd this.2

/-- The general form of the trailing comment of a property signature. -/
theorem propertySignature_trailing (n : Nat) (p p' : parser) (sig : Node)
    (ts cs : List token.Token) (c : List Nat)
    (hbuf : p.lex.nextToken = {})
    (h : parser.parsePropertySignature n p = .ok (sig, p'))
    (hread : lexer.reads (ts ++ { Kind := token.LineComment, Text := c } :: (cs ++ [p'.tok]))
      p.lex = some p'.lex)
    (hcs : ∀ t ∈ cs, t.Kind = token.Comment) :
    ∃ name qt typ lc, sig = .PropertySignature name qt typ lc c := by
  have hk := propertySignature_tok n p p' sig h
  have hc : isComment p.tok = false := (kind_facts hk (by decide)).1
  obtain ⟨q, name, qt, typ, lc, ⟨M, hM, hne, hreg⟩, hsig, hl, ht⟩ :=
    propertySignature_ends n p p' sig hbuf hc h
  refine ⟨name, qt, typ, lc, ?_⟩
  rw [hsig]
  obtain ⟨b1, b2, L, e, r, g⟩ := hM
  cases M with
  | nil => exact absurd rfl hne
  | cons m M' =>
    simp only [List.cons_append, List.cons.injEq] at e
    obtain ⟨em, eL⟩ := e
    rw [hl, ht] at hread
    rw [eL] at r
    have hB : lexer.reads ((ts ++ { Kind := token.LineComment, Text := c } :: cs) ++ [q.tok])
        p.lex = some q.lex := by
      rw [List.append_assoc, List.cons_append]
      exact hread
    have hex : M' = ts ++ { Kind := token.LineComment, Text := c } :: cs :=
      reads_exact b1 b2 r hB (fun t ht => g t (List.mem_cons_of_mem _ ht)) (by
        cases cs using List.reverseRecOn with
        | nil => exact ⟨ts, _, rfl, by simp [isComment]⟩
        | append_singleton cs' d _ =>
          refine ⟨ts ++ { Kind := token.LineComment, Text := c } :: cs', d, by simp, ?_⟩
          simp [isComment, hcs d (by simp)])
    have hlast : lastLine (m :: M') = some c := by
      rw [hex, ← List.cons_append]
      exact lastLine_trailing _ cs c hcs
    rw [hreg c hlast]

end parser

namespace parser
open ast (Node)

/-- Spaces, tabs and carriage returns before a comment on the line of the token
before it. -/
theorem trailingCommentSrc_blanks {cm c : List Nat} (hc : TrailingCommentSrc cm c) :
    ∀ (ws : List Nat) (x : lexer) (r : List Nat), (∀ b ∈ ws, b = 32 ∨ b = 9 ∨ b = 13) →
      x.nextToken = {} → x.willBeTrailingComment = true → x.rem = ws ++ (cm ++ 10 :: r) →
      ∃ x', x.Pop = .ok ({ Kind := token.LineComment, Text := c }, x') ∧ x'.rem = 10 :: r ∧
        x'.nextToken = {} := by
  intro ws
  induction ws with
  | nil =>
    intro x r _ hx hw hr
    exact hc x r hx hw hr
  | cons b ws ih =>
    intro x r hws hx hw hr
    have hb := hws b (List.mem_cons_self _ _)
    obtain ⟨hlt, hidx, hrem⟩ := rem_cons hr
    obtain ⟨x', h1, h2, h3⟩ := ih { x with offset := x.offset + 1 } r
      (fun c hc => hws c (List.mem_cons_of_mem _ hc)) hx hw hrem
    refine ⟨x', ?_, h2, h3⟩
    rw [← h1, pop_next x hx, pop_next { x with offset := x.offset + 1 } hx]
    have e : x.Source.length - x.offset + 1 = (x.Source.length - (x.offset + 1) + 1) + 1 := by
      omega
    rw [e, lexer.nextLoop, if_pos hlt, hidx, ok_bind, if_pos hb]

theorem member_semi_step {p : parser} (name T cm c rest r : List Nat) (t : token.Token)
    (n : Nat) (hro : name ≠ str "readonly") (hT : isIdent T = true)
    (hc : TrailingCommentSrc cm c) (hn : NextTok (10 :: rest) t r)
    (hp : At p { Kind := token.Ident, Text := name }
      (58 :: 32 :: (T ++ 59 :: 32 :: (cm ++ 10 :: rest)))) :
    ∃ p', parser.parsePropertySignature (n + 7) p
        = .ok (.PropertySignature (.Identifier name) false (typeRef T) [] c, p') ∧
      At p' t r := by
  have n1 : NextTok (58 :: 32 :: (T ++ 59 :: 32 :: (cm ++ 10 :: rest)))
      { Kind := token.Colon } (32 :: (T ++ 59 :: 32 :: (cm ++ 10 :: rest))) :=
    nextTok_punct (c := 58) _ rfl
  have n2 : NextTok (32 :: (T ++ 59 :: 32 :: (cm ++ 10 :: rest)))
      { Kind := token.Ident, Text := T } (59 :: 32 :: (cm ++ 10 :: rest)) :=
    nextTok_space (nextTok_ident _ hT (by simp [endsIdent, lexer.identEnd]))
  have n3 : NextTokF (59 :: 32 :: (cm ++ 10 :: rest))
      { Kind := token.Semicolon } (32 :: (cm ++ 10 :: rest)) :=
    nextTokF_punct (c := 59) _ rfl
  obtain ⟨q1, h1, hq1⟩ := parseIdentifier_step (n + 5) hp n1
  obtain ⟨q2, h2, hq2⟩ := eat_step (n + 5) token.Colon hq1 rfl n2
  obtain ⟨q3, h3, hq3, hf3⟩ := advance_stepF (n + 1) hq2 n3
  have ht := parseType_of_advance (n + 2) hq2.1 h3 (by rw [hq3.1]; decide)
    (by rw [hq3.1]; decide) (by rw [hq3.1]; decide)
  obtain ⟨q4, h4, hc4, hq4⟩ := advance_comment_step (n + 4) hq3 hf3 hc hn
  refine ⟨q4.consumeLineComment.2, ?_, hq4⟩
  rw [parser.parsePropertySignature]
  have hro' : ¬ (p.tok.Kind = token.Ident ∧ p.tok.Text = str "readonly") := by
    rw [hp.1]
    exact fun h => hro h.2
  simp only [at_consumeComment hp, bind, Except.bind, pure, Except.pure]
  rw [if_neg hro']
  simp only [h1, hq1.1]
  rw [if_neg (by decide)]
  simp only [h2, ht, hq3.1]
  rw [if_pos (by trivial)]
  simp only [h4, hc4]

theorem member_plain_step {p : parser} (name T cm c rest r : List Nat) (t : token.Token)
    (n : Nat) (hro : name ≠ str "readonly") (hT : isIdent T = true)
    (hc : TrailingCommentSrc cm c) (hn : NextTok (10 :: rest) t r)
    (ht : t.Kind = token.Ident ∨ t.Kind = token.RBrace)
    (hp : At p { Kind := token.Ident, Text := name }
      (58 :: 32 :: (T ++ 32 :: (cm ++ 10 :: rest)))) :
    ∃ p', parser.parsePropertySignature (n + 7) p
        = .ok (.PropertySignature (.Identifier name) false (typeRef T) [] c, p') ∧
      At p' t r := by
  have n1 : NextTok (58 :: 32 :: (T ++ 32 :: (cm ++ 10 :: rest)))
      { Kind := token.Colon } (32 :: (T ++ 32 :: (cm ++ 10 :: rest))) :=
    nextTok_punct (c := 58) _ rfl
  have n2 : NextTokF (32 :: (T ++ 32 :: (cm ++ 10 :: rest)))
      { Kind := token.Ident, Text := T } (32 :: (cm ++ 10 :: rest)) :=
    nextTokF_space (nextTokF_ident _ hT (by simp [endsIdent, lexer.identEnd]))
  obtain ⟨q1, h1, hq1⟩ := parseIdentifier_step (n + 5) hp n1
  obtain ⟨q2, h2, hq2, hf2⟩ := advance_stepF (n + 5) hq1 n2
  have h2e := eat_of_advance (n + 6) token.Colon (by rw [hq1.1]) h2
  obtain ⟨q3, h3, hc3, hq3⟩ := advance_comment_step n hq2 hf2 hc hn
  have hk3 : q3.tok = t := hq3.1
  have hk : t.Kind ≠ token.Dot ∧ t.Kind ≠ token.LBrack ∧ t.Kind ≠ token.Or ∧
      t.Kind ≠ token.Semicolon := by
    rcases ht with e | e <;> rw [e] <;> decide
  have htt := parseType_of_advance (n + 2) hq2.1 h3 (by rw [hk3]; exact hk.1)
    (by rw [hk3]; exact hk.2.1) (by rw [hk3]; exact hk.2.2.1)
  refine ⟨q3.consumeLineComment.2, ?_, hq3⟩
  rw [parser.parsePropertySignature]
  have hro' : ¬ (p.tok.Kind = token.Ident ∧ p.tok.Text = str "readonly") := by
    rw [hp.1]
    exact fun h => hro h.2
  simp only [at_consumeComment hp, bind, Except.bind, pure, Except.pure]
  rw [if_neg hro']
  simp only [h1, hq1.1]
  rw [if_neg (by decide)]
  simp only [h2e, htt, hk3]
  rw [if_neg hk.2.2.2]
  simp only [hc3]

/-- The source of a member after its name. -/
theorem member_src_eq (m : Member) (rest : List Nat) :
    m.src ++ rest = m.name ++ (58 :: 32 :: (m.T ++ ((if m.semi then [59] else []) ++
      32 :: (m.cm ++ 10 :: rest)))) := by
  have e1 : str ": " = [58, 32] := by decide
  have e2 : str ";" = [59] := by decide
  have e3 : str " " = [32] := by decide
  have e4 : str "\n" = [10] := by decide
  unfold Member.src
  rw [e1, e2, e3, e4]
  cases m.semi <;> simp

theorem member_step {p : parser} (m : Member) (rest r : List Nat) (t : token.Token) (n : Nat)
    (hm : m.wf) (hn : NextTok (10 :: rest) t r)
    (ht : t.Kind = token.Ident ∨ t.Kind = token.RBrace)
    (hp : At p { Kind := token.Ident, Text := m.name }
      (58 :: 32 :: (m.T ++ ((if m.semi then [59] else []) ++ 32 :: (m.cm ++ 10 :: rest))))) :
    ∃ p', parser.parsePropertySignature (n + 7) p = .ok (m.node, p') ∧ At p' t r := by
  obtain ⟨_, h2, h3, h4⟩ := hm
  cases hs : m.semi with
  | true =>
    rw [hs] at hp
    simp only [if_true, List.singleton_append] at hp
    exact member_semi_step m.name m.T m.cm m.c rest r t n h2 h3 h4 hn hp
  | false =>
    rw [hs] at hp
    simp only [Bool.false_eq_true, if_false, List.nil_append] at hp
    exact member_plain_step m.name m.T m.cm m.c rest r t n h2 h3 h4 hn ht hp

theorem member_src_ends (m : Member) (rest : List Nat) :
    endsIdent (58 :: 32 :: (m.T ++ ((if m.semi then [59] else []) ++
      32 :: (m.cm ++ 10 :: rest)))) = true := by
  simp [endsIdent, lexer.identEnd]

/-- The members of an interface, up to the closing brace. -/
theorem interfaceLoop_members (r : List Nat) :
    ∀ (ms : List Member) (m : Member) (acc : List Node) (p : parser) (n : Nat),
      (∀ v ∈ m :: ms, v.wf) → ms.length ≤ n →
      At p { Kind := token.Ident, Text := m.name }
        (58 :: 32 :: (m.T ++ ((if m.semi then [59] else []) ++
          32 :: (m.cm ++ 10 :: (Member.srcs ms ++ 125 :: r))))) →
      ∃ p', parser.parseInterfaceDeclarationLoop (n + 9) acc p
          = .ok (acc ++ (m :: ms).map Member.node, p') ∧ At p' { Kind := token.RBrace } r := by
  intro ms
  induction ms with
  | nil =>
    intro m acc p n hall _ hp
    simp only [Member.srcs, List.nil_append] at hp
    have nb : NextTok (10 :: 125 :: r) { Kind := token.RBrace } r :=
      nextTok_newline (nextTok_punct (c := 125) r rfl)
    obtain ⟨q1, h1, hq1⟩ := member_step m _ r _ n (hall m (by simp)) nb (Or.inr rfl) hp
    refine ⟨q1, ?_, hq1⟩
    rw [parser.parseInterfaceDeclarationLoop]
    have hsig : parser.parseSignature (n + 8) p = .ok (m.node, q1) := by
      rw [parser.parseSignature]
      simp [hp.1, h1]
    simp only [hp.1, bind, Except.bind, hsig]
    rw [if_neg (by decide), parser.parseInterfaceDeclarationLoop]
    simp [hq1.1, pure, Except.pure]
  | cons v vs ih =>
    intro m acc p n hall hf hp
    obtain ⟨k, rfl⟩ : ∃ k, n = k + 1 := ⟨n - 1, by simp at hf; omega⟩
    have hv := hall v (by simp)
    have hvs : ∀ w ∈ v :: vs, w.wf := fun w hw => hall w (by simp at hw ⊢; tauto)
    have hrest : Member.srcs (v :: vs) ++ 125 :: r
        = v.name ++ (58 :: 32 :: (v.T ++ ((if v.semi then [59] else []) ++
            32 :: (v.cm ++ 10 :: (Member.srcs vs ++ 125 :: r))))) := by
      rw [Member.srcs, List.append_assoc, member_src_eq]
    rw [hrest] at hp
    have nb : NextTok (10 :: (v.name ++ (58 :: 32 :: (v.T ++ ((if v.semi then [59] else []) ++
            32 :: (v.cm ++ 10 :: (Member.srcs vs ++ 125 :: r)))))))
        { Kind := token.Ident, Text := v.name }
        (58 :: 32 :: (v.T ++ ((if v.semi then [59] else []) ++
            32 :: (v.cm ++ 10 :: (Member.srcs vs ++ 125 :: r))))) :=
      nextTok_newline (nextTok_ident _ hv.1 (member_src_ends v _))
    obtain ⟨q1, h1, hq1⟩ := member_step m _ _ _ (k + 1) (hall m (by simp)) nb (Or.inl rfl) hp
    obtain ⟨q2, h2, hq2⟩ := ih v (acc ++ [m.node]) q1 k hvs (by simp at hf ⊢; omega) hq1
    refine ⟨q2, ?_, hq2⟩
    rw [parser.parseInterfaceDeclarationLoop]
    have hsig : parser.parseSignature (k + 1 + 8) p = .ok (m.node, q1) := by
      rw [parser.parseSignature]
      simp [hp.1, h1]
    simp only [hp.1, bind, Except.bind, hsig]
    rw [if_neg (by decide)]
    simp only [List.map_cons, List.append_assoc, List.singleton_append] at h2 ⊢
    exact h2

/-- The members of a type literal, up to and with the closing brace. -/
theorem typeLiteralLoop_members (r r' : List Nat) (t : token.Token) (hn : NextTok r t r') :
    ∀ (ms : List Member) (m : Member) (acc : List Node) (p : parser) (n : Nat),
      (∀ v ∈ m :: ms, v.wf) → ms.length ≤ n →
      At p { Kind := token.Ident, Text := m.name }
        (58 :: 32 :: (m.T ++ ((if m.semi then [59] else []) ++
          32 :: (m.cm ++ 10 :: (Member.srcs ms ++ 125 :: r))))) →
      ∃ p', parser.parseTypeLiteralLoop (n + 9) acc p
          = .ok (.TypeLiteral (acc ++ (m :: ms).map Member.node), p') ∧ At p' t r' := by
  intro ms
  induction ms with
  | nil =>
    intro m acc p n hall _ hp
    simp only [Member.srcs, List.nil_append] at hp
    have nb : NextTok (10 :: 125 :: r) { Kind := token.RBrace } r :=
      nextTok_newline (nextTok_punct (c := 125) r rfl)
    obtain ⟨q1, h1, hq1⟩ := member_step m _ r _ n (hall m (by simp)) nb (Or.inr rfl) hp
    obtain ⟨q2, h2, hq2⟩ := eat_step (n + 6) token.RBrace hq1 rfl hn
    refine ⟨q2, ?_, hq2⟩
    rw [parser.parseTypeLiteralLoop]
    have hsig : parser.parseSignature (n + 8) p = .ok (m.node, q1) := by
      rw [parser.parseSignature]
      simp [hp.1, h1]
    simp only [hp.1, bind, Except.bind, hsig]
    rw [if_neg (by decide), parser.parseTypeLiteralLoop]
    simp [hq1.1, h2, bind, Except.bind, pure, Except.pure]
  | cons v vs ih =>
    intro m acc p n hall hf hp
    obtain ⟨k, rfl⟩ : ∃ k, n = k + 1 := ⟨n - 1, by simp at hf; omega⟩
    have hv := hall v (by simp)
    have hvs : ∀ w ∈ v :: vs, w.wf := fun w hw => hall w (by simp at hw ⊢; tauto)
    have hrest : Member.srcs (v :: vs) ++ 125 :: r
        = v.name ++ (58 :: 32 :: (v.T ++ ((if v.semi then [59] else []) ++
            32 :: (v.cm ++ 10 :: (Member.srcs vs ++ 125 :: r))))) := by
      rw [Member.srcs, List.append_assoc, member_src_eq]
    rw [hrest] at hp
    have nb : NextTok (10 :: (v.name ++ (58 :: 32 :: (v.T ++ ((if v.semi then [59] else []) ++
            32 :: (v.cm ++ 10 :: (Member.srcs vs ++ 125 :: r)))))))
        { Kind := token.Ident, Text := v.name }
        (58 :: 32 :: (v.T ++ ((if v.semi then [59] else []) ++
            32 :: (v.cm ++ 10 :: (Member.srcs vs ++ 125 :: r))))) :=
      nextTok_newline (nextTok_ident _ hv.1 (member_src_ends v _))
    obtain ⟨q1, h1, hq1⟩ := member_step m _ _ _ (k + 1) (hall m (by simp)) nb (Or.inl rfl) hp
    obtain ⟨q2, h2, hq2⟩ := ih v (acc ++ [m.node]) q1 k hvs (by simp at hf ⊢; omega) hq1
    refine ⟨q2, ?_, hq2⟩
    rw [parser.parseTypeLiteralLoop]
    have hsig : parser.parseSignature (k + 1 + 8) p = .ok (m.node, q1) := by
      rw [parser.parseSignature]
      simp [hp.1, h1]
    simp only [hp.1, bind, Except.bind, hsig]
    rw [if_neg (by decide)]
    simp only [List.map_cons, List.append_assoc, List.singleton_append] at h2 ⊢
    exact h2

theorem member_src_length (m : Member) : 1 ≤ m.src.length := by
  unfold Member.src
  simp only [List.length_append]
  have : (str ": ").length = 2 := by decide
  omega

theorem members_length : ∀ ms : List Member, ms.length ≤ (Member.srcs ms).length := by
  intro ms
  induction ms with
  | nil => simp [Member.srcs]
  | cons m ms ih =>
    have := member_src_length m
    simp only [Member.srcs, List.length_cons, List.length_append]
    omega

end parser

namespace parser
open ast (Node)

theorem interface_loop_run (name rest : List Nat) (members : List Node) (k : Nat)
    (hk : k ≤ rest.length) (hname : isIdent name = true) (hrest : endsIdent rest = true)
    (hrun : ∀ (p : parser) (n : Nat), k ≤ n → At p { Kind := token.Ident, Text := name } rest →
      ∃ p', parser.parseInterfaceDeclarationLoop (n + 9) [] p = .ok (members, p') ∧
        At p' { Kind := token.RBrace } []) :
    Parse (str "interface A \x7b\n" ++ (name ++ rest))
      = .ok (.SourceFile [.InterfaceDeclaration (.Identifier (str "A")) [] [] members []]) := by
  have e1 : str "interface A \x7b\n" = str "interface" ++ [32, 65, 32, 123, 10] := by decide
  have e2 : str "A" = [65] := by decide
  have hsrc : str "interface A \x7b\n" ++ (name ++ rest)
      = str "interface" ++ (32 :: ([65] ++ (32 :: 123 :: 10 :: (name ++ rest)))) := by
    rw [e1]
    simp
  rw [hsrc, e2]
  have hlen : rest.length
      ≤ (str "interface" ++ (32 :: ([65] ++ (32 :: 123 :: 10 :: (name ++ rest))))).length := by
    simp only [List.length_append, List.length_cons]
    omega
  generalize hg : str "interface" ++ (32 :: ([65] ++ (32 :: 123 :: 10 :: (name ++ rest)))) = src
    at hlen
  obtain ⟨m, hm⟩ : ∃ m, budget src = m + 12 := ⟨budget src - 12, by simp only [budget]; omega⟩
  have hkm : k ≤ m := by
    simp only [budget] at hm
    omega
  have n1 : NextTok src { Kind := token.Ident, Text := str "interface" }
      (32 :: ([65] ++ (32 :: 123 :: 10 :: (name ++ rest)))) := by
    rw [← hg]
    exact nextTok_ident _ (by decide) (by simp [endsIdent, lexer.identEnd])
  have n2 : NextTok (32 :: ([65] ++ (32 :: 123 :: 10 :: (name ++ rest))))
      { Kind := token.Ident, Text := [65] } (32 :: 123 :: 10 :: (name ++ rest)) :=
    nextTok_space (nextTok_ident _ (by decide) (by simp [endsIdent, lexer.identEnd]))
  have n3 : NextTok (32 :: 123 :: 10 :: (name ++ rest)) { Kind := token.LBrace }
      (10 :: (name ++ rest)) :=
    nextTok_space (nextTok_punct (c := 123) _ rfl)
  have n4 : NextTok (10 :: (name ++ rest)) { Kind := token.Ident, Text := name } rest :=
    nextTok_newline (nextTok_ident _ hname hrest)
  obtain ⟨p1, h1, hp1⟩ := advance_step (m + 10) (at_init src) n1
  obtain ⟨p2, h2, hp2⟩ := eat_step (m + 8) token.Ident hp1 rfl n2
  obtain ⟨p3, h3, hp3⟩ := parseIdentifier_step (m + 8) hp2 n3
  obtain ⟨p4, h4, hp4⟩ := eat_step (m + 8) token.LBrace hp3 rfl n4
  obtain ⟨p5, hloop, hp5⟩ := hrun p4 m hkm hp4
  obtain ⟨p6, h6, hp6⟩ := eat_step (m + 8) token.RBrace hp5 rfl nextTok_eof
  obtain ⟨p7, h7, hp7⟩ := advance_step (m + 9) hp6 nextTok_eof
  have hne : str "interface" ≠ str "export" ∧ str "interface" ≠ str "const" ∧
      str "interface" ≠ str "type" ∧ str "interface" ≠ str "enum" := by decide
  have hstmt : parser.parseStatement (m + 11) p1
      = .ok (.InterfaceDeclaration (.Identifier [65]) [] [] members [], p6) := by
    rw [parser.parseStatement, parser.parseStatementLoop]
    simp only [parser.expect, hp1.1, bind, Except.bind, hne.1, hne.2.1, hne.2.2.1, hne.2.2.2,
      if_false, if_true, parser.parseInterfaceDeclaration, h2, at_consumeComment hp2, h3, h4,
      pure, Except.pure, ne_eq, not_true_eq_false, hp3.1,
      hloop, h6, List.nil_append, and_self, token.Ident, token.LAngle, token.LBrace,
      show ¬ ((14 : token.Kind) = 16) by decide, show ¬ ((14 : token.Kind) = 4) by decide,
      false_and]
  simp only [Parse, hm, parser.parseSourceFile]
  rw [parser.parseSourceFileLoop]
  simp only [h1, bind, Except.bind, hp1.1, hstmt]
  rw [parser.parseSourceFileLoop]
  simp [h7, bind, Except.bind, hp7.1, pure, Except.pure]

theorem typeLiteral_loop_run (name rest : List Nat) (members : List Node) (k : Nat)
    (hk : k ≤ rest.length) (hname : isIdent name = true) (hrest : endsIdent rest = true)
    (hrun : ∀ (p : parser) (n : Nat), k ≤ n → At p { Kind := token.Ident, Text := name } rest →
      ∃ p', parser.parseTypeLiteralLoop (n + 9) [] p = .ok (.TypeLiteral members, p') ∧
        At p' { Kind := token.EOF } []) :
    Parse (str "type X = \x7b\n" ++ (name ++ rest))
      = .ok (.SourceFile [.TypeAliasDeclaration (.Identifier (str "X")) (.TypeLiteral members)
          []]) := by
  have e1 : str "type X = \x7b\n" = str "type" ++ [32, 88, 32, 61, 32, 123, 10] := by decide
  have e2 : str "X" = [88] := by decide
  have hsrc : str "type X = \x7b\n" ++ (name ++ rest)
      = str "type" ++ (32 :: ([88] ++ (32 :: 61 :: 32 :: 123 :: 10 :: (name ++ rest)))) := by
    rw [e1]
    simp
  rw [hsrc, e2]
  have hlen : rest.length ≤ (str "type" ++ (32 :: ([88] ++
      (32 :: 61 :: 32 :: 123 :: 10 :: (name ++ rest))))).length := by
    simp only [List.length_append, List.length_cons]
    omega
  generalize hg : str "type" ++ (32 :: ([88] ++ (32 :: 61 :: 32 :: 123 :: 10 :: (name ++ rest))))
    = src at hlen
  obtain ⟨m, hm⟩ : ∃ m, budget src = m + 17 := ⟨budget src - 17, by simp only [budget]; omega⟩
  have hkm : k ≤ m := by
    simp only [budget] at hm
    omega
  have n1 : NextTok src { Kind := token.Ident, Text := str "type" }
      (32 :: ([88] ++ (32 :: 61 :: 32 :: 123 :: 10 :: (name ++ rest)))) := by
    rw [← hg]
    exact nextTok_ident _ (by decide) (by simp [endsIdent, lexer.identEnd])
  have n2 : NextTok (32 :: ([88] ++ (32 :: 61 :: 32 :: 123 :: 10 :: (name ++ rest))))
      { Kind := token.Ident, Text := [88] } (32 :: 61 :: 32 :: 123 :: 10 :: (name ++ rest)) :=
    nextTok_space (nextTok_ident _ (by decide) (by simp [endsIdent, lexer.identEnd]))
  have n3 : NextTok (32 :: 61 :: 32 :: 123 :: 10 :: (name ++ rest)) { Kind := token.Assign }
      (32 :: 123 :: 10 :: (name ++ rest)) :=
    nextTok_space (nextTok_punct (c := 61) _ rfl)
  have n4 : NextTok (32 :: 123 :: 10 :: (name ++ rest)) { Kind := token.LBrace }
      (10 :: (name ++ rest)) :=
    nextTok_space (nextTok_punct (c := 123) _ rfl)
  have n5 : NextTok (10 :: (name ++ rest)) { Kind := token.Ident, Text := name } rest :=
    nextTok_newline (nextTok_ident _ hname hrest)
  obtain ⟨p1, h1, hp1⟩ := advance_step (m + 15) (at_init src) n1
  obtain ⟨p2, h2, hp2⟩ := eat_step (m + 13) token.Ident hp1 rfl n2
  obtain ⟨p3, h3, hp3⟩ := parseIdentifier_step (m + 13) hp2 n3
  obtain ⟨p4, h4, hp4⟩ := eat_step (m + 13) token.Assign hp3 rfl n4
  obtain ⟨p5, h5, hp5⟩ := eat_step (m + 8) token.LBrace hp4 rfl n5
  obtain ⟨p7, hloop, hp7⟩ := hrun p5 m hkm hp5
  obtain ⟨p8, h8, hp8⟩ := advance_step (m + 14) hp7 nextTok_eof
  have hne : str "type" ≠ str "export" ∧ str "type" ≠ str "const" := by decide
  have htyp : parser.parseType (m + 14) p4 = .ok (.TypeLiteral members, p7) := by
    rw [parser.parseType, parser.parseTypeCheckUnion, parser.parseTypeCheckArray,
      parser.parseTypeInner, parser.parseTypeLiteral]
    simp [hp4.1, h5, hloop, hp7.1, bind, Except.bind, pure, Except.pure]
  have hstmt : parser.parseStatement (m + 16) p1
      = .ok (.TypeAliasDeclaration (.Identifier [88]) (.TypeLiteral members) [], p7) := by
    rw [parser.parseStatement, parser.parseStatementLoop]
    simp only [parser.expect, hp1.1, bind, Except.bind, hne.1, hne.2, if_false, if_true,
      parser.parseTypeAliasDeclaration, h2, at_consumeComment hp2, h3, h4, htyp, pure,
      Except.pure, ne_eq, not_true_eq_false]
  simp only [Parse, hm, parser.parseSourceFile]
  rw [parser.parseSourceFileLoop]
  simp only [h1, bind, Except.bind, hp1.1, hstmt]
  rw [parser.parseSourceFileLoop]
  simp [h8, bind, Except.bind, hp8.1, pure, Except.pure]

/-- An interface and a type literal whose members are property signatures, each
followed on its line by a comment. -/
theorem members_run (m : Member) (ms : List Member) (hall : ∀ v ∈ m :: ms, v.wf) :
    Parse (str "interface A \x7b\n" ++ (Member.srcs (m :: ms) ++ str "\x7d"))
      = .ok (.SourceFile [.InterfaceDeclaration (.Identifier (str "A")) [] []
          ((m :: ms).map Member.node) []]) ∧
    Parse (str "type X = \x7b\n" ++ (Member.srcs (m :: ms) ++ str "\x7d"))
      = .ok (.SourceFile [.TypeAliasDeclaration (.Identifier (str "X"))
          (.TypeLiteral ((m :: ms).map Member.node)) []]) := by
  have e : str "\x7d" = [125] := by decide
  have hsrc : Member.srcs (m :: ms) ++ str "\x7d"
      = m.name ++ (58 :: 32 :: (m.T ++ ((if m.semi then [59] else []) ++
          32 :: (m.cm ++ 10 :: (Member.srcs ms ++ 125 :: []))))) := by
    rw [e, Member.srcs, List.append_assoc, member_src_eq]
  rw [hsrc]
  have hk : ms.length ≤ (58 :: 32 :: (m.T ++ ((if m.semi then [59] else []) ++
      32 :: (m.cm ++ 10 :: (Member.srcs ms ++ 125 :: []))))).length := by
    have := members_length ms
    simp only [List.length_append, List.length_cons]
    omega
  refine ⟨?_, ?_⟩
  · refine interface_loop_run m.name _ _ ms.length hk (hall m (by simp)).1
      (member_src_ends m _) ?_
    intro p n hn hp
    have := interfaceLoop_members [] ms m [] p n hall hn hp
    simpa using this
  · refine typeLiteral_loop_run m.name _ _ ms.length hk (hall m (by simp)).1
      (member_src_ends m _) ?_
    intro p n hn hp
    have := typeLiteralLoop_members [] [] { Kind := token.EOF } nextTok_eof ms m [] p n hall hn hp
    simpa using this

end parser

namespace parser
open ast (Node)

/-- The register `lastComment` after `advance`: the text of the last `Comment` token
passed, and what it held before when no such token is passed. -/
theorem advance_lastComment : ∀ (n : Nat) (p p' : parser), p.lex.nextToken = {} →
    parser.advance n p = .ok p' →
    ∃ cs, (∀ t ∈ cs, isComment t = true) ∧
      lexer.reads (cs ++ [p'.tok]) p.lex = some p'.lex ∧
      ((∀ t ∈ cs, t.Kind ≠ token.Comment) → p'.lastComment = p.lastComment) ∧
      (∀ a c b, cs = a ++ { Kind := token.Comment, Text := c } :: b →
        (∀ t ∈ b, t.Kind ≠ token.Comment) → p'.lastComment = c) := by
  intro n
  induction n with
  | zero => intro p p' _ h; simp [parser.advance] at h
  | succ n ih =>
    intro p p' h0 h
    rw [parser.advance] at h
    simp only [bind_ok] at h
    obtain ⟨⟨t, x⟩, h1, h⟩ := h
    obtain ⟨hx, _, _⟩ := pop_step h0 h1
    dsimp only at h
    by_cases hk1 : t.Kind = token.Comment
    · rw [if_pos hk1] at h
      obtain ⟨cs, a1, a2, a3, a4⟩ := ih _ p' hx h
      have ht : isComment t = true := by simp [isComment, hk1]
      refine ⟨t :: cs, ?_, ?_, ?_, ?_⟩
      · intro s hs
        rcases List.mem_cons.1 hs with e | e
        · rw [e]; exact ht
        · exact a1 s e
      · rw [List.cons_append, reads_cons_of h1]
        exact a2
      · intro hall
        exact absurd hk1 (hall t (List.mem_cons_self _ _))
      · intro a c b e hb
        cases a with
        | nil =>
          simp only [List.nil_append, List.cons.injEq] at e
          obtain ⟨e1, e2⟩ := e
          rw [a3 (by rw [e2]; exact hb), e1]
        | cons a0 a' =>
          simp only [List.cons_append, List.cons.injEq] at e
          exact a4 a' c b e.2 hb
    · rw [if_neg hk1] at h
      by_cases hk2 : t.Kind = token.LineComment
      · rw [if_pos hk2] at h
        obtain ⟨cs, a1, a2, a3, a4⟩ := ih _ p' hx h
        have ht : isComment t = true := by simp [isComment, hk2]
        refine ⟨t :: cs, ?_, ?_, ?_, ?_⟩
        · intro s hs
          rcases List.mem_cons.1 hs with e | e
          · rw [e]; exact ht
          · exact a1 s e
        · rw [List.cons_append, reads_cons_of h1]
          exact a2
        · intro hall
          exact a3 (fun s hs => hall s (List.mem_cons_of_mem _ hs))
        · intro a c b e hb
          cases a with
          | nil =>
            simp only [List.nil_append, List.cons.injEq] at e
            rw [e.1] at hk1
            exact absurd rfl hk1
          | cons a0 a' =>
            simp only [List.cons_append, List.cons.injEq] at e
            exact a4 a' c b e.2 hb
      · rw [if_neg hk2] at h
        simp only [pure, Except.pure, Except.ok.injEq] at h
        subst h
        refine ⟨[], by simp, ?_, fun _ => rfl, ?_⟩
        · simp only [List.nil_append]
          rw [reads_cons_of h1]
          rfl
        · intro a c b e _
          cases a <;> cases e

/-- Where the rules of the members read the register `lastComment`: the two
signatures before anything else, the enum member after the `advance` that leaves
its name. -/
theorem member_leading (n : Nat) (p p' : parser) (r : Node) :
    (parser.parsePropertySignature n p = .ok (r, p') → r.LeadingComment = p.lastComment) ∧
    (parser.parseIndexSignature n p = .ok (r, p') → r.LeadingComment = p.lastComment) ∧
    (parser.parseEnumMember n p = .ok (r, p') →
      ∃ q, parser.advance n p = .ok q ∧ r.LeadingComment = q.lastComment) := by
  refine ⟨?_, ?_, ?_⟩
  · intro h
    cases n with
    | zero => rw [parser.parsePropertySignature] at h; cases h
    | succ n =>
      rw [parser.parsePropertySignature] at h
      simp only [bind_ok, Prod.exists] at h
      obtain ⟨q1, h1, name, q2, h2, qt, q3, h3, t4, q4, h4, typ, q5, h5, q6, h6, h⟩ := h
      cases h
      rfl
  · intro h
    cases n with
    | zero => rw [parser.parseIndexSignature] at h; cases h
    | succ n =>
      rw [parser.parseIndexSignature] at h
      simp only [bind_ok, Prod.exists] at h
      obtain ⟨t1, q1, h1, ps, q2, h2, t3, q3, h3, t4, q4, h4, typ, q5, h5, q6, h6, h⟩ := h
      cases h
      rfl
  · intro h
    simp only [parser.parseEnumMember, parser.parseIdentifier, parser.eat, bind_ok,
      Prod.exists] at h
    obtain ⟨name, q, ⟨t, q', ⟨_, _, q0, hadv, hq⟩, hn⟩, h⟩ := h
    simp only [pure, Except.pure, Except.ok.injEq, Prod.mk.injEq] at hq hn
    obtain ⟨_, rfl⟩ := hq
    obtain ⟨_, rfl⟩ := hn
    refine ⟨q0, hadv, ?_⟩
    split at h
    · cases h
      rfl
    · simp only [bind_ok, Prod.exists] at h
      obtain ⟨q1, _, i, q2, _, h⟩ := h
      cases h
      rfl

/-- Where the rules of the declarations read the register `lastComment`: after the
`advance` that leaves the keyword. -/
theorem declaration_leading (n : Nat) (p p' : parser) (r : Node) :
    (parser.parseVariableStatement n p = .ok (r, p') →
      ∃ q, parser.advance n p = .ok q ∧ r.LeadingComment = q.lastComment) ∧
    (parser.parseTypeAliasDeclaration n p = .ok (r, p') →
      ∃ q, parser.advance n p = .ok q ∧ r.LeadingComment = q.lastComment) ∧
    (parser.parseEnumDeclaration n p = .ok (r, p') →
      ∃ q, parser.advance n p = .ok q ∧ r.LeadingComment = q.lastComment) ∧
    (parser.parseInterfaceDeclaration n p = .ok (r, p') →
      ∃ q, parser.advance n p = .ok q ∧ r.LeadingComment = q.lastComment) ∧
    (parser.parseModuleDeclaration (n + 1) p = .ok (r, p') →
      ∃ q, parser.advance n p = .ok q ∧ r.LeadingComment = q.lastComment) := by
  refine ⟨?_, ?_, ?_, ?_, ?_⟩
  · intro h
    simp only [parser.parseVariableStatement, parser.eat, bind_ok, Prod.exists] at h
    obtain ⟨t, q, ⟨_, _, q0, hadv, hq⟩, d, q1, _, h⟩ := h
    simp only [pure, Except.pure, Except.ok.injEq, Prod.mk.injEq] at hq h
    obtain ⟨_, rfl⟩ := hq
    obtain ⟨rfl, _⟩ := h
    exact ⟨q0, hadv, rfl⟩
  · intro h
    simp only [parser.parseTypeAliasDeclaration, parser.eat, bind_ok, Prod.exists] at h
    obtain ⟨t, q, ⟨_, _, q0, hadv, hq⟩, nm, q1, _, t2, q2, _, ty, q3, _, h⟩ := h
    simp only [pure, Except.pure, Except.ok.injEq, Prod.mk.injEq] at hq h
    obtain ⟨_, rfl⟩ := hq
    obtain ⟨rfl, _⟩ := h
    exact ⟨q0, hadv, rfl⟩
  · intro h
    simp only [parser.parseEnumDeclaration, parser.eat, bind_ok, Prod.exists] at h
    obtain ⟨t, q, ⟨_, _, q0, hadv, hq⟩, nm, q1, _, t2, q2, _, ms, q3, _, t4, q4, _, h⟩ := h
    simp only [pure, Except.pure, Except.ok.injEq, Prod.mk.injEq] at hq h
    obtain ⟨_, rfl⟩ := hq
    obtain ⟨rfl, _⟩ := h
    exact ⟨q0, hadv, rfl⟩
  · intro h
    simp only [parser.parseInterfaceDeclaration, parser.eat, bind_ok, Prod.exists] at h
    obtain ⟨t, q, ⟨_, _, q0, hadv, hq⟩, nm, q1, _, tps, q2, _, hcs, q3, _, t4, q4, _,
      ms, q5, _, t6, q6, _, h⟩ := h
    simp only [pure, Except.pure, Except.ok.injEq, Prod.mk.injEq] at hq h
    obtain ⟨_, rfl⟩ := hq
    obtain ⟨rfl, _⟩ := h
    exact ⟨q0, hadv, rfl⟩
  · intro h
    rw [parser.parseModuleDeclaration] at h
    simp only [parser.eat, bind_ok, Prod.exists] at h
    obtain ⟨t, q, ⟨_, _, q0, hadv, hq⟩, nm, q1, _, t2, q2, _, ss, q3, _, h⟩ := h
    simp only [pure, Except.pure, Except.ok.injEq, Prod.mk.injEq] at hq h
    obtain ⟨_, rfl⟩ := hq
    obtain ⟨rfl, _⟩ := h
    exact ⟨q0, hadv, rfl⟩

end parser

/-! ## The claims -/

namespace parser
open ast (Node)

/-- C1 (defect of `parseSourceFile`): `interface A {}` and `interface B {}` are each
accepted as one statement, yet `Parse` of the two declarations on two lines
panics: the `advance` at the top of the loop of `parseSourceFile` discards the
keyword `interface` of the second declaration. -/
theorem C1_two_declarations_panic :
    Parse (str "interface A \x7b\x7d")
      = .ok (.SourceFile [.InterfaceDeclaration (.Identifier (str "A")) [] [] [] []]) ∧
    Parse (str "interface B \x7b\x7d")
      = .ok (.SourceFile [.InterfaceDeclaration (.Identifier (str "B")) [] [] [] []]) ∧
    Parse (str "interface A \x7b\x7d\ninterface B \x7b\x7d")
      = .error (.unexpectedToken { Kind := token.Ident, Text := str "B" }) := by
  decide!

/-- C2 (defect of `parseSourceFile`): the lexer answers `Illegal` for the
unterminated string at the end of `type X = number '`, and `Parse` returns a tree:
the `advance` at the top of the loop of `parseSourceFile` discards the token. -/
theorem C2_illegal_token_skipped :
    tokens 10 { Source := str "type X = number \x27" }
      = [{ Kind := token.Ident, Text := str "type" }, { Kind := token.Ident, Text := str "X" },
         { Kind := token.Assign }, { Kind := token.Ident, Text := str "number" },
         { Kind := token.Illegal }, { Kind := token.EOF }] ∧
    Parse (str "type X = number \x27")
      = .ok (.SourceFile [.TypeAliasDeclaration (.Identifier (str "X"))
          (.TypeReference (.Identifier (str "number"))) []]) := by
  decide!

/-- C3 (defect of `parseStatement`): after `export`, the string literal `'export'`
is skipped as if it were the modifier, so `Parse` accepts
`export 'export' type X = number;`. -/
theorem C3_string_taken_for_export :
    Parse (str "export \x27export\x27 type X = number;")
      = .ok (.SourceFile [.TypeAliasDeclaration (.Identifier (str "X"))
          (.TypeReference (.Identifier (str "number"))) []]) := by
  decide!

/-- C4 (defect of `parseSourceFile`): `Parse` accepts `type X = number }` and
`type X = number )`; the token after the declaration is discarded unread. -/
theorem C4_stray_token_accepted :
    Parse (str "type X = number \x7d")
      = .ok (.SourceFile [.TypeAliasDeclaration (.Identifier (str "X"))
          (.TypeReference (.Identifier (str "number"))) []]) ∧
    Parse (str "type X = number )")
      = .ok (.SourceFile [.TypeAliasDeclaration (.Identifier (str "X"))
          (.TypeReference (.Identifier (str "number"))) []]) := by
  decide!

/-- C5: `type X = T1 | ... | Tn;` parses to one type alias named `X` whose type is
the reference to `T1` when `n = 1` and the union of the `n` references, in source
order, when `n ≥ 2`. -/
theorem C5_union_promotion (X T : List Nat) (Ts : List (List Nat))
    (hX : isIdent X = true) (hT : isIdent T = true) (hTs : ∀ V ∈ Ts, isIdent V = true) :
    Parse (str "type " ++ X ++ str " = " ++ List.intercalate (str " | ") (T :: Ts) ++ str ";")
      = .ok (.SourceFile [.TypeAliasDeclaration (.Identifier X)
          (if Ts = [] then typeRef T else .UnionType ((T :: Ts).map typeRef)) []]) :=
  union_run X T Ts hX hT hTs

/-- C5 at `type X = A | B;`. -/
theorem C5_union_promotion_witness :
    Parse (str "type " ++ str "X" ++ str " = "
        ++ List.intercalate (str " | ") [str "A", str "B"] ++ str ";")
      = .ok (.SourceFile [.TypeAliasDeclaration (.Identifier (str "X"))
          (.UnionType [typeRef (str "A"), typeRef (str "B")]) []]) :=
  C5_union_promotion (str "X") (str "A") [str "B"] (by decide) (by decide) (by decide)

/-- C6: in every tree returned by `Parse`, a `UnionType` node has at least two
members and none of its direct members is a `UnionType`. -/
theorem C6_union_members (src : List Nat) (tree : Node) (types : List Node)
    (h : Parse src = .ok tree) (hw : Node.Within (.UnionType types) tree) :
    2 ≤ types.length ∧ ∀ t ∈ types, t.isUnionType = false :=
  (treeOk_Parse src tree h _ hw).2.1 types rfl

/-- C6 at the union of `type X = A | B;`. -/
theorem C6_union_members_witness :
    Parse (str "type X = A | B;")
      = .ok (.SourceFile [.TypeAliasDeclaration (.Identifier (str "X"))
          (.UnionType [typeRef (str "A"), typeRef (str "B")]) []]) ∧
    (2 ≤ [typeRef (str "A"), typeRef (str "B")].length ∧
      ∀ t ∈ [typeRef (str "A"), typeRef (str "B")], t.isUnionType = false) :=
  ⟨by decide!,
   C6_union_members (str "type X = A | B;")
    (.SourceFile [.TypeAliasDeclaration (.Identifier (str "X"))
      (.UnionType [typeRef (str "A"), typeRef (str "B")]) []])
    [typeRef (str "A"), typeRef (str "B")] (by decide!)
    (Node.Within.child _
      (.TypeAliasDeclaration (.Identifier (str "X"))
        (.UnionType [typeRef (str "A"), typeRef (str "B")]) []) _
      (Node.Within.child _ (.UnionType [typeRef (str "A"), typeRef (str "B")]) _
        (Node.Within.root _) (by simp [Node.children]))
      (by simp [Node.children]))⟩

/-- C7: `interface A extends B1, ..., Bn {}` parses to one interface declaration
named `A` with `n` heritage clauses, the `i`-th holding the one type `Bi`; and in
every tree returned by `Parse`, a heritage clause holds exactly one type. -/
theorem C7_heritage_shape (A B : List Nat) (Bs : List (List Nat))
    (hA : isIdent A = true) (hB : isIdent B = true) (hBs : ∀ V ∈ Bs, isIdent V = true) :
    Parse (str "interface " ++ A ++ str " extends " ++ List.intercalate (str ", ") (B :: Bs)
        ++ str " \x7b\x7d")
      = .ok (.SourceFile [.InterfaceDeclaration (.Identifier A) []
          ((B :: Bs).map fun W => .HeritageClause [.ExpressionWithTypeArguments (.Identifier W)])
          [] []]) ∧
    ∀ (src : List Nat) (tree : Node) (ts : List Node), Parse src = .ok tree →
      Node.Within (.HeritageClause ts) tree → ts.length = 1 :=
  ⟨heritage_run A B Bs hA hB hBs,
   fun src tree ts h hw => (treeOk_Parse src tree h _ hw).2.2 ts rfl⟩

/-- C7 at `interface A extends B, C {}`. -/
theorem C7_heritage_shape_witness :
    Parse (str "interface " ++ str "A" ++ str " extends "
        ++ List.intercalate (str ", ") [str "B", str "C"] ++ str " \x7b\x7d")
      = .ok (.SourceFile [.InterfaceDeclaration (.Identifier (str "A")) []
          [.HeritageClause [.ExpressionWithTypeArguments (.Identifier (str "B"))],
           .HeritageClause [.ExpressionWithTypeArguments (.Identifier (str "C"))]]
          [] []]) :=
  (C7_heritage_shape (str "A") (str "B") [str "C"] (by decide) (by decide) (by decide)).1

/-- C9 (defect of `parseEnumMember`): the member `A` is preceded by the one comment
`doc`, and its `LeadingComment` is `other`, the comment that follows its name. -/
theorem C9_enum_member_takes_later_comment :
    Parse (str "enum E \x7b\n// doc\nA\n// other\n= 1 \x7d")
      = .ok (.SourceFile [.EnumDeclaration (.Identifier (str "E"))
          [.EnumMember (.Identifier (str "A")) (.NumericLiteral (str "1")) (str "other")] []]) := by
  decide!

/-- C10 (defect of `parseEnumMember`, and of the register `lastComment`): a
comment that does not stand before a construct can become its `LeadingComment`.
In `enum E {`, `A`, `// c`, `}` (one line each) the comment `c` stands after the
name of the member `A` and becomes its `LeadingComment`: `parseEnumMember` reads the
name, which passes the comment, before it reads the register.
`parsePropertySignature` reads the register first: in `interface I {`, `a`, `// c`,
`: T }` the member `a` has no leading comment. And the comment `c` inside the
braces of the interface `A` becomes the `LeadingComment` of the later declaration
`B`: no token between the comment and `export` clears the register.

What holds. In every tree returned by `Parse`, a `LeadingComment` that is not
empty is the text of a leading-comment token (kind `Comment`) that the lexer
returns for the source. The rules of a property signature and of an index
signature return as `LeadingComment` the register `lastComment` as it is when the
member starts; the rule of an enum member returns the register as it is after the
`advance` that leaves the name, and the rules of the five declarations return it as
it is after the `advance` that leaves the keyword. `advance` writes into the
register the text of the last `Comment` token that it passes, and leaves the
register as it is when it passes none. -/
theorem C10_leading_comment_misattributed (src : List Nat) (tree n : Node)
    (h : Parse src = .ok tree) (hw : Node.Within n tree) (hne : n.LeadingComment ≠ []) :
    (∃ k, lexer.tokenAt k { Source := src }
      = .ok { Kind := token.Comment, Text := n.LeadingComment }) ∧
    (∀ (k : Nat) (p p' : parser) (r : Node),
      (parser.parsePropertySignature k p = .ok (r, p') → r.LeadingComment = p.lastComment) ∧
      (parser.parseIndexSignature k p = .ok (r, p') → r.LeadingComment = p.lastComment) ∧
      (parser.parseEnumMember k p = .ok (r, p') →
        ∃ q, parser.advance k p = .ok q ∧ r.LeadingComment = q.lastComment)) ∧
    (∀ (k : Nat) (p p' : parser) (r : Node),
      (parser.parseVariableStatement k p = .ok (r, p') →
        ∃ q, parser.advance k p = .ok q ∧ r.LeadingComment = q.lastComment) ∧
      (parser.parseTypeAliasDeclaration k p = .ok (r, p') →
        ∃ q, parser.advance k p = .ok q ∧ r.LeadingComment = q.lastComment) ∧
      (parser.parseEnumDeclaration k p = .ok (r, p') →
        ∃ q, parser.advance k p = .ok q ∧ r.LeadingComment = q.lastComment) ∧
      (parser.parseInterfaceDeclaration k p = .ok (r, p') →
        ∃ q, parser.advance k p = .ok q ∧ r.LeadingComment = q.lastComment) ∧
      (parser.parseModuleDeclaration (k + 1) p = .ok (r, p') →
        ∃ q, parser.advance k p = .ok q ∧ r.LeadingComment = q.lastComment)) ∧
    (∀ (k : Nat) (p q : parser), p.lex.nextToken = {} → parser.advance k p = .ok q →
      ∃ cs, (∀ t ∈ cs, isComment t = true) ∧
        lexer.reads (cs ++ [q.tok]) p.lex = some q.lex ∧
        ((∀ t ∈ cs, t.Kind ≠ token.Comment) → q.lastComment = p.lastComment) ∧
        (∀ a c b, cs = a ++ { Kind := token.Comment, Text := c } :: b →
          (∀ t ∈ b, t.Kind ≠ token.Comment) → q.lastComment = c)) ∧
    Parse (str "enum E \x7b\nA\n// c\n\x7d")
      = .ok (.SourceFile [.EnumDeclaration (.Identifier (str "E"))
          [.EnumMember (.Identifier (str "A")) .nil (str "c")] []]) ∧
    Parse (str "interface I \x7b\na\n// c\n: T \x7d")
      = .ok (.SourceFile [.InterfaceDeclaration (.Identifier (str "I")) [] []
          [.PropertySignature (.Identifier (str "a")) false (typeRef (str "T")) [] []] []]) ∧
    tokens 20 { Source := str "interface A \x7b\n// c\n\x7d\nexport interface B \x7b\x7d" }
      = [{ Kind := token.Ident, Text := str "interface" }, { Kind := token.Ident, Text := str "A" },
         { Kind := token.LBrace }, { Kind := token.Comment, Text := str "c" },
         { Kind := token.RBrace }, { Kind := token.Ident, Text := str "export" },
         { Kind := token.Ident, Text := str "interface" }, { Kind := token.Ident, Text := str "B" },
         { Kind := token.LBrace }, { Kind := token.RBrace }, { Kind := token.EOF }] ∧
    Parse (str "interface A \x7b\n// c\n\x7d\nexport interface B \x7b\x7d")
      = .ok (.SourceFile [.InterfaceDeclaration (.Identifier (str "A")) [] [] [] [],
          .InterfaceDeclaration (.Identifier (str "B")) [] [] [] (str "c")]) := by
  refine ⟨?_, fun k p p' r => member_leading k p p' r,
    fun k p p' r => declaration_leading k p p' r,
    fun k p q h0 hadv => advance_lastComment k p q h0 hadv,
    by decide!, by decide!, by decide!, by decide!⟩
  have hok := ok_Parse (popOk_comment { Source := src }) src tree
    ⟨fun k tok hk => ⟨k, hk⟩, Or.inl rfl⟩ h n hw
  rcases hok.1 with h1 | h1
  · exact absurd h1 hne
  · exact h1

/-- C10 at the type alias of a source with one comment. -/
theorem C10_leading_comment_misattributed_witness :
    ∃ k, lexer.tokenAt k { Source := str "// c\ntype X = number;" }
      = .ok { Kind := token.Comment, Text := str "c" } :=
  (C10_leading_comment_misattributed (str "// c\ntype X = number;")
    (.SourceFile [.TypeAliasDeclaration (.Identifier (str "X")) (typeRef (str "number")) (str "c")])
    (.TypeAliasDeclaration (.Identifier (str "X")) (typeRef (str "number")) (str "c"))
    (by decide!)
    (Node.Within.child _
      (.TypeAliasDeclaration (.Identifier (str "X")) (typeRef (str "number")) (str "c")) _
      (Node.Within.root _) (by simp [Node.children]))
    (by decide)).1

/-- C11 (defect of `nextBlockComment`, seen through `parsePropertySignature`): the
`TrailingComment` of a property signature is the text of the last `LineComment`
token before the token that follows the signature, and the lexer can return a
comment of a later line as such a token. In `interface A {`, ` a: T; /* c`,
`*/ // d`, `}` (one line each) the property `a` is followed on its line by the one
comment `c`, which goes on to the next line, and `Parse` returns the property with
`TrailingComment` `d`, the comment of that next line: the newline inside the block
comment does not reset `willBeTrailingComment` (the defect of C34), so that `// d`
is returned as a `LineComment` and replaces `c` in the register `lastLineComment`.
With `// d` on a line of its own the `TrailingComment` is `c`.

What holds, first part, for every call of `parsePropertySignature` (the loops of
`parseInterfaceDeclaration` and `parseTypeLiteral` call it through
`parseSignature`, with the name of the member as the token held): the call is made
in any state `p` whose lexer holds no token back, so with any source, at any place
of it, and with anything in the two comment registers. When the call returns the
signature `sig`, and the tokens that the lexer returns from `p` to the state
returned end with a `LineComment` token with the text `c`, then any number of
`Comment` tokens (the leading comments of what follows), then the token held on
return, the `TrailingComment` of `sig` is `c`, whatever the type of the property.

Second part, for the lexer: after a token that is not a comment, a comment `cm`
that stands on the same line, after spaces, tabs or carriage returns, is returned
with the kind `LineComment` (`TrailingCommentSrc` holds of `// c` and of a block
comment: lemmas `lineComment_src` and `blockComment_src`).

Third part, for `Parse`: an interface and a type literal with any number of
members `name: T;` or `name: T`, each on a line of its own and followed by a
comment, have the property signatures of the members in order, each with the text
of its own comment as `TrailingComment`.

Fourth part, two sources: one of the shape of the test `inline_type`, where the
first of two members has the comment and the second is a type literal; one where
the comment follows a union type, the register holds a comment read after the
brace, and a member of an inner type literal has a comment after an array type. -/
theorem C11_trailing_comment_of_next_line (n : Nat) (p p' : parser) (sig : Node)
    (ts cs : List token.Token) (c : List Nat)
    (hbuf : p.lex.nextToken = {})
    (h : parser.parsePropertySignature n p = .ok (sig, p'))
    (hread : lexer.reads (ts ++ { Kind := token.LineComment, Text := c } :: (cs ++ [p'.tok]))
      p.lex = some p'.lex)
    (hcs : ∀ t ∈ cs, t.Kind = token.Comment) :
    (∃ name q T lc, sig = .PropertySignature name q T lc c) ∧
    (∀ (x x1 : lexer) (t : token.Token) (ws cm d r : List Nat),
      x.nextToken = {} → x.Pop = .ok (t, x1) →
      t.Kind ≠ token.Comment → t.Kind ≠ token.LineComment → t.Kind ≠ token.EOF →
      t.Kind ≠ token.Illegal →
      (∀ b ∈ ws, b = 32 ∨ b = 9 ∨ b = 13) → TrailingCommentSrc cm d →
      x1.rem = ws ++ (cm ++ 10 :: r) →
      ∃ x2, x1.Pop = .ok ({ Kind := token.LineComment, Text := d }, x2) ∧ x2.rem = 10 :: r) ∧
    (∀ (m : Member) (ms : List Member), (∀ v ∈ m :: ms, v.wf) →
      Parse (str "interface A \x7b\n" ++ (Member.srcs (m :: ms) ++ str "\x7d"))
        = .ok (.SourceFile [.InterfaceDeclaration (.Identifier (str "A")) [] []
            ((m :: ms).map Member.node) []]) ∧
      Parse (str "type X = \x7b\n" ++ (Member.srcs (m :: ms) ++ str "\x7d"))
        = .ok (.SourceFile [.TypeAliasDeclaration (.Identifier (str "X"))
            (.TypeLiteral ((m :: ms).map Member.node)) []])) ∧
    Parse (str ("interface HoverParams \x7b\n"
        ++ "  textDocument: string; /** The text document\x27s URI in string form */\n"
        ++ "  position: \x7b line: uinteger; character: uinteger; \x7d;\n\x7d"))
      = .ok (.SourceFile [.InterfaceDeclaration (.Identifier (str "HoverParams")) [] []
          [.PropertySignature (.Identifier (str "textDocument")) false (typeRef (str "string"))
            [] (str "The text document\x27s URI in string form"),
           .PropertySignature (.Identifier (str "position")) false
            (.TypeLiteral
              [.PropertySignature (.Identifier (str "line")) false (typeRef (str "uinteger"))
                [] [],
               .PropertySignature (.Identifier (str "character")) false
                (typeRef (str "uinteger")) [] []])
            [] []] []]) ∧
    Parse (str ("interface A \x7b // old\n a: string | number; // c\n"
        ++ " b: \x7b x: T[] /* d */ \x7d;\n\x7d"))
      = .ok (.SourceFile [.InterfaceDeclaration (.Identifier (str "A")) [] []
          [.PropertySignature (.Identifier (str "a")) false
            (.UnionType [typeRef (str "string"), typeRef (str "number")]) [] (str "c"),
           .PropertySignature (.Identifier (str "b")) false
            (.TypeLiteral
              [.PropertySignature (.Identifier (str "x")) false
                (.ArrayType (typeRef (str "T"))) [] (str "d")])
            [] []] []]) ∧
    tokens 20 { Source := str "interface A \x7b\n a: T; /* c\n*/ // d\n\x7d" }
      = [{ Kind := token.Ident, Text := str "interface" }, { Kind := token.Ident, Text := str "A" },
         { Kind := token.LBrace }, { Kind := token.Ident, Text := str "a" },
         { Kind := token.Colon }, { Kind := token.Ident, Text := str "T" },
         { Kind := token.Semicolon }, { Kind := token.LineComment, Text := str "c" },
         { Kind := token.LineComment, Text := str "d" }, { Kind := token.RBrace },
         { Kind := token.EOF }] ∧
    Parse (str "interface A \x7b\n a: T; /* c\n*/ // d\n\x7d")
      = .ok (.SourceFile [.InterfaceDeclaration (.Identifier (str "A")) [] []
          [.PropertySignature (.Identifier (str "a")) false (typeRef (str "T")) [] (str "d")]
          []]) ∧
    Parse (str "interface A \x7b\n a: T; /* c\n*/\n // d\n\x7d")
      = .ok (.SourceFile [.InterfaceDeclaration (.Identifier (str "A")) [] []
          [.PropertySignature (.Identifier (str "a")) false (typeRef (str "T")) [] (str "c")]
          []]) := by
  refine ⟨propertySignature_trailing n p p' sig ts cs c hbuf h hread hcs, ?_,
    fun m ms hall => members_run m ms hall, by decide!, by decide!, by decide!, by decide!,
    by decide!⟩
  intro x x1 t ws cm d r hx hpop h1 h2 h3 h4 hws hcm hrem
  obtain ⟨f1, _, _, f4⟩ := pop_flags hx hpop
  obtain ⟨x2, g1, g2, _⟩ := trailingCommentSrc_blanks hcm ws x1 r hws f1 (f4 h1 h2 h3 h4) hrem
  exact ⟨x2, g1, g2⟩

/-- C11, first part, at the member `a` of `interface A { // old`, ` a: string | number; // c`,
` // doc`, ` b: T;`, `}`: the call is made with `old` in the register
`lastLineComment`, and reads the five tokens of the signature, the comment `c`, the
leading comment `doc` and the name `b`. -/
theorem C11_trailing_comment_of_next_line_witness :
    ∃ name q T lc,
      Node.PropertySignature (.Identifier (str "a")) false
          (.UnionType [typeRef (str "string"), typeRef (str "number")]) [] (str "c")
        = .PropertySignature name q T lc (str "c") :=
  (C11_trailing_comment_of_next_line 12
    { lex := { Source := str ("interface A \x7b // old\n a: string | number; // c\n"
                 ++ " // doc\n b: T;\n\x7d"),
               offset := 23, isInsideBlock := true, willBeTrailingComment := true },
      tok := { Kind := token.Ident, Text := str "a" },
      lastLineComment := str "old" }
    { lex := { Source := str ("interface A \x7b // old\n a: string | number; // c\n"
                 ++ " // doc\n b: T;\n\x7d"),
               offset := 57, isInsideBlock := true, willBeTrailingComment := true },
      tok := { Kind := token.Ident, Text := str "b" },
      lastComment := str "doc" }
    (.PropertySignature (.Identifier (str "a")) false
      (.UnionType [typeRef (str "string"), typeRef (str "number")]) [] (str "c"))
    [{ Kind := token.Colon }, { Kind := token.Ident, Text := str "string" },
      { Kind := token.Or }, { Kind := token.Ident, Text := str "number" },
      { Kind := token.Semicolon }]
    [{ Kind := token.Comment, Text := str "doc" }] (str "c")
    (by decide) (by decide!) (by decide!) (by decide)).1

/-- C12 (defect of `parsePropertySignature`): the comment `c` follows the `{` of the
interface, or the index signature before the property, and the property `a`, which
has no comment on its own line, gets `TrailingComment` `c`: the register
`lastLineComment` is read without the comments seen before the property being
discarded (`parseIndexSignature` discards them). -/
theorem C12_stale_trailing_comment :
    Parse (str "interface A \x7b // c\n a: string\n\x7d")
      = .ok (.SourceFile [.InterfaceDeclaration (.Identifier (str "A")) [] []
          [.PropertySignature (.Identifier (str "a")) false (typeRef (str "string")) []
            (str "c")] []]) ∧
    Parse (str "interface A \x7b\n [k: string]: number; // c\n a: string;\n\x7d")
      = .ok (.SourceFile [.InterfaceDeclaration (.Identifier (str "A")) [] []
          [.IndexSignature [.Parameter (.Identifier (str "k")) (typeRef (str "string"))]
            (typeRef (str "number")) [],
           .PropertySignature (.Identifier (str "a")) false (typeRef (str "string")) []
            (str "c")] []]) := by
  decide!

/-- C13: for a block comment whose body (the bytes between `/*` and the first
following `*/`) has a byte other than `*`, the text of the comment token is the
reference reflow of the body, and the lexer is left after the `*/`. -/
theorem C13_block_comment_reflow (x : lexer) (body rest : List Nat) (hx : x.nextToken = {})
    (hrem : x.rem = str "/*" ++ body ++ str "*/" ++ rest)
    (hfirst : bytesIndex body (str "*/") = none) (hne : ∃ b ∈ body, b ≠ 42) :
    ∃ x', x.Pop = .ok ({ Kind := x.commentKind, Text := refReflow body }, x') ∧
      x'.rem = rest := by
  have e1 : str "/*" = [47, 42] := by decide
  have e2 : str "*/" = [42, 47] := by decide
  rw [e1, e2] at hrem
  rw [e2] at hfirst
  obtain ⟨x', h1, h2, _⟩ := pop_blockComment x body rest hx (by simpa using hrem) hfirst hne
  exact ⟨x', h1, h2⟩

/-- C13 at the five-line comment of the test `array`. -/
theorem C13_block_comment_reflow_witness :
    ∃ x', lexer.Pop { Source := str "/**\n * LSP arrays.\n *\n * @since 3.17.0\n */" }
        = .ok ({ Kind := token.Comment, Text := str "LSP arrays.\n\n@since 3.17.0" }, x') ∧
      x'.rem = [] :=
  C13_block_comment_reflow { Source := str "/**\n * LSP arrays.\n *\n * @since 3.17.0\n */" }
    (str "*\n * LSP arrays.\n *\n * @since 3.17.0\n ") [] rfl (by decide) (by decide)
    ⟨10, by decide, by decide⟩

/-- C14: a string literal `'s'` whose bytes `s` have no single quote gives, as an
initializer and as a literal type, a `StringLiteral` whose `Text` is `s`. -/
theorem C14_string_text (s : List Nat) (hs : 39 ∉ s) :
    Parse (str "const x = \x27" ++ s ++ str "\x27;")
      = .ok (.SourceFile [.VariableStatement (.VariableDeclarationList
          [.VariableDeclaration (.Identifier (str "x")) .nil (.StringLiteral s)]) []]) ∧
    Parse (str "type X = \x27" ++ s ++ str "\x27;")
      = .ok (.SourceFile [.TypeAliasDeclaration (.Identifier (str "X"))
          (.LiteralType (.StringLiteral s)) []]) :=
  ⟨string_initializer_run s hs, string_literalType_run s hs⟩

/-- C14 at the literal made of a backslash, `r`, a backslash and `n`: the text is
those four bytes. -/
theorem C14_string_text_witness :
    Parse (str "const x = \x27" ++ [92, 114, 92, 110] ++ str "\x27;")
      = .ok (.SourceFile [.VariableStatement (.VariableDeclarationList
          [.VariableDeclaration (.Identifier (str "x")) .nil
            (.StringLiteral [92, 114, 92, 110])]) []]) ∧
    Parse (str "type X = \x27" ++ [92, 114, 92, 110] ++ str "\x27;")
      = .ok (.SourceFile [.TypeAliasDeclaration (.Identifier (str "X"))
          (.LiteralType (.StringLiteral [92, 114, 92, 110])) []]) :=
  C14_string_text [92, 114, 92, 110] (by decide)

/-- C15 (defect of `Walk`): with a visitor that continues on every node, `Walk` on the
tree of `interface A<T> extends B {}` calls `Visit` with the source file, the
interface and its name only: the case `*InterfaceDeclaration` walks `Name` and
`Members`, so the `TypeParameter`, the `HeritageClause` and the nodes below them are
never passed to `Visit`. -/
theorem C15_type_parameters_not_walked :
    Parse (str "interface A<T> extends B \x7b\x7d")
      = .ok (.SourceFile [.InterfaceDeclaration (.Identifier (str "A"))
          [.TypeParameter (.Identifier (str "T"))]
          [.HeritageClause [.ExpressionWithTypeArguments (.Identifier (str "B"))]] [] []]) ∧
    ast.Walk (fun (_ : Unit) (s : Unit) (_ : Node) => (some (), s)) ()
        (.SourceFile [.InterfaceDeclaration (.Identifier (str "A"))
          [.TypeParameter (.Identifier (str "T"))]
          [.HeritageClause [.ExpressionWithTypeArguments (.Identifier (str "B"))]] [] []]) ()
      = .ok ([.SourceFile [.InterfaceDeclaration (.Identifier (str "A"))
                [.TypeParameter (.Identifier (str "T"))]
                [.HeritageClause [.ExpressionWithTypeArguments (.Identifier (str "B"))]] [] []],
              .InterfaceDeclaration (.Identifier (str "A"))
                [.TypeParameter (.Identifier (str "T"))]
                [.HeritageClause [.ExpressionWithTypeArguments (.Identifier (str "B"))]] [] [],
              .Identifier (str "A"), .nil, .nil, .nil], ()) := by
  decide!

/-- C16 (defect of `Walk`): with the visitor that continues on a node and returns
`nil` when given `nil`, `Walk` on the tree of `enum E { A }` calls `Visit(nil)` six
times for five nodes: the absent `Initializer` of the member is passed to `Walk`,
which starts by calling `Visit` with it. -/
theorem C16_visit_nil_for_absent_initializer :
    Parse (str "enum E \x7b A \x7d")
      = .ok (.SourceFile [.EnumDeclaration (.Identifier (str "E"))
          [.EnumMember (.Identifier (str "A")) .nil []] []]) ∧
    (match ast.Walk (fun (_ : Unit) (s : Unit) (n : Node) =>
          (if n = .nil then none else some (), s)) ()
        (.SourceFile [.EnumDeclaration (.Identifier (str "E"))
          [.EnumMember (.Identifier (str "A")) .nil []] []]) () with
     | .ok (calls, _) => calls.map Node.goType
     | .error _ => [])
      = ["*ast.SourceFile", "*ast.EnumDeclaration", "*ast.Identifier", "<nil>",
         "*ast.EnumMember", "*ast.Identifier", "<nil>", "<nil>", "<nil>", "<nil>", "<nil>"] := by
  decide!

/-- C17 (defect of `Walk`): `Inspect` with the callback that always answers `true`
aborts with `unknown node type` on the tree of `enum E { A }`: the absent
`Initializer` is walked, the callback continues on it, and no case of the switch
matches `nil`. -/
theorem C17_inspect_aborts_on_absent_initializer :
    Parse (str "enum E \x7b A \x7d")
      = .ok (.SourceFile [.EnumDeclaration (.Identifier (str "E"))
          [.EnumMember (.Identifier (str "A")) .nil []] []]) ∧
    ast.Inspect (.SourceFile [.EnumDeclaration (.Identifier (str "E"))
          [.EnumMember (.Identifier (str "A")) .nil []] []])
        (fun (s : Unit) (_ : Node) => (true, s)) ()
      = .error .unknownNodeType := by
  decide!

/-- C18: when the callback answers `false` for the node `n`, `Inspect` calls it once,
with `n`: no child of `n` and no `nil` is passed to it. -/
theorem C18_inspect_false {σ : Type} (f : σ → Node → Bool × σ) (s : σ) (n : Node)
    (hn : n ≠ .nil) (hf : (f s n).1 = false) :
    ast.Inspect n f s = .ok ([n], (f s n).2) ∧ Node.nil ∉ [n] :=
  ⟨inspect_false f s n hf, by simpa using hn.symm⟩

/-- C18 at an interface with one member and the callback that always answers `false`. -/
theorem C18_inspect_false_witness :
    ast.Inspect (.InterfaceDeclaration (.Identifier (str "A")) [] []
        [.PropertySignature (.Identifier (str "a")) false (typeRef (str "T")) [] []] [])
        (fun (s : Unit) (_ : Node) => (false, s)) ()
      = .ok ([.InterfaceDeclaration (.Identifier (str "A")) [] []
          [.PropertySignature (.Identifier (str "a")) false (typeRef (str "T")) [] []] []], ()) ∧
    Node.nil ∉ [Node.InterfaceDeclaration (.Identifier (str "A")) [] []
          [.PropertySignature (.Identifier (str "a")) false (typeRef (str "T")) [] []] []] :=
  C18_inspect_false (fun (s : Unit) (_ : Node) => (false, s)) ()
    (.InterfaceDeclaration (.Identifier (str "A")) [] []
      [.PropertySignature (.Identifier (str "a")) false (typeRef (str "T")) [] []] [])
    (by decide) rfl

/-- C19: for a tree without absent children and a callback that always answers `true`,
`Inspect` succeeds and the nodes passed to the callback, the `nil` exit calls left
out, are the depth-first pre-order of the tree; and for
`export interface ProgressParams<T> { token: ProgressToken; }` they are the seven
nodes of the example, in that order. -/
theorem C19_inspect_preorder {σ : Type} (f : σ → Node → Bool × σ) (s : σ) (tree : Node)
    (hf : ∀ s n, (f s n).1 = true) (hnil : NoNil tree) :
    (∃ calls s', ast.Inspect tree f s = .ok (calls, s') ∧
      calls.filter (· ≠ .nil) = tree.preorder) ∧
    (match Parse (str "export interface ProgressParams<T> \x7b token: ProgressToken; \x7d") with
     | .ok tree =>
       (match ast.Inspect tree (fun (s : Unit) (_ : Node) => (true, s)) () with
        | .ok (calls, _) => (calls.filter (· ≠ .nil)).map Node.goType
        | .error _ => [])
     | .error _ => [])
      = ["*ast.SourceFile", "*ast.InterfaceDeclaration", "*ast.Identifier",
         "*ast.PropertySignature", "*ast.Identifier", "*ast.TypeReference",
         "*ast.Identifier"] :=
  ⟨walk_preorder f hf tree hnil s, by decide!⟩

/-- C19 at the tree of `interface A { a: T }` and the callback that always answers
`true`. -/
theorem C19_inspect_preorder_witness :
    ∃ calls s', ast.Inspect (Node.InterfaceDeclaration (.Identifier (str "A")) [] []
        [.PropertySignature (.Identifier (str "a")) false (typeRef (str "T")) [] []] [])
        (fun (s : Unit) (_ : Node) => (true, s)) () = .ok (calls, s') ∧
      calls.filter (· ≠ .nil)
        = [.InterfaceDeclaration (.Identifier (str "A")) [] []
            [.PropertySignature (.Identifier (str "a")) false (typeRef (str "T")) [] []] [],
           .Identifier (str "A"),
           .PropertySignature (.Identifier (str "a")) false (typeRef (str "T")) [] [],
           .Identifier (str "a"), typeRef (str "T"), .Identifier (str "T")] :=
  (C19_inspect_preorder (fun (s : Unit) (_ : Node) => (true, s)) ()
    (.InterfaceDeclaration (.Identifier (str "A")) [] []
      [.PropertySignature (.Identifier (str "a")) false (typeRef (str "T")) [] []] [])
    (fun _ _ => rfl)
    (by
      have hleaf : ∀ t, NoNil (.Identifier t) := fun t =>
        (noNil_iff _).2 ⟨by simp, by simp [Node.children]⟩
      have hT : NoNil (typeRef (str "T")) :=
        (noNil_iff _).2 ⟨by simp [typeRef], by simp [typeRef, Node.children, hleaf]⟩
      have hP : NoNil (.PropertySignature (.Identifier (str "a")) false (typeRef (str "T"))
          [] []) :=
        (noNil_iff _).2 ⟨by simp, by simp [Node.children, hleaf, hT]⟩
      exact (noNil_iff _).2 ⟨by simp, by simp [Node.children, hleaf, hP]⟩)).1

/-- C21 (defect of `parseTupleType`): the tuple type `[T1, ..., Tn]` with `n ≥ 1`
identifiers parses to a `TupleType` whose elements are the `n` type references in
source order, but the empty tuple type is rejected: `Parse` of `type X = [];`
aborts at the `]`, because an element is parsed before the closing bracket is looked
for. The array literal `[]` of `const x = [];`, parsed by the sibling
`parseArrayLiteralExpression`, is accepted. -/
theorem C21_empty_tuple_rejected (T : List Nat) (Ts : List (List Nat))
    (hT : isIdent T = true) (hTs : ∀ V ∈ Ts, isIdent V = true) :
    Parse (str "type X = [" ++ List.intercalate (str ", ") (T :: Ts) ++ str "];")
      = .ok (.SourceFile [.TypeAliasDeclaration (.Identifier (str "X"))
          (.TupleType ((T :: Ts).map typeRef)) []]) ∧
    Parse (str "type X = [];") = .error (.unexpectedToken { Kind := token.RBrack }) ∧
    Parse (str "const x = [];")
      = .ok (.SourceFile [.VariableStatement (.VariableDeclarationList
          [.VariableDeclaration (.Identifier (str "x")) .nil (.ArrayLiteralExpression [])])
          []]) :=
  ⟨tuple_run T Ts hT hTs, by decide!, by decide!⟩

/-- C21 at `type X = [A, B];`. -/
theorem C21_empty_tuple_rejected_witness :
    Parse (str "type X = [" ++ List.intercalate (str ", ") [str "A", str "B"] ++ str "];")
      = .ok (.SourceFile [.TypeAliasDeclaration (.Identifier (str "X"))
          (.TupleType ([str "A", str "B"].map typeRef)) []]) ∧
    Parse (str "type X = [];") = .error (.unexpectedToken { Kind := token.RBrack }) ∧
    Parse (str "const x = [];")
      = .ok (.SourceFile [.VariableStatement (.VariableDeclarationList
          [.VariableDeclaration (.Identifier (str "x")) .nil (.ArrayLiteralExpression [])])
          []]) :=
  C21_empty_tuple_rejected (str "A") [str "B"] (by decide) (by decide)

/-- C22: the array suffix binds tighter than the union. For identifiers `A` and `B`,
`A | B[]` parses to the union of the reference to `A` and the array of the reference
to `B`, and `(A | B)[]` parses to the array of the parenthesized union. -/
theorem C22_array_binds_tighter (A B : List Nat) (hA : isIdent A = true)
    (hB : isIdent B = true) :
    Parse (str "type X = " ++ A ++ str " | " ++ B ++ str "[];")
      = .ok (.SourceFile [.TypeAliasDeclaration (.Identifier (str "X"))
          (.UnionType [typeRef A, .ArrayType (typeRef B)]) []]) ∧
    Parse (str "type X = (" ++ A ++ str " | " ++ B ++ str ")[];")
      = .ok (.SourceFile [.TypeAliasDeclaration (.Identifier (str "X"))
          (.ArrayType (.ParenthesizedType (.UnionType [typeRef A, typeRef B]))) []]) :=
  ⟨union_array_run A B hA hB, paren_array_run A B hA hB⟩

/-- C22 at `string | number[]` and `(string | number)[]`. -/
theorem C22_array_binds_tighter_witness :
    Parse (str "type X = " ++ str "string" ++ str " | " ++ str "number" ++ str "[];")
      = .ok (.SourceFile [.TypeAliasDeclaration (.Identifier (str "X"))
          (.UnionType [typeRef (str "string"), .ArrayType (typeRef (str "number"))]) []]) ∧
    Parse (str "type X = (" ++ str "string" ++ str " | " ++ str "number" ++ str ")[];")
      = .ok (.SourceFile [.TypeAliasDeclaration (.Identifier (str "X"))
          (.ArrayType (.ParenthesizedType
            (.UnionType [typeRef (str "string"), typeRef (str "number")]))) []]) :=
  C22_array_binds_tighter (str "string") (str "number") (by decide) (by decide)

/-- C23 (defect of `parsePropertySignature`): for identifiers `A`, `B`, `C` and a
property name `x` other than `readonly`, the property `x: A.B;` has the type
reference to the qualified name with `Left` `A` and `Right` `B`, and `x: A.B.C;`
makes `Parse` fail, at the second dot. For the name `readonly` the claim does not
hold: `readonly: A.B;` makes `Parse` fail at the colon, because the word is taken
for the modifier without a look at the token that follows it. -/
theorem C23_qualified_name_readonly (x A B C : List Nat) (hx : isIdent x = true)
    (hA : isIdent A = true) (hB : isIdent B = true) (_hC : isIdent C = true) :
    (x ≠ str "readonly" →
      Parse (str "interface I \x7b " ++ x ++ str ": " ++ A ++ str "." ++ B ++ str "; \x7d")
        = .ok (.SourceFile [.InterfaceDeclaration (.Identifier (str "I")) [] []
            [.PropertySignature (.Identifier x) false
              (.TypeReference (.QualifiedName (.Identifier A) (.Identifier B))) [] []] []])) ∧
    Parse (str "interface I \x7b " ++ x ++ str ": " ++ A ++ str "." ++ B ++ str "." ++ C
        ++ str "; \x7d")
      = .error (if x = str "readonly" then .expectedKind token.Ident { Kind := token.Colon }
                else .unexpectedToken { Kind := token.Dot }) ∧
    Parse (str "interface I \x7b " ++ str "readonly" ++ str ": " ++ A ++ str "." ++ B
        ++ str "; \x7d")
      = .error (.expectedKind token.Ident { Kind := token.Colon }) := by
  have e1 : str ": " = [58, 32] := by decide
  have e2 : str "." = [46] := by decide
  have e3 : str "; \x7d" = [59, 32, 125] := by decide
  rw [e1, e2, e3]
  simp only [List.append_assoc, List.cons_append, List.nil_append]
  exact ⟨fun hro => qualified_run x A B hx hro hA hB, qualified3_run x A B _ hx hA hB,
    readonly_name_run _⟩

/-- C23 at the property name `uri` and the names `a`, `b`, `c`, and at
`readonly: a.b;`. -/
theorem C23_qualified_name_readonly_witness :
    (str "uri" ≠ str "readonly" →
      Parse (str "interface I \x7b " ++ str "uri" ++ str ": " ++ str "a" ++ str "."
          ++ str "b" ++ str "; \x7d")
        = .ok (.SourceFile [.InterfaceDeclaration (.Identifier (str "I")) [] []
            [.PropertySignature (.Identifier (str "uri")) false
              (.TypeReference (.QualifiedName (.Identifier (str "a")) (.Identifier (str "b"))))
              [] []] []])) ∧
    Parse (str "interface I \x7b " ++ str "uri" ++ str ": " ++ str "a" ++ str "."
        ++ str "b" ++ str "." ++ str "c" ++ str "; \x7d")
      = .error (if str "uri" = str "readonly" then
                  .expectedKind token.Ident { Kind := token.Colon }
                else .unexpectedToken { Kind := token.Dot }) ∧
    Parse (str "interface I \x7b " ++ str "readonly" ++ str ": " ++ str "a" ++ str "."
        ++ str "b" ++ str "; \x7d")
      = .error (.expectedKind token.Ident { Kind := token.Colon }) :=
  C23_qualified_name_readonly (str "uri") (str "a") (str "b") (str "c")
    (by decide) (by decide) (by decide) (by decide)

/-- C24: the modifier `readonly` is consumed and discarded. For every identifier `n`
other than `readonly` and every sequence of bytes `T` written as the type, `Parse` of
`interface I { readonly n: T; }` returns a tree exactly when `Parse` of
`interface I { n: T; }` does, and then the same tree. For an identifier `U` as the
type, the property is parsed with `QuestionToken` true when `?` follows its name
and false when it does not, with the modifier as without it. -/
theorem C24_readonly_discarded (n T U : List Nat) (hn : isIdent n = true)
    (hro : n ≠ str "readonly") (hU : isIdent U = true) :
    (∀ tree,
      Parse (str "interface I \x7b readonly " ++ n ++ str ": " ++ T ++ str "; \x7d") = .ok tree ↔
      Parse (str "interface I \x7b " ++ n ++ str ": " ++ T ++ str "; \x7d") = .ok tree) ∧
    (∀ q : Bool,
      Parse (str "interface I \x7b " ++ n ++ (if q then str "?" else []) ++ str ": " ++ U
          ++ str "; \x7d")
        = .ok (.SourceFile [.InterfaceDeclaration (.Identifier (str "I")) [] []
            [.PropertySignature (.Identifier n) q (typeRef U) [] []] []]) ∧
      Parse (str "interface I \x7b readonly " ++ n ++ (if q then str "?" else []) ++ str ": "
          ++ U ++ str "; \x7d")
        = .ok (.SourceFile [.InterfaceDeclaration (.Identifier (str "I")) [] []
            [.PropertySignature (.Identifier n) q (typeRef U) [] []] []])) := by
  have e0 : str "interface I \x7b readonly " = str "interface I \x7b " ++ (str "readonly" ++ [32]) := by
    decide
  have e1 : str ": " = [58, 32] := by decide
  have e2 : str "?" = [63] := by decide
  have e3 : str "; \x7d" = [59, 32, 125] := by decide
  rw [e0, e1, e2, e3]
  simp only [List.append_assoc, List.cons_append, List.nil_append]
  refine ⟨fun tree => readonly_run n _ hn hro (by simp [endsIdent, lexer.identEnd]) tree, ?_⟩
  intro q
  have h := property_run n U q hn hro hU
  refine ⟨h, ?_⟩
  exact (readonly_run n _ hn hro (by cases q <;> simp [endsIdent, lexer.identEnd]) _).2 h

/-- C24 at the property `uri` with the types `string | number` and `string`. -/
theorem C24_readonly_discarded_witness :
    (∀ tree,
      Parse (str "interface I \x7b readonly " ++ str "uri" ++ str ": " ++ str "string | number"
          ++ str "; \x7d") = .ok tree ↔
      Parse (str "interface I \x7b " ++ str "uri" ++ str ": " ++ str "string | number"
          ++ str "; \x7d") = .ok tree) ∧
    (∀ q : Bool,
      Parse (str "interface I \x7b " ++ str "uri" ++ (if q then str "?" else []) ++ str ": "
          ++ str "string" ++ str "; \x7d")
        = .ok (.SourceFile [.InterfaceDeclaration (.Identifier (str "I")) [] []
            [.PropertySignature (.Identifier (str "uri")) q (typeRef (str "string")) [] []] []]) ∧
      Parse (str "interface I \x7b readonly " ++ str "uri" ++ (if q then str "?" else [])
          ++ str ": " ++ str "string" ++ str "; \x7d")
        = .ok (.SourceFile [.InterfaceDeclaration (.Identifier (str "I")) [] []
            [.PropertySignature (.Identifier (str "uri")) q (typeRef (str "string")) [] []]
            []])) :=
  C24_readonly_discarded (str "uri") (str "string | number") (str "string")
    (by decide) (by decide) (by decide)

/-- C25 (defect of `parsePropertySignature`): for every identifier `n` other than
`readonly`, the keywords `type`, `enum`, `interface`, `const`, `namespace`,
`export` and `extends` among them, and every identifier `T`, `interface I { n: T; }`
parses to an interface with the one property named `n` whose type is the reference
to `T`. For the name `readonly` the claim does not hold: `Parse` of
`interface I { readonly: T; }` fails at the colon, where it expects the name of the
property after the modifier. -/
theorem C25_readonly_property_name_rejected (n T : List Nat) (hn : isIdent n = true)
    (hT : isIdent T = true) :
    (n ≠ str "readonly" →
      Parse (str "interface I \x7b " ++ n ++ str ": " ++ T ++ str "; \x7d")
        = .ok (.SourceFile [.InterfaceDeclaration (.Identifier (str "I")) [] []
            [.PropertySignature (.Identifier n) false (typeRef T) [] []] []])) ∧
    Parse (str "interface I \x7b " ++ str "readonly" ++ str ": " ++ T ++ str "; \x7d")
      = .error (.expectedKind token.Ident { Kind := token.Colon }) := by
  have e1 : str ": " = [58, 32] := by decide
  have e3 : str "; \x7d" = [59, 32, 125] := by decide
  rw [e1, e3]
  simp only [List.append_assoc, List.cons_append, List.nil_append]
  refine ⟨fun hro => ?_, readonly_name_run _⟩
  have h := property_run n T false hn hro hT
  simp only [Bool.false_eq_true, if_false, List.nil_append] at h
  exact h

/-- C25 at the keyword `type` as the name, and at `readonly: FileChangeType;`. -/
theorem C25_readonly_property_name_rejected_witness :
    (str "type" ≠ str "readonly" →
      Parse (str "interface I \x7b " ++ str "type" ++ str ": " ++ str "FileChangeType"
          ++ str "; \x7d")
        = .ok (.SourceFile [.InterfaceDeclaration (.Identifier (str "I")) [] []
            [.PropertySignature (.Identifier (str "type")) false
              (typeRef (str "FileChangeType")) [] []] []])) ∧
    Parse (str "interface I \x7b " ++ str "readonly" ++ str ": " ++ str "FileChangeType"
        ++ str "; \x7d")
      = .error (.expectedKind token.Ident { Kind := token.Colon }) :=
  C25_readonly_property_name_rejected (str "type") (str "FileChangeType")
    (by decide) (by decide)

/-- C26: for identifiers `E`, `N1..Nn` and quote-free strings `s1..sn`, `n ≥ 0`,
`enum E { N1 = 's1', ..., Nn = 'sn' }`, with a trailing comma or without one when
`n ≥ 1`, parses to the enum declaration named `E` with the `n` members in source
order, the `i`-th with the name `Ni` and the initializer `StringLiteral si`; a
member written without `=` has no initializer; and a member that follows another
without a comma makes `Parse` fail. -/
theorem C26_enum_members (E : List Nat) (ms : List (List Nat × List Nat)) (comma : Bool)
    (N s M rest : List Nat) (hE : isIdent E = true)
    (hms : ∀ V ∈ ms, isIdent V.1 = true ∧ 39 ∉ V.2) (hc : comma = true → ms ≠ [])
    (hN : isIdent N = true) (hs : 39 ∉ s) (hM : isIdent M = true)
    (hrest : endsIdent rest = true) :
    Parse (str "enum " ++ E ++ str " \x7b " ++ List.intercalate (str ", ") (ms.map enumMemberSrc)
        ++ (if comma then str "," else []) ++ str " \x7d")
      = .ok (.SourceFile [.EnumDeclaration (.Identifier E) (ms.map enumMemberOf) []]) ∧
    Parse (str "enum " ++ E ++ str " \x7b " ++ N ++ str " \x7d")
      = .ok (.SourceFile [.EnumDeclaration (.Identifier E)
          [.EnumMember (.Identifier N) .nil []] []]) ∧
    Parse (str "enum " ++ E ++ str " \x7b " ++ enumMemberSrc (N, s) ++ str " " ++ M ++ rest)
      = .error (.unexpectedToken { Kind := token.Ident, Text := M }) := by
  have e : str " \x7b " = str " \x7b" ++ str " " := by decide
  have h1 := enum_strings_run E ms comma hE hms hc
  have h2 := enum_bare_run E N hE hN
  have h3 := enum_nocomma_run E N s M rest hE hN hs hM hrest
  rw [e]
  simp only [List.append_assoc] at h1 h2 h3 ⊢
  exact ⟨h1, h2, h3⟩

/-- C26 at `enum E { A = 'a', B = 'b', }`, at `enum E { A }` and at
`enum E { A = 'a' B = 'b' }`. -/
theorem C26_enum_members_witness :
    Parse (str "enum " ++ str "E" ++ str " \x7b "
        ++ List.intercalate (str ", ") ([(str "A", str "a"), (str "B", str "b")].map enumMemberSrc)
        ++ (if true then str "," else []) ++ str " \x7d")
      = .ok (.SourceFile [.EnumDeclaration (.Identifier (str "E"))
          ([(str "A", str "a"), (str "B", str "b")].map enumMemberOf) []]) ∧
    Parse (str "enum " ++ str "E" ++ str " \x7b " ++ str "A" ++ str " \x7d")
      = .ok (.SourceFile [.EnumDeclaration (.Identifier (str "E"))
          [.EnumMember (.Identifier (str "A")) .nil []] []]) ∧
    Parse (str "enum " ++ str "E" ++ str " \x7b " ++ enumMemberSrc (str "A", str "a") ++ str " "
        ++ str "B" ++ str " = \x27b\x27 \x7d")
      = .error (.unexpectedToken { Kind := token.Ident, Text := str "B" }) :=
  C26_enum_members (str "E") [(str "A", str "a"), (str "B", str "b")] true
    (str "A") (str "a") (str "B") (str " = \x27b\x27 \x7d")
    (by decide) (by decide) (by decide) (by decide) (by decide) (by decide) (by decide)

/-- C28: for identifiers `P`, `T1..Tn`, `n ≥ 1`, `interface P<T1, ..., Tn> {}` parses
to the interface declaration named `P` whose type parameters are the `n` nodes
named `T1..Tn` in source order, with no member; with the members
`token: Tok; value: T;` it has, besides, exactly those two property signatures in
order. -/
theorem C28_type_parameters (P T : List Nat) (Ts : List (List Nat))
    (hP : isIdent P = true) (hT : isIdent T = true) (hTs : ∀ V ∈ Ts, isIdent V = true) :
    Parse (str "interface " ++ P ++ str "<" ++ List.intercalate (str ", ") (T :: Ts)
        ++ str "> \x7b\x7d")
      = .ok (.SourceFile [.InterfaceDeclaration (.Identifier P) ((T :: Ts).map typeParameterOf)
          [] [] []]) ∧
    Parse (str "interface " ++ P ++ str "<" ++ List.intercalate (str ", ") (T :: Ts)
        ++ str "> \x7b token: Tok; value: T; \x7d")
      = .ok (.SourceFile [.InterfaceDeclaration (.Identifier P) ((T :: Ts).map typeParameterOf)
          []
          [.PropertySignature (.Identifier (str "token")) false (typeRef (str "Tok")) [] [],
            .PropertySignature (.Identifier (str "value")) false (typeRef (str "T")) [] []]
          []]) := by
  have e1 : str "> \x7b\x7d" = str "> \x7b" ++ [125] := by decide
  have e2 : str "> \x7b token: Tok; value: T; \x7d"
      = str "> \x7b" ++ str " token: Tok; value: T; \x7d" := by decide
  have h1 := interfaceParams_empty_run P T Ts hP hT hTs
  have h2 := interfaceParams_members_run P T Ts hP hT hTs
  rw [e1, e2]
  simp only [List.append_assoc] at h1 h2 ⊢
  exact ⟨h1, h2⟩

/-- C28 at `interface P<T> {}`, and with the two members. -/
theorem C28_type_parameters_witness :
    Parse (str "interface " ++ str "P" ++ str "<" ++ List.intercalate (str ", ") [str "T"]
        ++ str "> \x7b\x7d")
      = .ok (.SourceFile [.InterfaceDeclaration (.Identifier (str "P"))
          ([str "T"].map typeParameterOf) [] [] []]) ∧
    Parse (str "interface " ++ str "P" ++ str "<" ++ List.intercalate (str ", ") [str "T"]
        ++ str "> \x7b token: Tok; value: T; \x7d")
      = .ok (.SourceFile [.InterfaceDeclaration (.Identifier (str "P"))
          ([str "T"].map typeParameterOf) []
          [.PropertySignature (.Identifier (str "token")) false (typeRef (str "Tok")) [] [],
            .PropertySignature (.Identifier (str "value")) false (typeRef (str "T")) [] []]
          []]) :=
  C28_type_parameters (str "P") (str "T") [] (by decide) (by decide) (by decide)

/-- C29: `export` is a modifier without effect. For every source `s` whose first
token is one of the keywords `const`, `type`, `enum`, `interface`, `namespace`
(the first call of `Pop` on `s` returns it, as an identifier token), `Parse` of
`export ` followed by `s` returns a tree exactly when `Parse` of `s` does, and then
the same tree: both fail, or both return the same tree. -/
theorem C29_export_noop (s kw : List Nat) (x1 : lexer)
    (h : lexer.Pop { Source := s } = .ok ({ Kind := token.Ident, Text := kw }, x1))
    (_hkw : kw ∈ [str "const", str "type", str "enum", str "interface", str "namespace"])
    (tree : Node) :
    Parse (str "export " ++ s) = .ok tree ↔ Parse s = .ok tree :=
  export_run s kw x1 h tree

/-- C29 at `const x = 1;`. -/
theorem C29_export_noop_witness :
    Parse (str "export " ++ str "const x = 1;")
      = .ok (.SourceFile [.VariableStatement (.VariableDeclarationList
          [.VariableDeclaration (.Identifier (str "x")) .nil (.NumericLiteral (str "1"))])
          []]) :=
  (C29_export_noop (str "const x = 1;") (str "const")
    { Source := str "const x = 1;", offset := 5, willBeTrailingComment := true }
    (by decide!) (by decide) _).2 (by decide!)

/-- C30: in every tree returned by `Parse`, the text of every `Identifier` node is
non-empty and consists only of ASCII letters, digits and underscores. -/
theorem C30_identifier_text (src : List Nat) (tree : Node) (t : List Nat)
    (h : Parse src = .ok tree) (hw : Node.Within (.Identifier t) tree) :
    t ≠ [] ∧ ∀ b ∈ t, (97 ≤ b ∧ b ≤ 122) ∨ (65 ≤ b ∧ b ≤ 90) ∨ (48 ≤ b ∧ b ≤ 57) ∨ b = 95 :=
  isIdent_chars (identsOk_Parse src tree h t hw)

/-- C30 at the name of `type my_Type1 = string;`. -/
theorem C30_identifier_text_witness :
    str "my_Type1" ≠ [] ∧ ∀ b ∈ str "my_Type1",
      (97 ≤ b ∧ b ≤ 122) ∨ (65 ≤ b ∧ b ≤ 90) ∨ (48 ≤ b ∧ b ≤ 57) ∨ b = 95 :=
  C30_identifier_text (str "type my_Type1 = string;")
    (.SourceFile [.TypeAliasDeclaration (.Identifier (str "my_Type1")) (typeRef (str "string")) []])
    (str "my_Type1") (by decide!)
    (Node.Within.child _
      (.TypeAliasDeclaration (.Identifier (str "my_Type1")) (typeRef (str "string")) []) _
      (Node.Within.child _ (.Identifier (str "my_Type1")) _
        (Node.Within.root _) (by simp [Node.children]))
      (by simp [Node.children]))

/-- C31: `Parse` terminates on every byte sequence. The run of the parser with the
budget of the source does not run out of budget, and every larger budget gives
the same outcome: a tree or a failure. A statement, a type and an initializer
each consume at least one token or fail (their result lowers the measure of the
state by one at least). `Pop` always returns a token, never moves the offset back,
and moves it forward for every token other than `EOF` and `Illegal`. Every loop of
the lexer is run with a budget that is enough: a larger one gives the same
result. -/
theorem C31_parse_terminates (src : List Nat) :
    Parse src ≠ .error .fuel ∧
    Settled (fun n => parser.parseSourceFile n { lex := { Source := src } }) (budget src) ∧
    (∀ n, RunsAt parser.parseStatement 4 1 IdentsOk n ∧
      RunsAt parser.parseType 6 1 IdentsOk n ∧
      RunsAt parser.parseInitializer 3 1 IdentsOk n) ∧
    (∀ x : lexer, x.nextToken = {} →
      ∃ t x', x.Pop = .ok (t, x') ∧ x.offset ≤ x'.offset ∧
        (t.Kind ≠ token.EOF → t.Kind ≠ token.Illegal → x.offset < x'.offset)) ∧
    (∀ x : lexer,
      Settled (fun n => lexer.nextLoop n x) (x.Source.length - x.offset + 1) ∧
      (∀ c, Settled (fun n => lexer.skipRun c n x) (x.Source.length - x.offset)) ∧
      Settled (fun n => lexer.skipLine n x) (x.Source.length - x.offset) ∧
      Settled (fun n => lexer.skipDigits n x) (x.Source.length - x.offset)) ∧
    (∀ (s : List Nat) (i : Nat), Settled (fun n => lexer.backStars s n i) i) ∧
    (∀ (s : List Nat) (e off : Nat) (acc : List Nat),
      Settled (fun n => lexer.reflow s e n off acc) (e - off)) ∧
    (∀ s : List Nat, Settled (fun n => trimLeft unicodeSpaces n s) s.length ∧
      Settled (fun n => trimLeft (unicodeSpaces.map List.reverse) n s) s.length) := by
  refine ⟨parse_ne_fuel src, fun m hm => (parseSourceFile_budget src m hm).1,
    fun n => ⟨parseStatement_runs n, parseType_runs n, parseInitializer_runs n⟩, ?_, ?_,
    fun s i m hm => backStars_settled s i i (le_refl _) m hm,
    fun s e off acc m hm => reflow_settled s e (e - off) off acc (le_refl _) m hm, ?_⟩
  · intro x h0
    obtain ⟨t, x', h1, _, _, h4, h5, _⟩ := pop_total x h0
    exact ⟨t, x', h1, h4, fun a b => (h5 a b).1⟩
  · intro x
    exact ⟨fun m hm => nextLoop_settled _ x (le_refl _) m hm,
      fun c m hm => skipRun_settled c _ x (le_refl _) m hm,
      fun m hm => skipLine_settled _ x (le_refl _) m hm,
      fun m hm => skipDigits_settled _ x (le_refl _) m hm⟩
  · intro s
    exact ⟨fun m hm => trimLeft_settled (by decide) _ s (le_refl _) m hm,
      fun m hm => trimLeft_settled (by decide) _ s (le_refl _) m hm⟩

/-- C31 at `type X = number;`: the run does not run out of budget. -/
theorem C31_parse_terminates_witness :
    Parse (str "type X = number;") ≠ .error .fuel :=
  (C31_parse_terminates (str "type X = number;")).1

/-- C32: `Kind.String` is injective over all values of `Kind`. The 23 defined
kinds, `Illegal` to `Question`, have the names of the table, which are pairwise
distinct and not empty; every other value `k`, negative or at least 23, has the
name `token(k)` with `k` in decimal, which is the name of no defined kind. -/
theorem C32_kind_string_injective :
    Function.Injective token.Kind.String ∧
    [token.Illegal, token.EOF, token.Comment, token.LineComment, token.Ident, token.Number,
      token.String, token.Or, token.Assign, token.Minus, token.LParen, token.RParen,
      token.LBrack, token.RBrack, token.LBrace, token.RBrace, token.LAngle, token.RAngle,
      token.Comma, token.Dot, token.Colon, token.Semicolon, token.Question].map
        token.Kind.String
      = [str "Illegal", str "EOF", str "Comment", str "LineComment", str "Ident",
          str "Number", str "String", str "|", str "=", str "-", str "(", str ")", str "[",
          str "]", str "\x7b", str "\x7d", str "<", str ">", str ",", str ".", str ":",
          str ";", str "?"] ∧
    ((List.range 23).map (fun i : Nat => token.Kind.String i)).Nodup ∧
    (∀ k : token.Kind, 0 ≤ k → k < 23 → token.Kind.String k ≠ []) ∧
    (∀ k : token.Kind, k < 0 ∨ 23 ≤ k →
      token.Kind.String k = str "token(" ++ token.itoa k ++ str ")" ∧
      ∀ j : token.Kind, 0 ≤ j → j < 23 → token.Kind.String k ≠ token.Kind.String j) := by
  refine ⟨kindString_injective, by decide, by decide, ?_, ?_⟩
  · intro k h0 h1
    exact kindString_ne_nil k h0 h1
  · intro k hk
    exact ⟨kindString_other k hk, fun j h0 h1 => kindString_table_ne_other j k h0 h1 hk⟩

/-- C32 at the values 23 and -1, which are not defined kinds. -/
theorem C32_kind_string_injective_witness :
    token.Kind.String 23 = str "token(23)" ∧ token.Kind.String (-1) = str "token(-1)" :=
  ⟨(C32_kind_string_injective.2.2.2.2 23 (by decide)).1,
    (C32_kind_string_injective.2.2.2.2 (-1) (by decide)).1⟩

/-- C33 (defect of `Peek`): `Peek` holds a token only when its kind is not
`Illegal`. In a state `x` reached from a new lexer by calls of `Peek` and `Pop`,
when `Peek` returns a token `t` other than `Illegal`, `Peek` returns `t` again
and `Pop` is what it is without the `Peek`, and returns `t`. An `Illegal` token
is not held, because the kind `Illegal` is `0`, the value that `Peek` and `Pop`
take for an empty buffer: on the source `'abc`, whose string has no closing
quote, the first `Peek` returns `Illegal` and moves the offset past the quote, the
second `Peek` returns the identifier `abc`, and so does the `Pop` that follows,
while two calls of `Pop` alone return `Illegal` and then `abc`. -/
theorem C33_peek_of_illegal_not_held (src : List Nat) (cs : List lexer.Call)
    (x x1 : lexer) (t : token.Token)
    (hrun : lexer.calls cs { Source := src } = .ok x) (h : x.Peek = .ok (t, x1))
    (ht : t.Kind ≠ token.Illegal) :
    (x1.Peek = .ok (t, x1) ∧ x1.Pop = x.Pop ∧ ∃ x2, x.Pop = .ok (t, x2)) ∧
    lexer.trace [.Peek, .Peek, .Pop] { Source := str "\x27abc" }
      = .ok [{ Kind := token.Illegal }, { Kind := token.Ident, Text := str "abc" },
          { Kind := token.Ident, Text := str "abc" }] ∧
    lexer.trace [.Pop, .Pop] { Source := str "\x27abc" }
      = .ok [{ Kind := token.Illegal }, { Kind := token.Ident, Text := str "abc" }] := by
  refine ⟨?_, by decide, by decide⟩
  obtain ⟨x', h1, _, _, _, h5⟩ := calls_total cs { Source := src } (Nat.zero_le _)
    (fun _ => rfl)
  rw [hrun] at h1
  cases h1
  exact peek_pop h5 h ht

/-- C33 at the source `abc def`, before any call. -/
theorem C33_peek_of_illegal_not_held_witness :
    (lexer.Peek
        { Source := str "abc def", offset := 3, willBeTrailingComment := true,
          nextToken := { Kind := token.Ident, Text := str "abc" } }
      = .ok ({ Kind := token.Ident, Text := str "abc" },
          { Source := str "abc def", offset := 3, willBeTrailingComment := true,
            nextToken := { Kind := token.Ident, Text := str "abc" } }) ∧
      lexer.Pop
          { Source := str "abc def", offset := 3, willBeTrailingComment := true,
            nextToken := { Kind := token.Ident, Text := str "abc" } }
        = lexer.Pop { Source := str "abc def" } ∧
      ∃ x2, lexer.Pop { Source := str "abc def" }
        = .ok ({ Kind := token.Ident, Text := str "abc" }, x2)) ∧
    lexer.trace [.Peek, .Peek, .Pop] { Source := str "\x27abc" }
      = .ok [{ Kind := token.Illegal }, { Kind := token.Ident, Text := str "abc" },
          { Kind := token.Ident, Text := str "abc" }] ∧
    lexer.trace [.Pop, .Pop] { Source := str "\x27abc" }
      = .ok [{ Kind := token.Illegal }, { Kind := token.Ident, Text := str "abc" }] :=
  C33_peek_of_illegal_not_held (str "abc def") [] { Source := str "abc def" }
    { Source := str "abc def", offset := 3, willBeTrailingComment := true,
      nextToken := { Kind := token.Ident, Text := str "abc" } }
    { Kind := token.Ident, Text := str "abc" } rfl (by decide) (by decide)

/-- C34 (defect of `nextBlockComment`): a newline inside a block comment does
not end the line for the comments that follow. In `a /*` newline `*/ // c` the comment
`c` stands on the line after the one of the token `a`, and the lexer returns it
with the kind `LineComment`: `willBeTrailingComment` is reset only for the
newlines that `next` itself reads, not for those that `nextBlockComment` passes
over. After a newline outside a comment, as in `a` newline `// c`, the kind is
`Comment`. -/
theorem C34_newline_in_block_comment_not_counted :
    tokens 4 { Source := str "a /*\n*/ // c" }
      = [{ Kind := token.Ident, Text := str "a" }, { Kind := token.LineComment },
          { Kind := token.LineComment, Text := str "c" }, { Kind := token.EOF }] ∧
    tokens 3 { Source := str "a\n// c" }
      = [{ Kind := token.Ident, Text := str "a" }, { Kind := token.Comment, Text := str "c" },
          { Kind := token.EOF }] ∧
    tokens 4 { Source := str "a /* b */ // c" }
      = [{ Kind := token.Ident, Text := str "a" },
          { Kind := token.LineComment, Text := str "b" },
          { Kind := token.LineComment, Text := str "c" }, { Kind := token.EOF }] := by
  decide

/-- C35 (defect of `next`): a run of letters, digits and underscores that starts
with a letter, after any white space, is returned as one `Ident` token whose text
is the whole run (`w` is the run, and `r`, what follows, does not continue it);
so `UTF8` is one identifier. A run that starts with an underscore is not: on `_id`
the lexer returns `Illegal` and does not move, because `next` calls `nextIdent`
only for a letter, although `nextIdent` itself takes the underscore for a byte of
an identifier. -/
theorem C35_underscore_not_an_identifier (ws w r : List Nat)
    (hws : ∀ b ∈ ws, b = 32 ∨ b = 9 ∨ b = 13 ∨ b = 10) (hw : isIdent w = true)
    (hr : endsIdent r = true) :
    (∀ x : lexer, x.nextToken = {} → x.rem = ws ++ (w ++ r) →
      ∃ x', x.Pop = .ok ({ Kind := token.Ident, Text := w }, x') ∧ x'.rem = r) ∧
    lexer.Pop { Source := str "UTF8" }
      = .ok ({ Kind := token.Ident, Text := str "UTF8" },
          { Source := str "UTF8", offset := 4, willBeTrailingComment := true }) ∧
    lexer.Pop { Source := str "_id" }
      = .ok ({ Kind := token.Illegal },
          { Source := str "_id", offset := 0, willBeTrailingComment := true }) := by
  refine ⟨?_, by decide, by decide⟩
  intro x hx hrem
  obtain ⟨x', h1, h2, _⟩ := (nextTok_blanks (nextTok_ident r hw hr) ws hws).2 x hx hrem
  exact ⟨x', h1, h2⟩

/-- C35 at ` a_b1 c`. -/
theorem C35_underscore_not_an_identifier_witness :
    (∀ x : lexer, x.nextToken = {} → x.rem = str " \n" ++ (str "a_b1" ++ str " c") →
      ∃ x', x.Pop = .ok ({ Kind := token.Ident, Text := str "a_b1" }, x') ∧
        x'.rem = str " c") ∧
    lexer.Pop { Source := str "UTF8" }
      = .ok ({ Kind := token.Ident, Text := str "UTF8" },
          { Source := str "UTF8", offset := 4, willBeTrailingComment := true }) ∧
    lexer.Pop { Source := str "_id" }
      = .ok ({ Kind := token.Illegal },
          { Source := str "_id", offset := 0, willBeTrailingComment := true }) :=
  C35_underscore_not_an_identifier (str " \n") (str "a_b1") (str " c")
    (by decide) (by decide) (by decide)

/-- C36 (defect of `nextBlockComment`): the comments `/**/` and `/***/` are
returned as `Illegal`. The loop that skips the stars after `/*` runs up to the
last byte but one, so that it takes the star of the closing `*/` for one of them,
and `*/` is then looked for from the `/` on. `Parse` of `/**/ type X = number;`
fails; with a space between the delimiters, `/* */ type X = number;` has the one
statement. -/
theorem C36_empty_block_comment_illegal :
    lexer.Pop { Source := str "/**/" }
      = .ok ({ Kind := token.Illegal }, { Source := str "/**/", offset := 3 }) ∧
    lexer.Pop { Source := str "/***/" }
      = .ok ({ Kind := token.Illegal }, { Source := str "/***/", offset := 4 }) ∧
    Parse (str "/**/ type X = number;")
      = .error (.expectedKind token.Ident { Kind := token.Illegal }) ∧
    Parse (str "/* */ type X = number;")
      = .ok (.SourceFile [.TypeAliasDeclaration (.Identifier (str "X"))
          (typeRef (str "number")) []]) := by
  decide!

/-- C37 (defect of `parseTypeAliasDeclaration`): `Parse` accepts `type X = number;`
and returns its one statement, but in the body of a namespace the same source
makes `Parse` fail at the semicolon. `parseTypeAliasDeclaration` leaves the
semicolon to its caller: `parseSourceFile` passes over it with the `advance` at the
top of its loop, and the loop of `parseModuleDeclaration` expects a statement
there. A variable statement, which reads its semicolon itself, is parsed in
a namespace as at top level. -/
theorem C37_type_alias_in_namespace_fails :
    Parse (str "type X = number;")
      = .ok (.SourceFile [.TypeAliasDeclaration (.Identifier (str "X"))
          (typeRef (str "number")) []]) ∧
    Parse (str "namespace N \x7b\ntype X = number;\n\x7d")
      = .error (.expectedKind token.Ident { Kind := token.Semicolon }) ∧
    Parse (str "namespace N \x7b type X = number; \x7d")
      = .error (.expectedKind token.Ident { Kind := token.Semicolon }) ∧
    Parse (str "const x = 1;")
      = .ok (.SourceFile [.VariableStatement (.VariableDeclarationList
          [.VariableDeclaration (.Identifier (str "x")) .nil (.NumericLiteral (str "1"))])
          []]) ∧
    Parse (str "namespace N \x7b\nconst x = 1;\n\x7d")
      = .ok (.SourceFile [.ModuleDeclaration (.Identifier (str "N"))
          (.ModuleBlock [.VariableStatement (.VariableDeclarationList
            [.VariableDeclaration (.Identifier (str "x")) .nil (.NumericLiteral (str "1"))])
            []]) []]) := by
  decide!

/-- C38: an array literal does not need commas between its elements. For all
well-formed initializer expressions `e1` and `e2` (numbers, strings, names,
negations, arrays; written as `Initializer.src` writes them), `Parse` of
`const x = [e1 e2];` and `Parse` of `const x = [e1, e2];` return the same tree,
the array literal of the nodes of `e1` and `e2`, and `Parse` of
`const x = [e1,, e2];` fails at the second comma. -/
theorem C38_array_commas_optional (e1 e2 : Initializer) (h1 : e1.wf = true)
    (h2 : e2.wf = true) :
    Parse (str "const x = [" ++ e1.src ++ str " " ++ e2.src ++ str "];")
      = .ok (.SourceFile [.VariableStatement (.VariableDeclarationList
          [.VariableDeclaration (.Identifier (str "x")) .nil
            (.ArrayLiteralExpression [e1.node, e2.node])]) []]) ∧
    Parse (str "const x = [" ++ e1.src ++ str ", " ++ e2.src ++ str "];")
      = .ok (.SourceFile [.VariableStatement (.VariableDeclarationList
          [.VariableDeclaration (.Identifier (str "x")) .nil
            (.ArrayLiteralExpression [e1.node, e2.node])]) []]) ∧
    Parse (str "const x = [" ++ e1.src ++ str ",, " ++ e2.src ++ str "];")
      = .error (.unexpectedToken { Kind := token.Comma }) := by
  have e0 : str "const x = [" = str "const x = " ++ [91] := by decide
  have e1' : str " " = [32] := by decide
  have e2' : str ", " = [44, 32] := by decide
  have e3' : str ",, " = [44, 44, 32] := by decide
  have e4' : str "];" = [93, 59] := by decide
  have a := array_space_run e1 e2 h1 h2
  have b := array_comma_run e1 e2 h1 h2
  have c := array_commas_run e1 e2 h1
  rw [e0, e1', e2', e3', e4']
  simp only [List.append_assoc, List.cons_append, List.nil_append, List.singleton_append]
    at a b c ⊢
  exact ⟨a, b, c⟩

/-- C38 at `const x = [-1 [a, 's']];`, `const x = [-1, [a, 's']];` and
`const x = [-1,, [a, 's']];`. -/
theorem C38_array_commas_optional_witness :
    Parse (str "const x = ["
        ++ (Initializer.minus (.number (str "1"))).src ++ str " "
        ++ (Initializer.array [.name (str "a"), .string (str "s")]).src ++ str "];")
      = .ok (.SourceFile [.VariableStatement (.VariableDeclarationList
          [.VariableDeclaration (.Identifier (str "x")) .nil
            (.ArrayLiteralExpression [(Initializer.minus (.number (str "1"))).node,
              (Initializer.array [.name (str "a"), .string (str "s")]).node])]) []]) ∧
    Parse (str "const x = ["
        ++ (Initializer.minus (.number (str "1"))).src ++ str ", "
        ++ (Initializer.array [.name (str "a"), .string (str "s")]).src ++ str "];")
      = .ok (.SourceFile [.VariableStatement (.VariableDeclarationList
          [.VariableDeclaration (.Identifier (str "x")) .nil
            (.ArrayLiteralExpression [(Initializer.minus (.number (str "1"))).node,
              (Initializer.array [.name (str "a"), .string (str "s")]).node])]) []]) ∧
    Parse (str "const x = ["
        ++ (Initializer.minus (.number (str "1"))).src ++ str ",, "
        ++ (Initializer.array [.name (str "a"), .string (str "s")]).src ++ str "];")
      = .error (.unexpectedToken { Kind := token.Comma }) :=
  C38_array_commas_optional (.minus (.number (str "1")))
    (.array [.name (str "a"), .string (str "s")]) (by decide) (by decide)

/-- C39: for every source and every sequence of calls of `Peek` and `Pop` on a new
lexer, every call returns a token, so that no index or slice of the source is out
of bounds (`idx` and `slice` fail with `indexOutOfRange` when they are); the
offset is at most the length of the source after the calls, and a
further call, of `Peek` or of `Pop`, does not lower it and leaves it at most the
length of the source. -/
theorem C39_lexer_in_bounds (src : List Nat) (cs : List lexer.Call) :
    ∃ x, lexer.calls cs { Source := src } = .ok x ∧ x.Source = src ∧
      x.offset ≤ src.length ∧
      ∀ c, ∃ t x', lexer.call c x = .ok (t, x') ∧ x'.Source = src ∧
        x.offset ≤ x'.offset ∧ x'.offset ≤ src.length := by
  obtain ⟨x, h1, h2, _, h4, h5⟩ := calls_total cs { Source := src } (Nat.zero_le _)
    (fun _ => rfl)
  simp only [] at h2 h4
  refine ⟨x, h1, h2, h4, ?_⟩
  intro c
  obtain ⟨t, x', g1, g2, g3, g4, _⟩ := call_total c x (by rw [h2]; exact h4) h5
  exact ⟨t, x', g1, by rw [g2, h2], g3, by rw [h2] at g4; exact g4⟩

end parser
